import Mathlib

/-!
# Cebinae experiment drivers: byte accounting, periodic sampler, fairness engine

A verification development for the telemetry code of the ns-3 scratch programs
`convergence-cebinae.cc` and `multi-hop-cebinae.cc`.

Conventions of the embedding.

* `uint64_t` and `uint32_t` values are natural numbers; every C++ operation that
  can wrap is followed by an explicit reduction modulo `2 ^ 64` resp. `2 ^ 32`.
* A `std::vector<uint64_t>` is a `List Nat`.  The unchecked element access
  `v[i]` is `v.getD i 0` for a read and `v.set i x` for a write; both agree with
  the C++ program whenever `i < v.size()`, which the theorems assume through a
  hypothesis on the length of the list.
* A `double` is a value of `F64` below: IEEE-754 binary64 with round to nearest,
  ties to even, restricted to the non-negative values that the conversion of a
  `uint64_t` and the quotient of two such conversions can produce.
* Virtual time (`Simulator::Now ()`) is a natural number of nanoseconds.
-/

namespace Cebinae

/-! ## Machine integers -/

/-- Reduction of an integer result to `uint64_t`. -/
def wrap64 (x : Nat) : Nat := x % 2 ^ 64

/-- Reduction of an integer result to `uint32_t`. -/
def wrap32 (x : Nat) : Nat := x % 2 ^ 32

/-! ## Double precision values -/

/-- Non-negative IEEE-754 binary64 values.  `fin m e` is the number `m * 2 ^ e`;
the values built by the operations below have `m = 0` (zero) or
`2 ^ 52 ≤ m < 2 ^ 53` (a normal number with a 53 bit significand). -/
inductive F64 where
  | fin (m : Nat) (e : Int)
  | inf
  | nan
  deriving DecidableEq, Repr

/-- Quotient `x / y` rounded to the nearest integer, ties to the even one. -/
def rne (x y : Nat) : Nat :=
  let d := x / y
  let r := x % y
  if 2 * r < y then d
  else if y < 2 * r then d + 1
  else if d % 2 = 0 then d else d + 1

/-- Binary logarithm (rounded down) of a number below `2 ^ fuel`. -/
def log2Fuel : Nat → Nat → Nat
  | 0, _ => 0
  | f + 1, n => if n < 2 then 0 else log2Fuel f (n / 2) + 1

namespace F64

/-- Zero as a double. -/
def zero : F64 := .fin 0 0

/-- The double `1.0`. -/
def one : F64 := .fin (2 ^ 52) (-52)

/-- Renormalisation after rounding: a significand rounded up to `2 ^ 53` is
`2 ^ 52` with the next exponent. -/
def norm (m : Nat) (e : Int) : F64 :=
  if m = 2 ^ 53 then .fin (2 ^ 52) (e + 1) else .fin m e

/-- Conversion `uint64_t → double` (`double(x)`, `static_cast<double>(x)` and the
implicit conversion of an integer operand of a double division). -/
def ofU64 (n : Nat) : F64 :=
  if n = 0 then zero
  else
    let l := log2Fuel 64 n
    if l ≤ 52 then .fin (n * 2 ^ (52 - l)) ((l : Int) - 52)
    else norm (rne n (2 ^ (l - 52))) ((l : Int) - 52)

/-- Division of doubles, `a / b`, for non-negative operands. -/
def div : F64 → F64 → F64
  | .nan, _ => .nan
  | _, .nan => .nan
  | .inf, .inf => .nan
  | .inf, .fin _ _ => .inf
  | .fin _ _, .inf => zero
  | .fin ma ea, .fin mb eb =>
    if mb = 0 then (if ma = 0 then .nan else .inf)
    else if ma = 0 then zero
    else if mb ≤ ma then norm (rne (ma * 2 ^ 52) mb) (ea - eb - 52)
    else norm (rne (ma * 2 ^ 53) mb) (ea - eb - 53)

/-- Multiplication of doubles, `a * b`, for non-negative operands. -/
def mul : F64 → F64 → F64
  | .nan, _ => .nan
  | _, .nan => .nan
  | .inf, .inf => .inf
  | .inf, .fin mb _ => if mb = 0 then .nan else .inf
  | .fin ma _, .inf => if ma = 0 then .nan else .inf
  | .fin ma ea, .fin mb eb =>
    if ma = 0 ∨ mb = 0 then zero
    else if ma * mb < 2 ^ 105 then norm (rne (ma * mb) (2 ^ 52)) (ea + eb + 52)
    else norm (rne (ma * mb) (2 ^ 53)) (ea + eb + 53)

/-- The double nearest to `n * 2 ^ e`, ties to the even significand. -/
def ofScaled (n : Nat) (e : Int) : F64 :=
  if n = 0 then zero
  else
    let l := log2Fuel n n
    if l ≤ 52 then .fin (n * 2 ^ (52 - l)) (e + (l : Int) - 52)
    else norm (rne n (2 ^ (l - 52))) (e + (l : Int) - 52)

/-- Addition of doubles, `a + b`, for non-negative operands: the exact sum
rounded once. -/
def add : F64 → F64 → F64
  | .nan, _ => .nan
  | _, .nan => .nan
  | .inf, _ => .inf
  | _, .inf => .inf
  | .fin ma ea, .fin mb eb =>
    ofScaled (ma * 2 ^ (ea - min ea eb).toNat + mb * 2 ^ (eb - min ea eb).toNat) (min ea eb)

/-- Comparison of doubles, `a >= b`: false as soon as one side is NaN. -/
def ge : F64 → F64 → Bool
  | .nan, _ => false
  | _, .nan => false
  | .inf, _ => true
  | .fin _ _, .inf => false
  | .fin ma ea, .fin mb eb =>
    decide (mb * 2 ^ (eb - min ea eb).toNat ≤ ma * 2 ^ (ea - min ea eb).toNat)

/-- The rational number a finite double stands for. -/
def toRat : F64 → Option ℚ
  | .fin m e => some ((m : ℚ) * (2 : ℚ) ^ e)
  | .inf => none
  | .nan => none

end F64

/-- The value of `ofU64 n` as a natural number. -/
def ofU64Nat (n : Nat) : Nat :=
  if log2Fuel 64 n ≤ 52 then n else rne n (2 ^ (log2Fuel 64 n - 52)) * 2 ^ (log2Fuel 64 n - 52)

/-- A significand of exactly 53 bits. -/
def Normal (m : Nat) : Prop := 2 ^ 52 ≤ m ∧ m < 2 ^ 53

/-- The value of a finite double (and `0` for the other two). -/
def F64.val : F64 → ℚ
  | .fin m e => (m : ℚ) * (2 : ℚ) ^ e
  | .inf => 0
  | .nan => 0

/-- The double is finite with a 53 bit significand. -/
def F64.IsNormal : F64 → Prop
  | .fin m _ => Normal m
  | .inf => False
  | .nan => False

/-- The literal `0.95`: the double nearest to 95/100, `0x1.e666666666666p-1`. -/
def thr95 : F64 := .fin 0x1E666666666666 (-53)

/-- The literal `0.99`: the double nearest to 99/100, `0x1.fae147ae147aep-1`. -/
def thr99 : F64 := .fin 0x1FAE147AE147AE (-53)

/-- The literal `0.999`: the double nearest to 999/1000, `0x1.ff7ced916872bp-1`. -/
def thr999 : F64 := .fin 0x1FF7CED916872B (-53)

/-! ## What a program run does -/

/-- The macro `EXIT_FAILURE` of `<cstdlib>`: `1` on the platforms ns-3 builds
on. -/
def EXIT_FAILURE : Int := 1

/-- An action of `main` that is visible from outside, in program order: the
lines on the console, the call of `system`, the bindings of the counting
callbacks, the files opened and the calls of `Simulator`.  The construction of
the topology and of the applications in between is not recorded. -/
inductive Effect where
  /-- The statement `std::cout << label << value << std::endl`. -/
  | cout (label value : String)
  /-- The statement `std::cerr << label << value << std::endl`. -/
  | cerr (label value : String)
  /-- The call `system (("mkdir -p " + path).c_str ())`. -/
  | mkdir (path : String)
  /-- The call `TraceConnectWithoutContext (.., MakeBoundCallback (&handler, index))`. -/
  | bind (handler : String) (index : Nat)
  /-- An input file opened (`std::ifstream::open`). -/
  | openInput (path : String)
  /-- A report file opened (`std::ofstream::open`). -/
  | openReport (path : String)
  /-- The call `Simulator::Schedule (delay, &event, ...)`; `delay` in nanoseconds. -/
  | schedule (delay : Nat) (event : String)
  /-- The call `Simulator::Stop (delay)`; `delay` in nanoseconds. -/
  | stop (delay : Nat)
  /-- The call `Simulator::Run ()`, the only place where simulated time advances. -/
  | run
  /-- The call `Simulator::Destroy ()`. -/
  | destroy
  deriving DecidableEq, Repr

/-- Recognises a line on the console. -/
def Effect.isConsole : Effect → Bool
  | Effect.cout _ _ => true
  | Effect.cerr _ _ => true
  | _ => false

/-- The `return` statement of `main` that ends the program. -/
inductive ExitPoint where
  /-- The `return EXIT_FAILURE` of the queue discipline check. -/
  | queueDiscCheck
  /-- The `return EXIT_FAILURE` after `mkdir -p` has failed. -/
  | mkdirCheck
  /-- The `return 0` at the end of `main`. -/
  | done
  deriving DecidableEq, Repr

/-- What a run of `main` amounts to: the exit status, the `return` statement that
produced it and the actions up to there. -/
structure Result where
  status : Int
  exit : ExitPoint
  effects : List Effect
  deriving DecidableEq, Repr

/-- The condition `queueDiscTypeId != "RedQueueDisc" && queueDiscTypeId !=
"CebinaeQueueDisc"` of the three `main` functions (`std::string` comparison,
character by character). -/
def unsupportedQueueDisc (queueDiscTypeId : String) : Bool :=
  queueDiscTypeId != "RedQueueDisc" && queueDiscTypeId != "CebinaeQueueDisc"

/-- The three lines every `main` writes after parsing the command line. -/
def banner (config_path outputFilePath queueDiscTypeId : String) : List Effect :=
  [Effect.cout "config_path: " config_path,
    Effect.cout "outputFilePath: " outputFilePath,
    Effect.cout "queueDiscTypeId: " queueDiscTypeId]

/-- What a call of a packet callback does.  Each callback is the single
statement `v[index] += p->GetSize ()` on a `std::vector`, whose `operator[]`
checks nothing. -/
inductive Outcome (σ : Type) where
  /-- The callback returns and leaves the state `s`. -/
  | returned (s : σ)
  /-- The callback reports a fatal error. -/
  | fatal
  /-- The access `v[index]` is outside the storage of the vector: C++ leaves
  the behaviour undefined. -/
  | undefined
  deriving DecidableEq, Repr

/-- A `std::vector`: its elements (`size ()` of them) and its capacity. -/
structure Vec where
  elems : List Nat
  capacity : Nat
  deriving DecidableEq, Repr

/-- A vector as it is constructed: no element, no storage. -/
def Vec.empty : Vec := ⟨[], 0⟩

/-- The member `size ()`. -/
def Vec.size (v : Vec) : Nat := v.elems.length

/-- The member `reserve (n)`: storage for at least `n` elements; the elements
and their number stay as they are. -/
def Vec.reserve (n : Nat) (v : Vec) : Vec := { v with capacity := max v.capacity n }

/-- The member `resize (n, x)`: exactly `n` elements, new ones equal to `x`. -/
def Vec.resize (n x : Nat) (v : Vec) : Vec :=
  ⟨v.elems.take n ++ List.replicate (n - v.elems.length) x, max v.capacity n⟩

/-- Whether `v[i]` designates an element of the vector. -/
def Vec.inRange (i : Nat) (v : Vec) : Bool := decide (i < v.size)

/-! ## Jain's index, as the specification writes it -/

/-- The sum of the squares of a list of counters. -/
def sumSq (l : List Nat) : Nat := (l.map (fun b => b * b)).sum

/-- Jain's fairness index `(Σ bᵢ)² / (n · Σ bᵢ²)` of a list of byte counts, as a
rational number. -/
def jain (n : Nat) (b : List Nat) : ℚ :=
  (((b.sum : Nat) : ℚ) ^ 2) / ((n : ℚ) * ((sumSq b : Nat) : ℚ))

/-! ## convergence-cebinae.cc -/

namespace Convergence

/-- The three `if` statements of `PrintThroughput` that announce a threshold. -/
inductive Thr where
  | t95
  | t99
  | t999
  deriving DecidableEq, Repr

/-- Everything one invocation of `PrintThroughput` emits, in program order.
A row records the operands of the expression that is printed. -/
inductive Out where
  /-- A row of `rxS1R1Throughput` for flow `i`: `bits` is `rxS1R1Bytes[i] * 8`,
  printed after division by `measurementInterval_d` and `1e6`. -/
  | thpt (now i bits : Nat)
  /-- The aggregate row of `rxS1R1Throughput`: index `N`, `bits` is `sum * 8`,
  printed after division by `measurementInterval_d`, `1e6` and `cnt`. -/
  | aggr (now N bits cnt : Nat)
  /-- The row of `bottlenetUtilization`: `bits` is `sum * 8`. -/
  | util (now bits : Nat)
  /-- A row of `Jain_f`. -/
  | jain (now : Nat) (fairness : F64)
  /-- A line on `std::cout` written by the `if` statement of threshold `t`. -/
  | note (t : Thr) (now : Nat) (fairness : F64)
  /-- The call `Simulator::Schedule (measurementInterval, &PrintThroughput)`. -/
  | sched (delay : Nat)
  deriving DecidableEq, Repr

/-- The constant `measurementInterval = MilliSeconds (1)`, in nanoseconds. -/
def measurementInterval : Nat := 1000000

/-- The function-local statics `flag95`, `flag99`, `flag999`. -/
structure Flags where
  flag95 : Bool
  flag99 : Bool
  flag999 : Bool
  deriving DecidableEq, Repr

/-- The state convergence `PrintThroughput` and `TraceSink` work on. -/
structure State where
  rxS1R1Bytes : List Nat
  flags : Flags
  deriving DecidableEq, Repr

/-- The locals of the counting loop of `PrintThroughput`, together with the
counter vector and the rows written so far.  `seen` is a ghost log: the value
the test `if (rxS1R1Bytes[i])` read at each iteration. -/
structure Acc where
  cnt : Nat
  sum : Nat
  sumSquare : Nat
  bytes : List Nat
  out : List Out
  seen : List Nat
  deriving DecidableEq, Repr

/-- One iteration of `for (i = 0; i < N; i++) if (rxS1R1Bytes[i]) { ... }`. -/
def loopStep (now : Nat) (a : Acc) (i : Nat) : Acc :=
  let b := a.bytes.getD i 0
  if b ≠ 0 then
    { cnt := wrap32 (a.cnt + 1)
      sum := wrap64 (a.sum + b)
      sumSquare := wrap64 (a.sumSquare + wrap64 (b * b))
      bytes := a.bytes.set i 0
      out := a.out ++ [Out.thpt now i (wrap64 (b * 8))]
      seen := a.seen ++ [b] }
  else { a with seen := a.seen ++ [b] }

/-- The counting loop of `PrintThroughput`. -/
def loop (N now : Nat) (bytes : List Nat) : Acc :=
  (List.range N).foldl (loopStep now) ⟨0, 0, 0, bytes, [], []⟩

/-- The expression `double(sum * sum) / (cnt * sumSquare)`. -/
def fairnessOf (cnt sum sumSquare : Nat) : F64 :=
  F64.div (F64.ofU64 (wrap64 (sum * sum))) (F64.ofU64 (wrap64 (cnt * sumSquare)))

/-- The statement `if (fairness >= t && !flag) { flag = true; std::cout << ... }`. -/
def check (t : Thr) (thr : F64) (now : Nat) (fairness : F64) (flag : Bool) :
    Bool × List Out :=
  if F64.ge fairness thr && !flag then (true, [Out.note t now fairness]) else (flag, [])

/-- The body of `if (cnt == N) { ... }`: the Jain row and the three threshold
statements. -/
def fairnessBlock (now : Nat) (fairness : F64) (f : Flags) : Flags × List Out :=
  let r95 := check Thr.t95 thr95 now fairness f.flag95
  let r99 := check Thr.t99 thr99 now fairness f.flag99
  let r999 := check Thr.t999 thr999 now fairness f.flag999
  (⟨r95.1, r99.1, r999.1⟩, [Out.jain now fairness] ++ r95.2 ++ r99.2 ++ r999.2)

/-- One invocation of `PrintThroughput ()` at virtual time `now`, `N` being the
global flow count. -/
def PrintThroughput (N now : Nat) (s : State) : State × List Out :=
  let a := loop N now s.rxS1R1Bytes
  let rows := a.out ++ [Out.aggr now N (wrap64 (a.sum * 8)) a.cnt,
    Out.util now (wrap64 (a.sum * 8))]
  if a.cnt = N then
    let r := fairnessBlock now (fairnessOf a.cnt a.sum a.sumSquare) s.flags
    (⟨a.bytes, r.1⟩, rows ++ r.2 ++ [Out.sched measurementInterval])
  else
    (⟨a.bytes, s.flags⟩, rows ++ [Out.sched measurementInterval])

/-- The callback `TraceSink (index, p, a)`: `size` is `p->GetSize ()`. -/
def TraceSink (index size : Nat) (s : State) : State :=
  { s with rxS1R1Bytes := s.rxS1R1Bytes.set index (wrap64 (s.rxS1R1Bytes.getD index 0 + size)) }

/-- The state `main` sets up: `rxS1R1Bytes.resize (N, 0)` and the initial value
of the static flags. -/
def init (N : Nat) : State := ⟨List.replicate N 0, ⟨false, false, false⟩⟩

/-- The throughput rows the counting loop writes for the counters `l` of the
flows `k, k + 1, ...`: one row per non-zero counter. -/
def rowsFrom (now : Nat) : Nat → List Nat → List Out
  | _, [] => []
  | k, b :: l =>
    (if b ≠ 0 then [Out.thpt now k (wrap64 (b * 8))] else []) ++ rowsFrom now (k + 1) l

/-- The fairness sample of a tick: the value of the `Jain_f` row, if one was
written. -/
def sample (out : List Out) : Option F64 :=
  out.findSome? (fun o => match o with
    | Out.jain _ v => some v
    | _ => none)

/-- The double a threshold statement compares the sample with. -/
def thrOf : Thr → F64
  | Thr.t95 => thr95
  | Thr.t99 => thr99
  | Thr.t999 => thr999

/-- The static flag a threshold statement tests and sets. -/
def flagOf : Thr → Flags → Bool
  | Thr.t95, f => f.flag95
  | Thr.t99, f => f.flag99
  | Thr.t999, f => f.flag999

/-- Recognises a row of `Jain_f`. -/
def isJain : Out → Bool
  | Out.jain _ _ => true
  | _ => false

/-- Recognises a notification written by the statement of threshold `t`. -/
def isNote (t : Thr) : Out → Bool
  | Out.note u _ _ => decide (u = t)
  | _ => false

/-- Number of notifications of threshold `t` among the lines of a tick. -/
def noteCount (t : Thr) (out : List Out) : Nat := out.countP (isNote t)

/-- Whether a tick computed a fairness sample that is `>= ` the threshold `t`. -/
def crossed (t : Thr) (out : List Out) : Bool :=
  match sample out with
  | some v => F64.ge v (thrOf t)
  | none => false

/-- The ordering of the flags that every tick preserves. -/
def Ordered (f : Flags) : Prop :=
  (f.flag999 = true → f.flag99 = true) ∧ (f.flag99 = true → f.flag95 = true)

/-- A sequence of sampler ticks: the `i`-th invocation of `PrintThroughput` runs
at time `ticks[i].1` and finds the counters `ticks[i].2`; the flags persist from
one invocation to the next.  The result is the final flags and the lines of each
tick. -/
def runTicks (N : Nat) : Flags → List (Nat × List Nat) → Flags × List (List Out)
  | f, [] => (f, [])
  | f, t :: ts =>
    let r := PrintThroughput N t.1 ⟨t.2, f⟩
    let r2 := runTicks N r.1.flags ts
    (r2.1, r.2 :: r2.2)

/-- A step of a run: a packet event delivered to `TraceSink`, or a sampler tick. -/
inductive Step where
  | pkt (index size : Nat)
  | tick (now : Nat)
  deriving DecidableEq, Repr

/-- A run of the program from state `s`: the result lists, for each tick in
order, the counter values the counting loop read at that tick. -/
def exec (N : Nat) : State → List Step → List (List Nat)
  | _, [] => []
  | s, Step.pkt i sz :: rest => exec N (TraceSink i sz s) rest
  | s, Step.tick now :: rest =>
    (loop N now s.rxS1R1Bytes).seen :: exec N (PrintThroughput N now s).1 rest

/-- Specification side of window attribution: the bytes of the events of flow
`i` among the events `w` of one window. -/
def windowBytes (i : Nat) : List Step → Nat
  | [] => 0
  | Step.pkt j sz :: w => (if j = i then sz else 0) + windowBytes i w
  | Step.tick _ :: w => windowBytes i w

/-- Specification side of window attribution: the packet events between
consecutive ticks, one list per tick; `cur` holds the events since the last
tick. -/
def windowsFrom : List Step → List Step → List (List Step)
  | _, [] => []
  | cur, Step.tick _ :: rest => cur :: windowsFrom [] rest
  | cur, Step.pkt i sz :: rest => windowsFrom (cur ++ [Step.pkt i sz]) rest

/-- Specification side of window attribution: what the sampler is to read at
each tick of a run, the per-flow byte totals of that tick's window. -/
def windowTotals (N : Nat) (cur steps : List Step) : List (List Nat) :=
  (windowsFrom cur steps).map (fun w => (List.range N).map (fun i => wrap64 (windowBytes i w)))

/-- The constant `measurementInterval_d = 0.001`: the double nearest to 1/1000,
`0x1.0624dd2f1a9fcp-10`. -/
def measurementInterval_d : F64 := .fin 0x10624DD2F1A9FC (-62)

/-- The literal `1e6`, `0x1.e848p+19`. -/
def lit1e6 : F64 := .fin 0x1E848000000000 (-33)

/-- The constant `bottleneckDataRate_n = 25e9` (`uint64_t`). -/
def bottleneckDataRate_n : Nat := 25000000000

/-- The literal `100` as a double operand, `0x1.9p+6`. -/
def lit100 : F64 := .fin 0x19000000000000 (-46)

/-- The value printed in a per-flow row, `(rxS1R1Bytes[i] * 8) /
measurementInterval_d / 1e6`; `bits` is the `uint64_t` product. -/
def throughputValue (bits : Nat) : F64 :=
  F64.div (F64.div (F64.ofU64 bits) measurementInterval_d) lit1e6

/-- The value printed in the aggregate row, `(sum * 8) / measurementInterval_d /
1e6 / cnt`; `bits` is the `uint64_t` product `sum * 8`. -/
def aggregateValue (bits cnt : Nat) : F64 :=
  F64.div (F64.div (F64.div (F64.ofU64 bits) measurementInterval_d) lit1e6) (F64.ofU64 cnt)

/-- The value printed in the utilization row, `sum * 8 / measurementInterval_d /
bottleneckDataRate_n * 100`; `bits` is the `uint64_t` product `sum * 8`. -/
def utilizationValue (bits : Nat) : F64 :=
  F64.mul (F64.div (F64.div (F64.ofU64 bits) measurementInterval_d)
    (F64.ofU64 bottleneckDataRate_n)) lit100

/-- The number a row prints after the time (and the flow index). -/
def Out.value : Out → Option F64
  | Out.thpt _ _ bits => some (throughputValue bits)
  | Out.aggr _ _ bits cnt => some (aggregateValue bits cnt)
  | Out.util _ bits => some (utilizationValue bits)
  | Out.jain _ v => some v
  | Out.note _ _ v => some v
  | Out.sched _ => none

/-- Recognises the aggregate row. -/
def isAggr : Out → Bool
  | Out.aggr _ _ _ _ => true
  | _ => false

/-- Recognises the utilization row. -/
def isUtil : Out → Bool
  | Out.util _ _ => true
  | _ => false

/-- The call `TraceSink (index, p, a)` together with the case the source does
not provide for: `rxS1R1Bytes[index]` outside the vector. -/
def TraceSinkOutcome (index size : Nat) (s : State) : Outcome State :=
  if index < s.rxS1R1Bytes.length then Outcome.returned (TraceSink index size s)
  else Outcome.undefined

/-- The global `startTime = Seconds (0)`, in nanoseconds. -/
def startTime : Nat := 0

/-- The global `stopTime = Seconds (0.15)`, in nanoseconds. -/
def stopTime : Nat := 150000000

/-- The function `main`: `config_path`, `outputFilePath` and `queueDiscTypeId`
are the values after `cmd.Parse`, `N` is the global flow count and
`mkdirStatus` what `system` returns. -/
def main (config_path outputFilePath queueDiscTypeId : String) (N : Nat) (mkdirStatus : Int) :
    Result :=
  let e0 := banner config_path outputFilePath queueDiscTypeId
  if unsupportedQueueDisc queueDiscTypeId then
    ⟨EXIT_FAILURE, ExitPoint.queueDiscCheck,
      e0 ++ [Effect.cerr "unsupported queueDisc: " queueDiscTypeId]⟩
  else
    let e1 := e0 ++ [Effect.schedule startTime "PrintProgress"]
      ++ (List.range N).map (fun i => Effect.bind "TraceSink" i)
      ++ [Effect.mkdir outputFilePath]
    if mkdirStatus ≠ 0 then
      ⟨EXIT_FAILURE, ExitPoint.mkdirCheck,
        e1 ++ [Effect.cerr "Error creating output directory" ""]⟩
    else
      ⟨0, ExitPoint.done,
        e1 ++ [Effect.openReport (outputFilePath ++ "S1R1-throughput.dat"),
          Effect.openReport (outputFilePath ++ "bottlenet-utilization.dat"),
          Effect.openReport (outputFilePath ++ "Jain.dat"),
          Effect.schedule measurementInterval "PrintThroughput",
          Effect.openReport (outputFilePath ++ "qlen.dat"),
          Effect.schedule measurementInterval "PrintQlen",
          Effect.stop (stopTime + 1),
          Effect.run,
          Effect.destroy]⟩

/-- Recognises the throughput row of flow `i`. -/
def isThptOf (i : Nat) : Out → Bool
  | Out.thpt _ j _ => decide (j = i)
  | _ => false

/-- The delays of the calls `Simulator::Schedule (delay, &PrintThroughput)` among
the lines of a tick. -/
def scheduled (out : List Out) : List Nat :=
  out.filterMap (fun o => match o with
    | Out.sched d => some d
    | _ => none)

/-- Modelled from the spec: the event queue of `Simulator` belongs to the ns-3
core, which is not among the sources.  As the spec has it ("re-schedules itself
for `now + measurementInterval`"), `Simulator::Schedule (delay, &f)` called at
virtual time `now` makes `f` pending for the time `now + delay`, and a pending
event runs with `Simulator::Now ()` equal to its time.  `pending` holds the
times of the pending `PrintThroughput` events, the next one first; the `i`-th
tick finds the counters `counters[i]`.  The result lists, for each tick, its
time and the sampler events pending after it. -/
def sampler (N : Nat) : List Nat → Flags → List (List Nat) → List (Nat × List Nat)
  | _, _, [] => []
  | [], _, _ :: _ => []
  | t :: pending, f, c :: cs =>
    let r := PrintThroughput N t ⟨c, f⟩
    (t, pending ++ (scheduled r.2).map (fun d => t + d))
      :: sampler N (pending ++ (scheduled r.2).map (fun d => t + d)) r.1.flags cs

/-- The vector `rxS1R1Bytes` after the setup in `main`:
`rxS1R1Bytes.resize (N, 0)` on the empty global. -/
def setup (N : Nat) : Vec := Vec.resize N 0 Vec.empty

end Convergence

/-! ## multi-hop-cebinae.cc -/

namespace MultiHop

/-- The six global counter vectors. -/
structure State where
  rxS1R1Bytes : List Nat
  rxS2R2Bytes : List Nat
  rxS3R1Bytes : List Nat
  txS1R1Bytes : List Nat
  txS2R2Bytes : List Nat
  txS3R1Bytes : List Nat
  deriving DecidableEq, Repr

/-- The statement `v[index] += p->GetSize ()` shared by the six trace callbacks. -/
def bump (v : List Nat) (index size : Nat) : List Nat :=
  v.set index (wrap64 (v.getD index 0 + size))

/-- The callback `TraceS1R1Sink (index, p, a)`. -/
def TraceS1R1Sink (index size : Nat) (s : State) : State :=
  { s with rxS1R1Bytes := bump s.rxS1R1Bytes index size }

/-- The callback `TraceS2R2Sink (index, p, a)`. -/
def TraceS2R2Sink (index size : Nat) (s : State) : State :=
  { s with rxS2R2Bytes := bump s.rxS2R2Bytes index size }

/-- The callback `TraceS3R1Sink (index, p, a)`. -/
def TraceS3R1Sink (index size : Nat) (s : State) : State :=
  { s with rxS3R1Bytes := bump s.rxS3R1Bytes index size }

/-- The callback `TraceS1R1Send (index, p)`. -/
def TraceS1R1Send (index size : Nat) (s : State) : State :=
  { s with txS1R1Bytes := bump s.txS1R1Bytes index size }

/-- The callback `TraceS2R2Send (index, p)`. -/
def TraceS2R2Send (index size : Nat) (s : State) : State :=
  { s with txS2R2Bytes := bump s.txS2R2Bytes index size }

/-- The callback `TraceS3R1Send (index, p)`. -/
def TraceS3R1Send (index size : Nat) (s : State) : State :=
  { s with txS3R1Bytes := bump s.txS3R1Bytes index size }

/-- The loop `for (i = 0; i < n; i++) v[i] = 0`. -/
def zeroLoop (n : Nat) (v : List Nat) : List Nat :=
  (List.range n).foldl (fun w i => w.set i 0) v

/-- The function `InitializeCounters ()`. -/
def InitializeCounters (s : State) : State :=
  { rxS1R1Bytes := zeroLoop 10 s.rxS1R1Bytes
    rxS2R2Bytes := zeroLoop 20 s.rxS2R2Bytes
    rxS3R1Bytes := zeroLoop 10 s.rxS3R1Bytes
    txS1R1Bytes := zeroLoop 10 s.txS1R1Bytes
    txS2R2Bytes := zeroLoop 20 s.txS2R2Bytes
    txS3R1Bytes := zeroLoop 10 s.txS3R1Bytes }

/-- The rows one of the six printing loops writes: the operands `v[i] * 8` of
the printed rate, for `i < n`. -/
def thptRows (n : Nat) (v : List Nat) : List Nat :=
  (List.range n).map (fun i => wrap64 (v.getD i 0 * 8))

/-- The accumulation loop `for (i = 0; i < n; i++) { sum += v[i]; sumSquares +=
v[i] * v[i]; ... }` of `PrintThroughput`, from `sum = 0` and `sumSquares = 0`:
the pair `(sum, sumSquares)`. -/
def sumLoop (n : Nat) (v : List Nat) : Nat × Nat :=
  (List.range n).foldl
    (fun p i => (wrap64 (p.1 + v.getD i 0), wrap64 (p.2 + wrap64 (v.getD i 0 * v.getD i 0))))
    (0, 0)

/-- The per-group index `static_cast<double>(sum * sum) / (n * sumSquares)`
with the literal group size `n`. -/
def groupFairness (n : Nat) (v : List Nat) : F64 :=
  let p := sumLoop n v
  F64.div (F64.ofU64 (wrap64 (p.1 * p.1))) (F64.ofU64 (wrap64 (n * p.2)))

/-- The loop `for (i = 0; i < n; i++) sum += v[i]` of the two aggregate lines. -/
def addLoop (n : Nat) (v : List Nat) (sum : Nat) : Nat :=
  (List.range n).foldl (fun a i => wrap64 (a + v.getD i 0)) sum

/-- What one invocation of `PrintThroughput` writes.  Integer operands are
recorded for the lines whose value is a double expression of them; the
"Global Fairness Index" line, computed in doubles throughout, is not part of
the record. -/
structure Report where
  /-- Rows of the six throughput files, operands `v[i] * 8`. -/
  rxS1R1Thpt : List Nat
  rxS2R2Thpt : List Nat
  rxS3R1Thpt : List Nat
  txS1R1Thpt : List Nat
  txS2R2Thpt : List Nat
  txS3R1Thpt : List Nat
  /-- Operand `(sum / 10) * 8` of the S1-R1 average and the S1-R1 index. -/
  avgS1R1 : Nat
  fairS1R1 : F64
  /-- Operand `(sum / 20) * 8` of the S2-R2 average and the S2-R2 index. -/
  avgS2R2 : Nat
  fairS2R2 : F64
  /-- Operand `(sum / 10) * 8` of the S3-R1 average and the S3-R1 index. -/
  avgS3R1 : Nat
  fairS3R1 : F64
  /-- Operands `sum * 8` of the two aggregate lines. -/
  aggrT1 : Nat
  aggrR1 : Nat
  /-- The delay of `Simulator::Schedule (measurementWindow, &PrintThroughput, ...)`. -/
  sched : Nat
  deriving DecidableEq, Repr

/-- One invocation of `PrintThroughput (measurementWindow)`. -/
def PrintThroughput (measurementWindow : Nat) (s : State) : State × Report :=
  let report : Report :=
    { rxS1R1Thpt := thptRows 10 s.rxS1R1Bytes
      rxS2R2Thpt := thptRows 20 s.rxS2R2Bytes
      rxS3R1Thpt := thptRows 10 s.rxS3R1Bytes
      txS1R1Thpt := thptRows 10 s.txS1R1Bytes
      txS2R2Thpt := thptRows 20 s.txS2R2Bytes
      txS3R1Thpt := thptRows 10 s.txS3R1Bytes
      avgS1R1 := wrap64 ((sumLoop 10 s.txS1R1Bytes).1 / 10 * 8)
      fairS1R1 := groupFairness 10 s.txS1R1Bytes
      avgS2R2 := wrap64 ((sumLoop 20 s.txS2R2Bytes).1 / 20 * 8)
      fairS2R2 := groupFairness 20 s.txS2R2Bytes
      avgS3R1 := wrap64 ((sumLoop 10 s.txS3R1Bytes).1 / 10 * 8)
      fairS3R1 := groupFairness 10 s.txS3R1Bytes
      aggrT1 := wrap64 (addLoop 20 s.txS2R2Bytes (addLoop 10 s.txS1R1Bytes 0) * 8)
      aggrR1 := wrap64 (addLoop 10 s.txS1R1Bytes (addLoop 10 s.txS3R1Bytes 0) * 8)
      sched := measurementWindow }
  (⟨zeroLoop 10 s.rxS1R1Bytes, zeroLoop 20 s.rxS2R2Bytes, zeroLoop 10 s.rxS3R1Bytes,
      zeroLoop 10 s.txS1R1Bytes, zeroLoop 20 s.txS2R2Bytes, zeroLoop 10 s.txS3R1Bytes⟩, report)

/-- The counters after `InitializeCounters ()`: ten, twenty and ten zeros. -/
def init : State :=
  ⟨List.replicate 10 0, List.replicate 20 0, List.replicate 10 0,
    List.replicate 10 0, List.replicate 20 0, List.replicate 10 0⟩

/-- The six counter vectors by name. -/
inductive Chan where
  | rxS1R1
  | rxS2R2
  | rxS3R1
  | txS1R1
  | txS2R2
  | txS3R1
  deriving DecidableEq, Repr

/-- The number of flows of the group a vector belongs to. -/
def Chan.size : Chan → Nat
  | Chan.rxS1R1 => 10
  | Chan.rxS2R2 => 20
  | Chan.rxS3R1 => 10
  | Chan.txS1R1 => 10
  | Chan.txS2R2 => 20
  | Chan.txS3R1 => 10

/-- The vector of a name. -/
def State.get (s : State) : Chan → List Nat
  | Chan.rxS1R1 => s.rxS1R1Bytes
  | Chan.rxS2R2 => s.rxS2R2Bytes
  | Chan.rxS3R1 => s.rxS3R1Bytes
  | Chan.txS1R1 => s.txS1R1Bytes
  | Chan.txS2R2 => s.txS2R2Bytes
  | Chan.txS3R1 => s.txS3R1Bytes

/-- The trace callback that is bound to a vector. -/
def trace : Chan → Nat → Nat → State → State
  | Chan.rxS1R1 => TraceS1R1Sink
  | Chan.rxS2R2 => TraceS2R2Sink
  | Chan.rxS3R1 => TraceS3R1Sink
  | Chan.txS1R1 => TraceS1R1Send
  | Chan.txS2R2 => TraceS2R2Send
  | Chan.txS3R1 => TraceS3R1Send

/-- A step of a run: a packet event delivered to one of the six callbacks, or a
sampler tick. -/
inductive Step where
  | pkt (c : Chan) (index size : Nat)
  | tick (measurementWindow : Nat)
  deriving DecidableEq, Repr

/-- A run of the program from state `s`: the result lists, for each tick in
order, the counters that invocation of `PrintThroughput` starts with.  Every
read of a counter in `PrintThroughput` comes before the reset loops at its
end, so these are the values the sampler reads at that tick. -/
def exec : State → List Step → List State
  | _, [] => []
  | s, Step.pkt c i sz :: rest => exec (trace c i sz s) rest
  | s, Step.tick w :: rest => s :: exec (PrintThroughput w s).1 rest

/-- Specification side of window attribution: the bytes of the events of flow
`i` of vector `c` among the events `w` of one window. -/
def windowBytes (c : Chan) (i : Nat) : List Step → Nat
  | [] => 0
  | Step.pkt d j sz :: w => (if d = c ∧ j = i then sz else 0) + windowBytes c i w
  | Step.tick _ :: w => windowBytes c i w

/-- Specification side of window attribution: the packet events between
consecutive ticks, one list per tick; `cur` holds the events since the last
tick. -/
def windowsFrom : List Step → List Step → List (List Step)
  | _, [] => []
  | cur, Step.tick _ :: rest => cur :: windowsFrom [] rest
  | cur, Step.pkt c i sz :: rest => windowsFrom (cur ++ [Step.pkt c i sz]) rest

/-- Specification side of window attribution: the per-flow byte totals of a
window, for one vector. -/
def totals (c : Chan) (w : List Step) : List Nat :=
  (List.range c.size).map (fun i => wrap64 (windowBytes c i w))

/-- Specification side of window attribution: the six vectors of per-flow byte
totals of a window. -/
def snapshot (w : List Step) : State :=
  ⟨totals Chan.rxS1R1 w, totals Chan.rxS2R2 w, totals Chan.rxS3R1 w,
    totals Chan.txS1R1 w, totals Chan.txS2R2 w, totals Chan.txS3R1 w⟩

/-- The call of the callback bound to vector `c` together with the case the
source does not provide for: `v[index]` outside the storage of the vector. -/
def traceOutcome (c : Chan) (index size : Nat) (s : State) : Outcome State :=
  if index < (s.get c).length then Outcome.returned (trace c index size s)
  else Outcome.undefined

/-- The name of the callback that is bound to a vector. -/
def Chan.handler : Chan → String
  | Chan.rxS1R1 => "TraceS1R1Sink"
  | Chan.rxS2R2 => "TraceS2R2Sink"
  | Chan.rxS3R1 => "TraceS3R1Sink"
  | Chan.txS1R1 => "TraceS1R1Send"
  | Chan.txS2R2 => "TraceS2R2Send"
  | Chan.txS3R1 => "TraceS3R1Send"

/-- One of the three binding loops of `main`: `for (i = 0; i < n; i++)` binds the
sender callback and then the sink callback to `i`. -/
def bindLoop (n : Nat) (send sink : Chan) : List Effect :=
  (List.range n).foldl
    (fun out i => out ++ [Effect.bind send.handler i, Effect.bind sink.handler i]) []

/-- The function `main`: `config_path`, `outputFilePath`, `queueDiscTypeId`,
`flowStartupWindow`, `convergenceTime` and `measurementWindow` (nanoseconds) are
the values after `cmd.Parse`, `mkdirStatus` is what `system` returns. -/
def main (config_path outputFilePath queueDiscTypeId : String)
    (flowStartupWindow convergenceTime measurementWindow : Nat) (mkdirStatus : Int) : Result :=
  let e0 := banner config_path outputFilePath queueDiscTypeId
  if unsupportedQueueDisc queueDiscTypeId then
    ⟨EXIT_FAILURE, ExitPoint.queueDiscCheck,
      e0 ++ [Effect.cerr "unsupported queueDisc: " queueDiscTypeId]⟩
  else
    let startTime := 0
    let stopTime := flowStartupWindow + convergenceTime + measurementWindow
    let measurementInterval := 10000000
    let progressInterval := 100000000
    let e1 := e0 ++ [Effect.mkdir outputFilePath]
    if mkdirStatus ≠ 0 then
      ⟨EXIT_FAILURE, ExitPoint.mkdirCheck,
        e1 ++ [Effect.cerr "Failed to create output directory" ""]⟩
    else
      ⟨0, ExitPoint.done,
        e1 ++ [Effect.openReport (outputFilePath ++ "dctcp-example-s1-r1-goodput.dat"),
          Effect.openReport (outputFilePath ++ "dctcp-example-s2-r2-goodput.dat"),
          Effect.openReport (outputFilePath ++ "dctcp-example-s3-r1-goodput.dat"),
          Effect.openReport (outputFilePath ++ "dctcp-example-fairness.dat"),
          Effect.openReport (outputFilePath ++ "dctcp-example-s1-r1-throughput.dat"),
          Effect.openReport (outputFilePath ++ "dctcp-example-s2-r2-throughput.dat"),
          Effect.openReport (outputFilePath ++ "dctcp-example-s3-r1-throughput.dat")]
        ++ bindLoop 10 Chan.txS1R1 Chan.rxS1R1
        ++ bindLoop 20 Chan.txS2R2 Chan.rxS2R2
        ++ bindLoop 10 Chan.txS3R1 Chan.rxS3R1
        ++ [Effect.schedule startTime "InitializeCounters",
          Effect.schedule measurementInterval "PrintThroughput",
          Effect.schedule progressInterval "PrintProgress",
          Effect.stop (stopTime + 1),
          Effect.run,
          Effect.destroy]⟩

/-- The literal `1e6`, `0x1.e848p+19`. -/
def lit1e6 : F64 := .fin 0x1E848000000000 (-33)

/-- The literal `1e9`, `0x1.dcd65p+29`. -/
def lit1e9 : F64 := .fin 0x1DCD6500000000 (-23)

/-- The value printed in a row of one of the six throughput files, `(v[i] * 8) /
(measurementWindow.GetSeconds ()) / 1e6`; `bits` is the `uint64_t` product and
`w` the double `measurementWindow.GetSeconds ()`. -/
def throughputValue (bits : Nat) (w : F64) : F64 :=
  F64.div (F64.div (F64.ofU64 bits) w) lit1e6

/-- The value `average = ((sum / n) * 8 / measurementWindow.GetSeconds ()) / 1e6`;
`operand` is the `uint64_t` value `(sum / n) * 8` and `w` the double
`measurementWindow.GetSeconds ()`. -/
def averageValue (operand : Nat) (w : F64) : F64 :=
  F64.div (F64.div (F64.ofU64 operand) w) lit1e6

/-- The value printed in the two aggregate lines,
`static_cast<double> (sum * 8) / 1e9`; `bits` is the `uint64_t` product. -/
def aggregateValue (bits : Nat) : F64 :=
  F64.div (F64.ofU64 bits) lit1e9

/-- The assignment `idealBytes = rate * measurementWindow.GetSeconds () * 1e6 / 8`
with the literal `rate` (50 or 475); `w` is the double
`measurementWindow.GetSeconds ()`. -/
def idealBytes (rate : Nat) (w : F64) : F64 :=
  F64.div (F64.mul (F64.mul (F64.ofU64 rate) w) lit1e6) (F64.ofU64 8)

/-- The statements `x = v[i] / idealBytes; sum_x += x; sumSquare_x += x * x` of
one iteration of a fairness loop, on the pair `(sum_x, sumSquare_x)`. -/
def normStep (v : List Nat) (ideal : F64) (p : F64 × F64) (i : Nat) : F64 × F64 :=
  (F64.add p.1 (F64.div (F64.ofU64 (v.getD i 0)) ideal),
    F64.add p.2 (F64.mul (F64.div (F64.ofU64 (v.getD i 0)) ideal)
      (F64.div (F64.ofU64 (v.getD i 0)) ideal)))

/-- The part of a fairness loop `for (i = 0; i < n; i++)` that accumulates the
normalised values. -/
def normLoop (n : Nat) (v : List Nat) (ideal : F64) (p : F64 × F64) : F64 × F64 :=
  (List.range n).foldl (normStep v ideal) p

/-- The pair `(sum_x, sumSquare_x)` after the three fairness loops; both start
at 0 and are not reset between the groups. -/
def normSums (w : F64) (s : State) : F64 × F64 :=
  normLoop 10 s.txS3R1Bytes (idealBytes 50 w)
    (normLoop 20 s.txS2R2Bytes (idealBytes 475 w)
      (normLoop 10 s.txS1R1Bytes (idealBytes 50 w) (F64.zero, F64.zero)))

/-- The value of the line "Global Fairness Index",
`sum_x * sum_x / 40 / sumSquare_x`; `w` is the double
`measurementWindow.GetSeconds ()`. -/
def globalFairness (w : F64) (s : State) : F64 :=
  F64.div (F64.div (F64.mul (normSums w s).1 (normSums w s).1) (F64.ofU64 40)) (normSums w s).2

/-- Modelled from the spec: the event queue of `Simulator` belongs to the ns-3
core, which is not among the sources.  As the spec has it ("re-schedules itself
for `now + measurementInterval`"), `Simulator::Schedule (delay, &f, arg)` called
at virtual time `now` makes `f (arg)` pending for the time `now + delay`, and a
pending event runs with `Simulator::Now ()` equal to its time.  `pending` holds
the pending `PrintThroughput` events, each with its time and its argument, the
next one first; the `i`-th tick finds the counters `counters[i]`.  The result
lists, for each tick, its time and the sampler events pending after it. -/
def sampler : List (Nat × Nat) → List State → List (Nat × List (Nat × Nat))
  | _, [] => []
  | [], _ :: _ => []
  | (t, w) :: pending, s :: ss =>
    (t, pending ++ [(t + (PrintThroughput w s).2.sched, w)])
      :: sampler (pending ++ [(t + (PrintThroughput w s).2.sched, w)]) ss

/-- The six vectors after the setup in `main`: `rxS1R1Bytes.reserve (10)`,
`rxS2R2Bytes.reserve (20)`, ... on the empty globals. -/
def setup (c : Chan) : Vec := Vec.reserve c.size Vec.empty

/-- The indices at which `InitializeCounters` and `PrintThroughput` access the
vector `c`, and to which `main` binds its callback. -/
def accesses (c : Chan) : List Nat := List.range c.size

end MultiHop

/-! ## fat-tree-cebinae.cc -/

/-- A `double` obtained from a signed integer: the sign and the magnitude. -/
structure SignedF64 where
  neg : Bool
  mag : F64
  deriving DecidableEq, Repr

namespace SignedF64

/-- Conversion `int64_t → double`. -/
def ofInt (v : Int) : SignedF64 := ⟨decide (v < 0), F64.ofU64 v.natAbs⟩

/-- Comparison `x < 0` of a double with zero. -/
def ltZero (x : SignedF64) : Bool := x.neg && decide (x.mag ≠ F64.zero) && decide (x.mag ≠ F64.nan)

/-- The rational number a finite signed double stands for. -/
def toRat (x : SignedF64) : Option ℚ :=
  x.mag.toRat.map (fun q => if x.neg then -q else q)

end SignedF64

namespace FatTree

/-- The three global tables `flow_size`, `flow_start_time`, `flow_end_time`.  A
`Time` is its integer count of nanoseconds. -/
structure Tables where
  flow_size : List Nat
  flow_start_time : List Int
  flow_end_time : List Int
  deriving DecidableEq, Repr

/-- The callback `record_FCT (flow_id, packet, header, socket)` invoked at
virtual time `now = Simulator::Now ()`. -/
def record_FCT (flow_id : Nat) (now : Int) (t : Tables) : Tables :=
  { t with flow_end_time := t.flow_end_time.set flow_id now }

/-- Modelled from the spec: `Time::GetMicroSeconds` belongs to the ns-3 core
(`nstime.h`), which is not among the sources.  The spec asks for the completion
time "in microseconds"; a `Time` holds an integer count of nanoseconds and
`GetMicroSeconds` returns an `int64_t`, the count divided by 1000 with the
integer division of C++, which truncates toward zero. -/
def GetMicroSeconds (ns : Int) : Int := Int.tdiv ns 1000

/-- The lines `cal_FCT` writes, in program order. -/
inductive Line where
  /-- The line on `std::cout` of a flow with a negative completion time: index,
  size, start and end in microseconds. -/
  | anomaly (i size : Nat) (start fin : Int)
  /-- A row of `FCT_f`: the flow size and the value of `FCT`. -/
  | row (size : Nat) (FCT : SignedF64)
  deriving DecidableEq, Repr

/-- The body of the loop of `cal_FCT` for flow `i`. -/
def cal_FCT_body (t : Tables) (i : Nat) : List Line :=
  let FCT := SignedF64.ofInt
    (GetMicroSeconds (t.flow_end_time.getD i 0 - t.flow_start_time.getD i 0))
  (if FCT.ltZero then
      [Line.anomaly i (t.flow_size.getD i 0) (GetMicroSeconds (t.flow_start_time.getD i 0))
        (GetMicroSeconds (t.flow_end_time.getD i 0))]
    else [])
    ++ [Line.row (t.flow_size.getD i 0) FCT]

/-- The function `cal_FCT (flow_num)`. -/
def cal_FCT (flow_num : Nat) (t : Tables) : List Line :=
  (List.range flow_num).foldl (fun out i => out ++ cal_FCT_body t i) []

/-- Recognises a row of `FCT_f`. -/
def Line.isRow : Line → Bool
  | Line.row _ _ => true
  | _ => false

/-- Recognises the anomaly line of flow `i`. -/
def Line.isAnomalyOf (i : Nat) : Line → Bool
  | Line.anomaly j _ _ _ => decide (j = i)
  | _ => false

/-- A run of `record_FCT` callbacks, each with the flow it is bound to and the
virtual time of the call. -/
def recordAll (calls : List (Nat × Int)) (t : Tables) : Tables :=
  calls.foldl (fun u c => record_FCT c.1 c.2 u) t

/-- Specification side of last-writer-wins: the time of the last call made for
flow `f`, if there is one. -/
def lastCall (f : Nat) (calls : List (Nat × Int)) : Option Int :=
  ((calls.filter (fun c => c.1 == f)).getLast?).map (fun c => c.2)

/-- An event of a run that concerns the completion times: the scheduled call
`trace_socket (app, flow_id)`, or a firing of the `Rx` trace source of the
sending socket of a flow. -/
inductive Event where
  | connect (flow_id : Nat)
  | rx (flow_id : Nat)
  deriving DecidableEq, Repr

/-- The tables together with the flows whose socket has `record_FCT` connected
and, as a ghost log, the flows for which `record_FCT` has run. -/
structure Sim where
  tables : Tables
  connected : List Nat
  written : List Nat
  deriving DecidableEq, Repr

/-- The function `trace_socket (app, flow_id)`: it connects `record_FCT`, bound to
`flow_id`, to the `Rx` trace source of the socket of the flow. -/
def trace_socket (flow_id : Nat) (s : Sim) : Sim :=
  { s with connected := flow_id :: s.connected }

/-- Modelled from the spec: the trace sources of a socket belong to the ns-3
core, which is not among the sources.  As the spec has it (a transport
abstraction with hooks that invoke the registered callback), a trace source
invokes the callbacks that are connected to it, so a firing before
`trace_socket` has run for the flow invokes nothing.  One event at virtual
time `ev.1`: the call of `trace_socket`, or a firing, which runs `record_FCT`
with `Simulator::Now ()` equal to the time of the event. -/
def fire (s : Sim) (ev : Int × Event) : Sim :=
  match ev.2 with
  | Event.connect i => trace_socket i s
  | Event.rx i =>
    if i ∈ s.connected then
      { s with tables := record_FCT i ev.1 s.tables, written := i :: s.written }
    else s

/-- A run: the events with their virtual times, in the order in which they are
executed, from the tables as `main` has filled them. -/
def runEvents (evs : List (Int × Event)) (t : Tables) : Sim :=
  evs.foldl fire ⟨t, [], []⟩

/-- The three vectors after the setup in `main`: `flow_size.reserve (flow_num)`,
`flow_start_time.reserve (flow_num)`, `flow_end_time.reserve (flow_num)` on the
empty globals. -/
def setup (flow_num : Nat) : Vec := Vec.reserve flow_num Vec.empty

/-- The indices at which the reader of the flow file, `cal_FCT` and the bound
`record_FCT` callbacks access the three vectors. -/
def accesses (flow_num : Nat) : List Nat := List.range flow_num

/-- The function `main`: the strings are the values after `cmd.Parse`,
`flow_num` and `starts` (nanoseconds) are what is read from the flow file and
`mkdirStatus` is what `system` returns. -/
def main (config_path outputFilePath queueDiscTypeId topology_file flow_file : String)
    (flow_num : Nat) (starts : List Nat) (mkdirStatus : Int) : Result :=
  let e0 := banner config_path outputFilePath queueDiscTypeId
  if unsupportedQueueDisc queueDiscTypeId then
    ⟨EXIT_FAILURE, ExitPoint.queueDiscCheck,
      e0 ++ [Effect.cerr "unsupported queueDisc: " queueDiscTypeId]⟩
  else
    let app_start_time := 2000000000
    let stop_time := 5000000000
    let e1 := e0 ++ [Effect.mkdir outputFilePath]
    if mkdirStatus ≠ 0 then
      ⟨EXIT_FAILURE, ExitPoint.mkdirCheck,
        e1 ++ [Effect.cerr "Failed to create output directory" ""]⟩
    else
      ⟨0, ExitPoint.done,
        e1 ++ [Effect.openInput topology_file, Effect.openInput flow_file]
        ++ (List.range flow_num).map
          (fun i => Effect.schedule (starts.getD i 0 + 1) "trace_socket")
        ++ [Effect.openReport (outputFilePath ++ "qlen.dat"),
          Effect.schedule app_start_time "PrintQlen",
          Effect.schedule app_start_time "printProgress",
          Effect.stop (stop_time + 1),
          Effect.run,
          Effect.openReport (outputFilePath ++ "fct.dat")]⟩

end FatTree


/-! ## Predicates used to state the fairness results -/

/-- The byte counts for which no 64 bit operation of the fairness computation
wraps around and the quotient is not `0 / 0`. -/
def NoWrap (n : Nat) (b : List Nat) : Prop :=
  b.length = n ∧ 0 < b.sum ∧ n * (b.sum * b.sum) < 2 ^ 64

/-- The value `v` is the double quotient of the exact integers `(Σ bᵢ)²` and
`n · Σ bᵢ²`, a finite number within a relative error of `2 ^ -51` of Jain's
index. -/
def JainApprox (n : Nat) (b : List Nat) (v : F64) : Prop :=
  v = F64.div (F64.ofU64 (b.sum * b.sum)) (F64.ofU64 (n * sumSq b)) ∧
    ∃ q : ℚ, v.toRat = some q ∧ |q - jain n b| ≤ jain n b / 2 ^ 51

/-- The positive numbers `v` and `q` differ by a factor of at most
`(1 + 2 ^ -52) ^ k`: `v` is `q` computed with `k` roundings. -/
def Near (k : Nat) (v q : ℚ) : Prop :=
  0 < v ∧ 0 < q ∧ v ≤ q * (1 + 1 / 2 ^ 52) ^ k ∧ q ≤ v * (1 + 1 / 2 ^ 52) ^ k

/-- The double is zero or finite with a 53 bit significand. -/
def F64.IsZeroOrNormal (a : F64) : Prop := a = F64.zero ∨ a.IsNormal

/-- The non-negative numbers `v` and `q` differ by a factor of at most
`(1 + 2 ^ -52) ^ k`; both are zero if one is. -/
def Approx (k : Nat) (v q : ℚ) : Prop :=
  0 ≤ v ∧ 0 ≤ q ∧ v ≤ q * (1 + 1 / 2 ^ 52) ^ k ∧ q ≤ v * (1 + 1 / 2 ^ 52) ^ k

/-- Specification side of the global index: the normalised values
`x_j = tx_j / idealBytes` of the forty flows, `idealBytes` being the bytes of a
share of 50 Mbit/s (S1-R1, S3-R1) resp. 475 Mbit/s (S2-R2) over a window of `W`
seconds. -/
def normalised (W : ℚ) (s : MultiHop.State) : List ℚ :=
  s.txS1R1Bytes.map (fun (b : Nat) => (b : ℚ) / (50 * W * 10 ^ 6 / 8))
    ++ s.txS2R2Bytes.map (fun (b : Nat) => (b : ℚ) / (475 * W * 10 ^ 6 / 8))
    ++ s.txS3R1Bytes.map (fun (b : Nat) => (b : ℚ) / (50 * W * 10 ^ 6 / 8))

/-- Specification side of the global index: Jain's formula
`(Σ x_j)² / (n · Σ x_j²)` on rational values. -/
def jainQ (x : List ℚ) : ℚ :=
  x.sum ^ 2 / ((x.length : ℚ) * (x.map (fun y => y ^ 2)).sum)

/-- The operands of the rows of the throughput file of a vector. -/
def MultiHop.Report.rows (r : MultiHop.Report) : MultiHop.Chan → List Nat
  | MultiHop.Chan.rxS1R1 => r.rxS1R1Thpt
  | MultiHop.Chan.rxS2R2 => r.rxS2R2Thpt
  | MultiHop.Chan.rxS3R1 => r.rxS3R1Thpt
  | MultiHop.Chan.txS1R1 => r.txS1R1Thpt
  | MultiHop.Chan.txS2R2 => r.txS2R2Thpt
  | MultiHop.Chan.txS3R1 => r.txS3R1Thpt

/-- The delays of the calls `Simulator::Schedule (delay, &event, ...)` among the
actions of `main`. -/
def scheduledBy (event : String) (effects : List Effect) : List Nat :=
  effects.filterMap (fun e => match e with
    | Effect.schedule d ev => if ev = event then some d else none
    | _ => none)

/-! ## Machine arithmetic lemmas -/

theorem wrap32_wrap32_add (c d : Nat) : wrap32 (wrap32 c + d) = wrap32 (c + d) := by
  unfold wrap32; omega

theorem wrap64_wrap64_add (c d : Nat) : wrap64 (wrap64 c + d) = wrap64 (c + d) := by
  unfold wrap64; omega

theorem wrap64_add_wrap64 (c d : Nat) : wrap64 (c + wrap64 d) = wrap64 (c + d) := by
  unfold wrap64; omega

theorem wrap64_zero : wrap64 0 = 0 := rfl

theorem wrap32_zero : wrap32 0 = 0 := rfl

theorem wrap64_of_lt {x : Nat} (h : x < 2 ^ 64) : wrap64 x = x := Nat.mod_eq_of_lt h

theorem wrap32_of_lt {x : Nat} (h : x < 2 ^ 32) : wrap32 x = x := Nat.mod_eq_of_lt h

/-! ## Rounding to the nearest integer -/

theorem rne_cases (x y : Nat) : rne x y = x / y ∨ rne x y = x / y + 1 := by
  unfold rne
  dsimp only
  split
  · exact Or.inl rfl
  · split
    · exact Or.inr rfl
    · split
      · exact Or.inl rfl
      · exact Or.inr rfl

/-- The rounded quotient in terms of quotient `d` and remainder `r`. -/
theorem rne_eq (x y d r : Nat) (hy : 0 < y) (hx : x = d * y + r) (hr : r < y) :
    rne x y = if 2 * r < y then d else if y < 2 * r then d + 1 else if d % 2 = 0 then d else d + 1 := by
  have hd : x / y = d := by
    rw [hx, Nat.mul_comm, Nat.mul_add_div hy, Nat.div_eq_of_lt hr, Nat.add_zero]
  have hm : x % y = r := by
    rw [hx, Nat.mul_comm, Nat.mul_add_mod, Nat.mod_eq_of_lt hr]
  simp only [rne, hd, hm]

theorem rne_mul_self (k y : Nat) (hy : 0 < y) : rne (k * y) y = k := by
  rw [rne_eq (k * y) y k 0 hy (by omega) hy]
  simp [hy]

theorem rne_mono (x1 x2 y : Nat) (hy : 0 < y) (h : x1 ≤ x2) : rne x1 y ≤ rne x2 y := by
  have e1 := rne_eq x1 y (x1 / y) (x1 % y) hy (by rw [Nat.mul_comm]; exact (Nat.div_add_mod x1 y).symm)
    (Nat.mod_lt _ hy)
  have e2 := rne_eq x2 y (x2 / y) (x2 % y) hy (by rw [Nat.mul_comm]; exact (Nat.div_add_mod x2 y).symm)
    (Nat.mod_lt _ hy)
  have hd : x1 / y ≤ x2 / y := Nat.div_le_div_right h
  rcases Nat.lt_or_eq_of_le hd with hlt | heq
  · rcases rne_cases x1 y with h1 | h1 <;> rcases rne_cases x2 y with h2 | h2 <;> omega
  · have hr : x1 % y ≤ x2 % y := by
      have a1 := Nat.div_add_mod x1 y
      have a2 := Nat.div_add_mod x2 y
      rw [heq] at a1
      omega
    rw [e1, e2, heq]
    split_ifs <;> omega

theorem rne_le_of_le_mul (x y k : Nat) (hy : 0 < y) (h : x ≤ k * y) : rne x y ≤ k := by
  have := rne_mono x (k * y) y hy h
  rwa [rne_mul_self k y hy] at this

theorem le_rne_of_mul_le (x y k : Nat) (hy : 0 < y) (h : k * y ≤ x) : k ≤ rne x y := by
  have := rne_mono (k * y) x y hy h
  rwa [rne_mul_self k y hy] at this

/-- The rounding error is at most half a unit: `|rne x y * y - x| ≤ y / 2`. -/
theorem rne_error (x y : Nat) (hy : 0 < y) :
    2 * (rne x y * y) ≤ 2 * x + y ∧ 2 * x ≤ 2 * (rne x y * y) + y := by
  have e := rne_eq x y (x / y) (x % y) hy (by rw [Nat.mul_comm]; exact (Nat.div_add_mod x y).symm)
    (Nat.mod_lt _ hy)
  have a := Nat.div_add_mod x y
  have hr := Nat.mod_lt x hy
  rw [Nat.mul_comm] at a
  generalize x / y = d at *
  generalize x % y = r at *
  rw [e]
  split_ifs <;> (try simp only [Nat.add_mul, Nat.one_mul]) <;> omega

theorem cross_lt (r y r2 y2 : Nat) (hy2 : 0 < y2) (hrr : r2 * y = r * y2) (h : 2 * r < y) :
    2 * r2 < y2 := by
  by_contra hge
  have hge : y2 ≤ 2 * r2 := Nat.le_of_not_lt hge
  have h1 : y2 * y ≤ 2 * r2 * y := Nat.mul_le_mul_right y hge
  have h2 : 2 * r * y2 < y * y2 := Nat.mul_lt_mul_of_pos_right h hy2
  have h3 : 2 * r2 * y = 2 * r * y2 := by rw [Nat.mul_assoc, hrr, Nat.mul_assoc]
  rw [Nat.mul_comm y2 y] at h1
  omega

theorem cross_gt (r y r2 y2 : Nat) (hy2 : 0 < y2) (hrr : r2 * y = r * y2) (h : y < 2 * r) :
    y2 < 2 * r2 := by
  by_contra hge
  have hge : 2 * r2 ≤ y2 := Nat.le_of_not_lt hge
  have h1 : 2 * r2 * y ≤ y2 * y := Nat.mul_le_mul_right y hge
  have h2 : y * y2 < 2 * r * y2 := Nat.mul_lt_mul_of_pos_right h hy2
  have h3 : 2 * r2 * y = 2 * r * y2 := by rw [Nat.mul_assoc, hrr, Nat.mul_assoc]
  rw [Nat.mul_comm y2 y] at h1
  omega

/-- The rounded quotient depends on the ratio only. -/
theorem rne_ratio (x y x2 y2 : Nat) (hy : 0 < y) (hy2 : 0 < y2) (h : x * y2 = x2 * y) :
    rne x y = rne x2 y2 := by
  have a := Nat.div_add_mod x y
  have hr := Nat.mod_lt x hy
  rw [Nat.mul_comm] at a
  generalize hd : x / y = d at *
  generalize x % y = r at *
  have hx2 : d * y2 * y ≤ x2 * y := by
    rw [← h, ← a]
    calc d * y2 * y = d * y * y2 := by ring
      _ ≤ (d * y + r) * y2 := Nat.mul_le_mul_right _ (Nat.le_add_right _ _)
  have hx2d : d * y2 ≤ x2 := Nat.le_of_mul_le_mul_right hx2 hy
  obtain ⟨r2, hr2⟩ := Nat.exists_eq_add_of_le hx2d
  have hrr : r2 * y = r * y2 := by
    have e1 : (d * y2 + r2) * y = (d * y + r) * y2 := by rw [← hr2, a, h]
    have e2 : d * y2 * y = d * y * y2 := by ring
    rw [Nat.add_mul, Nat.add_mul] at e1
    omega
  have hr2lt : r2 < y2 := by
    by_contra hge
    have hge : y2 ≤ r2 := Nat.le_of_not_lt hge
    have h1 : y2 * y ≤ r2 * y := Nat.mul_le_mul_right y hge
    have h2 : r * y2 < y * y2 := Nat.mul_lt_mul_of_pos_right hr hy2
    rw [Nat.mul_comm y2 y] at h1
    omega
  rw [rne_eq x y d r hy a.symm hr, rne_eq x2 y2 d r2 hy2 hr2 hr2lt]
  have c1 : 2 * r < y ↔ 2 * r2 < y2 :=
    ⟨cross_lt r y r2 y2 hy2 hrr, cross_lt r2 y2 r y hy hrr.symm⟩
  have c2 : y < 2 * r ↔ y2 < 2 * r2 :=
    ⟨cross_gt r y r2 y2 hy2 hrr, cross_gt r2 y2 r y hy hrr.symm⟩
  simp only [c1, c2]

/-! ## Conversion of an integer to a double -/

theorem log2Fuel_spec : ∀ (f n : Nat), 0 < n → n < 2 ^ f →
    2 ^ log2Fuel f n ≤ n ∧ n < 2 ^ (log2Fuel f n + 1) := by
  intro f
  induction f with
  | zero => intro n h0 h1; simp at h1; omega
  | succ f ih =>
    intro n h0 h1
    unfold log2Fuel
    by_cases h2 : n < 2
    · simp only [h2, if_true]; omega
    · simp only [h2, if_false]
      have hlt : n / 2 < 2 ^ f := by
        rw [Nat.pow_succ] at h1; omega
      obtain ⟨a, b⟩ := ih (n / 2) (by omega) hlt
      rw [Nat.pow_succ, Nat.pow_succ]
      rw [Nat.pow_succ] at b
      constructor <;> omega

theorem F64.norm_val (r : Nat) (e : Int) : (F64.norm r e).val = (r : ℚ) * (2 : ℚ) ^ e := by
  unfold F64.norm
  split
  · rename_i h
    subst h
    simp only [F64.val]
    rw [zpow_add₀ (by norm_num : (2 : ℚ) ≠ 0)]
    push_cast
    ring
  · rfl

theorem F64.norm_isNormal (r : Nat) (e : Int) (h1 : 2 ^ 52 ≤ r) (h2 : r ≤ 2 ^ 53) :
    (F64.norm r e).IsNormal := by
  unfold F64.norm
  split
  · simp [F64.IsNormal, Normal]
  · rename_i h
    exact ⟨h1, Nat.lt_of_le_of_ne h2 h⟩

theorem pow_split (l : Nat) (h : 52 < l) : 2 ^ l = 2 ^ 52 * 2 ^ (l - 52) := by
  rw [← Nat.pow_add]; congr 1; omega

/-- The rounded significand of a number of more than 53 bits. -/
theorem rne_bounds (n l : Nat) (h : 52 < l) (h1 : 2 ^ l ≤ n) (h2 : n < 2 ^ (l + 1)) :
    2 ^ 52 ≤ rne n (2 ^ (l - 52)) ∧ rne n (2 ^ (l - 52)) ≤ 2 ^ 53 := by
  have hp : 0 < 2 ^ (l - 52) := Nat.pow_pos (by norm_num)
  constructor
  · apply le_rne_of_mul_le _ _ _ hp
    rw [← pow_split l h]; exact h1
  · apply rne_le_of_le_mul _ _ _ hp
    have : 2 ^ (l + 1) = 2 ^ 53 * 2 ^ (l - 52) := by
      rw [← Nat.pow_add]; congr 1; omega
    omega

theorem ofU64_spec (n : Nat) (h0 : 0 < n) (h64 : n < 2 ^ 64) :
    (F64.ofU64 n).IsNormal ∧ (F64.ofU64 n).val = (ofU64Nat n : ℚ) := by
  obtain ⟨hl1, hl2⟩ := log2Fuel_spec 64 n h0 h64
  unfold F64.ofU64 ofU64Nat
  simp only [Nat.ne_of_gt h0, if_false]
  by_cases hl : log2Fuel 64 n ≤ 52
  · simp only [hl, if_true]
    generalize log2Fuel 64 n = l at *
    have hpow : 2 ^ l * 2 ^ (52 - l) = 2 ^ 52 := by
      rw [← Nat.pow_add]; congr 1; omega
    constructor
    · constructor
      · calc 2 ^ 52 = 2 ^ l * 2 ^ (52 - l) := hpow.symm
          _ ≤ n * 2 ^ (52 - l) := Nat.mul_le_mul_right _ hl1
      · have : 2 ^ 53 = 2 ^ (l + 1) * 2 ^ (52 - l) := by
          rw [← Nat.pow_add]; congr 1; omega
        show n * 2 ^ (52 - l) < 2 ^ 53
        rw [this]
        exact Nat.mul_lt_mul_of_pos_right hl2 (Nat.pow_pos (by norm_num))
    · simp only [F64.val]
      have e1 : ((l : Int) - 52) = -((52 - l : Nat) : Int) := by omega
      rw [e1, zpow_neg, zpow_natCast]
      push_cast
      field_simp
  · simp only [hl, if_false]
    have hl' : 52 < log2Fuel 64 n := by omega
    generalize log2Fuel 64 n = l at *
    obtain ⟨b1, b2⟩ := rne_bounds n l hl' hl1 hl2
    refine ⟨F64.norm_isNormal _ _ b1 b2, ?_⟩
    rw [F64.norm_val]
    have e1 : ((l : Int) - 52) = ((l - 52 : Nat) : Int) := by omega
    rw [e1, zpow_natCast]
    push_cast
    ring

theorem ofU64Nat_exact (n : Nat) (h : n < 2 ^ 53) : ofU64Nat n = n := by
  unfold ofU64Nat
  by_cases hl : log2Fuel 64 n ≤ 52
  · simp only [hl, if_true]
  · exfalso
    have h0 : 0 < n := by
      rcases Nat.eq_zero_or_pos n with h0 | h0
      · subst h0; exact absurd (by decide : log2Fuel 64 0 ≤ 52) hl
      · exact h0
    obtain ⟨hl1, _⟩ := log2Fuel_spec 64 n h0 (by omega)
    have : 2 ^ 53 ≤ 2 ^ log2Fuel 64 n := Nat.pow_le_pow_right (by norm_num) (by omega)
    omega

/-- The conversion is within half a unit in the last place: `|double(n) - n| ≤ n / 2 ^ 53`. -/
theorem ofU64Nat_error (n : Nat) (h0 : 0 < n) (h64 : n < 2 ^ 64) :
    2 ^ 53 * ofU64Nat n ≤ 2 ^ 53 * n + n ∧ 2 ^ 53 * n ≤ 2 ^ 53 * ofU64Nat n + n := by
  obtain ⟨hl1, hl2⟩ := log2Fuel_spec 64 n h0 h64
  unfold ofU64Nat
  by_cases hl : log2Fuel 64 n ≤ 52
  · simp only [hl, if_true]; omega
  · simp only [hl, if_false]
    have hl' : 52 < log2Fuel 64 n := by omega
    generalize log2Fuel 64 n = l at *
    have hp : 0 < 2 ^ (l - 52) := Nat.pow_pos (by norm_num)
    obtain ⟨e1, e2⟩ := rne_error n (2 ^ (l - 52)) hp
    rw [pow_split l hl'] at hl1
    generalize 2 ^ (l - 52) = y at *
    generalize rne n y * y = V at *
    omega

theorem ofU64Nat_mono (n1 n2 : Nat) (h0 : 0 < n1) (h : n1 ≤ n2) (h64 : n2 < 2 ^ 64) :
    ofU64Nat n1 ≤ ofU64Nat n2 := by
  obtain ⟨a1, a2⟩ := log2Fuel_spec 64 n1 h0 (by omega)
  obtain ⟨b1, b2⟩ := log2Fuel_spec 64 n2 (by omega) h64
  have hll : log2Fuel 64 n1 ≤ log2Fuel 64 n2 := by
    have : 2 ^ log2Fuel 64 n1 < 2 ^ (log2Fuel 64 n2 + 1) := by omega
    have := (Nat.pow_lt_pow_iff_right (by norm_num : 1 < 2)).1 this
    omega
  unfold ofU64Nat
  generalize log2Fuel 64 n1 = l1 at *
  generalize log2Fuel 64 n2 = l2 at *
  by_cases h1 : l1 ≤ 52
  · by_cases h2 : l2 ≤ 52
    · simp only [h1, h2, if_true]; exact h
    · simp only [h1, h2, if_true, if_false]
      have h2' : 52 < l2 := by omega
      obtain ⟨c1, _⟩ := rne_bounds n2 l2 h2' b1 b2
      have : 2 ^ 52 * 2 ^ (l2 - 52) ≤ rne n2 (2 ^ (l2 - 52)) * 2 ^ (l2 - 52) :=
        Nat.mul_le_mul_right _ c1
      rw [← pow_split l2 h2'] at this
      have e4 : 2 ^ (l1 + 1) ≤ 2 ^ l2 := Nat.pow_le_pow_right (by norm_num) (by omega)
      omega
  · have h1' : 52 < l1 := by omega
    have h2 : ¬ l2 ≤ 52 := by omega
    have h2' : 52 < l2 := by omega
    simp only [h1, h2, if_false]
    rcases Nat.lt_or_eq_of_le hll with hlt | heq
    · obtain ⟨_, c2⟩ := rne_bounds n1 l1 h1' a1 a2
      obtain ⟨d1, _⟩ := rne_bounds n2 l2 h2' b1 b2
      have e1 : rne n1 (2 ^ (l1 - 52)) * 2 ^ (l1 - 52) ≤ 2 ^ 53 * 2 ^ (l1 - 52) :=
        Nat.mul_le_mul_right _ c2
      have e2 : 2 ^ 52 * 2 ^ (l2 - 52) ≤ rne n2 (2 ^ (l2 - 52)) * 2 ^ (l2 - 52) :=
        Nat.mul_le_mul_right _ d1
      have e3 : 2 ^ 53 * 2 ^ (l1 - 52) = 2 ^ (l1 + 1) := by
        rw [← Nat.pow_add]; congr 1; omega
      rw [← pow_split l2 h2'] at e2
      have e4 : 2 ^ (l1 + 1) ≤ 2 ^ l2 := Nat.pow_le_pow_right (by norm_num) hlt
      omega
    · subst heq
      exact Nat.mul_le_mul_right _ (rne_mono n1 n2 _ (Nat.pow_pos (by norm_num)) h)

theorem ofU64Nat_pos (n : Nat) (h0 : 0 < n) (h64 : n < 2 ^ 64) : 0 < ofU64Nat n := by
  have := (ofU64Nat_error n h0 h64).2
  omega

/-! ## Division of doubles -/

namespace F64

theorem div_fin (ma mb : Nat) (ea eb : Int) (ha : Normal ma) (hb : Normal mb) :
    div (.fin ma ea) (.fin mb eb)
      = if mb ≤ ma then norm (rne (ma * 2 ^ 52) mb) (ea - eb - 52)
        else norm (rne (ma * 2 ^ 53) mb) (ea - eb - 53) := by
  have h1 : mb ≠ 0 := by have := hb.1; omega
  have h2 : ma ≠ 0 := by have := ha.1; omega
  simp only [div, h1, h2, if_false]

theorem div_rne_bounds1 (ma mb : Nat) (ha : Normal ma) (hb : Normal mb) (h : mb ≤ ma) :
    2 ^ 52 ≤ rne (ma * 2 ^ 52) mb ∧ rne (ma * 2 ^ 52) mb ≤ 2 ^ 53 := by
  have hpos : 0 < mb := by have := hb.1; omega
  obtain ⟨a1, a2⟩ := ha
  obtain ⟨b1, b2⟩ := hb
  constructor
  · apply le_rne_of_mul_le _ _ _ hpos
    rw [Nat.mul_comm]; exact Nat.mul_le_mul_right _ h
  · apply rne_le_of_le_mul _ _ _ hpos
    norm_num at *
    omega

theorem div_rne_bounds2 (ma mb : Nat) (ha : Normal ma) (hb : Normal mb) (h : ma < mb) :
    2 ^ 52 ≤ rne (ma * 2 ^ 53) mb ∧ rne (ma * 2 ^ 53) mb ≤ 2 ^ 53 := by
  have hpos : 0 < mb := by have := hb.1; omega
  obtain ⟨a1, a2⟩ := ha
  obtain ⟨b1, b2⟩ := hb
  constructor
  · apply le_rne_of_mul_le _ _ _ hpos
    norm_num at *
    omega
  · apply rne_le_of_le_mul _ _ _ hpos
    rw [Nat.mul_comm]; exact Nat.mul_le_mul_left _ (Nat.le_of_lt h)

theorem div_isNormal (a b : F64) (ha : a.IsNormal) (hb : b.IsNormal) : (div a b).IsNormal := by
  cases a with
  | inf => exact ha.elim
  | nan => exact ha.elim
  | fin ma ea =>
    cases b with
    | inf => exact hb.elim
    | nan => exact hb.elim
    | fin mb eb =>
      rw [div_fin ma mb ea eb ha hb]
      split
      · rename_i h
        obtain ⟨c1, c2⟩ := div_rne_bounds1 ma mb ha hb h
        exact norm_isNormal _ _ c1 c2
      · rename_i h
        obtain ⟨c1, c2⟩ := div_rne_bounds2 ma mb ha hb (Nat.lt_of_not_le h)
        exact norm_isNormal _ _ c1 c2

theorem val_pos (a : F64) (ha : a.IsNormal) : 0 < a.val := by
  cases a with
  | inf => exact ha.elim
  | nan => exact ha.elim
  | fin m e =>
    have hm : 0 < m := by have := ha.1; omega
    have : (0 : ℚ) < (m : ℚ) := by exact_mod_cast hm
    exact mul_pos this (zpow_pos (by norm_num) _)

/-- The quotient is within half a unit in the last place of the exact quotient:
`|a / b - val a / val b| ≤ (val a / val b) / 2 ^ 53`, written without division. -/
theorem div_error (a b : F64) (ha : a.IsNormal) (hb : b.IsNormal) :
    (div a b).val * b.val * 2 ^ 53 ≤ a.val * (2 ^ 53 + 1) ∧
      a.val * (2 ^ 53 - 1) ≤ (div a b).val * b.val * 2 ^ 53 := by
  cases a with
  | inf => exact ha.elim
  | nan => exact ha.elim
  | fin ma ea =>
    cases b with
    | inf => exact hb.elim
    | nan => exact hb.elim
    | fin mb eb =>
      have hmb : 0 < mb := by have := hb.1; omega
      have h2 : (2 : ℚ) ≠ 0 := by norm_num
      have hy : (0 : ℚ) < (2 : ℚ) ^ eb := zpow_pos (by norm_num) _
      rw [div_fin ma mb ea eb ha hb]
      split
      · rename_i h
        have hP : (0 : ℚ) < (2 : ℚ) ^ (ea - eb - 52) := zpow_pos (by norm_num) _
        have hx : (2 : ℚ) ^ ea = (2 : ℚ) ^ (ea - eb - 52) * (2 : ℚ) ^ eb * 2 ^ 52 := by
          have : ea = (ea - eb - 52) + eb + (52 : ℕ) := by push_cast; ring
          conv_lhs => rw [this]
          rw [zpow_add₀ h2, zpow_add₀ h2, zpow_natCast]
        obtain ⟨e1, e2⟩ := rne_error (ma * 2 ^ 52) mb hmb
        have k1 : (2 : ℚ) * ((rne (ma * 2 ^ 52) mb : ℚ) * mb) ≤ 2 * ((ma : ℚ) * 2 ^ 52) + ma := by
          have : 2 * (rne (ma * 2 ^ 52) mb * mb) ≤ 2 * (ma * 2 ^ 52) + ma := by omega
          exact_mod_cast this
        have k2 : (2 : ℚ) * ((ma : ℚ) * 2 ^ 52) ≤ 2 * ((rne (ma * 2 ^ 52) mb : ℚ) * mb) + ma := by
          have : 2 * (ma * 2 ^ 52) ≤ 2 * (rne (ma * 2 ^ 52) mb * mb) + ma := by omega
          exact_mod_cast this
        rw [norm_val]
        simp only [val, hx]
        generalize (2 : ℚ) ^ (ea - eb - 52) = P at *
        generalize (2 : ℚ) ^ eb = y at *
        generalize (rne (ma * 2 ^ 52) mb : ℚ) = r at *
        have hPy : 0 < P * y * 2 ^ 52 := by positivity
        constructor
        · have := mul_le_mul_of_nonneg_left k1 hPy.le
          linarith
        · have := mul_le_mul_of_nonneg_left k2 hPy.le
          linarith
      · rename_i h
        have h : ma < mb := Nat.lt_of_not_le h
        have hP : (0 : ℚ) < (2 : ℚ) ^ (ea - eb - 53) := zpow_pos (by norm_num) _
        have hx : (2 : ℚ) ^ ea = (2 : ℚ) ^ (ea - eb - 53) * (2 : ℚ) ^ eb * 2 ^ 53 := by
          have : ea = (ea - eb - 53) + eb + (53 : ℕ) := by push_cast; ring
          conv_lhs => rw [this]
          rw [zpow_add₀ h2, zpow_add₀ h2, zpow_natCast]
        obtain ⟨e1, e2⟩ := rne_error (ma * 2 ^ 53) mb hmb
        have hmb2 : mb ≤ 2 * ma := by
          have := ha.1; have := hb.2
          norm_num at *
          omega
        have k1 : (2 : ℚ) * ((rne (ma * 2 ^ 53) mb : ℚ) * mb) ≤ 2 * ((ma : ℚ) * 2 ^ 53) + 2 * ma := by
          have : 2 * (rne (ma * 2 ^ 53) mb * mb) ≤ 2 * (ma * 2 ^ 53) + 2 * ma := by omega
          exact_mod_cast this
        have k2 : (2 : ℚ) * ((ma : ℚ) * 2 ^ 53) ≤ 2 * ((rne (ma * 2 ^ 53) mb : ℚ) * mb) + 2 * ma := by
          have : 2 * (ma * 2 ^ 53) ≤ 2 * (rne (ma * 2 ^ 53) mb * mb) + 2 * ma := by omega
          exact_mod_cast this
        rw [norm_val]
        simp only [val, hx]
        generalize (2 : ℚ) ^ (ea - eb - 53) = P at *
        generalize (2 : ℚ) ^ eb = y at *
        generalize (rne (ma * 2 ^ 53) mb : ℚ) = r at *
        have hPy : 0 < P * y * 2 ^ 52 := by positivity
        constructor
        · have := mul_le_mul_of_nonneg_left k1 hPy.le
          linarith
        · have := mul_le_mul_of_nonneg_left k2 hPy.le
          linarith

theorem div_self (m : Nat) (e : Int) (hm : Normal m) : div (.fin m e) (.fin m e) = one := by
  have hpos : 0 < m := by have := hm.1; omega
  rw [div_fin m m e e hm hm]
  simp only [Nat.le_refl, if_true]
  rw [Nat.mul_comm, rne_mul_self _ _ hpos]
  simp [norm, one]

theorem mul_zpow_le_one (r : Nat) (e : Int) (hr : r ≤ 2 ^ 53) (he : e ≤ -53) :
    (r : ℚ) * (2 : ℚ) ^ e ≤ 1 := by
  have h1 : (r : ℚ) ≤ 2 ^ 53 := by exact_mod_cast hr
  have h2 : (2 : ℚ) ^ e ≤ (2 : ℚ) ^ (-53 : ℤ) := zpow_le_zpow_right₀ (by norm_num) he
  have h3 : (0 : ℚ) < (2 : ℚ) ^ e := zpow_pos (by norm_num) _
  calc (r : ℚ) * (2 : ℚ) ^ e ≤ 2 ^ 53 * (2 : ℚ) ^ e := mul_le_mul_of_nonneg_right h1 h3.le
    _ ≤ 2 ^ 53 * (2 : ℚ) ^ (-53 : ℤ) := mul_le_mul_of_nonneg_left h2 (by norm_num)
    _ = 1 := by norm_num

/-- Of two normal doubles the smaller one does not have the larger exponent. -/
theorem exp_le_of_val_le (ma mb : Nat) (ea eb : Int) (ha : Normal ma) (hb : Normal mb)
    (h : (ma : ℚ) * (2 : ℚ) ^ ea ≤ (mb : ℚ) * (2 : ℚ) ^ eb) : ea ≤ eb := by
  by_contra hlt
  have hlt : eb + 1 ≤ ea := by omega
  have h1 : (2 : ℚ) ^ (eb + 1) ≤ (2 : ℚ) ^ ea := zpow_le_zpow_right₀ (by norm_num) hlt
  rw [zpow_add₀ (by norm_num : (2 : ℚ) ≠ 0), zpow_one] at h1
  have hy : (0 : ℚ) < (2 : ℚ) ^ eb := zpow_pos (by norm_num) _
  have a1 : (2 : ℚ) ^ 52 ≤ (ma : ℚ) := by exact_mod_cast ha.1
  have b2 : (mb : ℚ) < 2 ^ 53 := by exact_mod_cast hb.2
  have c1 : (2 : ℚ) ^ 52 * ((2 : ℚ) ^ eb * 2) ≤ (ma : ℚ) * (2 : ℚ) ^ ea :=
    mul_le_mul a1 h1 (by positivity) (by positivity)
  have c2 : (mb : ℚ) * (2 : ℚ) ^ eb < 2 ^ 53 * (2 : ℚ) ^ eb := mul_lt_mul_of_pos_right b2 hy
  linarith

/-- A quotient of a double by a larger one is at most `1.0`. -/
theorem div_le_one (a b : F64) (ha : a.IsNormal) (hb : b.IsNormal) (h : a.val ≤ b.val) :
    (div a b).val ≤ 1 := by
  cases a with
  | inf => exact ha.elim
  | nan => exact ha.elim
  | fin ma ea =>
    cases b with
    | inf => exact hb.elim
    | nan => exact hb.elim
    | fin mb eb =>
      have hexp := exp_le_of_val_le ma mb ea eb ha hb h
      rw [div_fin ma mb ea eb ha hb]
      split
      · rename_i hle
        rw [norm_val]
        rcases lt_or_eq_of_le hexp with hlt | heq
        · exact mul_zpow_le_one _ _ (div_rne_bounds1 ma mb ha hb hle).2 (by omega)
        · subst heq
          simp only [val] at h
          have hy : (0 : ℚ) < (2 : ℚ) ^ ea := zpow_pos (by norm_num) _
          have h1 : (ma : ℚ) ≤ mb := le_of_mul_le_mul_right h hy
          have h2 : ma ≤ mb := by exact_mod_cast h1
          have h3 : ma = mb := Nat.le_antisymm h2 hle
          subst h3
          have hpos : 0 < ma := by have := ha.1; omega
          rw [Nat.mul_comm, rne_mul_self _ _ hpos]
          have : ea - ea - 52 = -52 := by omega
          rw [this]
          norm_num
      · rw [norm_val]
        rename_i hnle
        exact mul_zpow_le_one _ _ (div_rne_bounds2 ma mb ha hb (Nat.lt_of_not_le hnle)).2
          (by omega)

theorem two_zpow_cases (d : ℤ) :
    (d ≤ -1 ∧ (2 : ℚ) ^ d ≤ 1 / 2) ∨ (d = 0 ∧ (2 : ℚ) ^ d = 1) ∨ (d = 1 ∧ (2 : ℚ) ^ d = 2) ∨
      (2 ≤ d ∧ (4 : ℚ) ≤ (2 : ℚ) ^ d) := by
  rcases lt_trichotomy d 0 with h | h | h
  · left
    refine ⟨by omega, ?_⟩
    have : (2 : ℚ) ^ d ≤ (2 : ℚ) ^ (-1 : ℤ) := zpow_le_zpow_right₀ (by norm_num) (by omega)
    simpa using this
  · right; left
    subst h
    exact ⟨rfl, by simp⟩
  · right; right
    rcases lt_or_eq_of_le (show 1 ≤ d by omega) with h1 | h1
    · right
      refine ⟨by omega, ?_⟩
      have : (2 : ℚ) ^ (2 : ℤ) ≤ (2 : ℚ) ^ d := zpow_le_zpow_right₀ (by norm_num) (by omega)
      norm_num at this
      linarith
    · left
      subst h1
      exact ⟨rfl, by simp⟩

theorem two_zpow_cases5 (d : ℤ) :
    (d ≤ -2 ∧ (2 : ℚ) ^ d ≤ 1 / 4) ∨ (d = -1 ∧ (2 : ℚ) ^ d = 1 / 2) ∨
      (d = 0 ∧ (2 : ℚ) ^ d = 1) ∨ (d = 1 ∧ (2 : ℚ) ^ d = 2) ∨
      (2 ≤ d ∧ (4 : ℚ) ≤ (2 : ℚ) ^ d) := by
  rcases two_zpow_cases d with ⟨h, _⟩ | h | h | h
  · rcases lt_or_eq_of_le h with h1 | h1
    · left
      refine ⟨by omega, ?_⟩
      have : (2 : ℚ) ^ d ≤ (2 : ℚ) ^ (-2 : ℤ) := zpow_le_zpow_right₀ (by norm_num) (by omega)
      norm_num at this
      linarith
    · right; left
      subst h1
      exact ⟨rfl, by norm_num⟩
  · exact Or.inr (Or.inr (Or.inl h))
  · exact Or.inr (Or.inr (Or.inr (Or.inl h)))
  · exact Or.inr (Or.inr (Or.inr (Or.inr h)))

theorem ratio_bounds (u w t lo hi : ℚ) (hw : 0 < w) (h : u = w * t) (h1 : w * lo < u)
    (h2 : u < w * hi) : lo < t ∧ t < hi := by
  rw [h] at h1 h2
  exact ⟨lt_of_mul_lt_mul_left h1 hw.le, lt_of_mul_lt_mul_left h2 hw.le⟩

theorem ratio_11 (A B A2 B2 t : ℚ) (hB : 0 < B) (hA2 : 0 < A2) (hB2 : 0 < B2)
    (hH : A * B2 = A2 * B * t) (q1 : B ≤ A) (a2 : A < 2 * B) (q2 : B2 ≤ A2) (a4 : A2 < 2 * B2) :
    1 / 2 < t ∧ t < 2 := by
  have p1 := mul_le_mul_of_nonneg_right q1 hB2.le
  have p2 := mul_lt_mul_of_pos_right a2 hB2
  have p3 := mul_le_mul_of_nonneg_right q2 hB.le
  have p4 := mul_lt_mul_of_pos_right a4 hB
  apply ratio_bounds (A * B2) (A2 * B) t _ _ (mul_pos hA2 hB) hH <;> linarith

theorem ratio_12 (A B A2 B2 t : ℚ) (hB : 0 < B) (hA2 : 0 < A2) (hB2 : 0 < B2)
    (hH : A * B2 = A2 * B * t) (q1 : B ≤ A) (a2 : A < 2 * B) (q2 : A2 < B2) (a3 : B2 < 2 * A2) :
    1 < t ∧ t < 4 := by
  have p1 := mul_le_mul_of_nonneg_right q1 hB2.le
  have p2 := mul_lt_mul_of_pos_right a2 hB2
  have p3 := mul_lt_mul_of_pos_right q2 hB
  have p4 := mul_lt_mul_of_pos_right a3 hB
  apply ratio_bounds (A * B2) (A2 * B) t _ _ (mul_pos hA2 hB) hH <;> linarith

theorem ratio_21 (A B A2 B2 t : ℚ) (hB : 0 < B) (hA2 : 0 < A2) (hB2 : 0 < B2)
    (hH : A * B2 = A2 * B * t) (q1 : A < B) (a1 : B < 2 * A) (q2 : B2 ≤ A2) (a4 : A2 < 2 * B2) :
    1 / 4 < t ∧ t < 1 := by
  have p1 := mul_lt_mul_of_pos_right q1 hB2
  have p2 := mul_lt_mul_of_pos_right a1 hB2
  have p3 := mul_le_mul_of_nonneg_right q2 hB.le
  have p4 := mul_lt_mul_of_pos_right a4 hB
  apply ratio_bounds (A * B2) (A2 * B) t _ _ (mul_pos hA2 hB) hH <;> linarith

theorem ratio_22 (A B A2 B2 t : ℚ) (hB : 0 < B) (hA2 : 0 < A2) (hB2 : 0 < B2)
    (hH : A * B2 = A2 * B * t) (q1 : A < B) (a1 : B < 2 * A) (q2 : A2 < B2) (a3 : B2 < 2 * A2) :
    1 / 2 < t ∧ t < 2 := by
  have p1 := mul_lt_mul_of_pos_right q1 hB2
  have p2 := mul_lt_mul_of_pos_right a1 hB2
  have p3 := mul_lt_mul_of_pos_right q2 hB
  have p4 := mul_lt_mul_of_pos_right a3 hB
  apply ratio_bounds (A * B2) (A2 * B) t _ _ (mul_pos hA2 hB) hH <;> linarith

/-- The quotient of two doubles depends on the ratio of their values only. -/
theorem div_ratio (a b a2 b2 : F64) (ha : a.IsNormal) (hb : b.IsNormal) (ha2 : a2.IsNormal)
    (hb2 : b2.IsNormal) (h : a.val * b2.val = a2.val * b.val) : div a b = div a2 b2 := by
  cases a with
  | inf => exact ha.elim
  | nan => exact ha.elim
  | fin ma ea =>
  cases b with
  | inf => exact hb.elim
  | nan => exact hb.elim
  | fin mb eb =>
  cases a2 with
  | inf => exact ha2.elim
  | nan => exact ha2.elim
  | fin ma2 ea2 =>
  cases b2 with
  | inf => exact hb2.elim
  | nan => exact hb2.elim
  | fin mb2 eb2 =>
  have h2 : (2 : ℚ) ≠ 0 := by norm_num
  have hA : (0 : ℚ) < ma := by have := ha.1; exact_mod_cast (by omega : 0 < ma)
  have hB : (0 : ℚ) < mb := by have := hb.1; exact_mod_cast (by omega : 0 < mb)
  have hA2 : (0 : ℚ) < ma2 := by have := ha2.1; exact_mod_cast (by omega : 0 < ma2)
  have hB2 : (0 : ℚ) < mb2 := by have := hb2.1; exact_mod_cast (by omega : 0 < mb2)
  have hmb : 0 < mb := by have := hb.1; omega
  have hmb2 : 0 < mb2 := by have := hb2.1; omega
  -- the equation of values, with the powers of two collected
  have hpow : (2 : ℚ) ^ ea2 * (2 : ℚ) ^ eb
      = (2 : ℚ) ^ ea * (2 : ℚ) ^ eb2 * (2 : ℚ) ^ (ea2 + eb - (ea + eb2)) := by
    rw [← zpow_add₀ h2, ← zpow_add₀ h2, ← zpow_add₀ h2]
    congr 1; ring
  have hxy : (0 : ℚ) < (2 : ℚ) ^ ea * (2 : ℚ) ^ eb2 :=
    mul_pos (zpow_pos (by norm_num) _) (zpow_pos (by norm_num) _)
  have hH : (ma : ℚ) * mb2 = ma2 * mb * (2 : ℚ) ^ (ea2 + eb - (ea + eb2)) := by
    simp only [val] at h
    have e1 : (ma : ℚ) * mb2 * ((2 : ℚ) ^ ea * (2 : ℚ) ^ eb2)
        = ma2 * mb * (2 : ℚ) ^ (ea2 + eb - (ea + eb2)) * ((2 : ℚ) ^ ea * (2 : ℚ) ^ eb2) := by
      calc (ma : ℚ) * mb2 * ((2 : ℚ) ^ ea * (2 : ℚ) ^ eb2)
          = (ma : ℚ) * (2 : ℚ) ^ ea * (mb2 * (2 : ℚ) ^ eb2) := by ring
        _ = (ma2 : ℚ) * (2 : ℚ) ^ ea2 * (mb * (2 : ℚ) ^ eb) := h
        _ = ma2 * mb * ((2 : ℚ) ^ ea2 * (2 : ℚ) ^ eb) := by ring
        _ = _ := by rw [hpow]; ring
    exact mul_right_cancel₀ (ne_of_gt hxy) e1
  -- bounds on the significands
  have a1 : (mb : ℚ) < 2 * ma := by
    have := ha.1; have := hb.2
    have : mb < 2 * ma := by norm_num at *; omega
    exact_mod_cast this
  have a2 : (ma : ℚ) < 2 * mb := by
    have := ha.2; have := hb.1
    have : ma < 2 * mb := by norm_num at *; omega
    exact_mod_cast this
  have a3 : (mb2 : ℚ) < 2 * ma2 := by
    have := ha2.1; have := hb2.2
    have : mb2 < 2 * ma2 := by norm_num at *; omega
    exact_mod_cast this
  have a4 : (ma2 : ℚ) < 2 * mb2 := by
    have := ha2.2; have := hb2.1
    have : ma2 < 2 * mb2 := by norm_num at *; omega
    exact_mod_cast this
  rw [div_fin ma mb ea eb ha hb, div_fin ma2 mb2 ea2 eb2 ha2 hb2]
  generalize hd : ea2 + eb - (ea + eb2) = d at hH
  generalize ht : (2 : ℚ) ^ d = t at hH
  have hw : (0 : ℚ) < ma2 * mb := mul_pos hA2 hB
  by_cases c1 : mb ≤ ma <;> by_cases c2 : mb2 ≤ ma2
  · -- both quotients are in [1, 2)
    have q1 : (mb : ℚ) ≤ ma := by exact_mod_cast c1
    have q2 : (mb2 : ℚ) ≤ ma2 := by exact_mod_cast c2
    simp only [c1, c2, if_true]
    obtain ⟨hb1, hb2⟩ := ratio_11 _ _ _ _ t hB hA2 hB2 hH q1 a2 q2 a4
    have hd0 : d = 0 ∧ t = 1 := by
      rcases two_zpow_cases5 d with ⟨_, k⟩ | ⟨_, k⟩ | ⟨k0, k⟩ | ⟨_, k⟩ | ⟨_, k⟩
      · exfalso; rw [ht] at k; linarith [hb1, hb2]
      · exfalso; rw [ht] at k; linarith [hb1, hb2]
      · rw [ht] at k; exact ⟨k0, k⟩
      · exfalso; rw [ht] at k; linarith [hb1, hb2]
      · exfalso; rw [ht] at k; linarith [hb1, hb2]
    obtain ⟨hd0, ht1⟩ := hd0
    rw [ht1, mul_one] at hH
    have hnat : ma * mb2 = ma2 * mb := by exact_mod_cast hH
    have hr : rne (ma * 2 ^ 52) mb = rne (ma2 * 2 ^ 52) mb2 := by
      apply rne_ratio _ _ _ _ hmb hmb2
      calc ma * 2 ^ 52 * mb2 = ma * mb2 * 2 ^ 52 := by ring
        _ = ma2 * mb * 2 ^ 52 := by rw [hnat]
        _ = ma2 * 2 ^ 52 * mb := by ring
    have he : ea - eb - 52 = ea2 - eb2 - 52 := by omega
    rw [hr, he]
  · -- the first quotient is in [1, 2), the second in (1/2, 1)
    have c2 : ma2 < mb2 := Nat.lt_of_not_le c2
    have q1 : (mb : ℚ) ≤ ma := by exact_mod_cast c1
    have q2 : (ma2 : ℚ) < mb2 := by exact_mod_cast c2
    simp only [c1, Nat.not_le.2 c2, if_true, if_false]
    obtain ⟨hb1, hb2⟩ := ratio_12 _ _ _ _ t hB hA2 hB2 hH q1 a2 q2 a3
    have hd0 : d = 1 ∧ t = 2 := by
      rcases two_zpow_cases5 d with ⟨_, k⟩ | ⟨_, k⟩ | ⟨_, k⟩ | ⟨k0, k⟩ | ⟨_, k⟩
      · exfalso; rw [ht] at k; linarith [hb1, hb2]
      · exfalso; rw [ht] at k; linarith [hb1, hb2]
      · exfalso; rw [ht] at k; linarith [hb1, hb2]
      · rw [ht] at k; exact ⟨k0, k⟩
      · exfalso; rw [ht] at k; linarith [hb1, hb2]
    obtain ⟨hd0, ht1⟩ := hd0
    rw [ht1] at hH
    have hnat : ma * mb2 = ma2 * mb * 2 := by exact_mod_cast hH
    have hr : rne (ma * 2 ^ 52) mb = rne (ma2 * 2 ^ 53) mb2 := by
      apply rne_ratio _ _ _ _ hmb hmb2
      calc ma * 2 ^ 52 * mb2 = ma * mb2 * 2 ^ 52 := by ring
        _ = ma2 * mb * 2 * 2 ^ 52 := by rw [hnat]
        _ = ma2 * 2 ^ 53 * mb := by ring
    have he : ea - eb - 52 = ea2 - eb2 - 53 := by omega
    rw [hr, he]
  · -- the first quotient is in (1/2, 1), the second in [1, 2)
    have c1 : ma < mb := Nat.lt_of_not_le c1
    have q1 : (ma : ℚ) < mb := by exact_mod_cast c1
    have q2 : (mb2 : ℚ) ≤ ma2 := by exact_mod_cast c2
    simp only [c2, Nat.not_le.2 c1, if_true, if_false]
    obtain ⟨hb1, hb2⟩ := ratio_21 _ _ _ _ t hB hA2 hB2 hH q1 a1 q2 a4
    have hd0 : d = -1 ∧ t = 1 / 2 := by
      rcases two_zpow_cases5 d with ⟨_, k⟩ | ⟨k0, k⟩ | ⟨_, k⟩ | ⟨_, k⟩ | ⟨_, k⟩
      · exfalso; rw [ht] at k; linarith [hb1, hb2]
      · rw [ht] at k; exact ⟨k0, k⟩
      · exfalso; rw [ht] at k; linarith [hb1, hb2]
      · exfalso; rw [ht] at k; linarith [hb1, hb2]
      · exfalso; rw [ht] at k; linarith [hb1, hb2]
    obtain ⟨hd0, ht1⟩ := hd0
    rw [ht1] at hH
    have hH2 : (ma : ℚ) * mb2 * 2 = ma2 * mb := by linarith
    have hnat : ma * mb2 * 2 = ma2 * mb := by exact_mod_cast hH2
    have hr : rne (ma * 2 ^ 53) mb = rne (ma2 * 2 ^ 52) mb2 := by
      apply rne_ratio _ _ _ _ hmb hmb2
      calc ma * 2 ^ 53 * mb2 = ma * mb2 * 2 * 2 ^ 52 := by ring
        _ = ma2 * mb * 2 ^ 52 := by rw [hnat]
        _ = ma2 * 2 ^ 52 * mb := by ring
    have he : ea - eb - 53 = ea2 - eb2 - 52 := by omega
    rw [hr, he]
  · -- both quotients are in (1/2, 1)
    have c1 : ma < mb := Nat.lt_of_not_le c1
    have c2 : ma2 < mb2 := Nat.lt_of_not_le c2
    have q1 : (ma : ℚ) < mb := by exact_mod_cast c1
    have q2 : (ma2 : ℚ) < mb2 := by exact_mod_cast c2
    simp only [Nat.not_le.2 c1, Nat.not_le.2 c2, if_false]
    obtain ⟨hb1, hb2⟩ := ratio_22 _ _ _ _ t hB hA2 hB2 hH q1 a1 q2 a3
    have hd0 : d = 0 ∧ t = 1 := by
      rcases two_zpow_cases5 d with ⟨_, k⟩ | ⟨_, k⟩ | ⟨k0, k⟩ | ⟨_, k⟩ | ⟨_, k⟩
      · exfalso; rw [ht] at k; linarith [hb1, hb2]
      · exfalso; rw [ht] at k; linarith [hb1, hb2]
      · rw [ht] at k; exact ⟨k0, k⟩
      · exfalso; rw [ht] at k; linarith [hb1, hb2]
      · exfalso; rw [ht] at k; linarith [hb1, hb2]
    obtain ⟨hd0, ht1⟩ := hd0
    rw [ht1, mul_one] at hH
    have hnat : ma * mb2 = ma2 * mb := by exact_mod_cast hH
    have hr : rne (ma * 2 ^ 53) mb = rne (ma2 * 2 ^ 53) mb2 := by
      apply rne_ratio _ _ _ _ hmb hmb2
      calc ma * 2 ^ 53 * mb2 = ma * mb2 * 2 ^ 53 := by ring
        _ = ma2 * mb * 2 ^ 53 := by rw [hnat]
        _ = ma2 * 2 ^ 53 * mb := by ring
    have he : ea - eb - 53 = ea2 - eb2 - 53 := by omega
    rw [hr, he]

end F64

/-! ## Comparison of doubles -/

namespace F64

theorem ge_fin_iff (ma mb : Nat) (ea eb : Int) :
    ge (.fin ma ea) (.fin mb eb) = true ↔ (mb : ℚ) * (2 : ℚ) ^ eb ≤ (ma : ℚ) * (2 : ℚ) ^ ea := by
  have ha : 0 ≤ ea - min ea eb := by have := min_le_left ea eb; omega
  have hb : 0 ≤ eb - min ea eb := by have := min_le_right ea eb; omega
  have h2 : (0 : ℚ) < 2 := by norm_num
  have hk : (0 : ℚ) < (2 : ℚ) ^ (min ea eb) := zpow_pos h2 _
  have ea_eq : (2 : ℚ) ^ ea = (2 : ℚ) ^ (ea - min ea eb).toNat * (2 : ℚ) ^ (min ea eb) := by
    rw [← zpow_natCast, Int.toNat_of_nonneg ha, ← zpow_add₀ (ne_of_gt h2)]; congr 1; ring
  have eb_eq : (2 : ℚ) ^ eb = (2 : ℚ) ^ (eb - min ea eb).toNat * (2 : ℚ) ^ (min ea eb) := by
    rw [← zpow_natCast, Int.toNat_of_nonneg hb, ← zpow_add₀ (ne_of_gt h2)]; congr 1; ring
  rw [ea_eq, eb_eq, ← mul_assoc, ← mul_assoc, mul_le_mul_right hk]
  simp only [ge, decide_eq_true_eq]
  constructor <;> intro h <;> exact_mod_cast h

/-- A sample that reaches a finite bound reaches every smaller finite bound. -/
theorem ge_of_ge_of_le (v : F64) (mb mc : Nat) (eb ec : Int)
    (hbc : (mc : ℚ) * (2 : ℚ) ^ ec ≤ (mb : ℚ) * (2 : ℚ) ^ eb)
    (h : ge v (.fin mb eb) = true) : ge v (.fin mc ec) = true := by
  cases v with
  | nan => simp [ge] at h
  | inf => rfl
  | fin m e =>
    rw [ge_fin_iff] at h ⊢
    exact le_trans hbc h

end F64

/-- The three threshold constants are the correctly rounded quotients `95 / 100`,
`99 / 100` and `999 / 1000`. -/
theorem thresholds_correctly_rounded :
    thr95 = F64.div (F64.ofU64 95) (F64.ofU64 100) ∧
      thr99 = F64.div (F64.ofU64 99) (F64.ofU64 100) ∧
      thr999 = F64.div (F64.ofU64 999) (F64.ofU64 1000) := by
  decide

theorem ge_thr99_of_ge_thr999 (v : F64) (h : F64.ge v thr999 = true) : F64.ge v thr99 = true := by
  refine F64.ge_of_ge_of_le v _ _ _ _ ?_ h
  norm_num

theorem ge_thr95_of_ge_thr99 (v : F64) (h : F64.ge v thr99 = true) : F64.ge v thr95 = true := by
  refine F64.ge_of_ge_of_le v _ _ _ _ ?_ h
  norm_num

/-! ## The counting loop of convergence `PrintThroughput` in closed form -/

namespace Convergence

theorem foldl_loopStep (now : Nat) : ∀ (l pre : List Nat) (c s q : Nat)
    (out : List Out) (seen : List Nat),
    (List.range' pre.length l.length).foldl (loopStep now)
        ⟨wrap32 c, wrap64 s, wrap64 q, pre ++ l, out, seen⟩
      = ⟨wrap32 (c + l.countP (fun b => b != 0)), wrap64 (s + l.sum),
          wrap64 (q + (l.map (fun b => b * b)).sum),
          pre ++ List.replicate l.length 0, out ++ rowsFrom now pre.length l, seen ++ l⟩ := by
  intro l
  induction l with
  | nil => intro pre c s q out seen; simp [rowsFrom]
  | cons b l ih =>
    intro pre c s q out seen
    have hget : (pre ++ b :: l).getD pre.length 0 = b := by
      rw [List.getD_eq_getElem?_getD, List.getElem?_append_right (Nat.le_refl _)]
      simp
    have hset : (pre ++ b :: l).set pre.length 0 = (pre ++ [0]) ++ l := by simp
    have hlen : (pre ++ [0]).length = pre.length + 1 := by simp
    rw [List.length_cons, List.range'_succ, List.foldl_cons]
    by_cases hb : b = 0
    · subst hb
      have hstep : loopStep now ⟨wrap32 c, wrap64 s, wrap64 q, pre ++ 0 :: l, out, seen⟩ pre.length
          = ⟨wrap32 c, wrap64 s, wrap64 q, (pre ++ [0]) ++ l, out, seen ++ [0]⟩ := by
        simp only [loopStep, hget, hset, ne_eq, not_true_eq_false, if_false]
        simp
      rw [hstep, ← hlen, ih]
      simp [rowsFrom, List.replicate_succ]
    · have hstep : loopStep now ⟨wrap32 c, wrap64 s, wrap64 q, pre ++ b :: l, out, seen⟩ pre.length
          = ⟨wrap32 (c + 1), wrap64 (s + b), wrap64 (q + b * b), (pre ++ [0]) ++ l,
              out ++ [Out.thpt now pre.length (wrap64 (b * 8))], seen ++ [b]⟩ := by
        simp only [loopStep, hget, hset, hb, ne_eq, not_false_eq_true, if_true,
          wrap32_wrap32_add, wrap64_wrap64_add, wrap64_add_wrap64]
      rw [hstep, ← hlen, ih]
      simp [rowsFrom, List.replicate_succ, hb, Nat.add_assoc, Nat.add_comm 1]

/-- The counting loop over a vector of exactly `N` counters. -/
theorem loop_eq (N now : Nat) (bytes : List Nat) (hlen : bytes.length = N) :
    loop N now bytes
      = ⟨wrap32 (bytes.countP (fun b => b != 0)), wrap64 bytes.sum,
          wrap64 (bytes.map (fun b => b * b)).sum,
          List.replicate N 0, rowsFrom now 0 bytes, bytes⟩ := by
  have h := foldl_loopStep now bytes [] 0 0 0 [] []
  simp only [List.length_nil, List.nil_append, Nat.zero_add, wrap32_zero, wrap64_zero] at h
  subst hlen
  rw [loop, List.range_eq_range', h]


theorem wrap32_countP_eq_iff (N : Nat) (bytes : List Nat) (hlen : bytes.length = N)
    (hN : N < 2 ^ 32) :
    wrap32 (bytes.countP (fun b => b != 0)) = N ↔ ∀ b ∈ bytes, b ≠ 0 := by
  have hle : bytes.countP (fun b => b != 0) ≤ N := hlen ▸ List.countP_le_length _
  rw [wrap32_of_lt (Nat.lt_of_le_of_lt hle hN), ← hlen, List.countP_eq_length]
  simp

/-- One tick on which every counter is non-zero. -/
theorem PrintThroughput_all (N now : Nat) (s : State) (hlen : s.rxS1R1Bytes.length = N)
    (hN : N < 2 ^ 32) (hall : ∀ b ∈ s.rxS1R1Bytes, b ≠ 0) :
    PrintThroughput N now s =
      (⟨List.replicate N 0, (fairnessBlock now (fairnessOf N (wrap64 s.rxS1R1Bytes.sum)
          (wrap64 (s.rxS1R1Bytes.map (fun b => b * b)).sum)) s.flags).1⟩,
        rowsFrom now 0 s.rxS1R1Bytes
          ++ [Out.aggr now N (wrap64 (wrap64 s.rxS1R1Bytes.sum * 8)) N,
              Out.util now (wrap64 (wrap64 s.rxS1R1Bytes.sum * 8))]
          ++ (fairnessBlock now (fairnessOf N (wrap64 s.rxS1R1Bytes.sum)
              (wrap64 (s.rxS1R1Bytes.map (fun b => b * b)).sum)) s.flags).2
          ++ [Out.sched measurementInterval]) := by
  have hc := (wrap32_countP_eq_iff N s.rxS1R1Bytes hlen hN).2 hall
  simp only [PrintThroughput, loop_eq N now s.rxS1R1Bytes hlen, hc, if_true]

/-- One tick on which some counter is zero. -/
theorem PrintThroughput_some_zero (N now : Nat) (s : State)
    (hlen : s.rxS1R1Bytes.length = N) (hN : N < 2 ^ 32) (hz : ∃ b ∈ s.rxS1R1Bytes, b = 0) :
    PrintThroughput N now s =
      (⟨List.replicate N 0, s.flags⟩,
        rowsFrom now 0 s.rxS1R1Bytes
          ++ [Out.aggr now N (wrap64 (wrap64 s.rxS1R1Bytes.sum * 8))
                (wrap32 (s.rxS1R1Bytes.countP (fun b => b != 0))),
              Out.util now (wrap64 (wrap64 s.rxS1R1Bytes.sum * 8))]
          ++ [Out.sched measurementInterval]) := by
  have hc : ¬ wrap32 (s.rxS1R1Bytes.countP (fun b => b != 0)) = N := by
    rw [wrap32_countP_eq_iff N s.rxS1R1Bytes hlen hN]
    obtain ⟨b, hb, hb0⟩ := hz
    exact fun h => h b hb hb0
  simp only [PrintThroughput, loop_eq N now s.rxS1R1Bytes hlen, hc, if_false]

theorem rowsFrom_countP_isJain (now : Nat) : ∀ (l : List Nat) (k : Nat),
    (rowsFrom now k l).countP isJain = 0 := by
  intro l
  induction l with
  | nil => intro k; simp [rowsFrom]
  | cons b l ih =>
    intro k
    by_cases hb : b = 0 <;> simp [rowsFrom, hb, ih, isJain]

theorem rowsFrom_noteCount (now : Nat) (t : Thr) : ∀ (l : List Nat) (k : Nat),
    noteCount t (rowsFrom now k l) = 0 := by
  intro l
  induction l with
  | nil => intro k; simp [rowsFrom, noteCount]
  | cons b l ih =>
    intro k
    have := ih (k + 1)
    unfold noteCount at this ⊢
    by_cases hb : b = 0 <;> simp [rowsFrom, hb, this, isNote]

theorem rowsFrom_sample (now : Nat) : ∀ (l : List Nat) (k : Nat) (rest : List Out),
    sample (rowsFrom now k l ++ rest) = sample rest := by
  intro l
  induction l with
  | nil => intro k rest; simp [rowsFrom]
  | cons b l ih =>
    intro k rest
    have := ih (k + 1) rest
    unfold sample at this ⊢
    by_cases hb : b = 0 <;> simp [rowsFrom, hb, this]


/-! ## The threshold statements -/

theorem fairnessBlock_flagOf (now : Nat) (v : F64) (f : Flags) (t : Thr) :
    flagOf t (fairnessBlock now v f).1 = (flagOf t f || F64.ge v (thrOf t)) := by
  obtain ⟨a, b, c⟩ := f
  cases t <;> simp only [fairnessBlock, check, flagOf, thrOf] <;>
    generalize F64.ge v _ = g <;> cases g <;> cases a <;> cases b <;> cases c <;> rfl

theorem check_noteCount (t u : Thr) (thr : F64) (now : Nat) (v : F64) (flag : Bool) :
    noteCount u (check t thr now v flag).2
      = if t = u ∧ (F64.ge v thr && !flag) = true then 1 else 0 := by
  unfold check noteCount
  by_cases h : (F64.ge v thr && !flag) = true
  · by_cases htu : t = u <;> simp [h, isNote, htu]
  · simp [h]

theorem check_countP_isJain (t : Thr) (thr : F64) (now : Nat) (v : F64) (flag : Bool) :
    (check t thr now v flag).2.countP isJain = 0 := by
  unfold check
  by_cases h : (F64.ge v thr && !flag) = true <;> simp [h, isJain]

theorem fairnessBlock_noteCount (now : Nat) (v : F64) (f : Flags) (t : Thr) :
    noteCount t (fairnessBlock now v f).2 = if F64.ge v (thrOf t) && !flagOf t f then 1 else 0 := by
  have h95 := check_noteCount Thr.t95 t thr95 now v f.flag95
  have h99 := check_noteCount Thr.t99 t thr99 now v f.flag99
  have h999 := check_noteCount Thr.t999 t thr999 now v f.flag999
  unfold noteCount at h95 h99 h999 ⊢
  simp only [fairnessBlock, List.countP_append, h95, h99, h999]
  cases t <;> simp [isNote, thrOf, flagOf]

theorem fairnessBlock_countP_isJain (now : Nat) (v : F64) (f : Flags) :
    (fairnessBlock now v f).2.countP isJain = 1 := by
  simp only [fairnessBlock, List.countP_append, check_countP_isJain]
  simp [isJain]

theorem fairnessBlock_sample (now : Nat) (v : F64) (f : Flags) (rest : List Out) :
    sample ((fairnessBlock now v f).2 ++ rest) = some v := by
  simp [fairnessBlock, sample]

/-- The sample of a tick on which every counter is non-zero. -/
theorem sample_all (N now : Nat) (s : State) (hlen : s.rxS1R1Bytes.length = N)
    (hN : N < 2 ^ 32) (hall : ∀ b ∈ s.rxS1R1Bytes, b ≠ 0) :
    sample (PrintThroughput N now s).2 = some (fairnessOf N (wrap64 s.rxS1R1Bytes.sum)
      (wrap64 (s.rxS1R1Bytes.map (fun b => b * b)).sum)) := by
  rw [PrintThroughput_all N now s hlen hN hall]
  simp only [List.append_assoc]
  rw [rowsFrom_sample]
  simp [fairnessBlock, sample]

/-- The sample of a tick on which some counter is zero. -/
theorem sample_some_zero (N now : Nat) (s : State) (hlen : s.rxS1R1Bytes.length = N)
    (hN : N < 2 ^ 32) (hz : ∃ b ∈ s.rxS1R1Bytes, b = 0) :
    sample (PrintThroughput N now s).2 = none := by
  rw [PrintThroughput_some_zero N now s hlen hN hz]
  simp only [List.append_assoc]
  rw [rowsFrom_sample]
  simp [sample]


/-! ## Flags and notifications over one tick -/

theorem PrintThroughput_flagOf_mono (N now : Nat) (s : State) (t : Thr)
    (h : flagOf t s.flags = true) : flagOf t (PrintThroughput N now s).1.flags = true := by
  unfold PrintThroughput
  dsimp only
  split
  · rw [fairnessBlock_flagOf, h]; rfl
  · exact h

theorem PrintThroughput_flagOf (N now : Nat) (s : State) (hlen : s.rxS1R1Bytes.length = N)
    (hN : N < 2 ^ 32) (t : Thr) :
    flagOf t (PrintThroughput N now s).1.flags
      = (flagOf t s.flags || crossed t (PrintThroughput N now s).2) := by
  by_cases hall : ∀ b ∈ s.rxS1R1Bytes, b ≠ 0
  · have hs := sample_all N now s hlen hN hall
    unfold crossed
    rw [hs, PrintThroughput_all N now s hlen hN hall]
    exact fairnessBlock_flagOf _ _ _ _
  · have hz : ∃ b ∈ s.rxS1R1Bytes, b = 0 := by
      by_contra hne
      exact hall (fun b hb hb0 => hne ⟨b, hb, hb0⟩)
    have hs := sample_some_zero N now s hlen hN hz
    unfold crossed
    rw [hs, PrintThroughput_some_zero N now s hlen hN hz]
    simp

theorem PrintThroughput_noteCount (N now : Nat) (s : State) (hlen : s.rxS1R1Bytes.length = N)
    (hN : N < 2 ^ 32) (t : Thr) :
    noteCount t (PrintThroughput N now s).2
      = if crossed t (PrintThroughput N now s).2 && !flagOf t s.flags then 1 else 0 := by
  by_cases hall : ∀ b ∈ s.rxS1R1Bytes, b ≠ 0
  · have hs := sample_all N now s hlen hN hall
    unfold crossed
    rw [hs, PrintThroughput_all N now s hlen hN hall]
    have h1 := rowsFrom_noteCount now t s.rxS1R1Bytes 0
    have h2 := fairnessBlock_noteCount now (fairnessOf N (wrap64 s.rxS1R1Bytes.sum)
      (wrap64 (s.rxS1R1Bytes.map (fun b => b * b)).sum)) s.flags t
    unfold noteCount at h1 h2 ⊢
    simp only [List.countP_append, h1, h2]
    simp [isNote]
  · have hz : ∃ b ∈ s.rxS1R1Bytes, b = 0 := by
      by_contra hne
      exact hall (fun b hb hb0 => hne ⟨b, hb, hb0⟩)
    have hs := sample_some_zero N now s hlen hN hz
    unfold crossed
    rw [hs, PrintThroughput_some_zero N now s hlen hN hz]
    have h1 := rowsFrom_noteCount now t s.rxS1R1Bytes 0
    unfold noteCount at h1 ⊢
    simp only [List.countP_append, h1]
    simp [isNote]

/-! ## Sequences of ticks -/

theorem runTicks_append (N : Nat) : ∀ (a b : List (Nat × List Nat)) (f : Flags),
    (runTicks N f (a ++ b)).1 = (runTicks N (runTicks N f a).1 b).1 := by
  intro a
  induction a with
  | nil => intro b f; rfl
  | cons p a ih => intro b f; simp only [List.cons_append, runTicks]; exact ih b _

theorem runTicks_flagOf_mono (N : Nat) (t : Thr) : ∀ (ticks : List (Nat × List Nat)) (f : Flags),
    flagOf t f = true → flagOf t (runTicks N f ticks).1 = true := by
  intro ticks
  induction ticks with
  | nil => intro f h; exact h
  | cons p ps ih =>
    intro f h
    simp only [runTicks]
    exact ih _ (PrintThroughput_flagOf_mono N p.1 ⟨p.2, f⟩ t h)

theorem fairnessBlock_ordered (now : Nat) (v : F64) (f : Flags) (h : Ordered f) :
    Ordered (fairnessBlock now v f).1 := by
  have h95 := fairnessBlock_flagOf now v f Thr.t95
  have h99 := fairnessBlock_flagOf now v f Thr.t99
  have h999 := fairnessBlock_flagOf now v f Thr.t999
  simp only [flagOf, thrOf] at h95 h99 h999
  unfold Ordered
  rw [h95, h99, h999]
  obtain ⟨h1, h2⟩ := h
  constructor
  · intro hx
    rcases Bool.or_eq_true _ _ ▸ hx with hx | hx
    · simp [h1 hx]
    · simp [ge_thr99_of_ge_thr999 v hx]
  · intro hx
    rcases Bool.or_eq_true _ _ ▸ hx with hx | hx
    · simp [h2 hx]
    · simp [ge_thr95_of_ge_thr99 v hx]

theorem PrintThroughput_ordered (N now : Nat) (s : State) (h : Ordered s.flags) :
    Ordered (PrintThroughput N now s).1.flags := by
  unfold PrintThroughput
  dsimp only
  split
  · exact fairnessBlock_ordered _ _ _ h
  · exact h

theorem runTicks_ordered (N : Nat) : ∀ (ticks : List (Nat × List Nat)) (f : Flags),
    Ordered f → Ordered (runTicks N f ticks).1 := by
  intro ticks
  induction ticks with
  | nil => intro f h; exact h
  | cons p ps ih =>
    intro f h
    simp only [runTicks]
    exact ih _ (PrintThroughput_ordered N p.1 ⟨p.2, f⟩ h)


theorem runTicks_noteCount (N : Nat) (hN : N < 2 ^ 32) (t : Thr) :
    ∀ (ticks : List (Nat × List Nat)) (f : Flags) (k : Nat),
    (∀ p ∈ ticks, p.2.length = N) →
    noteCount t ((runTicks N f ticks).2.getD k [])
      = if crossed t ((runTicks N f ticks).2.getD k []) = true ∧ flagOf t f = false ∧
            ∀ j, j < k → crossed t ((runTicks N f ticks).2.getD j []) = false
        then 1 else 0 := by
  intro ticks
  induction ticks with
  | nil =>
    intro f k _
    simp [runTicks, noteCount, crossed, sample]
  | cons p ps ih =>
    intro f k hlen
    have hp : p.2.length = N := hlen p (List.mem_cons_self _ _)
    have hps : ∀ q ∈ ps, q.2.length = N := fun q hq => hlen q (List.mem_cons_of_mem _ hq)
    have hnote := PrintThroughput_noteCount N p.1 ⟨p.2, f⟩ hp hN t
    have hflag := PrintThroughput_flagOf N p.1 ⟨p.2, f⟩ hp hN t
    simp only [runTicks]
    cases k with
    | zero =>
      simp only [List.getD_cons_zero, hnote]
      refine if_congr ?_ rfl rfl
      simp [Bool.and_eq_true]
    | succ k =>
      simp only [List.getD_cons_succ]
      rw [ih _ k hps, hflag]
      congr 1
      apply propext
      constructor
      · rintro ⟨h1, h2, h3⟩
        simp only [Bool.or_eq_false_iff] at h2
        refine ⟨h1, h2.1, ?_⟩
        intro j hj
        cases j with
        | zero => simpa using h2.2
        | succ j => simpa using h3 j (by omega)
      · rintro ⟨h1, h2, h3⟩
        refine ⟨h1, ?_, ?_⟩
        · simp only [Bool.or_eq_false_iff]
          exact ⟨h2, by simpa using h3 0 (by omega)⟩
        · intro j hj
          simpa using h3 (j + 1) (by omega)


/-! ## Window attribution -/

theorem windowBytes_append_pkt (i j sz : Nat) : ∀ cur : List Step,
    windowBytes i (cur ++ [Step.pkt j sz]) = windowBytes i cur + (if j = i then sz else 0) := by
  intro cur
  induction cur with
  | nil => simp [windowBytes]
  | cons e cur ih =>
    cases e with
    | pkt k s =>
      have h : windowBytes i (Step.pkt k s :: cur ++ [Step.pkt j sz])
          = (if k = i then s else 0) + windowBytes i (cur ++ [Step.pkt j sz]) := rfl
      have h2 : windowBytes i (Step.pkt k s :: cur)
          = (if k = i then s else 0) + windowBytes i cur := rfl
      rw [h, h2, ih]; omega
    | tick n =>
      have h : windowBytes i (Step.tick n :: cur ++ [Step.pkt j sz])
          = windowBytes i (cur ++ [Step.pkt j sz]) := rfl
      have h2 : windowBytes i (Step.tick n :: cur) = windowBytes i cur := rfl
      rw [h, h2, ih]

theorem PrintThroughput_bytes (N now : Nat) (s : State) (hlen : s.rxS1R1Bytes.length = N) :
    (PrintThroughput N now s).1.rxS1R1Bytes = List.replicate N 0 := by
  unfold PrintThroughput
  dsimp only
  split <;> simp [loop_eq N now s.rxS1R1Bytes hlen]

theorem TraceSink_totals (N i sz : Nat) (hi : i < N) (s : State) (cur : List Step)
    (hs : s.rxS1R1Bytes = (List.range N).map (fun j => wrap64 (windowBytes j cur))) :
    (TraceSink i sz s).rxS1R1Bytes
      = (List.range N).map (fun j => wrap64 (windowBytes j (cur ++ [Step.pkt i sz]))) := by
  apply List.ext_getElem
  · simp [TraceSink, hs]
  · intro j h1 h2
    have hj : j < N := by simpa using h2
    have hget : s.rxS1R1Bytes.getD i 0 = wrap64 (windowBytes i cur) := by
      rw [hs, List.getD_eq_getElem?_getD, List.getElem?_eq_getElem (by simpa using hi)]
      simp
    simp only [TraceSink, List.getElem_set, hget, List.getElem_map, List.getElem_range,
      windowBytes_append_pkt, wrap64_wrap64_add]
    by_cases hij : i = j
    · subst hij; simp
    · simp [hij, hs]

theorem exec_eq_windowTotals (N : Nat) : ∀ (steps : List Step) (s : State) (cur : List Step),
    s.rxS1R1Bytes = (List.range N).map (fun j => wrap64 (windowBytes j cur)) →
    (∀ i sz, Step.pkt i sz ∈ steps → i < N) →
    exec N s steps = windowTotals N cur steps := by
  intro steps
  induction steps with
  | nil => intro s cur _ _; rfl
  | cons e rest ih =>
    intro s cur hs hidx
    have hrest : ∀ i sz, Step.pkt i sz ∈ rest → i < N :=
      fun i sz h => hidx i sz (List.mem_cons_of_mem _ h)
    cases e with
    | pkt i sz =>
      have hi : i < N := hidx i sz (List.mem_cons_self _ _)
      simp only [exec, windowTotals, windowsFrom]
      exact ih _ _ (TraceSink_totals N i sz hi s cur hs) hrest
    | tick now =>
      have hlen : s.rxS1R1Bytes.length = N := by simp [hs]
      have hzero : (PrintThroughput N now s).1.rxS1R1Bytes
          = (List.range N).map (fun j => wrap64 (windowBytes j [])) := by
        rw [PrintThroughput_bytes N now s hlen]
        apply List.ext_getElem <;> simp [windowBytes, wrap64]
      simp only [exec, windowTotals, windowsFrom, List.map_cons]
      rw [ih _ [] hzero hrest, loop_eq N now s.rxS1R1Bytes hlen, hs]
      rfl

end Convergence

/-! ## Sums of byte counts -/

theorem sumSq_cons (b : Nat) (l : List Nat) : sumSq (b :: l) = b * b + sumSq l := by
  simp [sumSq]

theorem sumSq_le_sq : ∀ l : List Nat, sumSq l ≤ l.sum * l.sum := by
  intro l
  induction l with
  | nil => simp [sumSq]
  | cons b l ih =>
    rw [sumSq_cons, List.sum_cons]
    have : (b + l.sum) * (b + l.sum) = b * b + 2 * (b * l.sum) + l.sum * l.sum := by ring
    omega

theorem two_mul_sum_le (b : Nat) : ∀ l : List Nat,
    2 * (b * l.sum) ≤ l.length * (b * b) + sumSq l := by
  intro l
  induction l with
  | nil => simp [sumSq]
  | cons c l ih =>
    rw [sumSq_cons, List.sum_cons, List.length_cons]
    have h1 : 2 * (b * c) ≤ b * b + c * c := by nlinarith [sq_nonneg ((b : ℤ) - c)]
    have h2 : b * (c + l.sum) = b * c + b * l.sum := by ring
    have h3 : (l.length + 1) * (b * b) = l.length * (b * b) + b * b := by ring
    omega

/-- The inequality behind Jain's index: `(Σ bᵢ)² ≤ n · Σ bᵢ²`. -/
theorem sq_sum_le : ∀ l : List Nat, l.sum * l.sum ≤ l.length * sumSq l := by
  intro l
  induction l with
  | nil => simp [sumSq]
  | cons b l ih =>
    rw [sumSq_cons, List.sum_cons, List.length_cons]
    have h1 := two_mul_sum_le b l
    have h2 : (b + l.sum) * (b + l.sum) = b * b + 2 * (b * l.sum) + l.sum * l.sum := by ring
    have h3 : (l.length + 1) * (b * b + sumSq l)
        = l.length * (b * b) + l.length * sumSq l + b * b + sumSq l := by ring
    omega

theorem sum_pos_of_all_ne_zero : ∀ l : List Nat, l ≠ [] → (∀ b ∈ l, b ≠ 0) → 0 < l.sum := by
  intro l hne hall
  cases l with
  | nil => exact absurd rfl hne
  | cons b l =>
    have := hall b (List.mem_cons_self _ _)
    rw [List.sum_cons]; omega

/-- With two or more flows, all of them active, the square of the sum exceeds
the sum of the squares by at least the sum. -/
theorem sumSq_add_sum_le (l : List Nat) (hlen : 2 ≤ l.length) (hall : ∀ b ∈ l, b ≠ 0) :
    sumSq l + l.sum ≤ l.sum * l.sum := by
  cases l with
  | nil => simp at hlen
  | cons b l =>
    have hb : b ≠ 0 := hall b (List.mem_cons_self _ _)
    have hl : l ≠ [] := by
      intro h; subst h; simp at hlen
    have hs : 0 < l.sum :=
      sum_pos_of_all_ne_zero l hl (fun c hc => hall c (List.mem_cons_of_mem _ hc))
    have h1 := sumSq_le_sq l
    rw [sumSq_cons, List.sum_cons]
    have h2 : (b + l.sum) * (b + l.sum) = b * b + 2 * (b * l.sum) + l.sum * l.sum := by ring
    have h3 : b + l.sum ≤ 2 * (b * l.sum) := by
      have : 1 ≤ b := by omega
      have e1 : l.sum ≤ b * l.sum := Nat.le_mul_of_pos_left _ (by omega)
      have e2 : b ≤ b * l.sum := Nat.le_mul_of_pos_right _ hs
      omega
    omega

/-- With exactly one non-zero counter the sum of the squares is the square of
the sum. -/
theorem sumSq_eq_of_countP_one : ∀ l : List Nat, l.countP (fun b => b != 0) = 1 →
    sumSq l = l.sum * l.sum := by
  intro l
  induction l with
  | nil => simp
  | cons b l ih =>
    intro h
    rw [sumSq_cons, List.sum_cons]
    by_cases hb : b = 0
    · subst hb
      have : l.countP (fun b => b != 0) = 1 := by simpa [List.countP_cons] using h
      rw [ih this]; simp
    · have hc : l.countP (fun b => b != 0) = 0 := by
        simpa [List.countP_cons, hb] using h
      have hz : ∀ c ∈ l, c = 0 := by
        intro c hc'
        have := (List.countP_eq_zero.1 hc) c hc'
        simpa using this
      have hs : l.sum = 0 := List.sum_eq_zero hz
      have hq : sumSq l = 0 := by
        unfold sumSq
        apply List.sum_eq_zero
        intro x hx
        obtain ⟨c, hc', rfl⟩ := List.mem_map.1 hx
        simp [hz c hc']
      rw [hs, hq]; simp

/-! ## The fairness quotient -/

/-- The double quotient of two non-zero 64 bit integers is finite and within a
relative error of `2 ^ -51` of the exact quotient: `|v - A / B| ≤ (A / B) * 4 / 2 ^ 53`,
written without division. -/
theorem quotient_error (A B : Nat) (hA : 0 < A) (hA64 : A < 2 ^ 64) (hB : 0 < B)
    (hB64 : B < 2 ^ 64) :
    (F64.div (F64.ofU64 A) (F64.ofU64 B)).IsNormal ∧
      (F64.div (F64.ofU64 A) (F64.ofU64 B)).val * B * 2 ^ 53 ≤ A * (2 ^ 53 + 4) ∧
      (A : ℚ) * (2 ^ 53 - 4) ≤ (F64.div (F64.ofU64 A) (F64.ofU64 B)).val * B * 2 ^ 53 := by
  obtain ⟨nA, vA⟩ := ofU64_spec A hA hA64
  obtain ⟨nB, vB⟩ := ofU64_spec B hB hB64
  obtain ⟨d1, d2⟩ := F64.div_error _ _ nA nB
  have hn := F64.div_isNormal _ _ nA nB
  have hv := F64.val_pos _ hn
  obtain ⟨a1, a2⟩ := ofU64Nat_error A hA hA64
  obtain ⟨b1, b2⟩ := ofU64Nat_error B hB hB64
  rw [vA, vB] at d1 d2
  have a1q : (2 : ℚ) ^ 53 * (ofU64Nat A : ℚ) ≤ 2 ^ 53 * A + A := by exact_mod_cast a1
  have a2q : (2 : ℚ) ^ 53 * (A : ℚ) ≤ 2 ^ 53 * ofU64Nat A + A := by exact_mod_cast a2
  have b1q : (2 : ℚ) ^ 53 * (ofU64Nat B : ℚ) ≤ 2 ^ 53 * B + B := by exact_mod_cast b1
  have b2q : (2 : ℚ) ^ 53 * (B : ℚ) ≤ 2 ^ 53 * ofU64Nat B + B := by exact_mod_cast b2
  have hAq : (0 : ℚ) ≤ A := by positivity
  generalize (F64.div (F64.ofU64 A) (F64.ofU64 B)).val = v at *
  generalize (ofU64Nat A : ℚ) = a at *
  generalize (ofU64Nat B : ℚ) = b at *
  generalize (A : ℚ) = x at *
  generalize (B : ℚ) = y at *
  have s1 := mul_le_mul_of_nonneg_left b1q hv.le
  have s2 := mul_le_mul_of_nonneg_left b2q hv.le
  norm_num at *
  refine ⟨hn, ?_, ?_⟩
  · linarith
  · linarith

theorem F64.toRat_of_isNormal (v : F64) (h : v.IsNormal) : v.toRat = some v.val := by
  cases v with
  | inf => exact h.elim
  | nan => exact h.elim
  | fin m e => rfl

theorem NoWrap.facts {n : Nat} {b : List Nat} (h : NoWrap n b) :
    1 ≤ n ∧ b.sum < 2 ^ 64 ∧ sumSq b < 2 ^ 64 ∧ b.sum * b.sum < 2 ^ 64 ∧
      n * sumSq b < 2 ^ 64 ∧ 0 < b.sum * b.sum ∧ 0 < n * sumSq b ∧
      b.sum * b.sum ≤ n * sumSq b := by
  obtain ⟨hlen, hpos, hb⟩ := h
  have hn : 1 ≤ n := by
    rcases Nat.eq_zero_or_pos n with h0 | h0
    · subst h0
      have : b = [] := List.length_eq_zero.1 hlen
      subst this
      simp at hpos
    · exact h0
  have h1 : b.sum * b.sum ≤ n * (b.sum * b.sum) := Nat.le_mul_of_pos_left _ hn
  have h2 : b.sum ≤ b.sum * b.sum := Nat.le_mul_of_pos_left _ hpos
  have h3 := sumSq_le_sq b
  have h4 : n * sumSq b ≤ n * (b.sum * b.sum) := Nat.mul_le_mul_left _ h3
  have h5 : 0 < b.sum * b.sum := Nat.mul_pos hpos hpos
  have h6 := sq_sum_le b
  rw [hlen] at h6
  have h7 : sumSq b ≤ n * sumSq b := Nat.le_mul_of_pos_left _ hn
  refine ⟨hn, by omega, by omega, by omega, by omega, h5, by omega, h6⟩

/-- Without wrap-around the fairness expression is the double quotient of the
exact integers and close to Jain's index. -/
theorem jainApprox_of_noWrap (n : Nat) (b : List Nat) (h : NoWrap n b) :
    JainApprox n b (F64.div (F64.ofU64 (wrap64 (wrap64 b.sum * wrap64 b.sum)))
      (F64.ofU64 (wrap64 (n * wrap64 (sumSq b))))) := by
  obtain ⟨hn, f1, f2, f3, f4, f5, f6, f7⟩ := h.facts
  rw [wrap64_of_lt f1, wrap64_of_lt f2, wrap64_of_lt f3, wrap64_of_lt f4]
  refine ⟨rfl, ?_⟩
  obtain ⟨hnorm, e1, e2⟩ := quotient_error _ _ f5 f3 f6 f4
  refine ⟨_, F64.toRat_of_isNormal _ hnorm, ?_⟩
  generalize (F64.div (F64.ofU64 (b.sum * b.sum)) (F64.ofU64 (n * sumSq b))).val = v at *
  have hB : (0 : ℚ) < ((n * sumSq b : Nat) : ℚ) := by exact_mod_cast f6
  have hJ : jain n b * ((n * sumSq b : Nat) : ℚ) = ((b.sum * b.sum : Nat) : ℚ) := by
    have hne : ((n * sumSq b : Nat) : ℚ) ≠ 0 := ne_of_gt hB
    have hj : jain n b = ((b.sum * b.sum : Nat) : ℚ) / ((n * sumSq b : Nat) : ℚ) := by
      rw [Nat.cast_mul, Nat.cast_mul, ← pow_two]
      rfl
    rw [hj, div_mul_cancel₀ _ hne]
  rw [← hJ] at e1 e2
  generalize jain n b = J at *
  generalize ((n * sumSq b : Nat) : ℚ) = B at *
  have k1 : v * 2 ^ 53 ≤ J * (2 ^ 53 + 4) := by
    have : v * 2 ^ 53 * B ≤ J * (2 ^ 53 + 4) * B := by linarith
    exact le_of_mul_le_mul_right this hB
  have k2 : J * (2 ^ 53 - 4) ≤ v * 2 ^ 53 := by
    have : J * (2 ^ 53 - 4) * B ≤ v * 2 ^ 53 * B := by linarith
    exact le_of_mul_le_mul_right this hB
  rw [abs_le]
  norm_num at *
  constructor <;> linarith

/-! ## The loops of multi-hop `PrintThroughput` in closed form -/

namespace MultiHop

theorem foldl_range_getD {β : Type} (g : β → Nat → β) : ∀ (l pre : List Nat) (init : β),
    (List.range' pre.length l.length).foldl (fun p i => g p ((pre ++ l).getD i 0)) init
      = l.foldl g init := by
  intro l
  induction l with
  | nil => intro pre init; rfl
  | cons b l ih =>
    intro pre init
    have hget : (pre ++ b :: l).getD pre.length 0 = b := by
      rw [List.getD_eq_getElem?_getD, List.getElem?_append_right (Nat.le_refl _)]
      simp
    have happ : pre ++ b :: l = (pre ++ [b]) ++ l := by simp
    have hlen : (pre ++ [b]).length = pre.length + 1 := by simp
    rw [List.length_cons, List.range'_succ, List.foldl_cons, hget, List.foldl_cons, happ,
      ← hlen, ih]

theorem foldl_sums : ∀ (l : List Nat) (s q : Nat),
    l.foldl (fun p b => (wrap64 (p.1 + b), wrap64 (p.2 + wrap64 (b * b)))) (wrap64 s, wrap64 q)
      = (wrap64 (s + l.sum), wrap64 (q + sumSq l)) := by
  intro l
  induction l with
  | nil => intro s q; simp [sumSq]
  | cons b l ih =>
    intro s q
    have hstep : (wrap64 ((wrap64 s, wrap64 q).1 + b),
        wrap64 ((wrap64 s, wrap64 q).2 + wrap64 (b * b)))
        = (wrap64 (s + b), wrap64 (q + b * b)) := by
      simp only [wrap64_wrap64_add, wrap64_add_wrap64]
    rw [List.foldl_cons, hstep, ih, sumSq_cons, List.sum_cons, Nat.add_assoc, Nat.add_assoc]

/-- The accumulation loop over a vector of exactly `n` counters. -/
theorem sumLoop_eq (n : Nat) (v : List Nat) (hlen : v.length = n) :
    sumLoop n v = (wrap64 v.sum, wrap64 (sumSq v)) := by
  subst hlen
  have h := foldl_range_getD
    (fun (p : Nat × Nat) b => (wrap64 (p.1 + b), wrap64 (p.2 + wrap64 (b * b)))) v [] (0, 0)
  simp only [List.length_nil, List.nil_append] at h
  rw [sumLoop, List.range_eq_range', h]
  have h2 := foldl_sums v 0 0
  simpa [wrap64_zero] using h2

theorem groupFairness_eq (n : Nat) (v : List Nat) (hlen : v.length = n) :
    groupFairness n v = F64.div (F64.ofU64 (wrap64 (wrap64 v.sum * wrap64 v.sum)))
      (F64.ofU64 (wrap64 (n * wrap64 (sumSq v)))) := by
  simp only [groupFairness, sumLoop_eq n v hlen]

theorem foldl_set_zero : ∀ (l pre : List Nat),
    (List.range' pre.length l.length).foldl (fun w i => w.set i 0) (pre ++ l)
      = pre ++ List.replicate l.length 0 := by
  intro l
  induction l with
  | nil => intro pre; simp
  | cons b l ih =>
    intro pre
    have hset : (pre ++ b :: l).set pre.length 0 = (pre ++ [0]) ++ l := by simp
    have hlen : (pre ++ [0]).length = pre.length + 1 := by simp
    rw [List.length_cons, List.range'_succ, List.foldl_cons, hset, ← hlen, ih]
    simp [List.replicate_succ]

/-- The reset loop over a vector of exactly `n` counters. -/
theorem zeroLoop_eq (n : Nat) (v : List Nat) (hlen : v.length = n) :
    zeroLoop n v = List.replicate n 0 := by
  subst hlen
  have h := foldl_set_zero v []
  simp only [List.length_nil, List.nil_append] at h
  rw [zeroLoop, List.range_eq_range', h]

end MultiHop

/-! ## Fairness samples -/

theorem div_ofU64_self (X : Nat) (h0 : 0 < X) (h64 : X < 2 ^ 64) :
    F64.div (F64.ofU64 X) (F64.ofU64 X) = F64.one := by
  obtain ⟨hn, _⟩ := ofU64_spec X h0 h64
  cases h : F64.ofU64 X with
  | inf => rw [h] at hn; exact hn.elim
  | nan => rw [h] at hn; exact hn.elim
  | fin m e => rw [h] at hn; exact F64.div_self m e hn

theorem wrap64_mul_wrap64 (a b : Nat) : wrap64 (wrap64 a * wrap64 b) = wrap64 (a * b) := by
  unfold wrap64; exact (Nat.mul_mod a b _).symm

theorem wrap64_mul_wrap64_right (a b : Nat) : wrap64 (a * wrap64 b) = wrap64 (a * b) := by
  unfold wrap64; rw [Nat.mul_mod, Nat.mod_mod, ← Nat.mul_mod]

theorem wrap64_lt (a : Nat) : wrap64 a < 2 ^ 64 := Nat.mod_lt _ (by norm_num)

theorem sumSq_replicate (n b : Nat) : sumSq (List.replicate n b) = n * (b * b) := by
  simp [sumSq]

/-- The fairness expression when all `n` counters hold the same value. -/
theorem fairness_replicate (n b : Nat) (hX : wrap64 (n * b * (n * b)) ≠ 0) :
    F64.div (F64.ofU64 (wrap64 (wrap64 (List.replicate n b).sum * wrap64 (List.replicate n b).sum)))
      (F64.ofU64 (wrap64 (n * wrap64 (sumSq (List.replicate n b))))) = F64.one := by
  have h1 : (List.replicate n b).sum = n * b := by simp
  rw [h1, sumSq_replicate, wrap64_mul_wrap64, wrap64_mul_wrap64_right]
  have h2 : n * (n * (b * b)) = n * b * (n * b) := by ring
  rw [h2]
  exact div_ofU64_self _ (Nat.pos_of_ne_zero hX) (wrap64_lt _)

namespace Convergence

theorem exists_zero_of_not_all (bytes : List Nat) (h : ¬ ∀ b ∈ bytes, b ≠ 0) :
    ∃ b ∈ bytes, b = 0 := by
  by_contra hne
  exact h (fun b hb hb0 => hne ⟨b, hb, hb0⟩)

/-- The sample of any tick, in closed form. -/
theorem sample_eq (N now : Nat) (s : State) (hlen : s.rxS1R1Bytes.length = N) (hN : N < 2 ^ 32) :
    sample (PrintThroughput N now s).2
      = if ∀ b ∈ s.rxS1R1Bytes, b ≠ 0 then
          some (F64.div (F64.ofU64 (wrap64 (wrap64 s.rxS1R1Bytes.sum * wrap64 s.rxS1R1Bytes.sum)))
            (F64.ofU64 (wrap64 (N * wrap64 (sumSq s.rxS1R1Bytes)))))
        else none := by
  by_cases hall : ∀ b ∈ s.rxS1R1Bytes, b ≠ 0
  · rw [if_pos hall, sample_all N now s hlen hN hall]; rfl
  · rw [if_neg hall, sample_some_zero N now s hlen hN (exists_zero_of_not_all _ hall)]

end Convergence

/-- C1 (amended).  Whenever no 64 bit operation wraps (`n · (Σ bᵢ)² < 2 ^ 64`) and the
group has sent bytes, the fairness value is the double quotient of the exact
integers `(Σ bᵢ)²` and `n · Σ bᵢ²` over the group's own counters, a finite number
within a relative error of `2 ^ -51` of Jain's index: for the sample of
convergence `PrintThroughput` (emitted when all `N` counters are non-zero) and
for the per-group computation of multi-hop `PrintThroughput`, which is applied
to the 10 `txS1R1Bytes`, the 20 `txS2R2Bytes` and the 10 `txS3R1Bytes`. -/
theorem fairness_is_rounded_jain_index (N now : Nat) (s : Convergence.State) (hN : N < 2 ^ 32)
    (hall : ∀ b ∈ s.rxS1R1Bytes, b ≠ 0) (hs : NoWrap N s.rxS1R1Bytes)
    (n : Nat) (tx : List Nat) (htx : NoWrap n tx) (w : Nat) (ms : MultiHop.State) :
    (∃ v, Convergence.sample (Convergence.PrintThroughput N now s).2 = some v ∧
        JainApprox N s.rxS1R1Bytes v) ∧
      JainApprox n tx (MultiHop.groupFairness n tx) ∧
      (MultiHop.PrintThroughput w ms).2.fairS1R1 = MultiHop.groupFairness 10 ms.txS1R1Bytes ∧
      (MultiHop.PrintThroughput w ms).2.fairS2R2 = MultiHop.groupFairness 20 ms.txS2R2Bytes ∧
      (MultiHop.PrintThroughput w ms).2.fairS3R1 = MultiHop.groupFairness 10 ms.txS3R1Bytes := by
  refine ⟨⟨_, ?_, jainApprox_of_noWrap N _ hs⟩, ?_, rfl, rfl, rfl⟩
  · rw [Convergence.sample_eq N now s hs.1 hN, if_pos hall]
  · rw [MultiHop.groupFairness_eq n tx htx.1]
    exact jainApprox_of_noWrap n tx htx

theorem noWrap_five_flows : NoWrap 5 [3000000, 3100000, 2900000, 3000000, 3050000] :=
  ⟨rfl, by decide, by decide⟩

theorem noWrap_ten_flows : NoWrap 10 [7, 7, 7, 7, 7, 7, 7, 7, 7, 9] :=
  ⟨rfl, by decide, by decide⟩

/-- Witness of C1: five flows of about 3 MB each in a window, and a group of ten. -/
theorem fairness_is_rounded_jain_index_witness :
    (∃ v, Convergence.sample (Convergence.PrintThroughput 5 1000000
          ⟨[3000000, 3100000, 2900000, 3000000, 3050000], ⟨false, false, false⟩⟩).2 = some v ∧
        JainApprox 5 [3000000, 3100000, 2900000, 3000000, 3050000] v) ∧
      JainApprox 10 [7, 7, 7, 7, 7, 7, 7, 7, 7, 9]
        (MultiHop.groupFairness 10 [7, 7, 7, 7, 7, 7, 7, 7, 7, 9]) ∧
      (MultiHop.PrintThroughput 10000000 MultiHop.init).2.fairS1R1
        = MultiHop.groupFairness 10 MultiHop.init.txS1R1Bytes ∧
      (MultiHop.PrintThroughput 10000000 MultiHop.init).2.fairS2R2
        = MultiHop.groupFairness 20 MultiHop.init.txS2R2Bytes ∧
      (MultiHop.PrintThroughput 10000000 MultiHop.init).2.fairS3R1
        = MultiHop.groupFairness 10 MultiHop.init.txS3R1Bytes :=
  fairness_is_rounded_jain_index 5 1000000
    ⟨[3000000, 3100000, 2900000, 3000000, 3050000], ⟨false, false, false⟩⟩ (by decide)
    (by decide) noWrap_five_flows 10 [7, 7, 7, 7, 7, 7, 7, 7, 7, 9] noWrap_ten_flows
    10000000 MultiHop.init

/-- C1 (counterexample).  With five counters of `2 ^ 32` bytes both `sum * sum` and
`cnt * sumSquare` wrap to `0`, the sample written is NaN, and Jain's index of
these counters is `1`; with the counters `1, 1, 1, 1, 2` nothing wraps and the
sample is the double `0x1.ccccccccccccdp-1`, which is not the index `9/10`. -/
theorem fairness_is_jain_index_counterexample :
    Convergence.sample (Convergence.PrintThroughput 5 1000000
        ⟨[2 ^ 32, 2 ^ 32, 2 ^ 32, 2 ^ 32, 2 ^ 32], ⟨false, false, false⟩⟩).2 = some F64.nan ∧
      F64.nan.toRat = none ∧
      jain 5 [2 ^ 32, 2 ^ 32, 2 ^ 32, 2 ^ 32, 2 ^ 32] = 1 ∧
      Convergence.sample (Convergence.PrintThroughput 5 1000000
        ⟨[1, 1, 1, 1, 2], ⟨false, false, false⟩⟩).2 = some (F64.fin 0x1CCCCCCCCCCCCD (-53)) ∧
      jain 5 [1, 1, 1, 1, 2] = 9 / 10 ∧
      (F64.fin 0x1CCCCCCCCCCCCD (-53)).toRat ≠ some (9 / 10) := by
  refine ⟨by decide, rfl, ?_, by decide, ?_, ?_⟩
  · norm_num [jain, sumSq]
  · norm_num [jain, sumSq]
  · simp only [F64.toRat, ne_eq, Option.some.injEq]
    norm_num

/-- C2 (amended).  When all `N` counters hold the same value `b` and the common
value `N² · b²` of numerator and denominator is not `0` modulo `2 ^ 64` (which
holds whenever `1 ≤ b`, `1 ≤ N` and `N · b < 2 ^ 32`), convergence
`PrintThroughput` writes the sample `1.0`, and so does the multi-hop per-group
computation for `n` equal counters `c`. -/
theorem equal_counters_fairness_one (N now b : Nat) (f : Convergence.Flags) (hN : N < 2 ^ 32)
    (hX : wrap64 (N * b * (N * b)) ≠ 0) (n c : Nat) (hY : wrap64 (n * c * (n * c)) ≠ 0) :
    Convergence.sample (Convergence.PrintThroughput N now ⟨List.replicate N b, f⟩).2
        = some F64.one ∧
      MultiHop.groupFairness n (List.replicate n c) = F64.one := by
  constructor
  · have hb : b ≠ 0 := by
      intro h; subst h; simp [wrap64] at hX
    have hall : ∀ x ∈ List.replicate N b, x ≠ 0 := by
      intro x hx
      rw [List.eq_of_mem_replicate hx]; exact hb
    rw [Convergence.sample_eq N now _ (by simp) hN, if_pos hall]
    exact congrArg some (fairness_replicate N b hX)
  · rw [MultiHop.groupFairness_eq n _ (by simp)]
    exact fairness_replicate n c hY

/-- Witness of C2: five flows of 3125000 bytes, twenty flows of 59375000 bytes. -/
theorem equal_counters_fairness_one_witness :
    Convergence.sample (Convergence.PrintThroughput 5 1000000
        ⟨List.replicate 5 3125000, ⟨false, false, false⟩⟩).2 = some F64.one ∧
      MultiHop.groupFairness 20 (List.replicate 20 59375000) = F64.one :=
  equal_counters_fairness_one 5 1000000 3125000 ⟨false, false, false⟩ (by decide) (by decide)
    20 59375000 (by decide)

/-- C2 (counterexample).  With five counters equal to `0` no sample is written;
with five counters equal to `2 ^ 32` the sample is NaN; ten transmit counters
equal to `2 ^ 32` give NaN as the multi-hop index. -/
theorem equal_counters_fairness_one_counterexample :
    Convergence.sample (Convergence.PrintThroughput 5 1000000
        ⟨List.replicate 5 0, ⟨false, false, false⟩⟩).2 = none ∧
      Convergence.sample (Convergence.PrintThroughput 5 1000000
        ⟨List.replicate 5 (2 ^ 32), ⟨false, false, false⟩⟩).2 = some F64.nan ∧
      MultiHop.groupFairness 10 (List.replicate 10 (2 ^ 32)) = F64.nan ∧
      F64.nan ≠ F64.one := by
  refine ⟨by decide, by decide, by decide, by decide⟩

theorem exists_zero_of_countP_lt (l : List Nat) (h : l.countP (fun b => b != 0) < l.length) :
    ∃ b ∈ l, b = 0 := by
  by_contra hne
  have hall : ∀ b ∈ l, (fun b => b != 0) b = true := by
    intro b hb
    have : b ≠ 0 := fun h0 => hne ⟨b, hb, h0⟩
    simpa using this
  have := List.countP_eq_length.2 hall
  omega

theorem sum_pos_of_countP_one : ∀ l : List Nat, l.countP (fun b => b != 0) = 1 → 0 < l.sum := by
  intro l
  induction l with
  | nil => simp
  | cons b l ih =>
    intro h
    rw [List.sum_cons]
    by_cases hb : b = 0
    · subst hb
      have : l.countP (fun b => b != 0) = 1 := by simpa [List.countP_cons] using h
      have := ih this
      omega
    · omega

/-- C3 (amended).  When exactly one of the `n` counters of a group is non-zero,
`n · b² < 2 ^ 53` for its value `b`, the multi-hop per-group computation returns
the double quotient `1.0 / n`, the double nearest to `1 / n`.  Convergence
`PrintThroughput` with `N ≥ 2` flows writes no sample on such a tick, since
`cnt = 1` differs from `N`. -/
theorem single_active_flow_fairness (n : Nat) (v : List Nat) (hlen : v.length = n)
    (hone : v.countP (fun b => b != 0) = 1) (hb : n * (v.sum * v.sum) < 2 ^ 53)
    (N now : Nat) (s : Convergence.State) (hlenN : s.rxS1R1Bytes.length = N) (hN : N < 2 ^ 32)
    (hN2 : 2 ≤ N) (hs : s.rxS1R1Bytes.countP (fun b => b != 0) = 1) :
    MultiHop.groupFairness n v = F64.div (F64.ofU64 1) (F64.ofU64 n) ∧
      Convergence.sample (Convergence.PrintThroughput N now s).2 = none := by
  constructor
  · have hpos := sum_pos_of_countP_one v hone
    have hq := sumSq_eq_of_countP_one v hone
    have hn : 1 ≤ n := by
      rcases Nat.eq_zero_or_pos n with h0 | h0
      · subst h0
        have : v = [] := List.length_eq_zero.1 hlen
        subst this
        simp at hone
      · exact h0
    have hT : 0 < v.sum * v.sum := Nat.mul_pos hpos hpos
    have h1 : v.sum * v.sum ≤ n * (v.sum * v.sum) := Nat.le_mul_of_pos_left _ hn
    have h2 : v.sum ≤ v.sum * v.sum := Nat.le_mul_of_pos_left _ hpos
    have h3 : n ≤ n * (v.sum * v.sum) := Nat.le_mul_of_pos_right _ hT
    have hpow : (2 : Nat) ^ 53 < 2 ^ 64 := by norm_num
    rw [MultiHop.groupFairness_eq n v hlen, hq, wrap64_mul_wrap64,
      wrap64_of_lt (by omega : v.sum * v.sum < 2 ^ 64),
      wrap64_of_lt (by omega : n * (v.sum * v.sum) < 2 ^ 64)]
    obtain ⟨n1, v1⟩ := ofU64_spec (v.sum * v.sum) hT (by omega)
    obtain ⟨n2, v2⟩ := ofU64_spec (n * (v.sum * v.sum)) (by omega) (by omega)
    obtain ⟨n3, v3⟩ := ofU64_spec 1 (by norm_num) (by norm_num)
    obtain ⟨n4, v4⟩ := ofU64_spec n hn (by omega)
    apply F64.div_ratio _ _ _ _ n1 n2 n3 n4
    rw [v1, v2, v3, v4, ofU64Nat_exact _ (by omega : v.sum * v.sum < 2 ^ 53),
      ofU64Nat_exact _ hb, ofU64Nat_exact 1 (by norm_num), ofU64Nat_exact n (by omega)]
    push_cast
    ring
  · have hz := exists_zero_of_countP_lt s.rxS1R1Bytes (by omega)
    exact Convergence.sample_some_zero N now s hlenN hN hz

/-- Witness of C3: one flow of ten sent 3000000 bytes; one flow of five received 7 bytes. -/
theorem single_active_flow_fairness_witness :
    MultiHop.groupFairness 10 [0, 0, 0, 3000000, 0, 0, 0, 0, 0, 0]
        = F64.div (F64.ofU64 1) (F64.ofU64 10) ∧
      Convergence.sample (Convergence.PrintThroughput 5 1000000
        ⟨[7, 0, 0, 0, 0], ⟨false, false, false⟩⟩).2 = none :=
  single_active_flow_fairness 10 [0, 0, 0, 3000000, 0, 0, 0, 0, 0, 0] rfl (by decide)
    (by decide) 5 1000000 ⟨[7, 0, 0, 0, 0], ⟨false, false, false⟩⟩ rfl (by decide) (by decide)
    (by decide)

/-- C3 (counterexample).  Convergence with five flows of which only the first
received bytes writes no sample at all; and the multi-hop index of ten flows
of which one sent 84886745 bytes is `0x1.9999999999999p-4`, not the double
`0x1.999999999999ap-4` nearest to `1 / 10`, although nothing wraps. -/
theorem single_active_flow_fairness_counterexample :
    Convergence.sample (Convergence.PrintThroughput 5 1000000
        ⟨[7, 0, 0, 0, 0], ⟨false, false, false⟩⟩).2 = none ∧
      MultiHop.groupFairness 10 [84886745, 0, 0, 0, 0, 0, 0, 0, 0, 0]
        = F64.fin 0x19999999999999 (-56) ∧
      F64.div (F64.ofU64 1) (F64.ofU64 10) = F64.fin 0x1999999999999A (-56) ∧
      10 * (84886745 * 84886745) < 2 ^ 64 := by
  refine ⟨by decide, by decide, by decide, by decide⟩

theorem sumSq_perm {l1 l2 : List Nat} (h : l1.Perm l2) : sumSq l1 = sumSq l2 :=
  (h.map _).sum_eq

/-- C4.  The fairness computation does not depend on the order of the counters:
on a permutation of the `N` counters convergence `PrintThroughput` takes the
same decision to write or suppress the sample, writes the same value and
leaves the same flags, and the multi-hop per-group computation returns the
same index. -/
theorem fairness_permutation_invariant (N now : Nat) (b1 b2 : List Nat) (f : Convergence.Flags)
    (hperm : b1.Perm b2) (hlen : b1.length = N) (hN : N < 2 ^ 32)
    (n : Nat) (v1 v2 : List Nat) (hv : v1.Perm v2) (hvlen : v1.length = n) :
    Convergence.sample (Convergence.PrintThroughput N now ⟨b1, f⟩).2
        = Convergence.sample (Convergence.PrintThroughput N now ⟨b2, f⟩).2 ∧
      (Convergence.PrintThroughput N now ⟨b1, f⟩).1.flags
        = (Convergence.PrintThroughput N now ⟨b2, f⟩).1.flags ∧
      MultiHop.groupFairness n v1 = MultiHop.groupFairness n v2 := by
  have hlen2 : b2.length = N := by rw [← hperm.length_eq]; exact hlen
  have hall : (∀ b ∈ b1, b ≠ 0) ↔ (∀ b ∈ b2, b ≠ 0) :=
    ⟨fun h b hb => h b (hperm.mem_iff.2 hb), fun h b hb => h b (hperm.mem_iff.1 hb)⟩
  refine ⟨?_, ?_, ?_⟩
  · rw [Convergence.sample_eq N now ⟨b1, f⟩ hlen hN, Convergence.sample_eq N now ⟨b2, f⟩ hlen2 hN]
    simp only [hperm.sum_eq, sumSq_perm hperm, hall]
  · by_cases h1 : ∀ b ∈ b1, b ≠ 0
    · rw [Convergence.PrintThroughput_all N now ⟨b1, f⟩ hlen hN h1,
        Convergence.PrintThroughput_all N now ⟨b2, f⟩ hlen2 hN (hall.1 h1)]
      have e1 : (List.map (fun b => b * b) b1).sum = (List.map (fun b => b * b) b2).sum :=
        sumSq_perm hperm
      simp only [hperm.sum_eq, e1]
    · have h2 : ¬ ∀ b ∈ b2, b ≠ 0 := fun h => h1 (hall.2 h)
      rw [Convergence.PrintThroughput_some_zero N now ⟨b1, f⟩ hlen hN
          (Convergence.exists_zero_of_not_all _ h1),
        Convergence.PrintThroughput_some_zero N now ⟨b2, f⟩ hlen2 hN
          (Convergence.exists_zero_of_not_all _ h2)]
  · have hvlen2 : v2.length = n := by rw [← hv.length_eq]; exact hvlen
    rw [MultiHop.groupFairness_eq n v1 hvlen, MultiHop.groupFairness_eq n v2 hvlen2,
      hv.sum_eq, sumSq_perm hv]

/-- Witness of C4: a rotation of five counters, a swap among ten. -/
theorem fairness_permutation_invariant_witness :
    Convergence.sample (Convergence.PrintThroughput 5 1000000
          ⟨[1, 2, 3, 4, 5], ⟨false, false, false⟩⟩).2
        = Convergence.sample (Convergence.PrintThroughput 5 1000000
          ⟨[2, 3, 4, 5, 1], ⟨false, false, false⟩⟩).2 ∧
      (Convergence.PrintThroughput 5 1000000 ⟨[1, 2, 3, 4, 5], ⟨false, false, false⟩⟩).1.flags
        = (Convergence.PrintThroughput 5 1000000
          ⟨[2, 3, 4, 5, 1], ⟨false, false, false⟩⟩).1.flags ∧
      MultiHop.groupFairness 10 [9, 1, 1, 1, 1, 1, 1, 1, 1, 4]
        = MultiHop.groupFairness 10 [4, 1, 1, 1, 1, 1, 1, 1, 1, 9] :=
  fairness_permutation_invariant 5 1000000 [1, 2, 3, 4, 5] [2, 3, 4, 5, 1]
    ⟨false, false, false⟩ (by decide) rfl (by decide)
    10 [9, 1, 1, 1, 1, 1, 1, 1, 1, 4] [4, 1, 1, 1, 1, 1, 1, 1, 1, 9] (by decide) rfl

/-- C5 (amended).  For `2 ≤ N` flows and counters with `N · (Σ bᵢ)² < 2 ^ 64`, every
fairness sample `v` that convergence `PrintThroughput` writes is a finite
number with `1 / N < v ≤ 1`. -/
theorem emitted_fairness_range (N now : Nat) (s : Convergence.State)
    (hlen : s.rxS1R1Bytes.length = N) (hN : N < 2 ^ 32) (hN2 : 2 ≤ N)
    (hbound : N * (s.rxS1R1Bytes.sum * s.rxS1R1Bytes.sum) < 2 ^ 64)
    (v : F64) (hv : Convergence.sample (Convergence.PrintThroughput N now s).2 = some v) :
    ∃ q : ℚ, v.toRat = some q ∧ 1 / (N : ℚ) < q ∧ q ≤ 1 := by
  rw [Convergence.sample_eq N now s hlen hN] at hv
  by_cases hall : ∀ b ∈ s.rxS1R1Bytes, b ≠ 0
  · rw [if_pos hall] at hv
    have hne : s.rxS1R1Bytes ≠ [] := by
      intro h; rw [h] at hlen; simp at hlen; omega
    have hpos := sum_pos_of_all_ne_zero _ hne hall
    have hw : NoWrap N s.rxS1R1Bytes := ⟨hlen, hpos, hbound⟩
    obtain ⟨hn, f1, f2, f3, f4, f5, f6, f7⟩ := hw.facts
    rw [wrap64_of_lt f1, wrap64_of_lt f2, wrap64_of_lt f3, wrap64_of_lt f4] at hv
    have hv := (Option.some.inj hv).symm
    obtain ⟨hnorm, _, e2⟩ := quotient_error _ _ f5 f3 f6 f4
    obtain ⟨nA, vA⟩ := ofU64_spec _ f5 f3
    obtain ⟨nB, vB⟩ := ofU64_spec _ f6 f4
    have hmono := ofU64Nat_mono _ _ f5 f7 f4
    have hle : (F64.ofU64 (s.rxS1R1Bytes.sum * s.rxS1R1Bytes.sum)).val
        ≤ (F64.ofU64 (N * sumSq s.rxS1R1Bytes)).val := by
      rw [vA, vB]; exact_mod_cast hmono
    have hup := F64.div_le_one _ _ nA nB hle
    rw [← hv] at hnorm e2 hup
    refine ⟨v.val, F64.toRat_of_isNormal v hnorm, ?_, hup⟩
    -- the lower bound
    have hgap := sumSq_add_sum_le s.rxS1R1Bytes (by omega) hall
    have hS : s.rxS1R1Bytes.sum < 2 ^ 32 := by
      by_contra hge
      have hge : 2 ^ 32 ≤ s.rxS1R1Bytes.sum := Nat.le_of_not_lt hge
      have := Nat.mul_le_mul hge hge
      norm_num at this f3
      omega
    have hT : s.rxS1R1Bytes.sum * s.rxS1R1Bytes.sum ≤ (2 ^ 32 - 1) * s.rxS1R1Bytes.sum :=
      Nat.mul_le_mul_right _ (by omega)
    have hQ0 : 0 < sumSq s.rxS1R1Bytes := by
      rcases Nat.eq_zero_or_pos (sumSq s.rxS1R1Bytes) with h0 | h0
      · rw [h0] at f6; simp at f6
      · exact h0
    have hNq : (0 : ℚ) < N := by exact_mod_cast (by omega : 0 < N)
    generalize v.val = x at *
    generalize s.rxS1R1Bytes.sum * s.rxS1R1Bytes.sum = T at *
    generalize sumSq s.rxS1R1Bytes = Q at *
    rw [Nat.cast_mul] at e2
    have hkey : 9007199254740992 * Q + 1 ≤ 9007199254740988 * T := by
      norm_num at hT
      omega
    have hkeyq : (9007199254740992 : ℚ) * (Q : ℚ) + 1 ≤ 9007199254740988 * (T : ℚ) := by
      exact_mod_cast hkey
    have hQq : (0 : ℚ) < (Q : ℚ) := by exact_mod_cast hQ0
    rw [div_lt_iff₀ hNq]
    by_contra hcon
    have hcon : x * (N : ℚ) ≤ 1 := not_lt.1 hcon
    have h1 : x * (N : ℚ) * ((Q : ℚ) * 2 ^ 53) ≤ 1 * ((Q : ℚ) * 2 ^ 53) :=
      mul_le_mul_of_nonneg_right hcon (by positivity)
    norm_num at e2 h1
    linarith
  · rw [if_neg hall] at hv
    exact absurd hv (by simp)

/-- Witness of C5: five flows of about 3 MB each. -/
theorem emitted_fairness_range_witness :
    ∃ q : ℚ, (F64.div (F64.ofU64 226502500000000) (F64.ofU64 226612500000000)).toRat = some q ∧
      1 / ((5 : Nat) : ℚ) < q ∧ q ≤ 1 :=
  emitted_fairness_range 5 1000000
    ⟨[3000000, 3100000, 2900000, 3000000, 3050000], ⟨false, false, false⟩⟩ rfl (by decide)
    (by decide) (by decide) _ (by decide)

/-- C5 (counterexample).  With a single flow the sample is `1.0`, which equals `1 / N`
and is not greater; with five flows whose counters make `sum * sum` wrap around
the sample is `2.0`, greater than `1`. -/
theorem emitted_fairness_range_counterexample :
    Convergence.sample (Convergence.PrintThroughput 1 1000000
        ⟨[7], ⟨false, false, false⟩⟩).2 = some F64.one ∧
      F64.one.toRat = some (1 / ((1 : Nat) : ℚ)) ∧
      Convergence.sample (Convergence.PrintThroughput 5 1000000
        ⟨[2 ^ 31, 2 ^ 31, 2 ^ 32, 2 ^ 30, 2 ^ 30], ⟨false, false, false⟩⟩).2
        = some (F64.fin (2 ^ 52) (-51)) ∧
      (F64.fin (2 ^ 52) (-51)).toRat = some 2 := by
  refine ⟨by decide, ?_, by decide, ?_⟩
  · simp only [F64.toRat, F64.one]; norm_num
  · simp only [F64.toRat]; norm_num

/-! ## Suppression, threshold flags and notifications of a run -/

/-- C6.  Convergence `PrintThroughput` writes a fairness sample at a tick if and only if
every one of the `N` counters is non-zero; at a tick where some counter is zero
no row of `Jain_f` is written, no notification is emitted and no threshold
flag changes. -/
theorem sample_written_iff_all_counters_nonzero (N now : Nat) (s : Convergence.State)
    (hlen : s.rxS1R1Bytes.length = N) (hN : N < 2 ^ 32) :
    (((Convergence.PrintThroughput N now s).2.countP Convergence.isJain = 1) ↔
        ∀ b ∈ s.rxS1R1Bytes, b ≠ 0) ∧
      ((∃ b ∈ s.rxS1R1Bytes, b = 0) →
        (Convergence.PrintThroughput N now s).2.countP Convergence.isJain = 0 ∧
        (∀ t, Convergence.noteCount t (Convergence.PrintThroughput N now s).2 = 0) ∧
        (Convergence.PrintThroughput N now s).1.flags = s.flags) := by
  have hzero : (∃ b ∈ s.rxS1R1Bytes, b = 0) →
      (Convergence.PrintThroughput N now s).2.countP Convergence.isJain = 0 ∧
      (∀ t, Convergence.noteCount t (Convergence.PrintThroughput N now s).2 = 0) ∧
      (Convergence.PrintThroughput N now s).1.flags = s.flags := by
    intro hz
    have hnote : ∀ t, Convergence.noteCount t (Convergence.PrintThroughput N now s).2 = 0 := by
      intro t
      rw [Convergence.PrintThroughput_noteCount N now s hlen hN t]
      unfold Convergence.crossed
      rw [Convergence.sample_some_zero N now s hlen hN hz]
      rfl
    rw [Convergence.PrintThroughput_some_zero N now s hlen hN hz] at hnote ⊢
    refine ⟨?_, hnote, rfl⟩
    simp only [List.countP_append, Convergence.rowsFrom_countP_isJain]
    rfl
  refine ⟨⟨?_, ?_⟩, hzero⟩
  · intro h1
    by_contra hall
    have := (hzero (Convergence.exists_zero_of_not_all _ hall)).1
    omega
  · intro hall
    rw [Convergence.PrintThroughput_all N now s hlen hN hall]
    simp only [List.countP_append, Convergence.rowsFrom_countP_isJain,
      Convergence.fairnessBlock_countP_isJain]
    rfl

/-- Witness of C6: the tick at 50 ms, when the fifth flow has not started. -/
theorem sample_written_iff_all_counters_nonzero_witness :
    (((Convergence.PrintThroughput 5 50000000
          ⟨[780000, 781000, 782000, 781500, 0], ⟨false, false, false⟩⟩).2.countP
            Convergence.isJain = 1) ↔
        ∀ b ∈ [780000, 781000, 782000, 781500, 0], b ≠ 0) ∧
      ((∃ b ∈ [780000, 781000, 782000, 781500, 0], b = 0) →
        (Convergence.PrintThroughput 5 50000000
          ⟨[780000, 781000, 782000, 781500, 0], ⟨false, false, false⟩⟩).2.countP
            Convergence.isJain = 0 ∧
        (∀ t, Convergence.noteCount t (Convergence.PrintThroughput 5 50000000
          ⟨[780000, 781000, 782000, 781500, 0], ⟨false, false, false⟩⟩).2 = 0) ∧
        (Convergence.PrintThroughput 5 50000000
          ⟨[780000, 781000, 782000, 781500, 0], ⟨false, false, false⟩⟩).1.flags
            = ⟨false, false, false⟩) :=
  sample_written_iff_all_counters_nonzero 5 50000000
    ⟨[780000, 781000, 782000, 781500, 0], ⟨false, false, false⟩⟩ rfl (by decide)

/-- C7.  Threshold flags are monotone: a flag that is true after some sequence of
ticks is true after every continuation of it, whatever the counters of the
later ticks are (sample below the threshold, NaN, or suppressed). -/
theorem threshold_flags_monotone (N : Nat) (f : Convergence.Flags)
    (ticks later : List (Nat × List Nat)) (t : Convergence.Thr)
    (h : Convergence.flagOf t (Convergence.runTicks N f ticks).1 = true) :
    Convergence.flagOf t (Convergence.runTicks N f (ticks ++ later)).1 = true := by
  rw [Convergence.runTicks_append]
  exact Convergence.runTicks_flagOf_mono N t later _ h

/-- Witness of C7: a fair tick flips `flag95`, an unfair one and a suppressed one follow. -/
theorem threshold_flags_monotone_witness :
    Convergence.flagOf Convergence.Thr.t95 (Convergence.runTicks 5 ⟨false, false, false⟩
      ([(101000000, [100, 100, 100, 100, 90])]
        ++ [(102000000, [100, 1, 1, 1, 1]), (103000000, [100, 0, 0, 0, 0])])).1 = true :=
  threshold_flags_monotone 5 ⟨false, false, false⟩ [(101000000, [100, 100, 100, 100, 90])]
    [(102000000, [100, 1, 1, 1, 1]), (103000000, [100, 0, 0, 0, 0])] Convergence.Thr.t95
    (by decide)

/-- C8.  In every state reached from the initial all-false flags by any sequence of
sampler ticks, `flag999` implies `flag99` and `flag99` implies `flag95`: a
threshold is never flagged before the threshold below it. -/
theorem threshold_flags_ordered (N : Nat) (ticks : List (Nat × List Nat)) :
    ((Convergence.runTicks N ⟨false, false, false⟩ ticks).1.flag999 = true →
        (Convergence.runTicks N ⟨false, false, false⟩ ticks).1.flag99 = true) ∧
      ((Convergence.runTicks N ⟨false, false, false⟩ ticks).1.flag99 = true →
        (Convergence.runTicks N ⟨false, false, false⟩ ticks).1.flag95 = true) :=
  Convergence.runTicks_ordered N ticks ⟨false, false, false⟩
    ⟨fun h => by simp at h, fun h => by simp at h⟩

/-- Witness of C8: a run whose second tick reaches 0.99 but not 0.999. -/
theorem threshold_flags_ordered_witness :
    ((Convergence.runTicks 5 ⟨false, false, false⟩
          [(100000000, [100, 100, 100, 100, 0]), (101000000, [100, 100, 100, 100, 80])]).1.flag999
          = true →
        (Convergence.runTicks 5 ⟨false, false, false⟩
          [(100000000, [100, 100, 100, 100, 0]), (101000000, [100, 100, 100, 100, 80])]).1.flag99
          = true) ∧
      ((Convergence.runTicks 5 ⟨false, false, false⟩
          [(100000000, [100, 100, 100, 100, 0]), (101000000, [100, 100, 100, 100, 80])]).1.flag99
          = true →
        (Convergence.runTicks 5 ⟨false, false, false⟩
          [(100000000, [100, 100, 100, 100, 0]), (101000000, [100, 100, 100, 100, 80])]).1.flag95
          = true) :=
  threshold_flags_ordered 5
    [(100000000, [100, 100, 100, 100, 0]), (101000000, [100, 100, 100, 100, 80])]

/-- C9.  Notifications are one-shot and fire at the first crossing: in a run from the
initial flags, the statement of threshold `t` writes exactly one notification
at tick `k` if tick `k` computed a sample `>= t` and no earlier tick did, and
none otherwise. -/
theorem notification_exactly_at_first_crossing (N : Nat) (hN : N < 2 ^ 32)
    (ticks : List (Nat × List Nat)) (hlen : ∀ p ∈ ticks, p.2.length = N)
    (t : Convergence.Thr) (k : Nat) :
    Convergence.noteCount t
        ((Convergence.runTicks N ⟨false, false, false⟩ ticks).2.getD k [])
      = if Convergence.crossed t
              ((Convergence.runTicks N ⟨false, false, false⟩ ticks).2.getD k []) = true ∧
            ∀ j, j < k → Convergence.crossed t
              ((Convergence.runTicks N ⟨false, false, false⟩ ticks).2.getD j []) = false
        then 1 else 0 := by
  rw [Convergence.runTicks_noteCount N hN t ticks ⟨false, false, false⟩ k hlen]
  refine if_congr ?_ rfl rfl
  simp [Convergence.flagOf]
  cases t <;> simp

/-- Witness of C9: the sample is suppressed at the first tick, reaches 0.95 at the
second and again at the third; the notification of 0.95 is written at the
second tick, once. -/
theorem notification_exactly_at_first_crossing_witness :
    Convergence.noteCount Convergence.Thr.t95
        ((Convergence.runTicks 5 ⟨false, false, false⟩
          [(100000000, [100, 100, 100, 100, 0]), (101000000, [100, 100, 100, 100, 90]),
            (102000000, [100, 100, 100, 100, 100])]).2.getD 1 []) = 1 ∧
      Convergence.noteCount Convergence.Thr.t95
        ((Convergence.runTicks 5 ⟨false, false, false⟩
          [(100000000, [100, 100, 100, 100, 0]), (101000000, [100, 100, 100, 100, 90]),
            (102000000, [100, 100, 100, 100, 100])]).2.getD 2 []) = 0 :=
  ⟨(notification_exactly_at_first_crossing 5 (by decide)
      [(100000000, [100, 100, 100, 100, 0]), (101000000, [100, 100, 100, 100, 90]),
        (102000000, [100, 100, 100, 100, 100])] (by decide) Convergence.Thr.t95 1).trans
      (by decide),
    (notification_exactly_at_first_crossing 5 (by decide)
      [(100000000, [100, 100, 100, 100, 0]), (101000000, [100, 100, 100, 100, 90]),
        (102000000, [100, 100, 100, 100, 100])] (by decide) Convergence.Thr.t95 2).trans
      (by decide)⟩

/-! ## Window attribution in multi-hop -/

namespace MultiHop

theorem windowBytes_append_event (d : Chan) (j : Nat) (c : Chan) (i sz : Nat) :
    ∀ cur : List Step, windowBytes d j (cur ++ [Step.pkt c i sz])
      = windowBytes d j cur + (if c = d ∧ i = j then sz else 0) := by
  intro cur
  induction cur with
  | nil => simp [windowBytes]
  | cons e cur ih =>
    cases e with
    | pkt c2 k s =>
      have h : windowBytes d j (Step.pkt c2 k s :: cur ++ [Step.pkt c i sz])
          = (if c2 = d ∧ k = j then s else 0) + windowBytes d j (cur ++ [Step.pkt c i sz]) := rfl
      have h2 : windowBytes d j (Step.pkt c2 k s :: cur)
          = (if c2 = d ∧ k = j then s else 0) + windowBytes d j cur := rfl
      rw [h, h2, ih]; omega
    | tick n =>
      have h : windowBytes d j (Step.tick n :: cur ++ [Step.pkt c i sz])
          = windowBytes d j (cur ++ [Step.pkt c i sz]) := rfl
      have h2 : windowBytes d j (Step.tick n :: cur) = windowBytes d j cur := rfl
      rw [h, h2, ih]

theorem totals_append_other (d c : Chan) (i sz : Nat) (cur : List Step) (h : c ≠ d) :
    totals d (cur ++ [Step.pkt c i sz]) = totals d cur := by
  unfold totals
  apply List.map_congr_left
  intro j _
  rw [windowBytes_append_event]
  simp [h]

theorem bump_totals (c : Chan) (i sz : Nat) (cur : List Step) (hi : i < c.size) :
    bump (totals c cur) i sz = totals c (cur ++ [Step.pkt c i sz]) := by
  apply List.ext_getElem
  · simp [bump, totals]
  · intro j h1 h2
    have hj : j < c.size := by simpa [totals] using h2
    have hget : ((List.range c.size).map (fun i => wrap64 (windowBytes c i cur))).getD i 0
        = wrap64 (windowBytes c i cur) := by
      rw [List.getD_eq_getElem?_getD, List.getElem?_eq_getElem (by simpa using hi)]
      simp
    simp only [bump, totals, List.getElem_set, hget, List.getElem_map, List.getElem_range,
      windowBytes_append_event, wrap64_wrap64_add]
    by_cases hij : i = j
    · subst hij; simp
    · simp [hij]

theorem trace_snapshot (c : Chan) (i sz : Nat) (cur : List Step) (hi : i < c.size) :
    trace c i sz (snapshot cur) = snapshot (cur ++ [Step.pkt c i sz]) := by
  cases c <;>
    simp only [trace, snapshot, TraceS1R1Sink, TraceS2R2Sink, TraceS3R1Sink, TraceS1R1Send,
      TraceS2R2Send, TraceS3R1Send, bump_totals _ i sz cur hi, State.mk.injEq, true_and, and_true] <;>
    refine ⟨?_, ?_, ?_, ?_, ?_⟩ <;>
    exact (totals_append_other _ _ i sz cur (by decide)).symm

theorem totals_nil (c : Chan) : totals c [] = List.replicate c.size 0 := by
  apply List.ext_getElem <;> simp [totals, windowBytes, wrap64]

theorem totals_length (c : Chan) (w : List Step) : (totals c w).length = c.size := by
  simp [totals]

theorem PrintThroughput_snapshot (w : Nat) (cur : List Step) :
    (PrintThroughput w (snapshot cur)).1 = snapshot [] := by
  simp only [PrintThroughput, snapshot, totals_nil]
  rw [zeroLoop_eq 10 _ (totals_length Chan.rxS1R1 cur),
    zeroLoop_eq 20 _ (totals_length Chan.rxS2R2 cur),
    zeroLoop_eq 10 _ (totals_length Chan.rxS3R1 cur),
    zeroLoop_eq 10 _ (totals_length Chan.txS1R1 cur),
    zeroLoop_eq 20 _ (totals_length Chan.txS2R2 cur),
    zeroLoop_eq 10 _ (totals_length Chan.txS3R1 cur)]
  rfl

theorem exec_eq_snapshots : ∀ (steps cur : List Step),
    (∀ c i sz, Step.pkt c i sz ∈ steps → i < c.size) →
    exec (snapshot cur) steps = (windowsFrom cur steps).map snapshot := by
  intro steps
  induction steps with
  | nil => intro cur _; rfl
  | cons e rest ih =>
    intro cur hidx
    have hrest : ∀ c i sz, Step.pkt c i sz ∈ rest → i < c.size :=
      fun c i sz h => hidx c i sz (List.mem_cons_of_mem _ h)
    cases e with
    | pkt c i sz =>
      have hi : i < c.size := hidx c i sz (List.mem_cons_self _ _)
      simp only [exec, windowsFrom]
      rw [trace_snapshot c i sz cur hi]
      exact ih _ hrest
    | tick w =>
      simp only [exec, windowsFrom, List.map_cons]
      rw [PrintThroughput_snapshot, ih [] hrest]

theorem init_eq_snapshot : init = snapshot [] := by
  simp only [snapshot, totals_nil]
  rfl

end MultiHop

/-! ## Window attribution of a run -/

/-- C10.  Window attribution.  In a run of packet events and sampler ticks from
all-zero counters, with the events of any flows interleaved in any order, the
value the sampler reads for flow `i` at the `k`-th tick is the sum modulo
`2 ^ 64` of the byte counts of exactly the events of flow `i` between the
`(k-1)`-th and the `k`-th tick: for the `N` receive counters of convergence and
for the six counter vectors of multi-hop. -/
theorem window_attribution (N : Nat) (steps : List Convergence.Step)
    (hidx : ∀ i sz, Convergence.Step.pkt i sz ∈ steps → i < N)
    (msteps : List MultiHop.Step)
    (hm : ∀ c i sz, MultiHop.Step.pkt c i sz ∈ msteps → i < c.size) :
    Convergence.exec N (Convergence.init N) steps = Convergence.windowTotals N [] steps ∧
      MultiHop.exec MultiHop.init msteps
        = (MultiHop.windowsFrom [] msteps).map MultiHop.snapshot := by
  constructor
  · apply Convergence.exec_eq_windowTotals N steps (Convergence.init N) [] _ hidx
    apply List.ext_getElem <;> simp [Convergence.init, Convergence.windowBytes, wrap64]
  · rw [MultiHop.init_eq_snapshot]
    exact MultiHop.exec_eq_snapshots msteps [] hm

/-- Witness of C10: three events of flow 0 interleaved with one of flow 1, a tick,
one more event, a tick; and a multi-hop window with one send and one receive. -/
theorem window_attribution_witness :
    Convergence.exec 5 (Convergence.init 5)
        [Convergence.Step.pkt 0 100, Convergence.Step.pkt 1 1500, Convergence.Step.pkt 0 250,
          Convergence.Step.pkt 0 1400, Convergence.Step.tick 1000000,
          Convergence.Step.pkt 1 40, Convergence.Step.tick 2000000]
        = [[1750, 1500, 0, 0, 0], [0, 40, 0, 0, 0]] ∧
      MultiHop.exec MultiHop.init
        [MultiHop.Step.pkt MultiHop.Chan.txS1R1 3 1500,
          MultiHop.Step.pkt MultiHop.Chan.rxS2R2 19 1448, MultiHop.Step.tick 10000000]
        = (MultiHop.windowsFrom []
            [MultiHop.Step.pkt MultiHop.Chan.txS1R1 3 1500,
              MultiHop.Step.pkt MultiHop.Chan.rxS2R2 19 1448,
              MultiHop.Step.tick 10000000]).map MultiHop.snapshot :=
  have h := window_attribution 5
    [Convergence.Step.pkt 0 100, Convergence.Step.pkt 1 1500, Convergence.Step.pkt 0 250,
      Convergence.Step.pkt 0 1400, Convergence.Step.tick 1000000,
      Convergence.Step.pkt 1 40, Convergence.Step.tick 2000000]
    (by intro i sz h; simp at h; omega)
    [MultiHop.Step.pkt MultiHop.Chan.txS1R1 3 1500,
      MultiHop.Step.pkt MultiHop.Chan.rxS2R2 19 1448, MultiHop.Step.tick 10000000]
    (by
      intro c i sz h
      simp at h
      rcases h with ⟨rfl, rfl, rfl⟩ | ⟨rfl, rfl, rfl⟩ <;> decide)
  ⟨h.1.trans (by decide), h.2⟩

/-! ## Frame of a packet event -/

theorem getD_set_self (v : List Nat) (i x : Nat) (hi : i < v.length) :
    (v.set i x).getD i 0 = x := by
  rw [List.getD_eq_getElem?_getD, List.getElem?_set_self hi]
  rfl

theorem getD_set_other (v : List Nat) (i j x : Nat) (hij : j ≠ i) :
    (v.set i x).getD j 0 = v.getD j 0 := by
  rw [List.getD_eq_getElem?_getD, List.getD_eq_getElem?_getD,
    List.getElem?_set_ne (fun h => hij h.symm)]

namespace MultiHop

theorem trace_get_self (c : Chan) (k sz : Nat) (ms : State) :
    (trace c k sz ms).get c = bump (ms.get c) k sz := by
  cases c <;> rfl

theorem trace_get_other (c d : Chan) (k sz : Nat) (ms : State) (h : d ≠ c) :
    (trace c k sz ms).get d = ms.get d := by
  cases c <;> cases d <;> first | rfl | exact absurd rfl h

end MultiHop

/-- C11.  A packet event adds its byte count to the counter of its own flow and changes
nothing else: after `TraceSink (i, p)` with `i < N` counter `i` holds its old
value plus the packet size modulo `2 ^ 64`, every other counter and the flags
are unchanged and there are still `N` counters; likewise each of the six
multi-hop callbacks changes one entry of its own vector only. -/
theorem packet_event_frame (N i sz : Nat) (s : Convergence.State)
    (hlen : s.rxS1R1Bytes.length = N) (hi : i < N)
    (c : MultiHop.Chan) (k sz2 : Nat) (ms : MultiHop.State)
    (hc : (ms.get c).length = c.size) (hk : k < c.size) :
    ((Convergence.TraceSink i sz s).rxS1R1Bytes.getD i 0
          = wrap64 (s.rxS1R1Bytes.getD i 0 + sz) ∧
        (∀ j, j ≠ i → (Convergence.TraceSink i sz s).rxS1R1Bytes.getD j 0
          = s.rxS1R1Bytes.getD j 0) ∧
        (Convergence.TraceSink i sz s).rxS1R1Bytes.length = N ∧
        (Convergence.TraceSink i sz s).flags = s.flags) ∧
      (((MultiHop.trace c k sz2 ms).get c).getD k 0 = wrap64 ((ms.get c).getD k 0 + sz2) ∧
        (∀ j, j ≠ k → ((MultiHop.trace c k sz2 ms).get c).getD j 0 = (ms.get c).getD j 0) ∧
        (∀ d, d ≠ c → (MultiHop.trace c k sz2 ms).get d = ms.get d) ∧
        ((MultiHop.trace c k sz2 ms).get c).length = c.size) := by
  refine ⟨⟨?_, ?_, ?_, rfl⟩, ?_, ?_, ?_, ?_⟩
  · exact getD_set_self _ _ _ (by rw [hlen]; exact hi)
  · intro j hj
    exact getD_set_other _ _ _ _ hj
  · simp [Convergence.TraceSink, hlen]
  · rw [MultiHop.trace_get_self]
    exact getD_set_self _ _ _ (by rw [hc]; exact hk)
  · intro j hj
    rw [MultiHop.trace_get_self]
    exact getD_set_other _ _ _ _ hj
  · intro d hd
    exact MultiHop.trace_get_other c d k sz2 ms hd
  · rw [MultiHop.trace_get_self]
    simp [MultiHop.bump, hc]

/-- Witness of C11: after events of 100 and 250 bytes for flow 0, an event of 1400
bytes leaves its counter at 1750; a send of 1448 bytes by flow 3 of S2-R2. -/
theorem packet_event_frame_witness :
    (Convergence.TraceSink 0 1400
        (Convergence.TraceSink 0 250 (Convergence.TraceSink 0 100 (Convergence.init 5)))
        ).rxS1R1Bytes.getD 0 0 = 1750 ∧
      ((MultiHop.trace MultiHop.Chan.txS2R2 3 1448 MultiHop.init).get
        MultiHop.Chan.txS2R2).getD 3 0 = 1448 :=
  have h := packet_event_frame 5 0 1400
    (Convergence.TraceSink 0 250 (Convergence.TraceSink 0 100 (Convergence.init 5)))
    rfl (by decide) MultiHop.Chan.txS2R2 3 1448 MultiHop.init rfl (by decide)
  ⟨h.1.1.trans (by decide), h.2.1.trans (by decide)⟩

/-! ## Reset of the counters by a tick -/

theorem MultiHop.PrintThroughput_fst (w : Nat) (s : MultiHop.State) :
    (MultiHop.PrintThroughput w s).1
      = ⟨MultiHop.zeroLoop 10 s.rxS1R1Bytes, MultiHop.zeroLoop 20 s.rxS2R2Bytes,
          MultiHop.zeroLoop 10 s.rxS3R1Bytes, MultiHop.zeroLoop 10 s.txS1R1Bytes,
          MultiHop.zeroLoop 20 s.txS2R2Bytes, MultiHop.zeroLoop 10 s.txS3R1Bytes⟩ := by
  simp only [MultiHop.PrintThroughput]

/-- C12.  Every sampler tick resets every counter: after one invocation of convergence
`PrintThroughput` all `N` receive counters are zero, although only the non-zero
ones are assigned; after one invocation of multi-hop `PrintThroughput` the
10 + 20 + 10 receive counters and the 10 + 20 + 10 transmit counters are zero. -/
theorem tick_resets_every_counter (N now : Nat) (s : Convergence.State)
    (hlen : s.rxS1R1Bytes.length = N) (w : Nat) (ms : MultiHop.State)
    (hm : ∀ c, (ms.get c).length = c.size) :
    (Convergence.PrintThroughput N now s).1.rxS1R1Bytes = List.replicate N 0 ∧
      ∀ c, ((MultiHop.PrintThroughput w ms).1.get c) = List.replicate c.size 0 := by
  refine ⟨Convergence.PrintThroughput_bytes N now s hlen, ?_⟩
  intro c
  rw [MultiHop.PrintThroughput_fst]
  have h := hm c
  cases c <;> simp only [MultiHop.State.get, MultiHop.Chan.size] at h ⊢ <;>
    exact MultiHop.zeroLoop_eq _ _ h

/-- Witness of C12: five counters of which two are zero, and a multi-hop state after
one packet event. -/
theorem tick_resets_every_counter_witness :
    (Convergence.PrintThroughput 5 1000000
        ⟨[1448, 0, 2896, 0, 1448], ⟨false, false, false⟩⟩).1.rxS1R1Bytes
        = List.replicate 5 0 ∧
      ∀ c, ((MultiHop.PrintThroughput 10000000
        (MultiHop.trace MultiHop.Chan.txS2R2 3 1448 MultiHop.init)).1.get c)
        = List.replicate c.size 0 :=
  tick_resets_every_counter 5 1000000 ⟨[1448, 0, 2896, 0, 1448], ⟨false, false, false⟩⟩ rfl
    10000000 (MultiHop.trace MultiHop.Chan.txS2R2 3 1448 MultiHop.init)
    (by intro c; cases c <;> rfl)

/-! ## Multiplication of doubles -/

namespace F64

theorem mul_fin (ma mb : Nat) (ea eb : Int) (ha : Normal ma) (hb : Normal mb) :
    mul (.fin ma ea) (.fin mb eb)
      = if ma * mb < 2 ^ 105 then norm (rne (ma * mb) (2 ^ 52)) (ea + eb + 52)
        else norm (rne (ma * mb) (2 ^ 53)) (ea + eb + 53) := by
  have h1 : mb ≠ 0 := by have := hb.1; omega
  have h2 : ma ≠ 0 := by have := ha.1; omega
  simp only [mul, h1, h2, or_self, if_false]

theorem mul_bounds (ma mb : Nat) (ha : Normal ma) (hb : Normal mb) :
    2 ^ 104 ≤ ma * mb ∧ ma * mb < 2 ^ 106 := by
  obtain ⟨a1, a2⟩ := ha
  obtain ⟨b1, b2⟩ := hb
  constructor
  · calc 2 ^ 104 = 2 ^ 52 * 2 ^ 52 := by norm_num
      _ ≤ ma * mb := Nat.mul_le_mul a1 b1
  · calc ma * mb < 2 ^ 53 * 2 ^ 53 := Nat.mul_lt_mul'' a2 b2
      _ = 2 ^ 106 := by norm_num

theorem mul_rne_bounds1 (p : Nat) (h1 : 2 ^ 104 ≤ p) (h2 : p < 2 ^ 105) :
    2 ^ 52 ≤ rne p (2 ^ 52) ∧ rne p (2 ^ 52) ≤ 2 ^ 53 := by
  constructor
  · apply le_rne_of_mul_le _ _ _ (by norm_num)
    norm_num at *
    omega
  · apply rne_le_of_le_mul _ _ _ (by norm_num)
    norm_num at *
    omega

theorem mul_rne_bounds2 (p : Nat) (h1 : 2 ^ 105 ≤ p) (h2 : p < 2 ^ 106) :
    2 ^ 52 ≤ rne p (2 ^ 53) ∧ rne p (2 ^ 53) ≤ 2 ^ 53 := by
  constructor
  · apply le_rne_of_mul_le _ _ _ (by norm_num)
    norm_num at *
    omega
  · apply rne_le_of_le_mul _ _ _ (by norm_num)
    norm_num at *
    omega

theorem mul_isNormal (a b : F64) (ha : a.IsNormal) (hb : b.IsNormal) : (mul a b).IsNormal := by
  cases a with
  | inf => exact ha.elim
  | nan => exact ha.elim
  | fin ma ea =>
    cases b with
    | inf => exact hb.elim
    | nan => exact hb.elim
    | fin mb eb =>
      obtain ⟨p1, p2⟩ := mul_bounds ma mb ha hb
      rw [mul_fin ma mb ea eb ha hb]
      split
      · rename_i h
        obtain ⟨c1, c2⟩ := mul_rne_bounds1 _ p1 h
        exact norm_isNormal _ _ c1 c2
      · rename_i h
        obtain ⟨c1, c2⟩ := mul_rne_bounds2 _ (Nat.le_of_not_lt h) p2
        exact norm_isNormal _ _ c1 c2

/-- The product of two doubles is the exact product rounded once: the relative
error is at most `2 ^ -53`. -/
theorem mul_error (a b : F64) (ha : a.IsNormal) (hb : b.IsNormal) :
    (mul a b).val * 2 ^ 53 ≤ a.val * b.val * (2 ^ 53 + 1) ∧
      a.val * b.val * (2 ^ 53 - 1) ≤ (mul a b).val * 2 ^ 53 := by
  cases a with
  | inf => exact ha.elim
  | nan => exact ha.elim
  | fin ma ea =>
    cases b with
    | inf => exact hb.elim
    | nan => exact hb.elim
    | fin mb eb =>
      have h2 : (2 : ℚ) ≠ 0 := by norm_num
      obtain ⟨p1, p2⟩ := mul_bounds ma mb ha hb
      have hE : (0 : ℚ) < (2 : ℚ) ^ ea * (2 : ℚ) ^ eb := by positivity
      have hv : (F64.fin ma ea).val * (F64.fin mb eb).val
          = ((ma : ℚ) * mb) * ((2 : ℚ) ^ ea * (2 : ℚ) ^ eb) := by
        simp only [val]; ring
      rw [mul_fin ma mb ea eb ha hb]
      split
      · rename_i h
        have hx : (2 : ℚ) ^ (ea + eb + 52) = (2 : ℚ) ^ ea * (2 : ℚ) ^ eb * 2 ^ 52 := by
          have : ea + eb + 52 = ea + eb + (52 : ℕ) := by push_cast; ring
          rw [this, zpow_add₀ h2, zpow_add₀ h2, zpow_natCast]
        obtain ⟨e1, e2⟩ := rne_error (ma * mb) (2 ^ 52) (by norm_num)
        have k1 : (2 : ℚ) * ((rne (ma * mb) (2 ^ 52) : ℚ) * 2 ^ 52)
            ≤ 2 * ((ma : ℚ) * mb) + 2 ^ 52 := by exact_mod_cast e1
        have k2 : (2 : ℚ) * ((ma : ℚ) * mb)
            ≤ 2 * ((rne (ma * mb) (2 ^ 52) : ℚ) * 2 ^ 52) + 2 ^ 52 := by exact_mod_cast e2
        have k3 : (2 : ℚ) ^ 104 ≤ (ma : ℚ) * mb := by exact_mod_cast p1
        rw [hv, norm_val, hx]
        generalize (2 : ℚ) ^ ea * (2 : ℚ) ^ eb = E at *
        generalize (rne (ma * mb) (2 ^ 52) : ℚ) = r at *
        generalize (ma : ℚ) * mb = P at *
        have s1 := mul_le_mul_of_nonneg_left k1 hE.le
        have s2 := mul_le_mul_of_nonneg_left k2 hE.le
        have s3 := mul_le_mul_of_nonneg_left k3 hE.le
        constructor
        · linarith
        · linarith
      · rename_i h
        have h : 2 ^ 105 ≤ ma * mb := Nat.le_of_not_lt h
        have hx : (2 : ℚ) ^ (ea + eb + 53) = (2 : ℚ) ^ ea * (2 : ℚ) ^ eb * 2 ^ 53 := by
          have : ea + eb + 53 = ea + eb + (53 : ℕ) := by push_cast; ring
          rw [this, zpow_add₀ h2, zpow_add₀ h2, zpow_natCast]
        obtain ⟨e1, e2⟩ := rne_error (ma * mb) (2 ^ 53) (by norm_num)
        have k1 : (2 : ℚ) * ((rne (ma * mb) (2 ^ 53) : ℚ) * 2 ^ 53)
            ≤ 2 * ((ma : ℚ) * mb) + 2 ^ 53 := by exact_mod_cast e1
        have k2 : (2 : ℚ) * ((ma : ℚ) * mb)
            ≤ 2 * ((rne (ma * mb) (2 ^ 53) : ℚ) * 2 ^ 53) + 2 ^ 53 := by exact_mod_cast e2
        have k3 : (2 : ℚ) ^ 105 ≤ (ma : ℚ) * mb := by exact_mod_cast h
        rw [hv, norm_val, hx]
        generalize (2 : ℚ) ^ ea * (2 : ℚ) ^ eb = E at *
        generalize (rne (ma * mb) (2 ^ 53) : ℚ) = r at *
        generalize (ma : ℚ) * mb = P at *
        have s1 := mul_le_mul_of_nonneg_left k1 hE.le
        have s2 := mul_le_mul_of_nonneg_left k2 hE.le
        have s3 := mul_le_mul_of_nonneg_left k3 hE.le
        constructor
        · linarith
        · linarith

end F64

/-! ## Accumulated rounding errors -/

theorem Near.refl (q : ℚ) (hq : 0 < q) : Near 0 q q := by
  refine ⟨hq, hq, ?_, ?_⟩ <;> simp

theorem Near.of_round (v q : ℚ) (hq : 0 < q) (h1 : v * 2 ^ 53 ≤ q * (2 ^ 53 + 1))
    (h2 : q * (2 ^ 53 - 1) ≤ v * 2 ^ 53) : Near 1 v q := by
  have hv : 0 < v := by
    by_contra hneg
    have : v * 2 ^ 53 ≤ 0 := mul_nonpos_of_nonpos_of_nonneg (not_lt.1 hneg) (by norm_num)
    have : 0 < q * (2 ^ 53 - 1) := mul_pos hq (by norm_num)
    linarith
  refine ⟨hv, hq, ?_, ?_⟩
  · rw [pow_one]
    have : q * (1 + 1 / 2 ^ 52) * 2 ^ 53 = q * (2 ^ 53 + 2) := by ring
    nlinarith
  · rw [pow_one]
    have : v * (1 + 1 / 2 ^ 52) * 2 ^ 53 = v * (2 ^ 53 + 2) := by ring
    nlinarith

theorem Near.trans {j k : Nat} {a b c : ℚ} (h1 : Near j a b) (h2 : Near k b c) :
    Near (j + k) a c := by
  obtain ⟨ha, hb, u1, u2⟩ := h1
  obtain ⟨_, hc, w1, w2⟩ := h2
  have hW : (0 : ℚ) < 1 + 1 / 2 ^ 52 := by norm_num
  have hj : (0 : ℚ) < (1 + 1 / 2 ^ 52) ^ j := pow_pos hW j
  have hk : (0 : ℚ) < (1 + 1 / 2 ^ 52) ^ k := pow_pos hW k
  refine ⟨ha, hc, ?_, ?_⟩
  · rw [pow_add]
    calc a ≤ b * (1 + 1 / 2 ^ 52) ^ j := u1
      _ ≤ c * (1 + 1 / 2 ^ 52) ^ k * (1 + 1 / 2 ^ 52) ^ j :=
        mul_le_mul_of_nonneg_right w1 hj.le
      _ = c * ((1 + 1 / 2 ^ 52) ^ j * (1 + 1 / 2 ^ 52) ^ k) := by ring
  · rw [pow_add]
    calc c ≤ b * (1 + 1 / 2 ^ 52) ^ k := w2
      _ ≤ a * (1 + 1 / 2 ^ 52) ^ j * (1 + 1 / 2 ^ 52) ^ k :=
        mul_le_mul_of_nonneg_right u2 hk.le
      _ = a * ((1 + 1 / 2 ^ 52) ^ j * (1 + 1 / 2 ^ 52) ^ k) := by ring

theorem Near.mul {j k : Nat} {a p b r : ℚ} (h1 : Near j a p) (h2 : Near k b r) :
    Near (j + k) (a * b) (p * r) := by
  obtain ⟨ha, hp, u1, u2⟩ := h1
  obtain ⟨hb, hr, w1, w2⟩ := h2
  have hW : (0 : ℚ) < 1 + 1 / 2 ^ 52 := by norm_num
  have hj : (0 : ℚ) < (1 + 1 / 2 ^ 52) ^ j := pow_pos hW j
  have hk : (0 : ℚ) < (1 + 1 / 2 ^ 52) ^ k := pow_pos hW k
  refine ⟨mul_pos ha hb, mul_pos hp hr, ?_, ?_⟩
  · rw [pow_add]
    calc a * b ≤ (p * (1 + 1 / 2 ^ 52) ^ j) * (r * (1 + 1 / 2 ^ 52) ^ k) :=
        mul_le_mul u1 w1 hb.le (mul_pos hp hj).le
      _ = p * r * ((1 + 1 / 2 ^ 52) ^ j * (1 + 1 / 2 ^ 52) ^ k) := by ring
  · rw [pow_add]
    calc p * r ≤ (a * (1 + 1 / 2 ^ 52) ^ j) * (b * (1 + 1 / 2 ^ 52) ^ k) :=
        mul_le_mul u2 w2 hr.le (mul_pos ha hj).le
      _ = a * b * ((1 + 1 / 2 ^ 52) ^ j * (1 + 1 / 2 ^ 52) ^ k) := by ring

theorem Near.symm {k : Nat} {a b : ℚ} (h : Near k a b) : Near k b a :=
  ⟨h.2.1, h.1, h.2.2.2, h.2.2.1⟩

theorem Near.inv {k : Nat} {a b : ℚ} (h : Near k a b) : Near k a⁻¹ b⁻¹ := by
  obtain ⟨ha, hb, u1, u2⟩ := h
  have hW : (0 : ℚ) < 1 + 1 / 2 ^ 52 := by norm_num
  have hk : (0 : ℚ) < (1 + 1 / 2 ^ 52) ^ k := pow_pos hW k
  refine ⟨inv_pos.2 ha, inv_pos.2 hb, ?_, ?_⟩
  · rw [inv_eq_one_div, inv_eq_one_div, div_mul_eq_mul_div, one_mul,
      div_le_div_iff₀ ha hb]
    linarith
  · rw [inv_eq_one_div, inv_eq_one_div, div_mul_eq_mul_div, one_mul,
      div_le_div_iff₀ hb ha]
    linarith

theorem Near.div {j k : Nat} {a p b r : ℚ} (h1 : Near j a p) (h2 : Near k b r) :
    Near (j + k) (a / b) (p / r) := by
  rw [div_eq_mul_inv, div_eq_mul_inv]
  exact Near.mul h1 (Near.inv h2)

/-- Five roundings stay within a relative error of `2 ^ -49`. -/
theorem Near.bound {v q : ℚ} (h : Near 5 v q) : |v - q| ≤ q / 2 ^ 49 := by
  obtain ⟨hv, hq, u1, u2⟩ := h
  have hW : ((1 : ℚ) + 1 / 2 ^ 52) ^ 5 ≤ 1 + 1 / 2 ^ 49 := by norm_num
  generalize ((1 : ℚ) + 1 / 2 ^ 52) ^ 5 = W at *
  have a1 : v ≤ q * (1 + 1 / 2 ^ 49) := le_trans u1 (mul_le_mul_of_nonneg_left hW hq.le)
  have a2 : q ≤ v * (1 + 1 / 2 ^ 49) := le_trans u2 (mul_le_mul_of_nonneg_left hW hv.le)
  have e : q / 2 ^ 49 = q * (1 / 2 ^ 49) := by ring
  rw [abs_le, e]
  constructor
  · have a3 : q * (1 - 1 / 2 ^ 49) ≤ v * (1 + 1 / 2 ^ 49) * (1 - 1 / 2 ^ 49) :=
      mul_le_mul_of_nonneg_right a2 (by norm_num)
    have a4 : v * (1 + 1 / 2 ^ 49) * (1 - 1 / 2 ^ 49) = v - v * (1 / 2 ^ 98) := by ring
    have a5 : 0 ≤ v * (1 / 2 ^ 98) := by positivity
    linarith
  · linarith

/-! ## The values of the aggregate and utilization rows -/

theorem F64.near_div (a b : F64) (ha : a.IsNormal) (hb : b.IsNormal) :
    Near 1 (F64.div a b).val (a.val / b.val) := by
  obtain ⟨d1, d2⟩ := F64.div_error a b ha hb
  have hbp := F64.val_pos b hb
  have hap := F64.val_pos a ha
  have hq : a.val = a.val / b.val * b.val := by field_simp
  apply Near.of_round _ _ (div_pos hap hbp)
  · apply le_of_mul_le_mul_right _ hbp
    calc (F64.div a b).val * 2 ^ 53 * b.val = (F64.div a b).val * b.val * 2 ^ 53 := by ring
      _ ≤ a.val * (2 ^ 53 + 1) := d1
      _ = a.val / b.val * (2 ^ 53 + 1) * b.val := by rw [hq]; field_simp
  · apply le_of_mul_le_mul_right _ hbp
    calc a.val / b.val * (2 ^ 53 - 1) * b.val = a.val * (2 ^ 53 - 1) := by field_simp
      _ ≤ (F64.div a b).val * b.val * 2 ^ 53 := d2
      _ = (F64.div a b).val * 2 ^ 53 * b.val := by ring

theorem F64.near_mul (a b : F64) (ha : a.IsNormal) (hb : b.IsNormal) :
    Near 1 (F64.mul a b).val (a.val * b.val) := by
  obtain ⟨d1, d2⟩ := F64.mul_error a b ha hb
  exact Near.of_round _ _ (mul_pos (F64.val_pos a ha) (F64.val_pos b hb)) d1 d2

theorem near_ofU64 (n : Nat) (h0 : 0 < n) (h64 : n < 2 ^ 64) :
    Near 1 (F64.ofU64 n).val (n : ℚ) := by
  obtain ⟨_, hv⟩ := ofU64_spec n h0 h64
  obtain ⟨a1, a2⟩ := ofU64Nat_error n h0 h64
  have a1q : (2 : ℚ) ^ 53 * (ofU64Nat n : ℚ) ≤ 2 ^ 53 * n + n := by exact_mod_cast a1
  have a2q : (2 : ℚ) ^ 53 * (n : ℚ) ≤ 2 ^ 53 * ofU64Nat n + n := by exact_mod_cast a2
  rw [hv]
  apply Near.of_round _ _ (by exact_mod_cast h0)
  · linarith
  · linarith

theorem val_ofU64_exact (n : Nat) (h0 : 0 < n) (h : n < 2 ^ 53) : (F64.ofU64 n).val = (n : ℚ) := by
  obtain ⟨_, hv⟩ := ofU64_spec n h0 (lt_trans h (by norm_num))
  rw [hv, ofU64Nat_exact n h]

namespace Convergence

theorem measurementInterval_d_isNormal : measurementInterval_d.IsNormal := by
  simp only [measurementInterval_d, F64.IsNormal, Normal]
  norm_num

theorem lit1e6_isNormal : lit1e6.IsNormal := by
  simp only [lit1e6, F64.IsNormal, Normal]
  norm_num

theorem lit100_isNormal : lit100.IsNormal := by
  simp only [lit100, F64.IsNormal, Normal]
  norm_num

/-- The three double constants of the report rows are the correctly rounded values
of `1/1000`, `10 ^ 6` and `100`. -/
theorem constants_correctly_rounded :
    measurementInterval_d = F64.div (F64.ofU64 1) (F64.ofU64 1000) ∧
      lit1e6 = F64.ofU64 1000000 ∧ lit100 = F64.ofU64 100 := by
  decide

theorem lit1e6_val : lit1e6.val = 1000000 := by
  rw [constants_correctly_rounded.2.1]
  exact_mod_cast val_ofU64_exact 1000000 (by norm_num) (by norm_num)

theorem lit100_val : lit100.val = 100 := by
  rw [constants_correctly_rounded.2.2]
  exact_mod_cast val_ofU64_exact 100 (by norm_num) (by norm_num)

theorem measurementInterval_d_near : Near 1 measurementInterval_d.val (1 / 1000) := by
  rw [constants_correctly_rounded.1]
  have h := F64.near_div (F64.ofU64 1) (F64.ofU64 1000)
    (ofU64_spec 1 (by norm_num) (by norm_num)).1 (ofU64_spec 1000 (by norm_num) (by norm_num)).1
  rw [val_ofU64_exact 1 (by norm_num) (by norm_num),
    val_ofU64_exact 1000 (by norm_num) (by norm_num)] at h
  exact_mod_cast h

/-- The per-flow rate is finite and within three roundings of `bits / 0.001`. -/
theorem rate_near (bits : Nat) (h0 : 0 < bits) (h64 : bits < 2 ^ 64) :
    (F64.div (F64.ofU64 bits) measurementInterval_d).IsNormal ∧
      Near 3 (F64.div (F64.ofU64 bits) measurementInterval_d).val ((bits : ℚ) / (1 / 1000)) := by
  have nB := (ofU64_spec bits h0 h64).1
  refine ⟨F64.div_isNormal _ _ nB measurementInterval_d_isNormal, ?_⟩
  have r1 : Near 1 (F64.div (F64.ofU64 bits) measurementInterval_d).val
      ((F64.ofU64 bits).val / measurementInterval_d.val) :=
    F64.near_div _ _ nB measurementInterval_d_isNormal
  have r2 : Near (1 + 1) ((F64.ofU64 bits).val / measurementInterval_d.val)
      ((bits : ℚ) / (1 / 1000)) :=
    Near.div (near_ofU64 bits h0 h64) measurementInterval_d_near
  have r3 := Near.trans r1 r2
  exact r3

/-- The utilization value is finite and within five roundings of
`bits / 0.001 / 25e9 * 100`. -/
theorem utilization_near (bits : Nat) (h0 : 0 < bits) (h64 : bits < 2 ^ 64) :
    (utilizationValue bits).IsNormal ∧
      Near 5 (utilizationValue bits).val ((bits : ℚ) / (1 / 1000) / 25000000000 * 100) := by
  obtain ⟨n1, r1⟩ := rate_near bits h0 h64
  have nR := (ofU64_spec bottleneckDataRate_n (by decide) (by decide)).1
  have vR : (F64.ofU64 bottleneckDataRate_n).val = 25000000000 := by
    exact_mod_cast val_ofU64_exact bottleneckDataRate_n (by decide) (by decide)
  have n2 := F64.div_isNormal _ _ n1 nR
  have q1 : Near 1 (F64.div (F64.div (F64.ofU64 bits) measurementInterval_d)
      (F64.ofU64 bottleneckDataRate_n)).val
      ((F64.div (F64.ofU64 bits) measurementInterval_d).val
        / (F64.ofU64 bottleneckDataRate_n).val) := F64.near_div _ _ n1 nR
  rw [vR] at q1
  have q2 : Near (3 + 0) ((F64.div (F64.ofU64 bits) measurementInterval_d).val / 25000000000)
      ((bits : ℚ) / (1 / 1000) / 25000000000) :=
    Near.div r1 (Near.refl (25000000000 : ℚ) (by norm_num))
  have r2 : Near (1 + (3 + 0)) (F64.div (F64.div (F64.ofU64 bits) measurementInterval_d)
      (F64.ofU64 bottleneckDataRate_n)).val ((bits : ℚ) / (1 / 1000) / 25000000000) := by
    have q := Near.trans q1 q2
    exact q
  refine ⟨F64.mul_isNormal _ _ n2 lit100_isNormal, ?_⟩
  have q3 : Near 1 (utilizationValue bits).val
      ((F64.div (F64.div (F64.ofU64 bits) measurementInterval_d)
        (F64.ofU64 bottleneckDataRate_n)).val * lit100.val) :=
    F64.near_mul _ _ n2 lit100_isNormal
  rw [lit100_val] at q3
  have q4 : Near (1 + (3 + 0) + 0)
      ((F64.div (F64.div (F64.ofU64 bits) measurementInterval_d)
        (F64.ofU64 bottleneckDataRate_n)).val * 100)
      ((bits : ℚ) / (1 / 1000) / 25000000000 * 100) :=
    Near.mul r2 (Near.refl (100 : ℚ) (by norm_num))
  have q5 := Near.trans q3 q4
  exact q5

/-- The aggregate value is finite and within five roundings of
`bits / 0.001 / 1e6 / cnt`. -/
theorem aggregate_near (bits cnt : Nat) (h0 : 0 < bits) (h64 : bits < 2 ^ 64) (hc0 : 0 < cnt)
    (hc : cnt < 2 ^ 53) :
    (aggregateValue bits cnt).IsNormal ∧
      Near 5 (aggregateValue bits cnt).val ((bits : ℚ) / (1 / 1000) / 1000000 / cnt) := by
  obtain ⟨n1, r1⟩ := rate_near bits h0 h64
  have n2 := F64.div_isNormal _ _ n1 lit1e6_isNormal
  have q1 : Near 1 (F64.div (F64.div (F64.ofU64 bits) measurementInterval_d) lit1e6).val
      ((F64.div (F64.ofU64 bits) measurementInterval_d).val / lit1e6.val) :=
    F64.near_div _ _ n1 lit1e6_isNormal
  rw [lit1e6_val] at q1
  have q2 : Near (3 + 0) ((F64.div (F64.ofU64 bits) measurementInterval_d).val / 1000000)
      ((bits : ℚ) / (1 / 1000) / 1000000) :=
    Near.div r1 (Near.refl (1000000 : ℚ) (by norm_num))
  have r2 : Near (1 + (3 + 0))
      (F64.div (F64.div (F64.ofU64 bits) measurementInterval_d) lit1e6).val
      ((bits : ℚ) / (1 / 1000) / 1000000) := by
    have q := Near.trans q1 q2
    exact q
  have nC := (ofU64_spec cnt hc0 (lt_trans hc (by norm_num))).1
  have vC := val_ofU64_exact cnt hc0 hc
  refine ⟨F64.div_isNormal _ _ n2 nC, ?_⟩
  have q3 : Near 1 (aggregateValue bits cnt).val
      ((F64.div (F64.div (F64.ofU64 bits) measurementInterval_d) lit1e6).val
        / (F64.ofU64 cnt).val) := F64.near_div _ _ n2 nC
  rw [vC] at q3
  have q4 : Near (1 + (3 + 0) + 0)
      ((F64.div (F64.div (F64.ofU64 bits) measurementInterval_d) lit1e6).val / cnt)
      ((bits : ℚ) / (1 / 1000) / 1000000 / cnt) :=
    Near.div r2 (Near.refl (cnt : ℚ) (by exact_mod_cast hc0))
  have q5 := Near.trans q3 q4
  exact q5

theorem rowsFrom_filter_isAggr (now : Nat) : ∀ (l : List Nat) (k : Nat),
    (rowsFrom now k l).filter isAggr = [] := by
  intro l
  induction l with
  | nil => intro k; simp [rowsFrom]
  | cons b l ih =>
    intro k
    by_cases hb : b = 0 <;> simp [rowsFrom, hb, ih, isAggr]

theorem rowsFrom_filter_isUtil (now : Nat) : ∀ (l : List Nat) (k : Nat),
    (rowsFrom now k l).filter isUtil = [] := by
  intro l
  induction l with
  | nil => intro k; simp [rowsFrom]
  | cons b l ih =>
    intro k
    by_cases hb : b = 0 <;> simp [rowsFrom, hb, ih, isUtil]

theorem check_filter_isAggr (t : Thr) (thr : F64) (now : Nat) (v : F64) (flag : Bool) :
    (check t thr now v flag).2.filter isAggr = [] := by
  unfold check
  split <;> simp [isAggr]

theorem check_filter_isUtil (t : Thr) (thr : F64) (now : Nat) (v : F64) (flag : Bool) :
    (check t thr now v flag).2.filter isUtil = [] := by
  unfold check
  split <;> simp [isUtil]

theorem fairnessBlock_filter_isAggr (now : Nat) (v : F64) (f : Flags) :
    (fairnessBlock now v f).2.filter isAggr = [] := by
  simp only [fairnessBlock, List.filter_append, check_filter_isAggr]
  simp [isAggr]

theorem fairnessBlock_filter_isUtil (now : Nat) (v : F64) (f : Flags) :
    (fairnessBlock now v f).2.filter isUtil = [] := by
  simp only [fairnessBlock, List.filter_append, check_filter_isUtil]
  simp [isUtil]

/-- Every tick writes exactly one aggregate row and one utilization row, whatever
the counters hold. -/
theorem PrintThroughput_rows (N now : Nat) (s : State) (hlen : s.rxS1R1Bytes.length = N) :
    (PrintThroughput N now s).2.filter isAggr
        = [Out.aggr now N (wrap64 (s.rxS1R1Bytes.sum * 8))
            (wrap32 (s.rxS1R1Bytes.countP (fun b => b != 0)))] ∧
      (PrintThroughput N now s).2.filter isUtil
        = [Out.util now (wrap64 (s.rxS1R1Bytes.sum * 8))] := by
  have hw : wrap64 (wrap64 s.rxS1R1Bytes.sum * 8) = wrap64 (s.rxS1R1Bytes.sum * 8) := by
    simp only [wrap64, Nat.mod_mul_mod]
  simp only [PrintThroughput, loop_eq N now s.rxS1R1Bytes hlen, hw]
  split <;>
    simp [List.filter_append, rowsFrom_filter_isAggr, rowsFrom_filter_isUtil,
      fairnessBlock_filter_isAggr, fairnessBlock_filter_isUtil, isAggr, isUtil]

theorem rowsFrom_replicate_zero (now : Nat) : ∀ (n k : Nat),
    rowsFrom now k (List.replicate n 0) = [] := by
  intro n
  induction n with
  | zero => intro k; rfl
  | succ n ih => intro k; simp [List.replicate_succ, rowsFrom, ih]

theorem sum_replicate_zero (n : Nat) : (List.replicate n 0).sum = 0 := by
  simp

theorem countP_replicate_zero (n : Nat) :
    (List.replicate n 0).countP (fun b => b != 0) = 0 := by
  induction n with
  | zero => rfl
  | succ n ih => simp [List.replicate_succ, ih]

theorem countP_le_sum : ∀ l : List Nat, l.countP (fun b => b != 0) ≤ l.sum := by
  intro l
  induction l with
  | nil => simp
  | cons b l ih =>
    by_cases hb : b = 0
    · simp [hb, ih]
    · rw [List.countP_cons_of_pos _ _ (by simpa using hb), List.sum_cons]
      omega

end Convergence

/-! ## Aggregate and utilization rows of a tick -/

/-- C13 (what the code does).  On a tick at which all `N` counters are zero convergence
`PrintThroughput` writes the aggregate row all the same: it is the first line
of the tick, with `cnt = 0`, and its value `(0 * 8) / measurementInterval_d /
1e6 / cnt` is the double quotient `0.0 / 0.0`, a NaN.  No statement tests
`cnt` before the division. -/
theorem idle_tick_writes_nan_aggregate_row (N now : Nat) (f : Convergence.Flags) (hN0 : 0 < N)
    (hN : N < 2 ^ 32) :
    (Convergence.PrintThroughput N now ⟨List.replicate N 0, f⟩).2
        = [Convergence.Out.aggr now N 0 0, Convergence.Out.util now 0,
            Convergence.Out.sched Convergence.measurementInterval] ∧
      (Convergence.Out.aggr now N 0 0).value = some F64.nan ∧
      F64.div (F64.div (F64.ofU64 0) Convergence.measurementInterval_d) Convergence.lit1e6
        = F64.zero ∧
      F64.ofU64 0 = F64.zero ∧ F64.div F64.zero F64.zero = F64.nan := by
  have hnan : Convergence.aggregateValue 0 0 = F64.nan := by decide
  refine ⟨?_, congrArg some hnan, by decide, by decide, by decide⟩
  have hz : ∃ b ∈ (⟨List.replicate N 0, f⟩ : Convergence.State).rxS1R1Bytes, b = 0 :=
    ⟨0, List.mem_replicate.2 ⟨Nat.pos_iff_ne_zero.1 hN0, rfl⟩, rfl⟩
  rw [Convergence.PrintThroughput_some_zero N now ⟨List.replicate N 0, f⟩
    (List.length_replicate _ _) hN hz]
  simp only [Convergence.rowsFrom_replicate_zero, Convergence.countP_replicate_zero,
    Convergence.sum_replicate_zero, wrap64_zero, wrap32_zero, Nat.zero_mul, List.nil_append,
    List.cons_append]

/-- Witness of C13: five idle flows at the first tick (1 ms). -/
theorem idle_tick_writes_nan_aggregate_row_witness :
    (Convergence.PrintThroughput 5 1000000 (Convergence.init 5)).2
        = [Convergence.Out.aggr 1000000 5 0 0, Convergence.Out.util 1000000 0,
            Convergence.Out.sched 1000000] ∧
      (Convergence.Out.aggr 1000000 5 0 0).value = some F64.nan :=
  have h := idle_tick_writes_nan_aggregate_row 5 1000000 ⟨false, false, false⟩ (by decide)
    (by decide)
  ⟨h.1, h.2.1⟩

/-- C14 (amended).  On every tick where `cnt >= 1` counters are non-zero and 8 times the
sum of all counters is below `2 ^ 64`, convergence `PrintThroughput` writes
exactly one aggregate row; it carries the sentinel flow index `N` and the
double `(sum * 8) / measurementInterval_d / 1e6 / cnt`, `cnt` being the number
of non-zero counters: a finite number within a relative error of `2 ^ -49` of
the mean rate `(Σ bᵢ * 8 / 0.001 / 10 ^ 6) / cnt` in Mbps over the active
flows. -/
theorem aggregate_row_is_mean_over_active_flows (N now : Nat) (s : Convergence.State)
    (hlen : s.rxS1R1Bytes.length = N) (hN : N < 2 ^ 32)
    (hcnt : 1 ≤ s.rxS1R1Bytes.countP (fun b => b != 0))
    (hw : s.rxS1R1Bytes.sum * 8 < 2 ^ 64) :
    (Convergence.PrintThroughput N now s).2.filter Convergence.isAggr
        = [Convergence.Out.aggr now N (s.rxS1R1Bytes.sum * 8)
            (s.rxS1R1Bytes.countP (fun b => b != 0))] ∧
      (Convergence.Out.aggr now N (s.rxS1R1Bytes.sum * 8)
          (s.rxS1R1Bytes.countP (fun b => b != 0))).value
        = some (F64.div (F64.div (F64.div (F64.ofU64 (s.rxS1R1Bytes.sum * 8))
            Convergence.measurementInterval_d) Convergence.lit1e6)
            (F64.ofU64 (s.rxS1R1Bytes.countP (fun b => b != 0)))) ∧
      ∃ q : ℚ,
        (Convergence.aggregateValue (s.rxS1R1Bytes.sum * 8)
          (s.rxS1R1Bytes.countP (fun b => b != 0))).toRat = some q ∧
        |q - ((s.rxS1R1Bytes.sum : ℚ) * 8 / (1 / 1000) / 10 ^ 6)
              / (s.rxS1R1Bytes.countP (fun b => b != 0) : ℚ)|
          ≤ ((s.rxS1R1Bytes.sum : ℚ) * 8 / (1 / 1000) / 10 ^ 6)
              / (s.rxS1R1Bytes.countP (fun b => b != 0) : ℚ) / 2 ^ 49 := by
  have hc32 : s.rxS1R1Bytes.countP (fun b => b != 0) < 2 ^ 32 :=
    lt_of_le_of_lt (hlen ▸ List.countP_le_length _) hN
  have hsum : 0 < s.rxS1R1Bytes.sum * 8 := by
    have := Convergence.countP_le_sum s.rxS1R1Bytes
    omega
  refine ⟨?_, rfl, ?_⟩
  · rw [(Convergence.PrintThroughput_rows N now s hlen).1, wrap64_of_lt hw, wrap32_of_lt hc32]
  · obtain ⟨hn, hnear⟩ := Convergence.aggregate_near (s.rxS1R1Bytes.sum * 8)
      (s.rxS1R1Bytes.countP (fun b => b != 0)) hsum hw hcnt
      (lt_trans hc32 (by norm_num))
    refine ⟨_, F64.toRat_of_isNormal _ hn, ?_⟩
    have hb := Near.bound hnear
    have e : ((s.rxS1R1Bytes.sum * 8 : Nat) : ℚ) / (1 / 1000) / 1000000
        / (s.rxS1R1Bytes.countP (fun b => b != 0) : ℚ)
        = ((s.rxS1R1Bytes.sum : ℚ) * 8 / (1 / 1000) / 10 ^ 6)
          / (s.rxS1R1Bytes.countP (fun b => b != 0) : ℚ) := by
      push_cast
      norm_num
    rw [e] at hb
    exact hb

/-- Witness of C14: three of five flows active with 3000000 + 3100000 + 2900000 bytes:
the row is `now 5` with `cnt = 3` and 72000000 bits, not divided by 5. -/
theorem aggregate_row_is_mean_over_active_flows_witness :
    (Convergence.PrintThroughput 5 2000000
        ⟨[3000000, 0, 3100000, 2900000, 0], ⟨false, false, false⟩⟩).2.filter Convergence.isAggr
      = [Convergence.Out.aggr 2000000 5 72000000 3] :=
  (aggregate_row_is_mean_over_active_flows 5 2000000
    ⟨[3000000, 0, 3100000, 2900000, 0], ⟨false, false, false⟩⟩ rfl (by decide) (by decide)
    (by decide)).1

/-- C14 (counterexample).  One active flow with `2 ^ 61` bytes in the window: `cnt = 1`, but
`sum * 8` wraps around to 0 and the aggregate row carries the value 0, not
`2 ^ 64 / 0.001 / 1e6`. -/
theorem aggregate_row_is_mean_counterexample :
    (Convergence.PrintThroughput 5 2000000
        ⟨[2 ^ 61, 0, 0, 0, 0], ⟨false, false, false⟩⟩).2.filter Convergence.isAggr
      = [Convergence.Out.aggr 2000000 5 0 1] ∧
      (Convergence.Out.aggr 2000000 5 0 1).value = some F64.zero ∧
      [2 ^ 61, 0, 0, 0, 0].sum * 8 = 2 ^ 64 := by
  decide

/-- C15 (amended).  For all counters whose sum times 8 is below `2 ^ 64`, every tick of
convergence `PrintThroughput` writes exactly one utilization row, whatever
`cnt` is; its value is the double `sum_bits / measurementInterval_d /
bottleneckDataRate_n * 100` with `sum_bits` 8 times the sum of all `N` counters:
zero if the sum is zero, and otherwise a finite number within a relative error
of `2 ^ -49` of `sum_bits / 250000`. -/
theorem utilization_row_value (N now : Nat) (s : Convergence.State)
    (hlen : s.rxS1R1Bytes.length = N) (hw : s.rxS1R1Bytes.sum * 8 < 2 ^ 64) :
    (Convergence.PrintThroughput N now s).2.filter Convergence.isUtil
        = [Convergence.Out.util now (s.rxS1R1Bytes.sum * 8)] ∧
      (Convergence.Out.util now (s.rxS1R1Bytes.sum * 8)).value
        = some (F64.mul (F64.div (F64.div (F64.ofU64 (s.rxS1R1Bytes.sum * 8))
            Convergence.measurementInterval_d) (F64.ofU64 Convergence.bottleneckDataRate_n))
            Convergence.lit100) ∧
      (s.rxS1R1Bytes.sum = 0 →
        Convergence.utilizationValue (s.rxS1R1Bytes.sum * 8) = F64.zero) ∧
      (0 < s.rxS1R1Bytes.sum →
        ∃ q : ℚ, (Convergence.utilizationValue (s.rxS1R1Bytes.sum * 8)).toRat = some q ∧
          |q - (s.rxS1R1Bytes.sum : ℚ) * 8 / 250000|
            ≤ (s.rxS1R1Bytes.sum : ℚ) * 8 / 250000 / 2 ^ 49) := by
  refine ⟨?_, rfl, ?_, ?_⟩
  · rw [(Convergence.PrintThroughput_rows N now s hlen).2, wrap64_of_lt hw]
  · intro h0
    rw [h0]
    decide
  · intro hpos
    obtain ⟨hn, hnear⟩ := Convergence.utilization_near (s.rxS1R1Bytes.sum * 8) (by omega) hw
    refine ⟨_, F64.toRat_of_isNormal _ hn, ?_⟩
    have hb := Near.bound hnear
    have e : ((s.rxS1R1Bytes.sum * 8 : Nat) : ℚ) / (1 / 1000) / 25000000000 * 100
        = (s.rxS1R1Bytes.sum : ℚ) * 8 / 250000 := by
      push_cast
      ring
    rw [e] at hb
    exact hb

/-- Witness of C15: five flows with 6250000 bytes each, 2.5e8 bits in the window, give
exactly the double 1000. -/
theorem utilization_row_value_witness :
    (Convergence.PrintThroughput 5 2000000
        ⟨[6250000, 6250000, 6250000, 6250000, 6250000],
          ⟨false, false, false⟩⟩).2.filter Convergence.isUtil
        = [Convergence.Out.util 2000000 250000000] ∧
      (Convergence.Out.util 2000000 250000000).value = some (F64.ofU64 1000) :=
  have h := utilization_row_value 5 2000000
    ⟨[6250000, 6250000, 6250000, 6250000, 6250000], ⟨false, false, false⟩⟩ rfl (by decide)
  ⟨h.1, h.2.1.trans (by decide)⟩

/-- C15 (counterexample).  With `2 ^ 61` bytes in one counter `sum * 8` wraps around to 0 and
the utilization written is 0, not `2 ^ 64 / 250000`; and with one packet of
1448 bytes the value written is the double `6677721354682858 * 2 ^ -57`, which
is not `11584 / 250000`. -/
theorem utilization_formula_counterexample :
    (Convergence.PrintThroughput 5 2000000
        ⟨[2 ^ 61, 0, 0, 0, 0], ⟨false, false, false⟩⟩).2.filter Convergence.isUtil
      = [Convergence.Out.util 2000000 0] ∧
      (Convergence.Out.util 2000000 0).value = some F64.zero ∧
      [2 ^ 61, 0, 0, 0, 0].sum * 8 = 2 ^ 64 ∧
      (Convergence.PrintThroughput 5 2000000
        ⟨[1448, 0, 0, 0, 0], ⟨false, false, false⟩⟩).2.filter Convergence.isUtil
      = [Convergence.Out.util 2000000 11584] ∧
      (Convergence.Out.util 2000000 11584).value = some (F64.fin 6677721354682858 (-57)) ∧
      6677721354682858 * 250000 ≠ 11584 * 2 ^ 57 := by
  decide

/-! ## Flow completion times -/

theorem ofU64_ne_zero (n : Nat) (h : n ≠ 0) : F64.ofU64 n ≠ F64.zero := by
  unfold F64.ofU64
  simp only [h, if_false]
  by_cases hl : log2Fuel 64 n ≤ 52
  · simp only [hl, if_true, F64.zero]
    intro hc
    injection hc with h1 _
    have : 0 < 2 ^ (52 - log2Fuel 64 n) := Nat.pow_pos (by norm_num)
    rcases Nat.mul_eq_zero.1 h1 with h2 | h2
    · exact h h2
    · omega
  · simp only [hl, if_false, F64.norm, F64.zero]
    split
    · intro hc
      injection hc with _ h2
      omega
    · intro hc
      injection hc with _ h2
      omega

theorem ofU64_ne_nan (n : Nat) : F64.ofU64 n ≠ F64.nan := by
  unfold F64.ofU64 F64.zero F64.norm
  split
  · intro h; cases h
  · dsimp only
    split
    · intro h; cases h
    · split <;> intro h <;> cases h

namespace SignedF64

/-- The conversion of an integer to a double keeps the sign. -/
theorem ltZero_ofInt (v : Int) : (ofInt v).ltZero = true ↔ v < 0 := by
  unfold ltZero ofInt
  simp only [Bool.and_eq_true, decide_eq_true_eq]
  constructor
  · intro h; exact h.1.1
  · intro h
    exact ⟨⟨h, ofU64_ne_zero _ (by omega)⟩, ofU64_ne_nan _⟩

/-- The conversion is exact up to `2 ^ 53`. -/
theorem toRat_ofInt (v : Int) (h : v.natAbs < 2 ^ 53) : (ofInt v).toRat = some (v : ℚ) := by
  unfold toRat ofInt
  dsimp only
  rcases Nat.eq_zero_or_pos v.natAbs with h0 | h0
  · have hv : v = 0 := Int.natAbs_eq_zero.1 h0
    subst hv
    simp [F64.ofU64, F64.zero, F64.toRat]
  · obtain ⟨hn, hval⟩ := ofU64_spec v.natAbs h0 (by
      have : (2 : Nat) ^ 53 < 2 ^ 64 := by norm_num
      omega)
    rw [F64.toRat_of_isNormal _ hn, hval, ofU64Nat_exact _ h]
    simp only [Option.map_some', Option.some.injEq]
    by_cases hneg : v < 0
    · have e : (v.natAbs : ℤ) = -v := by omega
      have e2 : ((v.natAbs : ℕ) : ℚ) = -(v : ℚ) := by
        calc ((v.natAbs : ℕ) : ℚ) = ((v.natAbs : ℤ) : ℚ) := (Int.cast_natCast _).symm
          _ = ((-v : ℤ) : ℚ) := by rw [e]
          _ = -(v : ℚ) := Int.cast_neg v
      simp only [hneg, decide_True, if_true, e2, neg_neg]
    · have e : (v.natAbs : ℤ) = v := by omega
      have e2 : ((v.natAbs : ℕ) : ℚ) = (v : ℚ) := by
        calc ((v.natAbs : ℕ) : ℚ) = ((v.natAbs : ℤ) : ℚ) := (Int.cast_natCast _).symm
          _ = (v : ℚ) := by rw [e]
      simp only [hneg, decide_False, Bool.false_eq_true, if_false, e2]

end SignedF64

theorem getD_set_self_int (v : List Int) (i : Nat) (x : Int) (hi : i < v.length) :
    (v.set i x).getD i 0 = x := by
  rw [List.getD_eq_getElem?_getD, List.getElem?_set_self hi]
  rfl

theorem getD_set_other_int (v : List Int) (i j : Nat) (x : Int) (hij : j ≠ i) :
    (v.set i x).getD j 0 = v.getD j 0 := by
  rw [List.getD_eq_getElem?_getD, List.getD_eq_getElem?_getD,
    List.getElem?_set_ne (fun h => hij h.symm)]

namespace FatTree

theorem GetMicroSeconds_neg_iff (d : Int) : GetMicroSeconds d < 0 ↔ d ≤ -1000 := by
  unfold GetMicroSeconds
  rcases lt_or_ge d 0 with hd | hd
  · have h1 : d = -(-d) := by omega
    rw [h1, Int.neg_tdiv, Int.tdiv_eq_ediv (by omega) (by norm_num)]
    omega
  · rw [Int.tdiv_eq_ediv hd (by norm_num)]
    omega

theorem cal_FCT_succ (n : Nat) (t : Tables) :
    cal_FCT (n + 1) t = cal_FCT n t ++ cal_FCT_body t n := by
  simp only [cal_FCT, List.range_succ, List.foldl_append, List.foldl_cons, List.foldl_nil]

theorem cal_FCT_body_rows (t : Tables) (i : Nat) :
    (cal_FCT_body t i).filter Line.isRow
      = [Line.row (t.flow_size.getD i 0) (SignedF64.ofInt
          (GetMicroSeconds (t.flow_end_time.getD i 0 - t.flow_start_time.getD i 0)))] := by
  unfold cal_FCT_body
  dsimp only
  split <;> simp [Line.isRow]

theorem cal_FCT_body_anomaly (t : Tables) (i j : Nat) :
    (cal_FCT_body t i).countP (Line.isAnomalyOf j)
      = if i = j ∧ t.flow_end_time.getD i 0 - t.flow_start_time.getD i 0 ≤ -1000 then 1 else 0 := by
  have hlt := (SignedF64.ltZero_ofInt
    (GetMicroSeconds (t.flow_end_time.getD i 0 - t.flow_start_time.getD i 0))).trans
    (GetMicroSeconds_neg_iff _)
  unfold cal_FCT_body
  dsimp only
  by_cases h : t.flow_end_time.getD i 0 - t.flow_start_time.getD i 0 ≤ -1000
  · rw [if_pos (hlt.2 h)]
    by_cases hij : i = j
    · rw [if_pos ⟨hij, h⟩]; simp [Line.isAnomalyOf, hij]
    · rw [if_neg (fun hc => hij hc.1)]; simp [Line.isAnomalyOf, hij]
  · rw [if_neg (fun hc => h (hlt.1 hc)), if_neg (fun hc => h hc.2)]
    simp [Line.isAnomalyOf]

/-- The rows of `FCT_f` in closed form. -/
theorem cal_FCT_rows (t : Tables) : ∀ n : Nat,
    (cal_FCT n t).filter Line.isRow
      = (List.range n).map (fun i => Line.row (t.flow_size.getD i 0) (SignedF64.ofInt
          (GetMicroSeconds (t.flow_end_time.getD i 0 - t.flow_start_time.getD i 0)))) := by
  intro n
  induction n with
  | zero => rfl
  | succ n ih =>
    rw [cal_FCT_succ, List.filter_append, ih, cal_FCT_body_rows, List.range_succ, List.map_append]
    rfl

theorem cal_FCT_anomaly (t : Tables) (j : Nat) : ∀ n : Nat,
    (cal_FCT n t).countP (Line.isAnomalyOf j)
      = if j < n ∧ t.flow_end_time.getD j 0 - t.flow_start_time.getD j 0 ≤ -1000 then 1 else 0 := by
  intro n
  induction n with
  | zero => simp [cal_FCT]
  | succ n ih =>
    rw [cal_FCT_succ, List.countP_append, ih, cal_FCT_body_anomaly]
    by_cases h : t.flow_end_time.getD j 0 - t.flow_start_time.getD j 0 ≤ -1000
    · by_cases hj : j < n
      · rw [if_pos ⟨hj, h⟩, if_neg (fun hc => by omega), if_pos ⟨by omega, h⟩]
      · by_cases hn : n = j
        · subst hn
          rw [if_neg (fun hc => hj hc.1), if_pos ⟨rfl, h⟩, if_pos ⟨by omega, h⟩]
        · rw [if_neg (fun hc => hj hc.1), if_neg (fun hc => hn hc.1),
            if_neg (fun hc => by omega)]
    · have m : ¬ (n = j ∧ t.flow_end_time.getD n 0 - t.flow_start_time.getD n 0 ≤ -1000) :=
        fun hc => h (hc.1 ▸ hc.2)
      rw [if_neg (fun hc => h hc.2), if_neg m, if_neg (fun hc => h hc.2)]

theorem recordAll_frame : ∀ (calls : List (Nat × Int)) (t : Tables),
    (recordAll calls t).flow_size = t.flow_size ∧
      (recordAll calls t).flow_start_time = t.flow_start_time ∧
      (recordAll calls t).flow_end_time.length = t.flow_end_time.length := by
  intro calls
  induction calls with
  | nil => intro t; exact ⟨rfl, rfl, rfl⟩
  | cons c cs ih =>
    intro t
    obtain ⟨h1, h2, h3⟩ := ih (record_FCT c.1 c.2 t)
    refine ⟨h1, h2, ?_⟩
    rw [show recordAll (c :: cs) t = recordAll cs (record_FCT c.1 c.2 t) from rfl, h3]
    simp [record_FCT]

theorem recordAll_end : ∀ (calls : List (Nat × Int)) (t : Tables) (f : Nat),
    f < t.flow_end_time.length →
    (recordAll calls t).flow_end_time.getD f 0
      = (lastCall f calls).getD (t.flow_end_time.getD f 0) := by
  intro calls
  induction calls with
  | nil => intro t f _; rfl
  | cons c cs ih =>
    intro t f hf
    have hlen : f < (record_FCT c.1 c.2 t).flow_end_time.length := by
      simp [record_FCT, hf]
    rw [show recordAll (c :: cs) t = recordAll cs (record_FCT c.1 c.2 t) from rfl,
      ih _ f hlen]
    unfold lastCall
    by_cases hc : c.1 = f
    · have hfil : (c :: cs).filter (fun d => d.1 == f) = c :: cs.filter (fun d => d.1 == f) := by
        simp [List.filter_cons, hc]
      have hget : (record_FCT c.1 c.2 t).flow_end_time.getD f 0 = c.2 := by
        rw [← hc]
        exact getD_set_self_int _ _ _ (by rw [hc]; exact hf)
      rw [hfil, List.getLast?_cons, hget]
      cases h : (cs.filter (fun d => d.1 == f)).getLast? <;> simp
    · have hfil : (c :: cs).filter (fun d => d.1 == f) = cs.filter (fun d => d.1 == f) := by
        simp [List.filter_cons, hc]
      have hget : (record_FCT c.1 c.2 t).flow_end_time.getD f 0 = t.flow_end_time.getD f 0 := by
        exact getD_set_other_int _ _ _ _ (fun h => hc h.symm)
      rw [hfil, hget]

theorem anomaly_mem (flow_num : Nat) (t : Tables) (i : Nat) (hi : i < flow_num)
    (h : t.flow_end_time.getD i 0 - t.flow_start_time.getD i 0 ≤ -1000) :
    Line.anomaly i (t.flow_size.getD i 0) (GetMicroSeconds (t.flow_start_time.getD i 0))
      (GetMicroSeconds (t.flow_end_time.getD i 0)) ∈ cal_FCT flow_num t := by
  induction flow_num with
  | zero => omega
  | succ n ih =>
    rw [cal_FCT_succ, List.mem_append]
    by_cases hn : i < n
    · exact Or.inl (ih hn)
    · have hin : i = n := by omega
      subst hin
      right
      have hlt := (SignedF64.ltZero_ofInt
        (GetMicroSeconds (t.flow_end_time.getD i 0 - t.flow_start_time.getD i 0))).2
        ((GetMicroSeconds_neg_iff _).2 h)
      unfold cal_FCT_body
      dsimp only
      rw [if_pos hlt]
      simp

end FatTree

/-- C16.  For tables of at least `flow_num` entries `cal_FCT (flow_num)` writes exactly
`flow_num` rows to `FCT_f`, one per flow index in increasing order; row `i`
holds `flow_size[i]` and the double of the microsecond count of
`flow_end_time[i] - flow_start_time[i]` (exactly that count below `2 ^ 53`);
rows of negative completion times are written like the others. -/
theorem cal_FCT_writes_one_row_per_flow (flow_num : Nat) (t : FatTree.Tables)
    (hsize : flow_num ≤ t.flow_size.length) (hstart : flow_num ≤ t.flow_start_time.length)
    (hend : flow_num ≤ t.flow_end_time.length) :
    (FatTree.cal_FCT flow_num t).filter FatTree.Line.isRow
        = (List.range flow_num).map (fun i => FatTree.Line.row (t.flow_size.getD i 0)
            (SignedF64.ofInt (FatTree.GetMicroSeconds
              (t.flow_end_time.getD i 0 - t.flow_start_time.getD i 0)))) ∧
      (FatTree.cal_FCT flow_num t).countP FatTree.Line.isRow = flow_num ∧
      ∀ i, i < flow_num →
        (FatTree.GetMicroSeconds
          (t.flow_end_time.getD i 0 - t.flow_start_time.getD i 0)).natAbs < 2 ^ 53 →
        (SignedF64.ofInt (FatTree.GetMicroSeconds
          (t.flow_end_time.getD i 0 - t.flow_start_time.getD i 0))).toRat
          = some ((FatTree.GetMicroSeconds
              (t.flow_end_time.getD i 0 - t.flow_start_time.getD i 0) : Int) : ℚ) := by
  refine ⟨FatTree.cal_FCT_rows t flow_num, ?_, ?_⟩
  · rw [List.countP_eq_length_filter, FatTree.cal_FCT_rows t flow_num]
    simp
  · intro i _ h
    exact SignedF64.toRat_ofInt _ h

/-- Witness of C16: a flow of 20000 bytes started at 2.000000 s and finished at
2.000523 s, after a flow whose end precedes its start: two rows, the second
with 523. -/
theorem cal_FCT_writes_one_row_per_flow_witness :
    (FatTree.cal_FCT 2 ⟨[1448, 20000], [2100000000, 2000000000], [0, 2000523000]⟩).filter
        FatTree.Line.isRow
        = [FatTree.Line.row 1448 (SignedF64.ofInt (-2100000)),
            FatTree.Line.row 20000 (SignedF64.ofInt 523)] ∧
      (SignedF64.ofInt 523).toRat = some 523 :=
  have h := cal_FCT_writes_one_row_per_flow 2
    ⟨[1448, 20000], [2100000000, 2000000000], [0, 2000523000]⟩ (by decide) (by decide)
    (by decide)
  have e : FatTree.GetMicroSeconds (2000523000 - 2000000000) = 523 := by decide
  ⟨h.1.trans (by decide), (h.2.2 1 (by decide) (by decide)).trans
    (congrArg (fun v : Int => some (v : ℚ)) e)⟩

/-- C17 (amended).  For every flow `i < flow_num`, `cal_FCT` writes the anomaly line of
flow `i` (index, size, start and end in microseconds) exactly once if the
difference `flow_end_time[i] - flow_start_time[i]`, converted to whole
microseconds, is negative, that is if the end precedes the start by at least
1000 ns, and not at all otherwise; the row of `FCT_f` is written in both cases,
and is negative in the first. -/
theorem anomaly_line_iff_negative_microseconds (flow_num : Nat) (t : FatTree.Tables)
    (i : Nat) (hi : i < flow_num) :
    (FatTree.cal_FCT flow_num t).countP (FatTree.Line.isAnomalyOf i)
        = (if t.flow_end_time.getD i 0 - t.flow_start_time.getD i 0 ≤ -1000 then 1 else 0) ∧
      (t.flow_end_time.getD i 0 - t.flow_start_time.getD i 0 ≤ -1000 ↔
        FatTree.GetMicroSeconds (t.flow_end_time.getD i 0 - t.flow_start_time.getD i 0) < 0) ∧
      (t.flow_end_time.getD i 0 - t.flow_start_time.getD i 0 ≤ -1000 →
        FatTree.Line.anomaly i (t.flow_size.getD i 0)
            (FatTree.GetMicroSeconds (t.flow_start_time.getD i 0))
            (FatTree.GetMicroSeconds (t.flow_end_time.getD i 0)) ∈ FatTree.cal_FCT flow_num t ∧
          (SignedF64.ofInt (FatTree.GetMicroSeconds
            (t.flow_end_time.getD i 0 - t.flow_start_time.getD i 0))).ltZero = true) ∧
      FatTree.Line.row (t.flow_size.getD i 0) (SignedF64.ofInt (FatTree.GetMicroSeconds
        (t.flow_end_time.getD i 0 - t.flow_start_time.getD i 0))) ∈ FatTree.cal_FCT flow_num t := by
  have hrow : FatTree.Line.row (t.flow_size.getD i 0) (SignedF64.ofInt (FatTree.GetMicroSeconds
      (t.flow_end_time.getD i 0 - t.flow_start_time.getD i 0))) ∈ FatTree.cal_FCT flow_num t := by
    have hmem : FatTree.Line.row (t.flow_size.getD i 0) (SignedF64.ofInt (FatTree.GetMicroSeconds
        (t.flow_end_time.getD i 0 - t.flow_start_time.getD i 0)))
        ∈ (FatTree.cal_FCT flow_num t).filter FatTree.Line.isRow := by
      rw [FatTree.cal_FCT_rows]
      exact List.mem_map.2 ⟨i, List.mem_range.2 hi, rfl⟩
    exact (List.mem_filter.1 hmem).1
  refine ⟨?_, (FatTree.GetMicroSeconds_neg_iff _).symm, ?_, hrow⟩
  · rw [FatTree.cal_FCT_anomaly]
    refine if_congr ?_ rfl rfl
    exact ⟨fun h => h.2, fun h => ⟨hi, h⟩⟩
  · intro h
    refine ⟨?_, (SignedF64.ltZero_ofInt _).2 ((FatTree.GetMicroSeconds_neg_iff _).2 h)⟩
    exact FatTree.anomaly_mem flow_num t i hi h

/-- Witness of C17: flow 0 never finished (end 0, start 2.1 s) and is flagged; flow 1
took 523 microseconds and is not. -/
theorem anomaly_line_iff_negative_microseconds_witness :
    (FatTree.cal_FCT 2 ⟨[1448, 20000], [2100000000, 2000000000], [0, 2000523000]⟩).countP
        (FatTree.Line.isAnomalyOf 0) = 1 ∧
      (FatTree.cal_FCT 2 ⟨[1448, 20000], [2100000000, 2000000000], [0, 2000523000]⟩).countP
        (FatTree.Line.isAnomalyOf 1) = 0 :=
  ⟨(anomaly_line_iff_negative_microseconds 2
      ⟨[1448, 20000], [2100000000, 2000000000], [0, 2000523000]⟩ 0 (by decide)).1.trans
      (by decide),
    (anomaly_line_iff_negative_microseconds 2
      ⟨[1448, 20000], [2100000000, 2000000000], [0, 2000523000]⟩ 1 (by decide)).1.trans
      (by decide)⟩

/-- C17 (counterexample).  A flow that starts at 500 ns and whose end time is 0: the end
precedes the start, the difference of -500 ns is 0 whole microseconds, and
`cal_FCT` writes the row with `0` and no anomaly line. -/
theorem anomaly_line_iff_end_precedes_start_counterexample :
    FatTree.cal_FCT 1 ⟨[1448], [500], [0]⟩ = [FatTree.Line.row 1448 ⟨false, F64.zero⟩] ∧
      (FatTree.cal_FCT 1 ⟨[1448], [500], [0]⟩).countP (FatTree.Line.isAnomalyOf 0) = 0 ∧
      ((0 : Int) < 500) := by
  decide

/-- C18.  The terminal timestamp is last-writer-wins: after any sequence of `record_FCT`
calls `flow_end_time[f]` is the time of the last call made for flow `f` (its
old value if there is none); sizes, start times and the number of entries are
unchanged, and one call leaves the end times of all other flows unchanged. -/
theorem end_time_last_writer_wins (calls : List (Nat × Int)) (t : FatTree.Tables) (f : Nat)
    (hf : f < t.flow_end_time.length)
    (hcalls : ∀ c ∈ calls, c.1 < t.flow_end_time.length) :
    (FatTree.recordAll calls t).flow_end_time.getD f 0
        = (FatTree.lastCall f calls).getD (t.flow_end_time.getD f 0) ∧
      (FatTree.recordAll calls t).flow_size = t.flow_size ∧
      (FatTree.recordAll calls t).flow_start_time = t.flow_start_time ∧
      (FatTree.recordAll calls t).flow_end_time.length = t.flow_end_time.length ∧
      ∀ (g : Nat) (now : Int), g ≠ f →
        (FatTree.record_FCT g now t).flow_end_time.getD f 0 = t.flow_end_time.getD f 0 ∧
        (FatTree.record_FCT g now t).flow_size = t.flow_size ∧
        (FatTree.record_FCT g now t).flow_start_time = t.flow_start_time := by
  obtain ⟨h1, h2, h3⟩ := FatTree.recordAll_frame calls t
  refine ⟨FatTree.recordAll_end calls t f hf, h1, h2, h3, ?_⟩
  intro g now hg
  exact ⟨getD_set_other_int _ _ _ _ (fun h => hg h.symm), rfl, rfl⟩

/-- Witness of C18: three signals for flow 0 at 5, 9 and 7 microseconds (interleaved
with one for flow 1) leave the last one, neither the first nor the largest. -/
theorem end_time_last_writer_wins_witness :
    (FatTree.recordAll [(0, 5000), (0, 9000), (1, 9500), (0, 7000)]
        ⟨[1448, 20000], [0, 0], [0, 0]⟩).flow_end_time.getD 0 0 = 7000 :=
  (end_time_last_writer_wins [(0, 5000), (0, 9000), (1, 9500), (0, 7000)]
    ⟨[1448, 20000], [0, 0], [0, 0]⟩ 0 (by decide) (by decide)).1.trans (by decide)

/-! ## The queue discipline check -/

theorem unsupportedQueueDisc_iff (qd : String) :
    unsupportedQueueDisc qd = true ↔ qd ≠ "RedQueueDisc" ∧ qd ≠ "CebinaeQueueDisc" := by
  simp [unsupportedQueueDisc]

theorem banner_console (c o q : String) : ∀ e ∈ banner c o q, e.isConsole = true := by
  intro e he
  simp only [banner, List.mem_cons, List.mem_singleton, List.not_mem_nil, or_false] at he
  rcases he with h | h | h <;> subst h <;> rfl

theorem rejected_console (c o q : String) :
    ∀ e ∈ banner c o q ++ [Effect.cerr "unsupported queueDisc: " q], e.isConsole = true := by
  intro e he
  rcases List.mem_append.1 he with h | h
  · exact banner_console c o q e h
  · rw [List.mem_singleton.1 h]
    rfl

theorem convergence_main_exit (c o q : String) (N : Nat) (k : Int) :
    (Convergence.main c o q N k).exit = ExitPoint.queueDiscCheck ↔ unsupportedQueueDisc q = true := by
  unfold Convergence.main
  by_cases h : unsupportedQueueDisc q = true
  · simp [h]
  · by_cases hk : k = 0 <;> simp [h, hk]

theorem multihop_main_exit (c o q : String) (w1 w2 w3 : Nat) (k : Int) :
    (MultiHop.main c o q w1 w2 w3 k).exit = ExitPoint.queueDiscCheck
      ↔ unsupportedQueueDisc q = true := by
  unfold MultiHop.main
  by_cases h : unsupportedQueueDisc q = true
  · simp [h]
  · by_cases hk : k = 0 <;> simp [h, hk]

theorem fattree_main_exit (c o q t f : String) (n : Nat) (st : List Nat) (k : Int) :
    (FatTree.main c o q t f n st k).exit = ExitPoint.queueDiscCheck
      ↔ unsupportedQueueDisc q = true := by
  unfold FatTree.main
  by_cases h : unsupportedQueueDisc q = true
  · simp [h]
  · by_cases hk : k = 0 <;> simp [h, hk]

/-- C19.  In each of the three programs `main` returns at the queue discipline check if
and only if `queueDiscTypeId` is neither exactly `RedQueueDisc` nor exactly
`CebinaeQueueDisc`; the status returned there is `EXIT_FAILURE`, which is not
zero, and all the program has done by then is to write the three banner lines
and the error line to the console: no event scheduled, no file opened, no
callback bound, `Simulator::Run` not called. -/
theorem queue_disc_check_rejects_before_any_side_effect
    (config_path outputFilePath queueDiscTypeId topology_file flow_file : String)
    (N flowStartupWindow convergenceTime measurementWindow flow_num : Nat) (starts : List Nat)
    (mkdirStatus : Int) :
    (((Convergence.main config_path outputFilePath queueDiscTypeId N mkdirStatus).exit
          = ExitPoint.queueDiscCheck
        ↔ queueDiscTypeId ≠ "RedQueueDisc" ∧ queueDiscTypeId ≠ "CebinaeQueueDisc") ∧
      ((MultiHop.main config_path outputFilePath queueDiscTypeId flowStartupWindow
          convergenceTime measurementWindow mkdirStatus).exit = ExitPoint.queueDiscCheck
        ↔ queueDiscTypeId ≠ "RedQueueDisc" ∧ queueDiscTypeId ≠ "CebinaeQueueDisc") ∧
      ((FatTree.main config_path outputFilePath queueDiscTypeId topology_file flow_file
          flow_num starts mkdirStatus).exit = ExitPoint.queueDiscCheck
        ↔ queueDiscTypeId ≠ "RedQueueDisc" ∧ queueDiscTypeId ≠ "CebinaeQueueDisc")) ∧
      ((queueDiscTypeId ≠ "RedQueueDisc" ∧ queueDiscTypeId ≠ "CebinaeQueueDisc") →
        ∀ r : Result,
          (r = Convergence.main config_path outputFilePath queueDiscTypeId N mkdirStatus ∨
            r = MultiHop.main config_path outputFilePath queueDiscTypeId flowStartupWindow
              convergenceTime measurementWindow mkdirStatus ∨
            r = FatTree.main config_path outputFilePath queueDiscTypeId topology_file
              flow_file flow_num starts mkdirStatus) →
          r.status = EXIT_FAILURE ∧ r.status ≠ 0 ∧
            r.effects = banner config_path outputFilePath queueDiscTypeId
              ++ [Effect.cerr "unsupported queueDisc: " queueDiscTypeId] ∧
            ∀ e ∈ r.effects, e.isConsole = true) := by
  refine ⟨⟨?_, ?_, ?_⟩, ?_⟩
  · exact (convergence_main_exit _ _ _ _ _).trans (unsupportedQueueDisc_iff _)
  · exact (multihop_main_exit _ _ _ _ _ _ _).trans (unsupportedQueueDisc_iff _)
  · exact (fattree_main_exit _ _ _ _ _ _ _ _).trans (unsupportedQueueDisc_iff _)
  · intro hq r hr
    have hu := (unsupportedQueueDisc_iff queueDiscTypeId).2 hq
    have key : r = ⟨EXIT_FAILURE, ExitPoint.queueDiscCheck,
        banner config_path outputFilePath queueDiscTypeId
          ++ [Effect.cerr "unsupported queueDisc: " queueDiscTypeId]⟩ := by
      rcases hr with h | h | h
      · rw [h]; unfold Convergence.main; simp only [hu, if_true]
      · rw [h]; unfold MultiHop.main; simp only [hu, if_true]
      · rw [h]; unfold FatTree.main; simp only [hu, if_true]
    subst key
    have hne : EXIT_FAILURE ≠ 0 := by decide
    exact ⟨rfl, hne, rfl, rejected_console _ _ _⟩

/-- Witness of C19: the lower-case spelling `redqueuedisc` is rejected by the three
programs, by convergence `main` with status 1 after four console lines; the
exact spelling passes the check. -/
theorem queue_disc_check_rejects_before_any_side_effect_witness :
    (Convergence.main "" "out/" "redqueuedisc" 5 0).exit = ExitPoint.queueDiscCheck ∧
      (Convergence.main "" "out/" "redqueuedisc" 5 0).status = 1 ∧
      (Convergence.main "" "out/" "redqueuedisc" 5 0).effects
        = [Effect.cout "config_path: " "", Effect.cout "outputFilePath: " "out/",
            Effect.cout "queueDiscTypeId: " "redqueuedisc",
            Effect.cerr "unsupported queueDisc: " "redqueuedisc"] ∧
      (Convergence.main "" "out/" "RedQueueDisc" 5 0).exit = ExitPoint.done :=
  have h := queue_disc_check_rejects_before_any_side_effect "" "out/" "redqueuedisc"
    "fat-tree.txt" "websearch-30-25G.txt" 5 1000000000 3000000000 1000000000 2 [0, 0] 0
  have h2 := h.2 (by decide) (Convergence.main "" "out/" "redqueuedisc" 5 0) (Or.inl rfl)
  ⟨h.1.1.2 (by decide), h2.1, h2.2.2.1, by decide⟩

/-! ## Packet events for an index outside the counters -/

theorem MultiHop.Chan.handler_injective (c d : MultiHop.Chan) (h : c.handler = d.handler) :
    c = d := by
  cases c <;> cases d <;> first | rfl | exact absurd h (by decide)

theorem MultiHop.mem_bindLoop (send sink : MultiHop.Chan) (e : Effect) : ∀ n : Nat,
    e ∈ MultiHop.bindLoop n send sink ↔
      ∃ i, i < n ∧ (e = Effect.bind send.handler i ∨ e = Effect.bind sink.handler i) := by
  intro n
  induction n with
  | zero => simp [MultiHop.bindLoop]
  | succ n ih =>
    have hs : MultiHop.bindLoop (n + 1) send sink
        = MultiHop.bindLoop n send sink
          ++ [Effect.bind send.handler n, Effect.bind sink.handler n] := by
      simp only [MultiHop.bindLoop, List.range_succ, List.foldl_append, List.foldl_cons,
        List.foldl_nil]
    rw [hs, List.mem_append, ih]
    constructor
    · rintro (⟨i, hi, he⟩ | he)
      · exact ⟨i, by omega, he⟩
      · simp only [List.mem_cons, List.mem_singleton, List.not_mem_nil, or_false] at he
        exact ⟨n, by omega, he⟩
    · rintro ⟨i, hi, he⟩
      by_cases hin : i < n
      · exact Or.inl ⟨i, hin, he⟩
      · have : i = n := by omega
        subst this
        right
        simp only [List.mem_cons, List.mem_singleton, List.not_mem_nil, or_false]
        exact he

theorem convergence_main_bind (c o q : String) (N : Nat) (k : Int) (i : Nat)
    (h : Effect.bind "TraceSink" i ∈ (Convergence.main c o q N k).effects) : i < N := by
  unfold Convergence.main at h
  by_cases hu : unsupportedQueueDisc q = true
  · simp [hu, banner] at h
  · by_cases hk : k = 0
    · simp [hu, hk, banner] at h
      exact h
    · simp [hu, hk, banner] at h
      exact h

theorem multihop_main_bind (c o q : String) (w1 w2 w3 : Nat) (k : Int) (d : MultiHop.Chan)
    (i : Nat) (h : Effect.bind d.handler i ∈ (MultiHop.main c o q w1 w2 w3 k).effects) :
    i < d.size := by
  unfold MultiHop.main at h
  by_cases hu : unsupportedQueueDisc q = true
  · simp [hu, banner] at h
  · by_cases hk : k = 0
    · simp only [hu, hk, banner, MultiHop.mem_bindLoop, List.mem_append, List.mem_cons,
        List.not_mem_nil, or_false, Effect.bind.injEq, reduceCtorEq, false_or, or_false,
        if_false, ne_eq, not_true_eq_false, Bool.false_eq_true] at h
      rcases h with (((⟨j, hj, he⟩ | ⟨j, hj, he⟩) | ⟨j, hj, he⟩))
      all_goals
        rcases he with he | he
        all_goals
          obtain ⟨h1, h2⟩ := he
          have hd := MultiHop.Chan.handler_injective _ _ h1
          subst hd
          subst h2
          exact hj
    · simp [hu, hk, banner] at h

/-- C20 (amended).  The packet callbacks check no index and report no error: a call never
ends in a fatal error; for an index inside the vector it counts (the entry
grows by the packet size modulo `2 ^ 64`, the number of entries stays), for an
index outside it the access `v[index]` is outside the vector, which C++ leaves
undefined.  `main` binds `TraceSink` only to the indices below `N` and the six
multi-hop callbacks only to the indices below 10, 20 and 10. -/
theorem packet_callbacks_check_no_index (index size : Nat) (s : Convergence.State)
    (c : MultiHop.Chan) (ms : MultiHop.State) :
    (Convergence.TraceSinkOutcome index size s ≠ Outcome.fatal ∧
      (index < s.rxS1R1Bytes.length →
        Convergence.TraceSinkOutcome index size s
            = Outcome.returned (Convergence.TraceSink index size s) ∧
          (Convergence.TraceSink index size s).rxS1R1Bytes.getD index 0
            = wrap64 (s.rxS1R1Bytes.getD index 0 + size) ∧
          (Convergence.TraceSink index size s).rxS1R1Bytes.length = s.rxS1R1Bytes.length) ∧
      (s.rxS1R1Bytes.length ≤ index →
        Convergence.TraceSinkOutcome index size s = Outcome.undefined)) ∧
    (MultiHop.traceOutcome c index size ms ≠ Outcome.fatal ∧
      (index < (ms.get c).length →
        MultiHop.traceOutcome c index size ms
            = Outcome.returned (MultiHop.trace c index size ms) ∧
          ((MultiHop.trace c index size ms).get c).getD index 0
            = wrap64 ((ms.get c).getD index 0 + size) ∧
          ((MultiHop.trace c index size ms).get c).length = (ms.get c).length) ∧
      ((ms.get c).length ≤ index →
        MultiHop.traceOutcome c index size ms = Outcome.undefined)) ∧
    (∀ (config_path outputFilePath queueDiscTypeId : String) (N : Nat) (mkdirStatus : Int),
      Effect.bind "TraceSink" index
          ∈ (Convergence.main config_path outputFilePath queueDiscTypeId N mkdirStatus).effects →
        index < N) ∧
    (∀ (config_path outputFilePath queueDiscTypeId : String)
        (flowStartupWindow convergenceTime measurementWindow : Nat) (mkdirStatus : Int),
      Effect.bind c.handler index
          ∈ (MultiHop.main config_path outputFilePath queueDiscTypeId flowStartupWindow
              convergenceTime measurementWindow mkdirStatus).effects →
        index < c.size) := by
  refine ⟨⟨?_, ?_, ?_⟩, ⟨?_, ?_, ?_⟩, ?_, ?_⟩
  · unfold Convergence.TraceSinkOutcome
    split <;> exact fun h => Outcome.noConfusion h
  · intro h
    refine ⟨by unfold Convergence.TraceSinkOutcome; rw [if_pos h], ?_, ?_⟩
    · exact getD_set_self _ _ _ h
    · simp [Convergence.TraceSink]
  · intro h
    unfold Convergence.TraceSinkOutcome
    rw [if_neg (by omega)]
  · unfold MultiHop.traceOutcome
    split <;> exact fun h => Outcome.noConfusion h
  · intro h
    refine ⟨by unfold MultiHop.traceOutcome; rw [if_pos h], ?_, ?_⟩
    · rw [MultiHop.trace_get_self]
      exact getD_set_self _ _ _ h
    · rw [MultiHop.trace_get_self]
      simp [MultiHop.bump]
  · intro h
    unfold MultiHop.traceOutcome
    rw [if_neg (by omega)]
  · intro cp o q N k h
    exact convergence_main_bind cp o q N k index h
  · intro cp o q w1 w2 w3 k h
    exact multihop_main_bind cp o q w1 w2 w3 k c index h

/-- Witness of C20: an event of 1448 bytes for flow 3 of 5 counts; so does one for
flow 3 of the S2-R2 senders. -/
theorem packet_callbacks_check_no_index_witness :
    Convergence.TraceSinkOutcome 3 1448 (Convergence.init 5)
        = Outcome.returned ⟨[0, 0, 0, 1448, 0], ⟨false, false, false⟩⟩ ∧
      ((MultiHop.trace MultiHop.Chan.txS2R2 3 1448 MultiHop.init).get
        MultiHop.Chan.txS2R2).getD 3 0 = 1448 :=
  have h := packet_callbacks_check_no_index 3 1448 (Convergence.init 5) MultiHop.Chan.txS2R2
    MultiHop.init
  ⟨(h.1.2.1 (by decide)).1.trans (by decide), (h.2.1.2.1 (by decide)).2.1.trans (by decide)⟩

/-- C20 (counterexample).  With the five counters of convergence an event for flow index 5
does not end in a fatal error: `TraceSink` has no check, and `rxS1R1Bytes[5]`
is an access outside the vector.  The same holds for index 10 of the ten
counters of `TraceS1R1Sink` in multi-hop. -/
theorem unregistered_index_fatal_error_counterexample :
    (Convergence.init 5).rxS1R1Bytes.length = 5 ∧
      Convergence.TraceSinkOutcome 5 1448 (Convergence.init 5) = Outcome.undefined ∧
      Convergence.TraceSinkOutcome 5 1448 (Convergence.init 5) ≠ Outcome.fatal ∧
      MultiHop.init.rxS1R1Bytes.length = 10 ∧
      MultiHop.traceOutcome MultiHop.Chan.rxS1R1 10 1448 MultiHop.init = Outcome.undefined ∧
      MultiHop.traceOutcome MultiHop.Chan.rxS1R1 10 1448 MultiHop.init ≠ Outcome.fatal := by
  decide

/-! ## Exactness of the integer operations under a size bound -/

theorem le_sum_of_mem : ∀ (l : List Nat) (b : Nat), b ∈ l → b ≤ l.sum := by
  intro l
  induction l with
  | nil => intro b hb; simp at hb
  | cons a l ih =>
    intro b hb
    rw [List.sum_cons]
    rcases List.mem_cons.1 hb with h | h
    · omega
    · have := ih b h
      omega

theorem sum_take_le : ∀ (l : List Nat) (k : Nat), (l.take k).sum ≤ l.sum := by
  intro l
  induction l with
  | nil => intro k; simp
  | cons a l ih =>
    intro k
    cases k with
    | zero => simp
    | succ k =>
      rw [List.take_succ_cons, List.sum_cons, List.sum_cons]
      have := ih k
      omega

theorem sumSq_take_le : ∀ (l : List Nat) (k : Nat), sumSq (l.take k) ≤ sumSq l := by
  intro l
  induction l with
  | nil => intro k; simp
  | cons a l ih =>
    intro k
    cases k with
    | zero => simp [sumSq]
    | succ k =>
      rw [List.take_succ_cons, sumSq_cons, sumSq_cons]
      have := ih k
      omega

theorem countP_take_le (l : List Nat) (k : Nat) :
    (l.take k).countP (fun b => b != 0) ≤ l.length :=
  le_trans (List.countP_le_length _) (by simp)

/-- What the bound `n · (Σ bᵢ)² < 2 ^ 64` on `n` counters implies for the integer
operations of the fairness computation. -/
theorem size_bound_facts (n : Nat) (v : List Nat) (hv : v.length = n)
    (hb : n * (v.sum * v.sum) < 2 ^ 64) :
    v.sum < 2 ^ 32 ∧ v.sum * v.sum < 2 ^ 64 ∧ sumSq v < 2 ^ 64 ∧ n * sumSq v < 2 ^ 64 := by
  have hsq := sumSq_le_sq v
  cases n with
  | zero =>
    have : v = [] := List.length_eq_zero.1 hv
    subst this
    simp [sumSq]
  | succ n =>
    have h1 : v.sum * v.sum ≤ (n + 1) * (v.sum * v.sum) := Nat.le_mul_of_pos_left _ (by omega)
    have h2 : v.sum * v.sum < 2 ^ 64 := lt_of_le_of_lt h1 hb
    have h3 : (n + 1) * sumSq v ≤ (n + 1) * (v.sum * v.sum) := Nat.mul_le_mul_left _ hsq
    refine ⟨?_, h2, lt_of_le_of_lt hsq h2, lt_of_le_of_lt h3 hb⟩
    by_contra hc
    have hc2 : 2 ^ 32 ≤ v.sum := Nat.le_of_not_lt hc
    have : 2 ^ 32 * 2 ^ 32 ≤ v.sum * v.sum := Nat.mul_le_mul hc2 hc2
    norm_num at this h2
    omega

theorem elem_bounds (v : List Nat) (h : v.sum < 2 ^ 32) :
    ∀ b ∈ v, b * 8 < 2 ^ 64 ∧ b * b < 2 ^ 64 := by
  intro b hb
  have h1 := le_sum_of_mem v b hb
  have h2 : b < 2 ^ 32 := lt_of_le_of_lt h1 h
  have h3 : b * b < 2 ^ 32 * 2 ^ 32 := Nat.mul_lt_mul'' h2 h2
  norm_num at h2 h3 ⊢
  omega

/-- C27.  Exactness under a size bound: for `N` counters with `N · (Σ bᵢ)² < 2 ^ 64` no
unsigned operation of the fairness computation wraps around: `bᵢ * 8` and
`bᵢ * bᵢ` are below `2 ^ 64` for every counter, the running count stays below
`2 ^ 32` and the running sum and sum of squares below `2 ^ 64` after every
number of iterations, and so are `sum * sum` and `cnt * sumSquare`.  The loop
ends with the exact count, sum and sum of squares, and the fairness quotient is
taken of the exact integers `(Σ bᵢ)²` and `N · Σ bᵢ²`, in convergence (when it
is computed at all) and for a group of multi-hop. -/
theorem no_wrap_under_size_bound (N now : Nat) (s : Convergence.State)
    (hlen : s.rxS1R1Bytes.length = N) (hN : N < 2 ^ 32)
    (hb : N * (s.rxS1R1Bytes.sum * s.rxS1R1Bytes.sum) < 2 ^ 64)
    (n : Nat) (v : List Nat) (hv : v.length = n) (hvb : n * (v.sum * v.sum) < 2 ^ 64) :
    ((∀ b ∈ s.rxS1R1Bytes, b * 8 < 2 ^ 64 ∧ b * b < 2 ^ 64) ∧
      (∀ k, (s.rxS1R1Bytes.take k).countP (fun b => b != 0) < 2 ^ 32 ∧
        (s.rxS1R1Bytes.take k).sum < 2 ^ 64 ∧ sumSq (s.rxS1R1Bytes.take k) < 2 ^ 64) ∧
      s.rxS1R1Bytes.sum * s.rxS1R1Bytes.sum < 2 ^ 64 ∧
      s.rxS1R1Bytes.countP (fun b => b != 0) * sumSq s.rxS1R1Bytes < 2 ^ 64 ∧
      Convergence.loop N now s.rxS1R1Bytes
        = ⟨s.rxS1R1Bytes.countP (fun b => b != 0), s.rxS1R1Bytes.sum, sumSq s.rxS1R1Bytes,
            List.replicate N 0, Convergence.rowsFrom now 0 s.rxS1R1Bytes, s.rxS1R1Bytes⟩ ∧
      ((∀ b ∈ s.rxS1R1Bytes, b ≠ 0) →
        Convergence.sample (Convergence.PrintThroughput N now s).2
          = some (F64.div (F64.ofU64 (s.rxS1R1Bytes.sum * s.rxS1R1Bytes.sum))
              (F64.ofU64 (N * sumSq s.rxS1R1Bytes))))) ∧
    ((∀ b ∈ v, b * 8 < 2 ^ 64 ∧ b * b < 2 ^ 64) ∧
      (∀ k, (v.take k).sum < 2 ^ 64 ∧ sumSq (v.take k) < 2 ^ 64) ∧
      v.sum * v.sum < 2 ^ 64 ∧ n * sumSq v < 2 ^ 64 ∧
      MultiHop.sumLoop n v = (v.sum, sumSq v) ∧
      MultiHop.groupFairness n v
        = F64.div (F64.ofU64 (v.sum * v.sum)) (F64.ofU64 (n * sumSq v))) := by
  obtain ⟨c1, c2, c3, c4⟩ := size_bound_facts N s.rxS1R1Bytes hlen hb
  obtain ⟨m1, m2, m3, m4⟩ := size_bound_facts n v hv hvb
  have c32 : s.rxS1R1Bytes.sum < 2 ^ 64 := lt_trans c1 (by norm_num)
  have m32 : v.sum < 2 ^ 64 := lt_trans m1 (by norm_num)
  have hcnt : s.rxS1R1Bytes.countP (fun b => b != 0) ≤ N := hlen ▸ List.countP_le_length _
  refine ⟨⟨elem_bounds _ c1, ?_, c2, ?_, ?_, ?_⟩, elem_bounds _ m1, ?_, m2, m4, ?_, ?_⟩
  · intro k
    exact ⟨lt_of_le_of_lt (hlen ▸ countP_take_le s.rxS1R1Bytes k) hN,
      lt_of_le_of_lt (sum_take_le _ k) c32, lt_of_le_of_lt (sumSq_take_le _ k) c3⟩
  · exact lt_of_le_of_lt (Nat.mul_le_mul_right _ hcnt) c4
  · rw [Convergence.loop_eq N now s.rxS1R1Bytes hlen, wrap32_of_lt (lt_of_le_of_lt hcnt hN),
      wrap64_of_lt c32]
    have : wrap64 (s.rxS1R1Bytes.map (fun b => b * b)).sum = sumSq s.rxS1R1Bytes :=
      wrap64_of_lt c3
    rw [this]
  · intro hall
    rw [Convergence.sample_eq N now s hlen hN, if_pos hall, wrap64_of_lt c32, wrap64_of_lt c2,
      wrap64_of_lt c3, wrap64_of_lt c4]
  · intro k
    exact ⟨lt_of_le_of_lt (sum_take_le _ k) m32, lt_of_le_of_lt (sumSq_take_le _ k) m3⟩
  · rw [MultiHop.sumLoop_eq n v hv, wrap64_of_lt m32, wrap64_of_lt m3]
  · rw [MultiHop.groupFairness_eq n v hv, wrap64_of_lt m32, wrap64_of_lt m2, wrap64_of_lt m3,
      wrap64_of_lt m4]

/-- Witness of C27: five flows of about 3 MB each, and ten flows of a group. -/
theorem no_wrap_under_size_bound_witness :
    Convergence.sample (Convergence.PrintThroughput 5 1000000
        ⟨[3000000, 3100000, 2900000, 3000000, 3050000], ⟨false, false, false⟩⟩).2
      = some (F64.div (F64.ofU64 226502500000000) (F64.ofU64 226612500000000)) ∧
      MultiHop.sumLoop 10 [7, 7, 7, 7, 7, 7, 7, 7, 7, 9] = (72, 522) :=
  have h := no_wrap_under_size_bound 5 1000000
    ⟨[3000000, 3100000, 2900000, 3000000, 3050000], ⟨false, false, false⟩⟩ rfl (by decide)
    (by decide) 10 [7, 7, 7, 7, 7, 7, 7, 7, 7, 9] rfl (by decide)
  ⟨(h.1.2.2.2.2.2 (by decide)).trans (by decide), h.2.2.2.2.2.1.trans (by decide)⟩

/-! ## Scaling of the byte counts -/

theorem sum_map_mul (k : Nat) : ∀ l : List Nat, (l.map (fun x => k * x)).sum = k * l.sum := by
  intro l
  induction l with
  | nil => simp
  | cons a l ih => simp [ih, Nat.mul_add]

theorem sumSq_map_mul (k : Nat) : ∀ l : List Nat,
    sumSq (l.map (fun x => k * x)) = k * k * sumSq l := by
  intro l
  induction l with
  | nil => simp [sumSq]
  | cons a l ih =>
    rw [List.map_cons, sumSq_cons, sumSq_cons, ih]
    ring

theorem all_ne_zero_map_mul (k : Nat) (hk : 1 ≤ k) (l : List Nat) :
    (∀ x ∈ l.map (fun x => k * x), x ≠ 0) ↔ ∀ x ∈ l, x ≠ 0 := by
  constructor
  · intro h x hx hx0
    exact h (k * x) (List.mem_map.2 ⟨x, hx, rfl⟩) (by rw [hx0, Nat.mul_zero])
  · intro h y hy
    obtain ⟨x, hx, rfl⟩ := List.mem_map.1 hy
    exact Nat.mul_ne_zero (by omega) (h x hx)

/-- The double quotient of two integers below `2 ^ 53` does not change when both
are multiplied by the same factor, as long as they stay below `2 ^ 53`. -/
theorem quotient_scale (A B c : Nat) (hc : 1 ≤ c) (hA : c * A < 2 ^ 53) (hB : c * B < 2 ^ 53) :
    F64.div (F64.ofU64 (c * A)) (F64.ofU64 (c * B)) = F64.div (F64.ofU64 A) (F64.ofU64 B) := by
  have hA1 : A < 2 ^ 53 := lt_of_le_of_lt (Nat.le_mul_of_pos_left _ (by omega)) hA
  have hB1 : B < 2 ^ 53 := lt_of_le_of_lt (Nat.le_mul_of_pos_left _ (by omega)) hB
  by_cases hA0 : A = 0
  · subst hA0
    by_cases hB0 : B = 0
    · subst hB0
      simp
    · have hcB : c * B ≠ 0 := Nat.mul_ne_zero (by omega) hB0
      have n1 := (ofU64_spec (c * B) (Nat.pos_of_ne_zero hcB) (lt_trans hB (by norm_num))).1
      have n2 := (ofU64_spec B (Nat.pos_of_ne_zero hB0) (lt_trans hB1 (by norm_num))).1
      rw [Nat.mul_zero]
      cases h1 : F64.ofU64 (c * B) with
      | inf => rw [h1] at n1; exact n1.elim
      | nan => rw [h1] at n1; exact n1.elim
      | fin m1 e1 =>
        cases h2 : F64.ofU64 B with
        | inf => rw [h2] at n2; exact n2.elim
        | nan => rw [h2] at n2; exact n2.elim
        | fin m2 e2 =>
          rw [h1] at n1
          rw [h2] at n2
          have p1 : m1 ≠ 0 := by have := n1.1; omega
          have p2 : m2 ≠ 0 := by have := n2.1; omega
          simp [F64.ofU64, F64.div, F64.zero, p1, p2]
  · by_cases hB0 : B = 0
    · subst hB0
      have hcA : c * A ≠ 0 := Nat.mul_ne_zero (by omega) hA0
      have n1 := (ofU64_spec (c * A) (Nat.pos_of_ne_zero hcA) (lt_trans hA (by norm_num))).1
      have n2 := (ofU64_spec A (Nat.pos_of_ne_zero hA0) (lt_trans hA1 (by norm_num))).1
      rw [Nat.mul_zero]
      cases h1 : F64.ofU64 (c * A) with
      | inf => rw [h1] at n1; exact n1.elim
      | nan => rw [h1] at n1; exact n1.elim
      | fin m1 e1 =>
        cases h2 : F64.ofU64 A with
        | inf => rw [h2] at n2; exact n2.elim
        | nan => rw [h2] at n2; exact n2.elim
        | fin m2 e2 =>
          rw [h1] at n1
          rw [h2] at n2
          have p1 : m1 ≠ 0 := by have := n1.1; omega
          have p2 : m2 ≠ 0 := by have := n2.1; omega
          simp [F64.ofU64, F64.div, F64.zero, p1, p2]
    · have hcA : 0 < c * A := Nat.pos_of_ne_zero (Nat.mul_ne_zero (by omega) hA0)
      have hcB : 0 < c * B := Nat.pos_of_ne_zero (Nat.mul_ne_zero (by omega) hB0)
      have hA0p := Nat.pos_of_ne_zero hA0
      have hB0p := Nat.pos_of_ne_zero hB0
      apply F64.div_ratio _ _ _ _ (ofU64_spec _ hcA (lt_trans hA (by norm_num))).1
        (ofU64_spec _ hcB (lt_trans hB (by norm_num))).1
        (ofU64_spec _ hA0p (lt_trans hA1 (by norm_num))).1
        (ofU64_spec _ hB0p (lt_trans hB1 (by norm_num))).1
      rw [val_ofU64_exact _ hcA hA, val_ofU64_exact _ hcB hB, val_ofU64_exact _ hA0p hA1,
        val_ofU64_exact _ hB0p hB1]
      push_cast
      ring

/-- C30 (amended).  Jain's index as computed is scale-invariant as long as the operands
stay below `2 ^ 53`: for `k ≥ 1` and `N` counters with `N · (k · Σ bᵢ)² < 2 ^ 53`
a tick on the counters `k · bᵢ` gives the same fairness outcome as a tick on the
counters `bᵢ`: the same sample (or none in both cases), the same flags
afterwards and the same notifications; the per-group index of multi-hop is the
same double as well. -/
theorem fairness_scale_invariant (N now k : Nat) (b : List Nat) (f : Convergence.Flags)
    (hlen : b.length = N) (hN : N < 2 ^ 32) (hk : 1 ≤ k)
    (hb : N * ((k * b.sum) * (k * b.sum)) < 2 ^ 53) (t : Convergence.Thr) :
    Convergence.sample (Convergence.PrintThroughput N now ⟨b.map (fun x => k * x), f⟩).2
        = Convergence.sample (Convergence.PrintThroughput N now ⟨b, f⟩).2 ∧
      Convergence.flagOf t (Convergence.PrintThroughput N now ⟨b.map (fun x => k * x), f⟩).1.flags
        = Convergence.flagOf t (Convergence.PrintThroughput N now ⟨b, f⟩).1.flags ∧
      Convergence.noteCount t (Convergence.PrintThroughput N now ⟨b.map (fun x => k * x), f⟩).2
        = Convergence.noteCount t (Convergence.PrintThroughput N now ⟨b, f⟩).2 ∧
      MultiHop.groupFairness N (b.map (fun x => k * x)) = MultiHop.groupFairness N b := by
  have hlen2 : (b.map (fun x => k * x)).length = N := by rw [List.length_map, hlen]
  have hkk : 1 ≤ k * k := Nat.mul_pos hk hk
  -- the size bound for the scaled and for the original counters
  have e1 : k * b.sum * (k * b.sum) = k * k * (b.sum * b.sum) := by ring
  have hS : N * (k * k * (b.sum * b.sum)) < 2 ^ 53 := by rw [← e1]; exact hb
  have hS2 : k * k * (N * (b.sum * b.sum)) < 2 ^ 53 := by
    have : k * k * (N * (b.sum * b.sum)) = N * (k * k * (b.sum * b.sum)) := by ring
    rw [this]; exact hS
  have hQ2 : k * k * (N * sumSq b) < 2 ^ 53 :=
    lt_of_le_of_lt (Nat.mul_le_mul_left _ (Nat.mul_le_mul_left _ (sumSq_le_sq b))) hS2
  have hN0 : N = 0 ∨ 1 ≤ N := by omega
  have hnum : k * k * (b.sum * b.sum) < 2 ^ 53 := by
    rcases hN0 with h0 | h1
    · have : b = [] := List.length_eq_zero.1 (hlen.trans h0)
      subst this
      simp
    · exact lt_of_le_of_lt (Nat.le_mul_of_pos_left _ h1) hS
  have hq : k * k * sumSq b < 2 ^ 53 :=
    lt_of_le_of_lt (Nat.mul_le_mul_left _ (sumSq_le_sq b)) hnum
  have w1 : wrap64 (b.map (fun x => k * x)).sum = k * b.sum := by
    rw [sum_map_mul]
    apply wrap64_of_lt
    have : k * b.sum ≤ k * b.sum * (k * b.sum) := by
      rcases Nat.eq_zero_or_pos (k * b.sum) with h | h
      · rw [h]
      · exact Nat.le_mul_of_pos_left _ h
    have h2 : k * b.sum * (k * b.sum) < 2 ^ 53 := by rw [e1]; exact hnum
    exact lt_trans (lt_of_le_of_lt this h2) (by norm_num)
  have w2 : wrap64 (k * b.sum * (k * b.sum)) = k * k * (b.sum * b.sum) := by
    rw [e1]; exact wrap64_of_lt (lt_trans hnum (by norm_num))
  have w3 : wrap64 (sumSq (b.map (fun x => k * x))) = k * k * sumSq b := by
    rw [sumSq_map_mul]; exact wrap64_of_lt (lt_trans hq (by norm_num))
  have w4 : wrap64 (N * (k * k * sumSq b)) = k * k * (N * sumSq b) := by
    have : N * (k * k * sumSq b) = k * k * (N * sumSq b) := by ring
    rw [this]; exact wrap64_of_lt (lt_trans hQ2 (by norm_num))
  have one_le : ∀ x : Nat, x ≤ k * k * x := fun x => Nat.le_mul_of_pos_left _ hkk
  have v1 : wrap64 b.sum = b.sum := by
    apply wrap64_of_lt
    have : b.sum ≤ k * b.sum := Nat.le_mul_of_pos_left _ hk
    have h3 : k * b.sum < 2 ^ 64 := by rw [← w1]; exact wrap64_lt _
    omega
  have v2 : wrap64 (b.sum * b.sum) = b.sum * b.sum :=
    wrap64_of_lt (lt_trans (lt_of_le_of_lt (one_le _) hnum) (by norm_num))
  have v3 : wrap64 (sumSq b) = sumSq b :=
    wrap64_of_lt (lt_trans (lt_of_le_of_lt (one_le _) hq) (by norm_num))
  have v4 : wrap64 (N * sumSq b) = N * sumSq b :=
    wrap64_of_lt (lt_trans (lt_of_le_of_lt (one_le _) hQ2) (by norm_num))
  have hquot : F64.div (F64.ofU64 (k * k * (b.sum * b.sum))) (F64.ofU64 (k * k * (N * sumSq b)))
      = F64.div (F64.ofU64 (b.sum * b.sum)) (F64.ofU64 (N * sumSq b)) :=
    quotient_scale _ _ _ hkk hnum hQ2
  have hsample : Convergence.sample
      (Convergence.PrintThroughput N now ⟨b.map (fun x => k * x), f⟩).2
      = Convergence.sample (Convergence.PrintThroughput N now ⟨b, f⟩).2 := by
    rw [Convergence.sample_eq N now ⟨b.map (fun x => k * x), f⟩ hlen2 hN,
      Convergence.sample_eq N now ⟨b, f⟩ hlen hN]
    simp only [w1, w2, w3, w4, v1, v2, v3, v4, hquot, all_ne_zero_map_mul k hk b]
  have hcross : Convergence.crossed t
      (Convergence.PrintThroughput N now ⟨b.map (fun x => k * x), f⟩).2
      = Convergence.crossed t (Convergence.PrintThroughput N now ⟨b, f⟩).2 := by
    unfold Convergence.crossed
    rw [hsample]
  refine ⟨hsample, ?_, ?_, ?_⟩
  · rw [Convergence.PrintThroughput_flagOf N now _ hlen2 hN t,
      Convergence.PrintThroughput_flagOf N now _ hlen hN t, hcross]
  · rw [Convergence.PrintThroughput_noteCount N now _ hlen2 hN t,
      Convergence.PrintThroughput_noteCount N now _ hlen hN t, hcross]
  · rw [MultiHop.groupFairness_eq N _ hlen2, MultiHop.groupFairness_eq N b hlen]
    simp only [w1, w2, w3, w4, v1, v2, v3, v4, hquot]

/-- Witness of C30: the counters 5, 6, 9, 9, 9 and 1000 times as much give the
sample 0.95 and set `flag95` alike. -/
theorem fairness_scale_invariant_witness :
    Convergence.sample (Convergence.PrintThroughput 5 1000000
        ⟨[5000, 6000, 9000, 9000, 9000], ⟨false, false, false⟩⟩).2 = some thr95 ∧
      (Convergence.PrintThroughput 5 1000000
        ⟨[5000, 6000, 9000, 9000, 9000], ⟨false, false, false⟩⟩).1.flags.flag95 = true :=
  have h := fairness_scale_invariant 5 1000000 1000 [5, 6, 9, 9, 9] ⟨false, false, false⟩ rfl
    (by decide) (by decide) (by decide) Convergence.Thr.t95
  ⟨h.1.trans (by decide), h.2.1.trans (by decide)⟩

/-- C30 (counterexample).  The counters 5, 6, 9, 9, 9 give the sample `0.95` exactly (the
double of the literal), which sets `flag95` and is announced; the counters
40896963 times as much, for which `N · (k · Σ bᵢ)²` is still below `2 ^ 64`,
give the double `0x1.e666666666665p-1`, below the threshold: no flag and no
notification. -/
theorem fairness_scale_invariant_counterexample :
    5 * ((40896963 * [5, 6, 9, 9, 9].sum) * (40896963 * [5, 6, 9, 9, 9].sum)) < 2 ^ 64 ∧
      Convergence.sample (Convergence.PrintThroughput 5 1000000
        ⟨[5, 6, 9, 9, 9], ⟨false, false, false⟩⟩).2 = some thr95 ∧
      (Convergence.PrintThroughput 5 1000000
        ⟨[5, 6, 9, 9, 9], ⟨false, false, false⟩⟩).1.flags = ⟨true, false, false⟩ ∧
      Convergence.noteCount Convergence.Thr.t95 (Convergence.PrintThroughput 5 1000000
        ⟨[5, 6, 9, 9, 9], ⟨false, false, false⟩⟩).2 = 1 ∧
      Convergence.sample (Convergence.PrintThroughput 5 1000000
        ⟨[5, 6, 9, 9, 9].map (fun x => 40896963 * x), ⟨false, false, false⟩⟩).2
        = some (F64.fin 0x1E666666666665 (-53)) ∧
      (Convergence.PrintThroughput 5 1000000
        ⟨[5, 6, 9, 9, 9].map (fun x => 40896963 * x), ⟨false, false, false⟩⟩).1.flags
        = ⟨false, false, false⟩ ∧
      Convergence.noteCount Convergence.Thr.t95 (Convergence.PrintThroughput 5 1000000
        ⟨[5, 6, 9, 9, 9].map (fun x => 40896963 * x), ⟨false, false, false⟩⟩).2 = 0 := by
  decide

/-! ## The per-group indices of multi-hop -/

theorem sum_eq_zero_of_all_zero : ∀ l : List Nat, (∀ b ∈ l, b = 0) → l.sum = 0 ∧ sumSq l = 0 := by
  intro l
  induction l with
  | nil => intro _; simp [sumSq]
  | cons a l ih =>
    intro h
    have ha : a = 0 := h a (List.mem_cons_self _ _)
    obtain ⟨h1, h2⟩ := ih (fun b hb => h b (List.mem_cons_of_mem _ hb))
    rw [List.sum_cons, sumSq_cons, h1, h2, ha]
    exact ⟨rfl, rfl⟩

theorem groupFairness_idle (n : Nat) (v : List Nat) (hv : v.length = n)
    (hz : ∀ b ∈ v, b = 0) : MultiHop.groupFairness n v = F64.nan := by
  obtain ⟨h1, h2⟩ := sum_eq_zero_of_all_zero v hz
  rw [MultiHop.groupFairness_eq n v hv, h1, h2]
  simp only [wrap64_zero, Nat.mul_zero]
  decide

theorem groupFairness_range (n : Nat) (v : List Nat) (h : NoWrap n v) :
    ∃ q : ℚ, (MultiHop.groupFairness n v).toRat = some q ∧ 0 < q ∧ q ≤ 1 := by
  obtain ⟨hn, f1, f2, f3, f4, f5, f6, f7⟩ := h.facts
  rw [MultiHop.groupFairness_eq n v h.1, wrap64_of_lt f1, wrap64_of_lt f2, wrap64_of_lt f3,
    wrap64_of_lt f4]
  obtain ⟨nA, vA⟩ := ofU64_spec _ f5 f3
  obtain ⟨nB, vB⟩ := ofU64_spec _ f6 f4
  have hmono := ofU64Nat_mono _ _ f5 f7 f4
  have hle : (F64.ofU64 (v.sum * v.sum)).val ≤ (F64.ofU64 (n * sumSq v)).val := by
    rw [vA, vB]; exact_mod_cast hmono
  have hnorm := F64.div_isNormal _ _ nA nB
  exact ⟨_, F64.toRat_of_isNormal _ hnorm, F64.val_pos _ hnorm, F64.div_le_one _ _ nA nB hle⟩

/-- C23 (what the code does).  The three per-group indices written by multi-hop
`PrintThroughput` are `groupFairness` of the transmit counters of the group.
For a group that transmitted nothing in the window the index is the double
quotient `0.0 / 0.0`, a NaN, and no statement tests the divisor; for a group
that transmitted, with counters such that `n · (Σ bᵢ)² < 2 ^ 64`, it is a
finite number in `(0, 1]`. -/
theorem idle_group_index_is_nan (w : Nat) (ms : MultiHop.State) (n : Nat) (v : List Nat)
    (hv : v.length = n) :
    ((MultiHop.PrintThroughput w ms).2.fairS1R1 = MultiHop.groupFairness 10 ms.txS1R1Bytes ∧
      (MultiHop.PrintThroughput w ms).2.fairS2R2 = MultiHop.groupFairness 20 ms.txS2R2Bytes ∧
      (MultiHop.PrintThroughput w ms).2.fairS3R1 = MultiHop.groupFairness 10 ms.txS3R1Bytes) ∧
      ((∀ b ∈ v, b = 0) →
        MultiHop.groupFairness n v = F64.div (F64.ofU64 0) (F64.ofU64 0) ∧
          MultiHop.groupFairness n v = F64.nan ∧ (MultiHop.groupFairness n v).toRat = none) ∧
      (0 < v.sum → n * (v.sum * v.sum) < 2 ^ 64 →
        ∃ q : ℚ, (MultiHop.groupFairness n v).toRat = some q ∧ 0 < q ∧ q ≤ 1) := by
  refine ⟨⟨rfl, rfl, rfl⟩, ?_, ?_⟩
  · intro hz
    have h := groupFairness_idle n v hv hz
    rw [h]
    exact ⟨by decide, rfl, rfl⟩
  · intro h0 hb
    exact groupFairness_range n v ⟨hv, h0, hb⟩

/-- Witness of C23: the tick of an initial window, in which no S3-R1 flow has sent
yet while every S1-R1 flow has sent 62500 bytes. -/
theorem idle_group_index_is_nan_witness :
    (MultiHop.PrintThroughput 10000000
        ⟨List.replicate 10 0, List.replicate 20 0, List.replicate 10 0,
          List.replicate 10 62500, List.replicate 20 0, List.replicate 10 0⟩).2.fairS3R1
        = F64.nan ∧
      (MultiHop.PrintThroughput 10000000
        ⟨List.replicate 10 0, List.replicate 20 0, List.replicate 10 0,
          List.replicate 10 62500, List.replicate 20 0, List.replicate 10 0⟩).2.fairS1R1
        = F64.one :=
  have h := idle_group_index_is_nan 10000000
    ⟨List.replicate 10 0, List.replicate 20 0, List.replicate 10 0,
      List.replicate 10 62500, List.replicate 20 0, List.replicate 10 0⟩ 10
    (List.replicate 10 0) rfl
  ⟨h.1.2.2.trans (h.2.1 (by decide)).2.1, h.1.1.trans (by decide)⟩

/-! ## The report values of multi-hop -/

theorem Near.mono {j k : Nat} {v q : ℚ} (h : Near j v q) (hjk : j ≤ k) : Near k v q := by
  obtain ⟨hv, hq, u1, u2⟩ := h
  have hW : (1 : ℚ) ≤ 1 + 1 / 2 ^ 52 := by norm_num
  have hp : ((1 : ℚ) + 1 / 2 ^ 52) ^ j ≤ (1 + 1 / 2 ^ 52) ^ k := pow_le_pow_right₀ hW hjk
  exact ⟨hv, hq, le_trans u1 (mul_le_mul_of_nonneg_left hp hq.le),
    le_trans u2 (mul_le_mul_of_nonneg_left hp hv.le)⟩

/-- A double quotient by a positive double and by `1e6`, of a converted integer. -/
theorem scaled_rate_near (bits : Nat) (w c : F64) (C : ℚ) (h0 : 0 < bits) (h64 : bits < 2 ^ 64)
    (hw : w.IsNormal) (hc : c.IsNormal) (hC : c.val = C) :
    (F64.div (F64.div (F64.ofU64 bits) w) c).IsNormal ∧
      Near 3 (F64.div (F64.div (F64.ofU64 bits) w) c).val ((bits : ℚ) / w.val / C) := by
  have nB := (ofU64_spec bits h0 h64).1
  have n1 := F64.div_isNormal _ _ nB hw
  have hwp := F64.val_pos w hw
  have hcp : 0 < C := hC ▸ F64.val_pos c hc
  refine ⟨F64.div_isNormal _ _ n1 hc, ?_⟩
  have r1 : Near 1 (F64.div (F64.ofU64 bits) w).val ((F64.ofU64 bits).val / w.val) :=
    F64.near_div _ _ nB hw
  have r2 : Near (1 + 0) ((F64.ofU64 bits).val / w.val) ((bits : ℚ) / w.val) :=
    Near.div (near_ofU64 bits h0 h64) (Near.refl _ hwp)
  have r3 := Near.trans r1 r2
  have r4 : Near 1 (F64.div (F64.div (F64.ofU64 bits) w) c).val
      ((F64.div (F64.ofU64 bits) w).val / c.val) := F64.near_div _ _ n1 hc
  rw [hC] at r4
  have r5 := Near.div r3 (Near.refl C hcp)
  have r6 := Near.trans r4 r5
  exact r6

theorem div_zero_left (b : F64) (hb : b.IsNormal) : F64.div F64.zero b = F64.zero := by
  cases b with
  | inf => exact hb.elim
  | nan => exact hb.elim
  | fin mb eb =>
    have p : mb ≠ 0 := by have := hb.1; omega
    simp [F64.div, F64.zero, p]

namespace MultiHop

theorem mh_lit1e6_isNormal : lit1e6.IsNormal := by
  simp only [lit1e6, F64.IsNormal, Normal]
  norm_num

theorem mh_lit1e9_isNormal : lit1e9.IsNormal := by
  simp only [lit1e9, F64.IsNormal, Normal]
  norm_num

/-- The literals `1e6` and `1e9` are the integers they denote. -/
theorem literals_exact : lit1e6 = F64.ofU64 1000000 ∧ lit1e9 = F64.ofU64 1000000000 := by
  decide

theorem mh_lit1e6_val : lit1e6.val = 1000000 := by
  rw [literals_exact.1]
  exact_mod_cast val_ofU64_exact 1000000 (by norm_num) (by norm_num)

theorem mh_lit1e9_val : lit1e9.val = 1000000000 := by
  rw [literals_exact.2]
  exact_mod_cast val_ofU64_exact 1000000000 (by norm_num) (by norm_num)

theorem throughputValue_near (bits : Nat) (w : F64) (h0 : 0 < bits) (h64 : bits < 2 ^ 64)
    (hw : w.IsNormal) :
    ∃ q : ℚ, (throughputValue bits w).toRat = some q ∧
      |q - (bits : ℚ) / w.val / 10 ^ 6| ≤ (bits : ℚ) / w.val / 10 ^ 6 / 2 ^ 49 := by
  obtain ⟨hn, hnear⟩ := scaled_rate_near bits w lit1e6 1000000 h0 h64 hw mh_lit1e6_isNormal
    mh_lit1e6_val
  refine ⟨_, F64.toRat_of_isNormal _ hn, ?_⟩
  have hb := Near.bound (Near.mono hnear (by norm_num))
  have e : (bits : ℚ) / w.val / 1000000 = (bits : ℚ) / w.val / 10 ^ 6 := by norm_num
  rw [e] at hb
  exact hb

theorem throughputValue_zero (w : F64) (hw : w.IsNormal) : throughputValue 0 w = F64.zero := by
  unfold throughputValue
  have : F64.ofU64 0 = F64.zero := by decide
  rw [this, div_zero_left w hw, div_zero_left _ mh_lit1e6_isNormal]

theorem aggregateValue_near (bits : Nat) (h0 : 0 < bits) (h64 : bits < 2 ^ 64) :
    ∃ q : ℚ, (aggregateValue bits).toRat = some q ∧
      |q - (bits : ℚ) / 10 ^ 9| ≤ (bits : ℚ) / 10 ^ 9 / 2 ^ 49 := by
  have nB := (ofU64_spec bits h0 h64).1
  have hn := F64.div_isNormal _ _ nB mh_lit1e9_isNormal
  have r1 : Near 1 (aggregateValue bits).val ((F64.ofU64 bits).val / lit1e9.val) :=
    F64.near_div _ _ nB mh_lit1e9_isNormal
  rw [mh_lit1e9_val] at r1
  have r2 : Near (1 + 0) ((F64.ofU64 bits).val / 1000000000) ((bits : ℚ) / 1000000000) :=
    Near.div (near_ofU64 bits h0 h64) (Near.refl _ (by norm_num))
  have r3 := Near.trans r1 r2
  refine ⟨_, F64.toRat_of_isNormal _ hn, ?_⟩
  have hb := Near.bound (Near.mono r3 (by norm_num))
  have e : (bits : ℚ) / 1000000000 = (bits : ℚ) / 10 ^ 9 := by norm_num
  rw [e] at hb
  exact hb

theorem foldl_add_wrap : ∀ (l : List Nat) (a : Nat),
    l.foldl (fun a b => wrap64 (a + b)) (wrap64 a) = wrap64 (a + l.sum) := by
  intro l
  induction l with
  | nil => intro a; simp
  | cons b l ih =>
    intro a
    rw [List.foldl_cons, wrap64_wrap64_add, ih, List.sum_cons, Nat.add_assoc]

theorem addLoop_eq (n : Nat) (v : List Nat) (hlen : v.length = n) (a : Nat) :
    addLoop n v (wrap64 a) = wrap64 (a + v.sum) := by
  subst hlen
  have h := foldl_range_getD (fun a b => wrap64 (a + b)) v [] (wrap64 a)
  simp only [List.length_nil, List.nil_append] at h
  rw [addLoop, List.range_eq_range', h, foldl_add_wrap]

theorem thptRows_length (n : Nat) (v : List Nat) : (thptRows n v).length = n := by
  simp [thptRows]

theorem thptRows_getD (n : Nat) (v : List Nat) (i : Nat) (hi : i < n) :
    (thptRows n v).getD i 0 = wrap64 (v.getD i 0 * 8) := by
  unfold thptRows
  rw [List.getD_eq_getElem?_getD, List.getElem?_map, List.getElem?_range hi]
  rfl

theorem PrintThroughput_rows_eq (w : Nat) (s : State) (c : Chan) :
    (PrintThroughput w s).2.rows c = thptRows c.size (s.get c) := by
  cases c <;> rfl

end MultiHop

/-! ## Per-flow throughput rows -/

namespace Convergence

theorem rowsFrom_filter_isThptOf (now i : Nat) : ∀ (l : List Nat) (k : Nat),
    (rowsFrom now k l).filter (isThptOf i)
      = if k ≤ i ∧ i < k + l.length ∧ l.getD (i - k) 0 ≠ 0 then
          [Out.thpt now i (wrap64 (l.getD (i - k) 0 * 8))]
        else [] := by
  intro l
  induction l with
  | nil => intro k; simp [rowsFrom]
  | cons b l ih =>
    intro k
    rw [rowsFrom, List.filter_append, ih (k + 1)]
    by_cases hik : i = k
    · subst hik
      have e1 : ¬ (i + 1 ≤ i ∧ i < i + 1 + l.length ∧ l.getD (i - (i + 1)) 0 ≠ 0) := by
        intro h; omega
      rw [if_neg e1, List.append_nil, Nat.sub_self]
      by_cases hb : b = 0
      · simp [hb]
      · simp [hb, isThptOf]
    · by_cases hlt : i < k
      · have e1 : ¬ (k + 1 ≤ i ∧ i < k + 1 + l.length ∧ l.getD (i - (k + 1)) 0 ≠ 0) := by
          intro h; omega
        have e2 : ¬ (k ≤ i ∧ i < k + (b :: l).length ∧ (b :: l).getD (i - k) 0 ≠ 0) := by
          intro h; omega
        rw [if_neg e1, if_neg e2, List.append_nil]
        by_cases hb : b = 0
        · simp [hb]
        · simp [hb, isThptOf, Ne.symm hik]
      · have hgt : k < i := by omega
        have hsub : i - k = (i - (k + 1)) + 1 := by omega
        have hget : (b :: l).getD (i - k) 0 = l.getD (i - (k + 1)) 0 := by
          rw [hsub]; rfl
        have hhead : (if b ≠ 0 then [Out.thpt now k (wrap64 (b * 8))] else []).filter
            (isThptOf i) = [] := by
          by_cases hb : b = 0
          · simp [hb]
          · simp [hb, isThptOf, Ne.symm hik]
        rw [hhead, List.nil_append, hget]
        have hiff : (k + 1 ≤ i ∧ i < k + 1 + l.length ∧ l.getD (i - (k + 1)) 0 ≠ 0)
            ↔ (k ≤ i ∧ i < k + (b :: l).length ∧ l.getD (i - (k + 1)) 0 ≠ 0) := by
          rw [List.length_cons]
          constructor
          · rintro ⟨h1, h2, h3⟩; exact ⟨by omega, by omega, h3⟩
          · rintro ⟨h1, h2, h3⟩; exact ⟨by omega, by omega, h3⟩
        exact if_congr hiff rfl rfl

theorem check_filter_isThptOf (i : Nat) (t : Thr) (thr : F64) (now : Nat) (v : F64)
    (flag : Bool) : (check t thr now v flag).2.filter (isThptOf i) = [] := by
  unfold check
  split <;> simp [isThptOf]

theorem fairnessBlock_filter_isThptOf (i now : Nat) (v : F64) (f : Flags) :
    (fairnessBlock now v f).2.filter (isThptOf i) = [] := by
  simp only [fairnessBlock, List.filter_append, check_filter_isThptOf]
  simp [isThptOf]

/-- The throughput rows of flow `i` among the lines of a tick. -/
theorem PrintThroughput_filter_isThptOf (N now i : Nat) (s : State)
    (hlen : s.rxS1R1Bytes.length = N) (hi : i < N) :
    (PrintThroughput N now s).2.filter (isThptOf i)
      = if s.rxS1R1Bytes.getD i 0 ≠ 0 then
          [Out.thpt now i (wrap64 (s.rxS1R1Bytes.getD i 0 * 8))]
        else [] := by
  have hrows := rowsFrom_filter_isThptOf now i s.rxS1R1Bytes 0
  simp only [Nat.zero_le, Nat.zero_add, Nat.sub_zero, true_and, hlen, hi] at hrows
  simp only [PrintThroughput, loop_eq N now s.rxS1R1Bytes hlen]
  split <;>
    simp only [List.filter_append, hrows, fairnessBlock_filter_isThptOf, List.filter_cons,
      List.filter_nil, isThptOf, List.append_nil] <;> simp

end Convergence

namespace Convergence

/-- The per-flow rate written by convergence is finite and within four roundings
of `bits / 0.001 / 10 ^ 6`. -/
theorem conv_throughputValue_near (bits : Nat) (h0 : 0 < bits) (h64 : bits < 2 ^ 64) :
    (throughputValue bits).IsNormal ∧
      Near 4 (throughputValue bits).val ((bits : ℚ) / (1 / 1000) / 1000000) := by
  obtain ⟨n1, r1⟩ := rate_near bits h0 h64
  refine ⟨F64.div_isNormal _ _ n1 lit1e6_isNormal, ?_⟩
  have q1 : Near 1 (throughputValue bits).val
      ((F64.div (F64.ofU64 bits) measurementInterval_d).val / lit1e6.val) :=
    F64.near_div _ _ n1 lit1e6_isNormal
  rw [lit1e6_val] at q1
  have q2 := Near.div r1 (Near.refl (1000000 : ℚ) (by norm_num))
  have q3 := Near.trans q1 q2
  exact q3

end Convergence

/-- C21 (amended).  For a flow with a non-zero counter `b`, `b * 8 < 2 ^ 64`, convergence
`PrintThroughput` writes exactly one throughput row (time, flow index, the
double `(b * 8) / measurementInterval_d / 1e6`, which is finite and within a
relative error of `2 ^ -49` of `b * 0.008`), and no row for a flow whose counter
is zero.  Multi-hop `PrintThroughput` writes one row for every flow of every
vector, zero-byte flows included, with the double `(v[j] * 8) / w / 1e6`, `w`
being the double of the window length in seconds it was called with: 0 for a
zero counter and otherwise within a relative error of `2 ^ -49` of
`v[j] * 8 / w / 10 ^ 6`. -/
theorem throughput_rows (N now i : Nat) (s : Convergence.State)
    (hlen : s.rxS1R1Bytes.length = N) (hi : i < N)
    (hb : s.rxS1R1Bytes.getD i 0 * 8 < 2 ^ 64)
    (c : MultiHop.Chan) (window : Nat) (ms : MultiHop.State) (j : Nat) (hj : j < c.size)
    (hc : (ms.get c).getD j 0 * 8 < 2 ^ 64) (w : F64) (hw : w.IsNormal) :
    ((Convergence.PrintThroughput N now s).2.filter (Convergence.isThptOf i)
        = (if s.rxS1R1Bytes.getD i 0 ≠ 0 then
            [Convergence.Out.thpt now i (s.rxS1R1Bytes.getD i 0 * 8)]
          else []) ∧
      (Convergence.Out.thpt now i (s.rxS1R1Bytes.getD i 0 * 8)).value
        = some (F64.div (F64.div (F64.ofU64 (s.rxS1R1Bytes.getD i 0 * 8))
            Convergence.measurementInterval_d) Convergence.lit1e6) ∧
      (s.rxS1R1Bytes.getD i 0 ≠ 0 →
        ∃ q : ℚ, (Convergence.throughputValue (s.rxS1R1Bytes.getD i 0 * 8)).toRat = some q ∧
          |q - (s.rxS1R1Bytes.getD i 0 : ℚ) * (8 / 1000)|
            ≤ (s.rxS1R1Bytes.getD i 0 : ℚ) * (8 / 1000) / 2 ^ 49)) ∧
    (((MultiHop.PrintThroughput window ms).2.rows c).length = c.size ∧
      ((MultiHop.PrintThroughput window ms).2.rows c).getD j 0 = (ms.get c).getD j 0 * 8 ∧
      MultiHop.throughputValue ((ms.get c).getD j 0 * 8) w
        = F64.div (F64.div (F64.ofU64 ((ms.get c).getD j 0 * 8)) w) MultiHop.lit1e6 ∧
      ((ms.get c).getD j 0 = 0 →
        MultiHop.throughputValue ((ms.get c).getD j 0 * 8) w = F64.zero) ∧
      ((ms.get c).getD j 0 ≠ 0 →
        ∃ q : ℚ, (MultiHop.throughputValue ((ms.get c).getD j 0 * 8) w).toRat = some q ∧
          |q - ((ms.get c).getD j 0 : ℚ) * 8 / w.val / 10 ^ 6|
            ≤ ((ms.get c).getD j 0 : ℚ) * 8 / w.val / 10 ^ 6 / 2 ^ 49)) := by
  refine ⟨⟨?_, rfl, ?_⟩, ?_, ?_, rfl, ?_, ?_⟩
  · rw [Convergence.PrintThroughput_filter_isThptOf N now i s hlen hi, wrap64_of_lt hb]
  · intro hne
    obtain ⟨hn, hnear⟩ := Convergence.conv_throughputValue_near (s.rxS1R1Bytes.getD i 0 * 8)
      (by omega) hb
    refine ⟨_, F64.toRat_of_isNormal _ hn, ?_⟩
    have hbd := Near.bound (Near.mono hnear (by norm_num))
    have e : ((s.rxS1R1Bytes.getD i 0 * 8 : Nat) : ℚ) / (1 / 1000) / 1000000
        = (s.rxS1R1Bytes.getD i 0 : ℚ) * (8 / 1000) := by
      push_cast
      ring
    rw [e] at hbd
    exact hbd
  · rw [MultiHop.PrintThroughput_rows_eq, MultiHop.thptRows_length]
  · rw [MultiHop.PrintThroughput_rows_eq, MultiHop.thptRows_getD _ _ _ hj, wrap64_of_lt hc]
  · intro h0
    rw [h0]
    exact MultiHop.throughputValue_zero w hw
  · intro hne
    obtain ⟨q, h1, h2⟩ := MultiHop.throughputValue_near ((ms.get c).getD j 0 * 8) w
      (by omega) hc hw
    refine ⟨q, h1, ?_⟩
    have e : (((ms.get c).getD j 0 * 8 : Nat) : ℚ) = ((ms.get c).getD j 0 : ℚ) * 8 := by
      push_cast
      ring
    rw [e] at h2
    exact h2

/-- Witness of C21: flow 0 received 1448 bytes and flow 1 nothing in convergence; in
multi-hop with a window of 10 ms flow 3 of the S2-R2 senders sent 62500 bytes,
which is 50 Mbit/s. -/
theorem throughput_rows_witness :
    (Convergence.PrintThroughput 5 1000000
        ⟨[1448, 0, 2896, 0, 1448], ⟨false, false, false⟩⟩).2.filter (Convergence.isThptOf 0)
        = [Convergence.Out.thpt 1000000 0 11584] ∧
      ((MultiHop.PrintThroughput 10000000
        (MultiHop.trace MultiHop.Chan.txS2R2 3 62500 MultiHop.init)).2.rows
          MultiHop.Chan.txS2R2).getD 3 0 = 500000 ∧
      MultiHop.throughputValue 500000 (F64.div (F64.ofU64 1) (F64.ofU64 100)) = F64.ofU64 50 :=
  have h := throughput_rows 5 1000000 0 ⟨[1448, 0, 2896, 0, 1448], ⟨false, false, false⟩⟩ rfl
    (by decide) (by decide) MultiHop.Chan.txS2R2 10000000
    (MultiHop.trace MultiHop.Chan.txS2R2 3 62500 MultiHop.init) 3 (by decide) (by decide)
    (F64.div (F64.ofU64 1) (F64.ofU64 100))
    (F64.div_isNormal _ _ (ofU64_spec 1 (by decide) (by decide)).1
      (ofU64_spec 100 (by decide) (by decide)).1)
  ⟨h.1.1.trans (by decide), h.2.2.1.trans (by decide), h.2.2.2.1.trans (by decide)⟩

/-- C21 (counterexample).  A counter of `2 ^ 61` bytes: `b * 8` wraps around and the row of
the flow carries the value 0.  A counter of 839681039008232 bytes, for which
`b * 8` does not wrap: the value written is the double
`6878667071555436 * 2 ^ -10`, which is below `b * 0.008` by `68 / 128000`, more
than half a unit in the last place (`62.5 / 128000`), so it is not the double
nearest to `b * 0.008`. -/
theorem throughput_rows_counterexample :
    (Convergence.PrintThroughput 5 1000000
        ⟨[2 ^ 61, 0, 0, 0, 0], ⟨false, false, false⟩⟩).2.filter (Convergence.isThptOf 0)
        = [Convergence.Out.thpt 1000000 0 0] ∧
      (Convergence.Out.thpt 1000000 0 0).value = some F64.zero ∧
      (Convergence.PrintThroughput 5 1000000
        ⟨[839681039008232, 0, 0, 0, 0], ⟨false, false, false⟩⟩).2.filter
          (Convergence.isThptOf 0)
        = [Convergence.Out.thpt 1000000 0 6717448312065856] ∧
      (Convergence.Out.thpt 1000000 0 6717448312065856).value
        = some (F64.fin 6878667071555436 (-10)) ∧
      125 * 6878667071555436 + 68 = 1024 * 839681039008232 := by
  decide

/-! ## The aggregate lines of multi-hop -/

/-- C22 (what the code does).  The two aggregate lines of multi-hop `PrintThroughput` print
`static_cast<double> (sum * 8) / 1e9`, `sum` being the bytes transmitted in the
window by the S1-R1 and S2-R2 flows resp. the S3-R1 and S1-R1 flows: the
gigabits of the window.  The window length does not enter: the value is the
same for every `measurementWindow`, and it is the rate in Gbit/s only for a
window of one second. -/
theorem aggregate_lines_ignore_window (w1 w2 : Nat) (ms : MultiHop.State)
    (h1 : ms.txS1R1Bytes.length = 10) (h2 : ms.txS2R2Bytes.length = 20)
    (h3 : ms.txS3R1Bytes.length = 10) :
    (MultiHop.PrintThroughput w1 ms).2.aggrT1
        = wrap64 ((ms.txS1R1Bytes.sum + ms.txS2R2Bytes.sum) * 8) ∧
      (MultiHop.PrintThroughput w1 ms).2.aggrR1
        = wrap64 ((ms.txS3R1Bytes.sum + ms.txS1R1Bytes.sum) * 8) ∧
      (MultiHop.PrintThroughput w1 ms).2.aggrT1 = (MultiHop.PrintThroughput w2 ms).2.aggrT1 ∧
      (MultiHop.PrintThroughput w1 ms).2.aggrR1 = (MultiHop.PrintThroughput w2 ms).2.aggrR1 ∧
      (∀ bits : Nat, MultiHop.aggregateValue bits = F64.div (F64.ofU64 bits) MultiHop.lit1e9) ∧
      (∀ bits : Nat, 0 < bits → bits < 2 ^ 64 →
        ∃ q : ℚ, (MultiHop.aggregateValue bits).toRat = some q ∧
          |q - (bits : ℚ) / 10 ^ 9| ≤ (bits : ℚ) / 10 ^ 9 / 2 ^ 49) := by
  have a1 : MultiHop.addLoop 10 ms.txS1R1Bytes 0 = wrap64 (0 + ms.txS1R1Bytes.sum) :=
    MultiHop.addLoop_eq 10 _ h1 0
  have a3 : MultiHop.addLoop 10 ms.txS3R1Bytes 0 = wrap64 (0 + ms.txS3R1Bytes.sum) :=
    MultiHop.addLoop_eq 10 _ h3 0
  refine ⟨?_, ?_, rfl, rfl, fun _ => rfl, fun bits h0 h64 =>
    MultiHop.aggregateValue_near bits h0 h64⟩
  · show wrap64 (MultiHop.addLoop 20 ms.txS2R2Bytes (MultiHop.addLoop 10 ms.txS1R1Bytes 0) * 8)
      = _
    rw [a1, MultiHop.addLoop_eq 20 _ h2, Nat.zero_add]
    simp only [wrap64, Nat.mod_mul_mod]
  · show wrap64 (MultiHop.addLoop 10 ms.txS1R1Bytes (MultiHop.addLoop 10 ms.txS3R1Bytes 0) * 8)
      = _
    rw [a3, MultiHop.addLoop_eq 10 _ h1, Nat.zero_add]
    simp only [wrap64, Nat.mod_mul_mod]

/-- Witness of C22: in a window of 10 ms every S1-R1 flow sends 62500 bytes (50 Mbit/s)
and every S2-R2 flow 593750 bytes (475 Mbit/s), 10 Gbit/s through T1 in all;
the line for T1 carries `1e8 / 1e9`, the double `0.1`. -/
theorem aggregate_lines_ignore_window_witness :
    (MultiHop.PrintThroughput 10000000
        ⟨List.replicate 10 0, List.replicate 20 0, List.replicate 10 0,
          List.replicate 10 62500, List.replicate 20 593750, List.replicate 10 62500⟩).2.aggrT1
        = 100000000 ∧
      MultiHop.aggregateValue 100000000 = F64.div (F64.ofU64 1) (F64.ofU64 10) :=
  have h := aggregate_lines_ignore_window 10000000 1000000000
    ⟨List.replicate 10 0, List.replicate 20 0, List.replicate 10 0,
      List.replicate 10 62500, List.replicate 20 593750, List.replicate 10 62500⟩ rfl rfl rfl
  ⟨h.1.trans (by decide), (h.2.2.2.2.1 100000000).trans (by decide)⟩

/-! ## The per-group averages of multi-hop -/

theorem div_mul_eight_le (S n : Nat) (hn : 8 ≤ n) : S / n * 8 ≤ S := by
  have h1 : S / n ≤ S / 8 := Nat.div_le_div_left hn (by norm_num)
  have h2 : S / 8 * 8 ≤ S := Nat.div_mul_le_self S 8
  omega

/-- The truncated mean against the exact one, as rational numbers. -/
theorem truncated_mean (S n : Nat) (W : ℚ) (hn : 0 < n) (hW : 0 < W) :
    (n ∣ S → ((S / n : Nat) : ℚ) * 8 / W / 10 ^ 6 = (S : ℚ) * 8 / ((n : ℚ) * W * 10 ^ 6)) ∧
      (¬ n ∣ S →
        ((S / n : Nat) : ℚ) * 8 / W / 10 ^ 6 < (S : ℚ) * 8 / ((n : ℚ) * W * 10 ^ 6) ∧
        (S : ℚ) * 8 / ((n : ℚ) * W * 10 ^ 6) - ((S / n : Nat) : ℚ) * 8 / W / 10 ^ 6
          < 8 / (W * 10 ^ 6)) := by
  have hdm := Nat.div_add_mod S n
  have hr := Nat.mod_lt S hn
  have hnq : (0 : ℚ) < (n : ℚ) := by exact_mod_cast hn
  have hSq : (S : ℚ) = (n : ℚ) * ((S / n : Nat) : ℚ) + ((S % n : Nat) : ℚ) := by
    exact_mod_cast hdm.symm
  have hrq : ((S % n : Nat) : ℚ) < (n : ℚ) := by exact_mod_cast hr
  have hdiff : (S : ℚ) * 8 / ((n : ℚ) * W * 10 ^ 6) - ((S / n : Nat) : ℚ) * 8 / W / 10 ^ 6
      = ((S % n : Nat) : ℚ) / (n : ℚ) * (8 / (W * 10 ^ 6)) := by
    rw [hSq]
    field_simp
    ring
  have hunit : (0 : ℚ) < 8 / (W * 10 ^ 6) := by positivity
  constructor
  · intro hdvd
    have h0 : S % n = 0 := Nat.mod_eq_zero_of_dvd hdvd
    have : (S : ℚ) * 8 / ((n : ℚ) * W * 10 ^ 6) - ((S / n : Nat) : ℚ) * 8 / W / 10 ^ 6 = 0 := by
      rw [hdiff, h0]
      simp
    linarith
  · intro hnd
    have h0 : 0 < S % n := by
      rcases Nat.eq_zero_or_pos (S % n) with h | h
      · exact absurd (Nat.dvd_of_mod_eq_zero h) hnd
      · exact h
    have h0q : (0 : ℚ) < ((S % n : Nat) : ℚ) := by exact_mod_cast h0
    have hfrac0 : (0 : ℚ) < ((S % n : Nat) : ℚ) / (n : ℚ) := div_pos h0q hnq
    have hfrac1 : ((S % n : Nat) : ℚ) / (n : ℚ) < 1 := (div_lt_one hnq).2 hrq
    constructor
    · have : 0 < ((S % n : Nat) : ℚ) / (n : ℚ) * (8 / (W * 10 ^ 6)) := mul_pos hfrac0 hunit
      linarith
    · rw [hdiff]
      calc ((S % n : Nat) : ℚ) / (n : ℚ) * (8 / (W * 10 ^ 6))
          < 1 * (8 / (W * 10 ^ 6)) := mul_lt_mul_of_pos_right hfrac1 hunit
        _ = 8 / (W * 10 ^ 6) := one_mul _

/-- C29 (amended).  The per-group average of multi-hop `PrintThroughput` is computed with
an integer division first.  For a group of `n ≥ 8` counters (`n` is 10, 20
and 10) whose sum is below `2 ^ 64` it is the double `((sum / n) * 8 / w) / 1e6`,
`w` being the double of the window length in seconds: 0 if `sum < n`, and
otherwise finite and within a relative error of `2 ^ -49` of the rational number
`floor (sum / n) * 8 / w / 10 ^ 6`.  That number equals the exact mean rate
`sum * 8 / (n * w * 10 ^ 6)` when `n` divides `sum`, and otherwise is smaller
than it by a positive amount less than `8 / (w * 10 ^ 6)`. -/
theorem group_average_truncates (window : Nat) (ms : MultiHop.State) (n : Nat) (v : List Nat)
    (hv : v.length = n) (hn : 8 ≤ n) (hs : v.sum < 2 ^ 64) (w : F64) (hw : w.IsNormal) :
    ((MultiHop.PrintThroughput window ms).2.avgS1R1
          = wrap64 ((MultiHop.sumLoop 10 ms.txS1R1Bytes).1 / 10 * 8) ∧
        (MultiHop.PrintThroughput window ms).2.avgS2R2
          = wrap64 ((MultiHop.sumLoop 20 ms.txS2R2Bytes).1 / 20 * 8) ∧
        (MultiHop.PrintThroughput window ms).2.avgS3R1
          = wrap64 ((MultiHop.sumLoop 10 ms.txS3R1Bytes).1 / 10 * 8)) ∧
      wrap64 ((MultiHop.sumLoop n v).1 / n * 8) = v.sum / n * 8 ∧
      MultiHop.averageValue (v.sum / n * 8) w
        = F64.div (F64.div (F64.ofU64 (v.sum / n * 8)) w) MultiHop.lit1e6 ∧
      (v.sum < n → MultiHop.averageValue (v.sum / n * 8) w = F64.zero) ∧
      (n ≤ v.sum →
        ∃ q : ℚ, (MultiHop.averageValue (v.sum / n * 8) w).toRat = some q ∧
          |q - ((v.sum / n : Nat) : ℚ) * 8 / w.val / 10 ^ 6|
            ≤ ((v.sum / n : Nat) : ℚ) * 8 / w.val / 10 ^ 6 / 2 ^ 49) ∧
      (n ∣ v.sum → ((v.sum / n : Nat) : ℚ) * 8 / w.val / 10 ^ 6
        = (v.sum : ℚ) * 8 / ((n : ℚ) * w.val * 10 ^ 6)) ∧
      (¬ n ∣ v.sum →
        ((v.sum / n : Nat) : ℚ) * 8 / w.val / 10 ^ 6
            < (v.sum : ℚ) * 8 / ((n : ℚ) * w.val * 10 ^ 6) ∧
          (v.sum : ℚ) * 8 / ((n : ℚ) * w.val * 10 ^ 6)
              - ((v.sum / n : Nat) : ℚ) * 8 / w.val / 10 ^ 6
            < 8 / (w.val * 10 ^ 6)) := by
  have hop : v.sum / n * 8 < 2 ^ 64 := lt_of_le_of_lt (div_mul_eight_le _ _ hn) hs
  obtain ⟨t1, t2⟩ := truncated_mean v.sum n w.val (by omega) (F64.val_pos w hw)
  refine ⟨⟨rfl, rfl, rfl⟩, ?_, rfl, ?_, ?_, t1, t2⟩
  · rw [MultiHop.sumLoop_eq n v hv]
    show wrap64 (wrap64 v.sum / n * 8) = _
    rw [wrap64_of_lt hs, wrap64_of_lt hop]
  · intro hlt
    rw [Nat.div_eq_of_lt hlt, Nat.zero_mul]
    exact MultiHop.throughputValue_zero w hw
  · intro hle
    have hpos : 0 < v.sum / n * 8 := by
      have : 0 < v.sum / n := Nat.div_pos hle (by omega)
      omega
    obtain ⟨q, h1, h2⟩ := MultiHop.throughputValue_near (v.sum / n * 8) w hpos hop hw
    refine ⟨q, h1, ?_⟩
    have e : ((v.sum / n * 8 : Nat) : ℚ) = ((v.sum / n : Nat) : ℚ) * 8 := by
      push_cast
      ring
    rw [e] at h2
    exact h2

/-- Witness of C29: ten flows sent 625007 bytes in all in a window of 10 ms; the
operand is `62500 * 8`, the seven bytes beyond a multiple of ten are lost, and
the average written is the double 50. -/
theorem group_average_truncates_witness :
    wrap64 ((MultiHop.sumLoop 10 [62507, 62500, 62500, 62500, 62500, 62500, 62500, 62500,
        62500, 62500]).1 / 10 * 8) = 500000 ∧
      MultiHop.averageValue 500000 (F64.div (F64.ofU64 1) (F64.ofU64 100)) = F64.ofU64 50 :=
  have h := group_average_truncates 10000000 MultiHop.init 10
    [62507, 62500, 62500, 62500, 62500, 62500, 62500, 62500, 62500, 62500] rfl (by decide)
    (by decide) (F64.div (F64.ofU64 1) (F64.ofU64 100))
    (F64.div_isNormal _ _ (ofU64_spec 1 (by decide) (by decide)).1
      (ofU64_spec 100 (by decide) (by decide)).1)
  ⟨h.2.1.trans (by decide), h.2.2.1.trans (by decide)⟩

/-- C29 (counterexample).  Ten flows of `2 ^ 61` bytes: the sum wraps around to `2 ^ 62` and
the operand of the average is `(2 ^ 62 / 10) * 8`, although the tenth of the
sum is `2 ^ 61`.  Ten flows of one byte in a window of 10 ms (the double
`5764607523034235 * 2 ^ -59`): ten divides the sum, and the average written is
the double `7378697629483821 * 2 ^ -63`, which is not the exact mean
`8 / (w * 10 ^ 6)`. -/
theorem group_average_counterexample :
    (MultiHop.PrintThroughput 10000000
        ⟨List.replicate 10 0, List.replicate 20 0, List.replicate 10 0,
          List.replicate 10 (2 ^ 61), List.replicate 20 0, List.replicate 10 0⟩).2.avgS1R1
        = 2 ^ 62 / 10 * 8 ∧
      (List.replicate 10 (2 ^ 61)).sum / 10 = 2 ^ 61 ∧
      F64.div (F64.ofU64 1) (F64.ofU64 100) = F64.fin 5764607523034235 (-59) ∧
      (MultiHop.PrintThroughput 10000000
        ⟨List.replicate 10 0, List.replicate 20 0, List.replicate 10 0,
          List.replicate 10 1, List.replicate 20 0, List.replicate 10 0⟩).2.avgS1R1 = 8 ∧
      MultiHop.averageValue 8 (F64.fin 5764607523034235 (-59))
        = F64.fin 7378697629483821 (-63) ∧
      7378697629483821 * 5764607523034235 * 10 ^ 6 ≠ 8 * 2 ^ 63 * 2 ^ 59 := by
  decide

/-! ## The period of the sampler -/

namespace Convergence

theorem scheduled_append (a b : List Out) : scheduled (a ++ b) = scheduled a ++ scheduled b := by
  simp [scheduled, List.filterMap_append]

theorem scheduled_loopStep (now : Nat) (a : Acc) (i : Nat) :
    scheduled (loopStep now a i).out = scheduled a.out := by
  unfold loopStep
  dsimp only
  split
  · simp [scheduled, List.filterMap_append]
  · rfl

theorem scheduled_foldl_loopStep (now : Nat) : ∀ (l : List Nat) (a : Acc),
    scheduled (l.foldl (loopStep now) a).out = scheduled a.out := by
  intro l
  induction l with
  | nil => intro a; rfl
  | cons i l ih =>
    intro a
    rw [List.foldl_cons, ih, scheduled_loopStep]

theorem scheduled_check (t : Thr) (thr : F64) (now : Nat) (v : F64) (flag : Bool) :
    scheduled (check t thr now v flag).2 = [] := by
  unfold check
  split <;> rfl

theorem scheduled_fairnessBlock (now : Nat) (v : F64) (f : Flags) :
    scheduled (fairnessBlock now v f).2 = [] := by
  simp only [fairnessBlock, scheduled_append, scheduled_check]
  rfl

/-- On every path through its body `PrintThroughput` calls `Simulator::Schedule`
for itself exactly once, with the delay `measurementInterval`. -/
theorem scheduled_PrintThroughput (N now : Nat) (s : State) :
    scheduled (PrintThroughput N now s).2 = [measurementInterval] := by
  have h : scheduled (loop N now s.rxS1R1Bytes).out = [] :=
    scheduled_foldl_loopStep now (List.range N) ⟨0, 0, 0, s.rxS1R1Bytes, [], []⟩
  unfold PrintThroughput
  dsimp only
  split <;> simp only [scheduled_append, h, scheduled_fairnessBlock, List.nil_append] <;> rfl

theorem sampler_cons (N t : Nat) (f : Flags) (c : List Nat) (cs : List (List Nat)) :
    sampler N [t] f (c :: cs)
      = (t, [t + measurementInterval])
          :: sampler N [t + measurementInterval] (PrintThroughput N t ⟨c, f⟩).1.flags cs := by
  rw [sampler]
  simp only [scheduled_PrintThroughput, List.map_cons, List.map_nil, List.nil_append]

/-- The sampler from one pending event at time `t`: tick `k` (from 0) runs at
`t + k * measurementInterval` and leaves one event pending, one interval
later. -/
theorem sampler_eq (N : Nat) : ∀ (cs : List (List Nat)) (t : Nat) (f : Flags),
    sampler N [t] f cs
      = (List.range cs.length).map
          (fun k => (t + k * measurementInterval, [t + (k + 1) * measurementInterval])) := by
  intro cs
  induction cs with
  | nil => intro t f; rfl
  | cons c cs ih =>
    intro t f
    rw [sampler_cons, ih, List.length_cons, List.range_succ_eq_map, List.map_cons, List.map_map]
    congr 1
    simp only [List.map_inj_left, Function.comp, Prod.mk.injEq, List.cons.injEq, and_true]
    intro a _
    constructor <;> (simp only [Nat.succ_eq_add_one]; ring)

end Convergence

namespace MultiHop

theorem mh_sampler_cons (t w : Nat) (s : State) (ss : List State) :
    sampler [(t, w)] (s :: ss) = (t, [(t + w, w)]) :: sampler [(t + w, w)] ss := by
  rw [sampler]
  rfl

/-- The multi-hop sampler from one pending event `PrintThroughput (w)` at time `t`:
tick `k` (from 0) runs at `t + k * w` and leaves one event pending, `w` later
and with the same argument. -/
theorem mh_sampler_eq (w : Nat) : ∀ (ss : List State) (t : Nat),
    sampler [(t, w)] ss
      = (List.range ss.length).map (fun k => (t + k * w, [(t + (k + 1) * w, w)])) := by
  intro ss
  induction ss with
  | nil => intro t; rfl
  | cons s ss ih =>
    intro t
    rw [mh_sampler_cons, ih, List.length_cons, List.range_succ_eq_map, List.map_cons,
      List.map_map]
    congr 1
    · simp
    · simp only [List.map_inj_left, Function.comp, Prod.mk.injEq, List.cons.injEq, and_true]
      intro a _
      constructor <;> (simp only [Nat.succ_eq_add_one]; ring)

end MultiHop

theorem getElem?_range_map {β : Type} (g : Nat → β) (n k : Nat) (hk : k < n) :
    ((List.range n).map g)[k]? = some (g k) := by
  rw [List.getElem?_map, List.getElem?_range hk]
  rfl

theorem scheduledBy_convergence (config_path outputFilePath queueDiscTypeId : String) (N : Nat)
    (hq : unsupportedQueueDisc queueDiscTypeId = false) :
    scheduledBy "PrintThroughput"
        (Convergence.main config_path outputFilePath queueDiscTypeId N 0).effects
      = [Convergence.measurementInterval] := by
  simp [Convergence.main, hq, scheduledBy, banner, List.filterMap_append, List.filterMap_map,
    Function.comp_def]

theorem mem_bindLoop_not_schedule (n : Nat) (a b : MultiHop.Chan) :
    scheduledBy "PrintThroughput" (MultiHop.bindLoop n a b) = [] := by
  induction n with
  | zero => rfl
  | succ n ih =>
    have hs : MultiHop.bindLoop (n + 1) a b
        = MultiHop.bindLoop n a b ++ [Effect.bind a.handler n, Effect.bind b.handler n] := by
      simp only [MultiHop.bindLoop, List.range_succ, List.foldl_append, List.foldl_cons,
        List.foldl_nil]
    rw [hs]
    unfold scheduledBy at ih ⊢
    rw [List.filterMap_append, ih]
    rfl

theorem scheduledBy_multihop (config_path outputFilePath queueDiscTypeId : String)
    (w1 w2 w3 : Nat) (hq : unsupportedQueueDisc queueDiscTypeId = false) :
    scheduledBy "PrintThroughput"
        (MultiHop.main config_path outputFilePath queueDiscTypeId w1 w2 w3 0).effects
      = [10000000] := by
  have h1 := mem_bindLoop_not_schedule 10 MultiHop.Chan.txS1R1 MultiHop.Chan.rxS1R1
  have h2 := mem_bindLoop_not_schedule 20 MultiHop.Chan.txS2R2 MultiHop.Chan.rxS2R2
  have h3 := mem_bindLoop_not_schedule 10 MultiHop.Chan.txS3R1 MultiHop.Chan.rxS3R1
  unfold scheduledBy at h1 h2 h3 ⊢
  simp [MultiHop.main, hq, banner, List.filterMap_append, h1, h2, h3]

/-- C26.  The sampler is self-perpetuating with a fixed period.  Every invocation of
convergence `PrintThroughput`, whatever the counters and flags, calls
`Simulator::Schedule` for itself exactly once, with the delay
`measurementInterval`; every invocation of multi-hop `PrintThroughput (w)` does
so with the delay and the argument `w`.  `main` schedules the first invocation
once, one interval after time 0 (in multi-hop with the interval of 10 ms as
delay and as argument), so the `k`-th tick runs at `k * measurementInterval`
and exactly one sampler event is pending after it, for the time
`(k + 1) * measurementInterval`. -/
theorem sampler_fixed_period (N now : Nat) (s : Convergence.State) (f : Convergence.Flags)
    (cs : List (List Nat)) (w : Nat) (ms : MultiHop.State) (ss : List MultiHop.State)
    (k : Nat) (config_path outputFilePath queueDiscTypeId : String) (w1 w2 w3 : Nat) :
    (Convergence.scheduled (Convergence.PrintThroughput N now s).2
        = [Convergence.measurementInterval] ∧
      (MultiHop.PrintThroughput w ms).2.sched = w) ∧
    (unsupportedQueueDisc queueDiscTypeId = false →
      scheduledBy "PrintThroughput"
          (Convergence.main config_path outputFilePath queueDiscTypeId N 0).effects
        = [Convergence.measurementInterval] ∧
      scheduledBy "PrintThroughput"
          (MultiHop.main config_path outputFilePath queueDiscTypeId w1 w2 w3 0).effects
        = [10000000]) ∧
    ((Convergence.sampler N [Convergence.measurementInterval] f cs).length = cs.length ∧
      (k < cs.length →
        (Convergence.sampler N [Convergence.measurementInterval] f cs)[k]?
          = some ((k + 1) * Convergence.measurementInterval,
              [(k + 2) * Convergence.measurementInterval]))) ∧
    ((MultiHop.sampler [(10000000, 10000000)] ss).length = ss.length ∧
      (k < ss.length →
        (MultiHop.sampler [(10000000, 10000000)] ss)[k]?
          = some ((k + 1) * 10000000, [((k + 2) * 10000000, 10000000)]))) := by
  refine ⟨⟨Convergence.scheduled_PrintThroughput N now s, rfl⟩, ?_, ⟨?_, ?_⟩, ?_, ?_⟩
  · intro hq
    exact ⟨scheduledBy_convergence _ _ _ _ hq, scheduledBy_multihop _ _ _ _ _ _ hq⟩
  · rw [Convergence.sampler_eq]
    simp
  · intro hk
    rw [Convergence.sampler_eq, getElem?_range_map _ _ _ hk]
    congr 2
    · ring
    · congr 1
      ring
  · rw [MultiHop.mh_sampler_eq]
    simp
  · intro hk
    rw [MultiHop.mh_sampler_eq, getElem?_range_map _ _ _ hk]
    congr 2
    · ring
    · congr 2
      ring

/-- Witness of C26: three ticks of convergence with five flows, the last one with a
fairness sample: they run at 1, 2 and 3 ms, and after the third the next tick
is pending for 4 ms. -/
theorem sampler_fixed_period_witness :
    (Convergence.sampler 5 [1000000] ⟨false, false, false⟩
        [[0, 0, 0, 0, 0], [1448, 0, 1448, 0, 0], [7, 7, 7, 7, 9]])[2]?
        = some (3000000, [4000000]) ∧
      scheduledBy "PrintThroughput" (Convergence.main "" "out/" "RedQueueDisc" 5 0).effects
        = [1000000] :=
  have h := sampler_fixed_period 5 1000000 (Convergence.init 5) ⟨false, false, false⟩
    [[0, 0, 0, 0, 0], [1448, 0, 1448, 0, 0], [7, 7, 7, 7, 9]] 10000000 MultiHop.init
    [MultiHop.init] 2 "" "out/" "RedQueueDisc" 1000000000 3000000000 1000000000
  ⟨h.2.2.1.2 (by decide), (h.2.1 (by decide)).1⟩

/-! ## Completion after start -/

namespace FatTree

/-- What holds of a state of a run when every event still to come is at time `T`
or later. -/
theorem fire_invariant (t : Tables) (s : Sim) (ev : Int × Event)
    (hstart : s.tables.flow_start_time = t.flow_start_time)
    (hlen : s.tables.flow_end_time.length = t.flow_end_time.length)
    (hconn : ∀ i ∈ s.connected, t.flow_start_time.getD i 0 + 1 ≤ ev.1)
    (hev : ∀ i, ev.2 = Event.connect i → ev.1 = t.flow_start_time.getD i 0 + 1)
    (hrange : ∀ i, ev.2 = Event.rx i → i < t.flow_end_time.length)
    (hw : ∀ i ∈ s.written, t.flow_start_time.getD i 0 + 1 ≤ s.tables.flow_end_time.getD i 0) :
    (fire s ev).tables.flow_start_time = t.flow_start_time ∧
      (fire s ev).tables.flow_end_time.length = t.flow_end_time.length ∧
      (∀ i ∈ (fire s ev).connected, t.flow_start_time.getD i 0 + 1 ≤ ev.1) ∧
      (∀ i ∈ (fire s ev).written,
        t.flow_start_time.getD i 0 + 1 ≤ (fire s ev).tables.flow_end_time.getD i 0) := by
  obtain ⟨τ, e⟩ := ev
  cases e with
  | connect i =>
    refine ⟨hstart, hlen, ?_, hw⟩
    intro j hj
    simp only [fire, trace_socket, List.mem_cons] at hj
    rcases hj with h | h
    · rw [h]
      exact le_of_eq (hev i rfl).symm
    · exact hconn j h
  | rx i =>
    by_cases hc : i ∈ s.connected
    · have hfire : fire s (τ, Event.rx i)
          = { s with tables := record_FCT i τ s.tables, written := i :: s.written } := by
        simp only [fire, hc, if_true]
      rw [hfire]
      refine ⟨hstart, ?_, hconn, ?_⟩
      · simp [record_FCT, hlen]
      · intro j hj
        simp only [List.mem_cons] at hj
        have hi : i < s.tables.flow_end_time.length := by rw [hlen]; exact hrange i rfl
        by_cases hji : j = i
        · subst hji
          simp only [record_FCT]
          rw [getD_set_self_int _ _ _ hi]
          exact hconn j hc
        · rcases hj with h | h
          · exact absurd h hji
          · simp only [record_FCT]
            rw [getD_set_other_int _ _ _ _ hji]
            exact hw j h
    · have hfire : fire s (τ, Event.rx i) = s := by
        simp only [fire, hc, if_false]
      rw [hfire]
      exact ⟨hstart, hlen, hconn, hw⟩

theorem run_invariant (t : Tables) : ∀ (evs : List (Int × Event)) (s : Sim),
    evs.Pairwise (fun a b => a.1 ≤ b.1) →
    s.tables.flow_start_time = t.flow_start_time →
    s.tables.flow_end_time.length = t.flow_end_time.length →
    (∀ e ∈ evs, ∀ i ∈ s.connected, t.flow_start_time.getD i 0 + 1 ≤ e.1) →
    (∀ e ∈ evs, ∀ i, e.2 = Event.connect i → e.1 = t.flow_start_time.getD i 0 + 1) →
    (∀ e ∈ evs, ∀ i, e.2 = Event.rx i → i < t.flow_end_time.length) →
    (∀ i ∈ s.written, t.flow_start_time.getD i 0 + 1 ≤ s.tables.flow_end_time.getD i 0) →
    (evs.foldl fire s).tables.flow_start_time = t.flow_start_time ∧
      ∀ i ∈ (evs.foldl fire s).written,
        t.flow_start_time.getD i 0 + 1 ≤ (evs.foldl fire s).tables.flow_end_time.getD i 0 := by
  intro evs
  induction evs with
  | nil =>
    intro s _ hstart _ _ _ _ hw
    exact ⟨hstart, hw⟩
  | cons ev evs ih =>
    intro s hsorted hstart hlen hconn hev hrange hw
    rw [List.foldl_cons]
    obtain ⟨hhead, htail⟩ := List.pairwise_cons.1 hsorted
    obtain ⟨f1, f2, f3, f4⟩ := fire_invariant t s ev hstart hlen
      (hconn ev (List.mem_cons_self _ _)) (hev ev (List.mem_cons_self _ _))
      (hrange ev (List.mem_cons_self _ _)) hw
    apply ih (fire s ev) htail f1 f2
    · intro e he i hi
      exact le_trans (f3 i hi) (hhead e he)
    · intro e he
      exact hev e (List.mem_cons_of_mem _ he)
    · intro e he
      exact hrange e (List.mem_cons_of_mem _ he)
    · exact f4

theorem GetMicroSeconds_nonneg (d : Int) (h : 0 ≤ d) : 0 ≤ GetMicroSeconds d := by
  by_contra hc
  have := (GetMicroSeconds_neg_iff d).1 (not_le.1 hc)
  omega

theorem mem_main_schedule (c o q tf ff : String) (flow_num : Nat) (starts : List Nat)
    (hq : unsupportedQueueDisc q = false) (i : Nat) (hi : i < flow_num) :
    Effect.schedule (starts.getD i 0 + 1) "trace_socket"
      ∈ (main c o q tf ff flow_num starts 0).effects := by
  simp only [main, hq, Bool.false_eq_true, if_false, ne_eq, not_true_eq_false]
  exact List.mem_append_left _
    (List.mem_append_right _ (List.mem_map.2 ⟨i, List.mem_range.2 hi, rfl⟩))

end FatTree

/-- C25.  Completion never precedes start for a signalled flow.  `main` schedules
`trace_socket` for flow `i` with the delay `flow_start_time[i] + 1` from time 0,
and `record_FCT` runs for a flow only when the `Rx` trace source of its socket
fires after `trace_socket` has connected it.  So in every run whose events are
executed in the order of their times, with `trace_socket` at its scheduled
time, every flow whose end time has been written by `record_FCT` has
`flow_end_time[i] ≥ flow_start_time[i] + 1`, the start times being unchanged:
its completion time is not negative and `cal_FCT` writes no anomaly line for
it. -/
theorem completion_after_start (evs : List (Int × FatTree.Event)) (t : FatTree.Tables)
    (hsorted : evs.Pairwise (fun a b => a.1 ≤ b.1))
    (hconn : ∀ e ∈ evs, ∀ i, e.2 = FatTree.Event.connect i
      → e.1 = t.flow_start_time.getD i 0 + 1)
    (hrange : ∀ e ∈ evs, ∀ i, e.2 = FatTree.Event.rx i → i < t.flow_end_time.length) :
    (FatTree.runEvents evs t).tables.flow_start_time = t.flow_start_time ∧
      (∀ i ∈ (FatTree.runEvents evs t).written,
        (FatTree.runEvents evs t).tables.flow_start_time.getD i 0 + 1
            ≤ (FatTree.runEvents evs t).tables.flow_end_time.getD i 0 ∧
          0 ≤ FatTree.GetMicroSeconds
            ((FatTree.runEvents evs t).tables.flow_end_time.getD i 0
              - (FatTree.runEvents evs t).tables.flow_start_time.getD i 0) ∧
          ∀ flow_num, (FatTree.cal_FCT flow_num (FatTree.runEvents evs t).tables).countP
            (FatTree.Line.isAnomalyOf i) = 0) ∧
      (∀ (config_path outputFilePath queueDiscTypeId topology_file flow_file : String)
          (flow_num : Nat) (starts : List Nat) (i : Nat),
        unsupportedQueueDisc queueDiscTypeId = false → i < flow_num →
        Effect.schedule (starts.getD i 0 + 1) "trace_socket"
          ∈ (FatTree.main config_path outputFilePath queueDiscTypeId topology_file flow_file
              flow_num starts 0).effects) := by
  obtain ⟨h1, h2⟩ := FatTree.run_invariant t evs ⟨t, [], []⟩ hsorted rfl rfl
    (fun _ _ i hi => absurd hi (List.not_mem_nil i)) hconn hrange
    (fun i hi => absurd hi (List.not_mem_nil i))
  refine ⟨h1, ?_, ?_⟩
  · intro i hi
    have h3 := h2 i hi
    have h4 : (FatTree.runEvents evs t).tables.flow_start_time.getD i 0 + 1
        ≤ (FatTree.runEvents evs t).tables.flow_end_time.getD i 0 := by
      unfold FatTree.runEvents
      rw [h1]
      exact h3
    refine ⟨h4, FatTree.GetMicroSeconds_nonneg _ (by omega), ?_⟩
    intro flow_num
    rw [FatTree.cal_FCT_anomaly]
    rw [if_neg]
    intro hc
    omega
  · intro c o q tf ff n st i hq hi
    exact FatTree.mem_main_schedule c o q tf ff n st hq i hi

/-- Witness of C25: flow 0 starts at 2 s and is connected at 2 s + 1 ns; a firing of its
trace source before that is not recorded, the firings at 2.0004 s and 2.000523 s
are, and the end time is 2.000523 s. -/
theorem completion_after_start_witness :
    (FatTree.runEvents
        [(2000000000, FatTree.Event.rx 0), (2000000001, FatTree.Event.connect 0),
          (2000400000, FatTree.Event.rx 0), (2000523000, FatTree.Event.rx 0)]
        ⟨[20000], [2000000000], [0]⟩).tables.flow_end_time = [2000523000] ∧
      (2000000000 : Int) + 1 ≤ 2000523000 :=
  have h := completion_after_start
    [(2000000000, FatTree.Event.rx 0), (2000000001, FatTree.Event.connect 0),
      (2000400000, FatTree.Event.rx 0), (2000523000, FatTree.Event.rx 0)]
    ⟨[20000], [2000000000], [0]⟩ (by decide)
    (by
      intro e he i hi
      simp only [List.mem_cons, List.mem_singleton, List.not_mem_nil, or_false] at he
      rcases he with rfl | rfl | rfl | rfl <;> simp_all)
    (by
      intro e he i hi
      simp only [List.mem_cons, List.mem_singleton, List.not_mem_nil, or_false] at he
      rcases he with rfl | rfl | rfl | rfl <;> simp_all)
  ⟨by decide, (h.2.1 0 (by decide)).1⟩

/-! ## The size of the per-flow tables -/

/-- C28 (what the code does).  Multi-hop `main` calls `reserve (10)`, `reserve (20)`,
`reserve (10)` on its six empty vectors and fat-tree `main` calls
`reserve (flow_num)` on its three: this provides storage and no element, the
size stays 0, and every index at which `InitializeCounters`, `PrintThroughput`
and the callbacks (multi-hop) or the reader of the flow file, `record_FCT` and
`cal_FCT` (fat-tree) access a vector is outside its elements, though inside the
reserved storage.  Convergence `main` calls `resize (N, 0)`, which gives `N`
elements, and there every index below `N` is in range. -/
theorem reserved_tables_have_no_elements (c : MultiHop.Chan) (flow_num N i : Nat) :
    ((MultiHop.setup c).size = 0 ∧ (MultiHop.setup c).capacity = c.size ∧
      (i ∈ MultiHop.accesses c →
        (MultiHop.setup c).inRange i = false ∧ i < (MultiHop.setup c).capacity)) ∧
    ((FatTree.setup flow_num).size = 0 ∧ (FatTree.setup flow_num).capacity = flow_num ∧
      (i ∈ FatTree.accesses flow_num →
        (FatTree.setup flow_num).inRange i = false ∧ i < (FatTree.setup flow_num).capacity)) ∧
    ((Convergence.setup N).size = N ∧ (Convergence.setup N).elems = List.replicate N 0 ∧
      (i < N → (Convergence.setup N).inRange i = true)) := by
  refine ⟨⟨rfl, ?_, ?_⟩, ⟨rfl, ?_, ?_⟩, ?_, ?_, ?_⟩
  · simp [MultiHop.setup, Vec.reserve, Vec.empty]
  · intro hi
    have hi2 : i < c.size := List.mem_range.1 hi
    refine ⟨?_, ?_⟩
    · simp [MultiHop.setup, Vec.reserve, Vec.empty, Vec.inRange, Vec.size]
    · simpa [MultiHop.setup, Vec.reserve, Vec.empty] using hi2
  · simp [FatTree.setup, Vec.reserve, Vec.empty]
  · intro hi
    have hi2 : i < flow_num := List.mem_range.1 hi
    refine ⟨?_, ?_⟩
    · simp [FatTree.setup, Vec.reserve, Vec.empty, Vec.inRange, Vec.size]
    · simpa [FatTree.setup, Vec.reserve, Vec.empty] using hi2
  · simp [Convergence.setup, Vec.resize, Vec.empty, Vec.size]
  · simp [Convergence.setup, Vec.resize, Vec.empty]
  · intro hi
    simp [Convergence.setup, Vec.resize, Vec.empty, Vec.inRange, Vec.size, hi]

/-- Witness of C28: index 0 of `rxS1R1Bytes` in multi-hop, the first access of
`InitializeCounters`; index 0 of the tables of fat-tree with two flows; index 0
of the five counters of convergence, which is in range. -/
theorem reserved_tables_have_no_elements_witness :
    (MultiHop.setup MultiHop.Chan.rxS1R1).inRange 0 = false ∧
      (FatTree.setup 2).inRange 0 = false ∧ (Convergence.setup 5).inRange 0 = true :=
  have h := reserved_tables_have_no_elements MultiHop.Chan.rxS1R1 2 5 0
  ⟨(h.1.2.2 (by decide)).1, (h.2.1.2.2 (by decide)).1, h.2.2.2.2 (by decide)⟩

/-! ## Addition of doubles -/

namespace F64

theorem ofScaled_zero (e : Int) : ofScaled 0 e = zero := by
  simp [ofScaled]

/-- A non-zero `n * 2 ^ e` is rounded to a double with a 53 bit significand, with a
relative error of at most `2 ^ -53`. -/
theorem ofScaled_spec (n : Nat) (e : Int) (h0 : 0 < n) :
    (ofScaled n e).IsNormal ∧
      (ofScaled n e).val * 2 ^ 53 ≤ (n : ℚ) * 2 ^ e * (2 ^ 53 + 1) ∧
      (n : ℚ) * 2 ^ e * (2 ^ 53 - 1) ≤ (ofScaled n e).val * 2 ^ 53 := by
  obtain ⟨hl1, hl2⟩ := log2Fuel_spec n n h0 (Nat.lt_two_pow n)
  have h2 : (2 : ℚ) ≠ 0 := by norm_num
  have hE : (0 : ℚ) < (2 : ℚ) ^ e := zpow_pos (by norm_num) _
  have hnq : (0 : ℚ) < (n : ℚ) := by exact_mod_cast h0
  unfold ofScaled
  simp only [Nat.ne_of_gt h0, if_false]
  by_cases hl : log2Fuel n n ≤ 52
  · simp only [hl, if_true]
    generalize log2Fuel n n = l at *
    have hpow : 2 ^ l * 2 ^ (52 - l) = 2 ^ 52 := by
      rw [← Nat.pow_add]; congr 1; omega
    have hval : (F64.fin (n * 2 ^ (52 - l)) (e + (l : Int) - 52)).val = (n : ℚ) * 2 ^ e := by
      simp only [val]
      have e1 : e + (l : Int) - 52 = e + -((52 - l : Nat) : Int) := by omega
      rw [e1, zpow_add₀ h2, zpow_neg, zpow_natCast]
      push_cast
      field_simp
      ring
    refine ⟨⟨?_, ?_⟩, ?_, ?_⟩
    · calc 2 ^ 52 = 2 ^ l * 2 ^ (52 - l) := hpow.symm
        _ ≤ n * 2 ^ (52 - l) := Nat.mul_le_mul_right _ hl1
    · have : 2 ^ 53 = 2 ^ (l + 1) * 2 ^ (52 - l) := by
        rw [← Nat.pow_add]; congr 1; omega
      show n * 2 ^ (52 - l) < 2 ^ 53
      rw [this]
      exact Nat.mul_lt_mul_of_pos_right hl2 (Nat.pow_pos (by norm_num))
    · rw [hval]
      have : 0 < (n : ℚ) * 2 ^ e := mul_pos hnq hE
      nlinarith
    · rw [hval]
      have : 0 < (n : ℚ) * 2 ^ e := mul_pos hnq hE
      nlinarith
  · simp only [hl, if_false]
    have hl' : 52 < log2Fuel n n := by omega
    generalize log2Fuel n n = l at *
    obtain ⟨b1, b2⟩ := rne_bounds n l hl' hl1 hl2
    refine ⟨norm_isNormal _ _ b1 b2, ?_⟩
    rw [norm_val]
    have e1 : e + (l : Int) - 52 = e + ((l - 52 : Nat) : Int) := by omega
    rw [e1, zpow_add₀ h2, zpow_natCast]
    obtain ⟨r1, r2⟩ := rne_error n (2 ^ (l - 52)) (Nat.pow_pos (by norm_num))
    have hy : 2 ^ 52 * 2 ^ (l - 52) ≤ n := by rw [← pow_split l hl']; exact hl1
    have r1q : (2 : ℚ) * ((rne n (2 ^ (l - 52)) : ℚ) * 2 ^ (l - 52)) ≤ 2 * n + 2 ^ (l - 52) := by
      exact_mod_cast r1
    have r2q : (2 : ℚ) * (n : ℚ) ≤ 2 * ((rne n (2 ^ (l - 52)) : ℚ) * 2 ^ (l - 52))
        + 2 ^ (l - 52) := by
      exact_mod_cast r2
    have hyq : (2 : ℚ) ^ 52 * 2 ^ (l - 52) ≤ (n : ℚ) := by exact_mod_cast hy
    generalize (rne n (2 ^ (l - 52)) : ℚ) = r at *
    generalize ((2 : ℚ) ^ (l - 52)) = y at *
    generalize (2 : ℚ) ^ e = E at *
    generalize (n : ℚ) = x at *
    have s1 := mul_le_mul_of_nonneg_left r1q hE.le
    have s2 := mul_le_mul_of_nonneg_left r2q hE.le
    have s3 := mul_le_mul_of_nonneg_left hyq hE.le
    constructor
    · nlinarith
    · nlinarith

theorem add_fin (ma mb : Nat) (ea eb : Int) :
    add (.fin ma ea) (.fin mb eb)
      = ofScaled (ma * 2 ^ (ea - min ea eb).toNat + mb * 2 ^ (eb - min ea eb).toNat)
          (min ea eb) := rfl

theorem add_fin_val (ma mb : Nat) (ea eb : Int) :
    ((ma * 2 ^ (ea - min ea eb).toNat + mb * 2 ^ (eb - min ea eb).toNat : Nat) : ℚ)
        * 2 ^ (min ea eb)
      = (F64.fin ma ea).val + (F64.fin mb eb).val := by
  have h2 : (2 : ℚ) ≠ 0 := by norm_num
  simp only [val]
  have ha : ea = min ea eb + ((ea - min ea eb).toNat : Int) := by
    have : 0 ≤ ea - min ea eb := by omega
    omega
  have hb : eb = min ea eb + ((eb - min ea eb).toNat : Int) := by
    have : 0 ≤ eb - min ea eb := by omega
    omega
  generalize min ea eb = e at *
  generalize (ea - e).toNat = da at *
  generalize (eb - e).toNat = db at *
  rw [ha, hb, zpow_add₀ h2, zpow_add₀ h2, zpow_natCast, zpow_natCast]
  push_cast
  ring

end F64

/-! ## Accumulated rounding errors of sums -/

theorem approx_zero (k : Nat) : Approx k 0 0 := by
  refine ⟨le_refl _, le_refl _, ?_, ?_⟩ <;> simp

theorem approx_of_near {k : Nat} {v q : ℚ} (h : Near k v q) : Approx k v q :=
  ⟨h.1.le, h.2.1.le, h.2.2.1, h.2.2.2⟩

theorem near_of_approx {k : Nat} {v q : ℚ} (h : Approx k v q) (hq : 0 < q) : Near k v q := by
  obtain ⟨hv, _, u1, u2⟩ := h
  have hW : (0 : ℚ) < (1 + 1 / 2 ^ 52) ^ k := by positivity
  refine ⟨?_, hq, u1, u2⟩
  by_contra hc
  have hv0 : v = 0 := le_antisymm (not_lt.1 hc) hv
  rw [hv0, zero_mul] at u2
  linarith

theorem approx_mono {j k : Nat} {v q : ℚ} (h : Approx j v q) (hjk : j ≤ k) : Approx k v q := by
  obtain ⟨hv, hq, u1, u2⟩ := h
  have hW : (1 : ℚ) ≤ 1 + 1 / 2 ^ 52 := by norm_num
  have hp : ((1 : ℚ) + 1 / 2 ^ 52) ^ j ≤ (1 + 1 / 2 ^ 52) ^ k := pow_le_pow_right₀ hW hjk
  exact ⟨hv, hq, le_trans u1 (mul_le_mul_of_nonneg_left hp hq),
    le_trans u2 (mul_le_mul_of_nonneg_left hp hv)⟩

theorem approx_trans {j k : Nat} {a b c : ℚ} (h1 : Approx j a b) (h2 : Approx k b c) :
    Approx (j + k) a c := by
  obtain ⟨ha, hb, u1, u2⟩ := h1
  obtain ⟨_, hc, w1, w2⟩ := h2
  have hj : (0 : ℚ) < (1 + 1 / 2 ^ 52) ^ j := by positivity
  have hk : (0 : ℚ) < (1 + 1 / 2 ^ 52) ^ k := by positivity
  refine ⟨ha, hc, ?_, ?_⟩
  · rw [pow_add]
    calc a ≤ b * (1 + 1 / 2 ^ 52) ^ j := u1
      _ ≤ c * (1 + 1 / 2 ^ 52) ^ k * (1 + 1 / 2 ^ 52) ^ j :=
        mul_le_mul_of_nonneg_right w1 hj.le
      _ = c * ((1 + 1 / 2 ^ 52) ^ j * (1 + 1 / 2 ^ 52) ^ k) := by ring
  · rw [pow_add]
    calc c ≤ b * (1 + 1 / 2 ^ 52) ^ k := w2
      _ ≤ a * (1 + 1 / 2 ^ 52) ^ j * (1 + 1 / 2 ^ 52) ^ k :=
        mul_le_mul_of_nonneg_right u2 hk.le
      _ = a * ((1 + 1 / 2 ^ 52) ^ j * (1 + 1 / 2 ^ 52) ^ k) := by ring

theorem approx_add {k : Nat} {a p b r : ℚ} (h1 : Approx k a p) (h2 : Approx k b r) :
    Approx k (a + b) (p + r) := by
  obtain ⟨ha, hp, u1, u2⟩ := h1
  obtain ⟨hb, hr, w1, w2⟩ := h2
  refine ⟨add_nonneg ha hb, add_nonneg hp hr, ?_, ?_⟩
  · rw [add_mul]; exact add_le_add u1 w1
  · rw [add_mul]; exact add_le_add u2 w2

theorem approx_mul {j k : Nat} {a p b r : ℚ} (h1 : Approx j a p) (h2 : Approx k b r) :
    Approx (j + k) (a * b) (p * r) := by
  obtain ⟨ha, hp, u1, u2⟩ := h1
  obtain ⟨hb, hr, w1, w2⟩ := h2
  have hj : (0 : ℚ) < (1 + 1 / 2 ^ 52) ^ j := by positivity
  have hk : (0 : ℚ) < (1 + 1 / 2 ^ 52) ^ k := by positivity
  refine ⟨mul_nonneg ha hb, mul_nonneg hp hr, ?_, ?_⟩
  · rw [pow_add]
    calc a * b ≤ (p * (1 + 1 / 2 ^ 52) ^ j) * (r * (1 + 1 / 2 ^ 52) ^ k) :=
        mul_le_mul u1 w1 hb (mul_nonneg hp hj.le)
      _ = p * r * ((1 + 1 / 2 ^ 52) ^ j * (1 + 1 / 2 ^ 52) ^ k) := by ring
  · rw [pow_add]
    calc p * r ≤ (a * (1 + 1 / 2 ^ 52) ^ j) * (b * (1 + 1 / 2 ^ 52) ^ k) :=
        mul_le_mul u2 w2 hr (mul_nonneg ha hj.le)
      _ = a * b * ((1 + 1 / 2 ^ 52) ^ j * (1 + 1 / 2 ^ 52) ^ k) := by ring

theorem approx_div {j k : Nat} {a p b r : ℚ} (h1 : Approx j a p) (h2 : Near k b r) :
    Approx (j + k) (a / b) (p / r) := by
  rw [div_eq_mul_inv, div_eq_mul_inv]
  exact approx_mul h1 (approx_of_near (Near.inv h2))

theorem approx_of_round (v q : ℚ) (hq : 0 ≤ q) (h1 : v * 2 ^ 53 ≤ q * (2 ^ 53 + 1))
    (h2 : q * (2 ^ 53 - 1) ≤ v * 2 ^ 53) : Approx 1 v q := by
  rcases lt_or_eq_of_le hq with hpos | h0
  · exact approx_of_near (Near.of_round v q hpos h1 h2)
  · rw [← h0] at h1 h2 ⊢
    have hv : v = 0 := by
      have a1 : v * 2 ^ 53 ≤ 0 := by simpa using h1
      have a2 : 0 ≤ v * 2 ^ 53 := by simpa using h2
      have : v * 2 ^ 53 = 0 := le_antisymm a1 a2
      simpa using this
    rw [hv]
    exact approx_zero 1

namespace F64

theorem zero_val : zero.val = 0 := by
  simp [zero, val]

theorem izn_cases (a : F64) (h : a.IsZeroOrNormal) : ∃ m e, a = .fin m e ∧ (m = 0 ∨ Normal m) := by
  rcases h with h | h
  · exact ⟨0, 0, h, Or.inl rfl⟩
  · cases a with
    | inf => exact h.elim
    | nan => exact h.elim
    | fin m e => exact ⟨m, e, rfl, Or.inr h⟩

theorem izn_val_nonneg (a : F64) (h : a.IsZeroOrNormal) : 0 ≤ a.val := by
  rcases h with h | h
  · rw [h, zero_val]
  · exact (val_pos a h).le

/-- The sum of two doubles is the exact sum rounded once. -/
theorem add_izn (a b : F64) (ha : a.IsZeroOrNormal) (hb : b.IsZeroOrNormal) :
    (add a b).IsZeroOrNormal ∧ Approx 1 (add a b).val (a.val + b.val) := by
  have hsum : 0 ≤ a.val + b.val := add_nonneg (izn_val_nonneg a ha) (izn_val_nonneg b hb)
  obtain ⟨ma, ea, rfl, _⟩ := izn_cases a ha
  obtain ⟨mb, eb, rfl, _⟩ := izn_cases b hb
  rw [add_fin, ← add_fin_val]
  rw [← add_fin_val] at hsum
  generalize ma * 2 ^ (ea - min ea eb).toNat + mb * 2 ^ (eb - min ea eb).toNat = M at *
  rcases Nat.eq_zero_or_pos M with h0 | hpos
  · subst h0
    rw [ofScaled_zero, zero_val]
    refine ⟨Or.inl rfl, ?_⟩
    simp only [Nat.cast_zero, zero_mul]
    exact approx_zero 1
  · obtain ⟨hn, e1, e2⟩ := ofScaled_spec M (min ea eb) hpos
    exact ⟨Or.inr hn, approx_of_round _ _ hsum e1 e2⟩

theorem mul_zero_left (b : F64) (hb : b.IsZeroOrNormal) : mul zero b = zero := by
  obtain ⟨mb, eb, rfl, _⟩ := izn_cases b hb
  simp [mul, zero]

theorem mul_zero_right (a : F64) (ha : a.IsZeroOrNormal) : mul a zero = zero := by
  obtain ⟨ma, ea, rfl, _⟩ := izn_cases a ha
  simp [mul, zero]

/-- The product of two doubles is the exact product rounded once. -/
theorem mul_izn (a b : F64) (ha : a.IsZeroOrNormal) (hb : b.IsZeroOrNormal) :
    (mul a b).IsZeroOrNormal ∧ Approx 1 (mul a b).val (a.val * b.val) := by
  rcases ha with ha0 | han
  · rw [ha0, mul_zero_left b hb, zero_val, zero_mul]
    exact ⟨Or.inl rfl, approx_zero 1⟩
  · rcases hb with hb0 | hbn
    · rw [hb0, mul_zero_right a (Or.inr han), zero_val, mul_zero]
      exact ⟨Or.inl rfl, approx_zero 1⟩
    · exact ⟨Or.inr (mul_isNormal a b han hbn), approx_of_near (near_mul a b han hbn)⟩

/-- The quotient of a double by a non-zero double is the exact quotient rounded
once. -/
theorem div_izn (a b : F64) (ha : a.IsZeroOrNormal) (hb : b.IsNormal) :
    (div a b).IsZeroOrNormal ∧ Approx 1 (div a b).val (a.val / b.val) := by
  rcases ha with ha0 | han
  · rw [ha0, div_zero_left b hb, zero_val, zero_div]
    exact ⟨Or.inl rfl, approx_zero 1⟩
  · exact ⟨Or.inr (div_isNormal a b han hb), approx_of_near (near_div a b han hb)⟩

theorem ofU64_izn (n : Nat) (h64 : n < 2 ^ 64) :
    (ofU64 n).IsZeroOrNormal ∧ Approx 1 (ofU64 n).val (n : ℚ) := by
  rcases Nat.eq_zero_or_pos n with h0 | hpos
  · subst h0
    have : ofU64 0 = zero := by decide
    rw [this, zero_val]
    exact ⟨Or.inl rfl, by simpa using approx_zero 1⟩
  · exact ⟨Or.inr (ofU64_spec n hpos h64).1, approx_of_near (near_ofU64 n hpos h64)⟩

end F64

/-! ## The global fairness index of multi-hop -/

theorem Near.bound_of {k : Nat} {v q d : ℚ} (h : Near k v q) (hd : 0 ≤ d) (hd1 : d ≤ 1)
    (hW : ((1 : ℚ) + 1 / 2 ^ 52) ^ k ≤ 1 + d) : |v - q| ≤ q * d := by
  obtain ⟨hv, hq, u1, u2⟩ := h
  generalize ((1 : ℚ) + 1 / 2 ^ 52) ^ k = W at *
  have a1 : v ≤ q * (1 + d) := le_trans u1 (mul_le_mul_of_nonneg_left hW hq.le)
  have a2 : q ≤ v * (1 + d) := le_trans u2 (mul_le_mul_of_nonneg_left hW hv.le)
  rw [abs_le]
  constructor
  · have a3 : q * (1 - d) ≤ v * (1 + d) * (1 - d) :=
      mul_le_mul_of_nonneg_right a2 (by linarith)
    have a4 : v * (1 + d) * (1 - d) = v - v * (d * d) := by ring
    have a5 : 0 ≤ v * (d * d) := by positivity
    linarith
  · linarith

theorem pow_144_le : ((1 : ℚ) + 1 / 2 ^ 52) ^ 144 ≤ 1 + 1 / 2 ^ 44 := by
  norm_num

namespace MultiHop

/-- The double `idealBytes` is finite and within three roundings of
`rate * w * 10 ^ 6 / 8`. -/
theorem idealBytes_near (rate : Nat) (w : F64) (h0 : 0 < rate) (h53 : rate < 2 ^ 53)
    (hw : w.IsNormal) :
    (idealBytes rate w).IsNormal ∧
      Near 3 (idealBytes rate w).val ((rate : ℚ) * w.val * 10 ^ 6 / 8) := by
  have nR := (ofU64_spec rate h0 (lt_trans h53 (by norm_num))).1
  have vR := val_ofU64_exact rate h0 h53
  have n8 := (ofU64_spec 8 (by norm_num) (by norm_num)).1
  have v8 : (F64.ofU64 8).val = 8 := by
    exact_mod_cast val_ofU64_exact 8 (by norm_num) (by norm_num)
  have hwp := F64.val_pos w hw
  have hrq : (0 : ℚ) < (rate : ℚ) := by exact_mod_cast h0
  have n1 := F64.mul_isNormal _ _ nR hw
  have n2 := F64.mul_isNormal _ _ n1 mh_lit1e6_isNormal
  refine ⟨F64.div_isNormal _ _ n2 n8, ?_⟩
  have r1 : Near 1 (F64.mul (F64.ofU64 rate) w).val ((F64.ofU64 rate).val * w.val) :=
    F64.near_mul _ _ nR hw
  rw [vR] at r1
  have r2 : Near 1 (F64.mul (F64.mul (F64.ofU64 rate) w) lit1e6).val
      ((F64.mul (F64.ofU64 rate) w).val * lit1e6.val) := F64.near_mul _ _ n1 mh_lit1e6_isNormal
  rw [mh_lit1e6_val] at r2
  have r3 := Near.mul r1 (Near.refl (1000000 : ℚ) (by norm_num))
  have r4 := Near.trans r2 r3
  have r5 : Near 1 (idealBytes rate w).val
      ((F64.mul (F64.mul (F64.ofU64 rate) w) lit1e6).val / (F64.ofU64 8).val) :=
    F64.near_div _ _ n2 n8
  rw [v8] at r5
  have r6 := Near.div r4 (Near.refl (8 : ℚ) (by norm_num))
  have r7 := Near.trans r5 r6
  have e : (rate : ℚ) * w.val * 1000000 / 8 = (rate : ℚ) * w.val * 10 ^ 6 / 8 := by norm_num
  rw [e] at r7
  exact r7

/-- The normalised value of a flow and its square. -/
theorem normalised_value (b : Nat) (ideal : F64) (I : ℚ) (hb : b < 2 ^ 64)
    (hn : ideal.IsNormal) (hI : Near 3 ideal.val I) :
    (F64.div (F64.ofU64 b) ideal).IsZeroOrNormal ∧
      Approx 5 (F64.div (F64.ofU64 b) ideal).val ((b : ℚ) / I) ∧
      (F64.mul (F64.div (F64.ofU64 b) ideal) (F64.div (F64.ofU64 b) ideal)).IsZeroOrNormal ∧
      Approx 11 (F64.mul (F64.div (F64.ofU64 b) ideal) (F64.div (F64.ofU64 b) ideal)).val
        (((b : ℚ) / I) * ((b : ℚ) / I)) := by
  obtain ⟨z1, a1⟩ := F64.ofU64_izn b hb
  obtain ⟨z2, a2⟩ := F64.div_izn _ ideal z1 hn
  have a3 := approx_div a1 hI
  have a4 := approx_mono (approx_trans a2 a3) (by norm_num : 1 + (1 + 3) ≤ 5)
  obtain ⟨z3, a5⟩ := F64.mul_izn _ _ z2 z2
  have a6 := approx_mul a4 a4
  have a7 := approx_mono (approx_trans a5 a6) (by norm_num : 1 + (5 + 5) ≤ 11)
  exact ⟨z2, a4, z3, a7⟩

/-- The accumulation of the normalised values of the counters `l`, as a fold over
the counters. -/
theorem normFold_approx (ideal : F64) (I : ℚ) (hn : ideal.IsNormal) (hI : Near 3 ideal.val I) :
    ∀ (l : List Nat) (p : F64 × F64) (k : Nat) (P1 P2 : ℚ),
    (∀ b ∈ l, b < 2 ^ 64) →
    p.1.IsZeroOrNormal → Approx (5 + k) p.1.val P1 →
    p.2.IsZeroOrNormal → Approx (11 + k) p.2.val P2 →
    (l.foldl (fun q b => (F64.add q.1 (F64.div (F64.ofU64 b) ideal),
        F64.add q.2 (F64.mul (F64.div (F64.ofU64 b) ideal)
          (F64.div (F64.ofU64 b) ideal)))) p).1.IsZeroOrNormal ∧
      Approx (5 + (k + l.length))
        (l.foldl (fun q b => (F64.add q.1 (F64.div (F64.ofU64 b) ideal),
          F64.add q.2 (F64.mul (F64.div (F64.ofU64 b) ideal)
            (F64.div (F64.ofU64 b) ideal)))) p).1.val
        (P1 + (l.map (fun (b : Nat) => (b : ℚ) / I)).sum) ∧
      (l.foldl (fun q b => (F64.add q.1 (F64.div (F64.ofU64 b) ideal),
        F64.add q.2 (F64.mul (F64.div (F64.ofU64 b) ideal)
          (F64.div (F64.ofU64 b) ideal)))) p).2.IsZeroOrNormal ∧
      Approx (11 + (k + l.length))
        (l.foldl (fun q b => (F64.add q.1 (F64.div (F64.ofU64 b) ideal),
          F64.add q.2 (F64.mul (F64.div (F64.ofU64 b) ideal)
            (F64.div (F64.ofU64 b) ideal)))) p).2.val
        (P2 + (l.map (fun (b : Nat) => ((b : ℚ) / I) * ((b : ℚ) / I))).sum) := by
  intro l
  induction l with
  | nil =>
    intro p k P1 P2 _ z1 a1 z2 a2
    simp only [List.foldl_nil, List.map_nil, List.sum_nil, add_zero, List.length_nil]
    exact ⟨z1, a1, z2, a2⟩
  | cons b l ih =>
    intro p k P1 P2 hb z1 a1 z2 a2
    obtain ⟨x1, x2, x3, x4⟩ := normalised_value b ideal I (hb b (List.mem_cons_self _ _)) hn hI
    obtain ⟨s1, s2⟩ := F64.add_izn _ _ z1 x1
    obtain ⟨t1, t2⟩ := F64.add_izn _ _ z2 x3
    have s3 := approx_add a1 (approx_mono x2 (by omega : 5 ≤ 5 + k))
    have s4 := approx_mono (approx_trans s2 s3) (by omega : 1 + (5 + k) ≤ 5 + (k + 1))
    have t3 := approx_add a2 (approx_mono x4 (by omega : 11 ≤ 11 + k))
    have t4 := approx_mono (approx_trans t2 t3) (by omega : 1 + (11 + k) ≤ 11 + (k + 1))
    have h := ih (F64.add p.1 (F64.div (F64.ofU64 b) ideal),
        F64.add p.2 (F64.mul (F64.div (F64.ofU64 b) ideal) (F64.div (F64.ofU64 b) ideal)))
      (k + 1) _ _ (fun c hc => hb c (List.mem_cons_of_mem _ hc)) s1 s4 t1 t4
    rw [List.foldl_cons, List.map_cons, List.sum_cons, List.map_cons, List.sum_cons,
      List.length_cons]
    have e1 : k + 1 + l.length = k + (l.length + 1) := by omega
    rw [e1, add_assoc, add_assoc] at h
    exact h

theorem normLoop_eq_fold (n : Nat) (v : List Nat) (hlen : v.length = n) (ideal : F64)
    (p : F64 × F64) :
    normLoop n v ideal p
      = v.foldl (fun q b => (F64.add q.1 (F64.div (F64.ofU64 b) ideal),
          F64.add q.2 (F64.mul (F64.div (F64.ofU64 b) ideal)
            (F64.div (F64.ofU64 b) ideal)))) p := by
  subst hlen
  have h := foldl_range_getD (fun (q : F64 × F64) b =>
    (F64.add q.1 (F64.div (F64.ofU64 b) ideal),
      F64.add q.2 (F64.mul (F64.div (F64.ofU64 b) ideal) (F64.div (F64.ofU64 b) ideal))))
    v [] p
  simp only [List.length_nil, List.nil_append] at h
  rw [normLoop, List.range_eq_range', ← h]
  rfl

end MultiHop

namespace MultiHop

theorem sum_sq_pos_of_sum_pos : ∀ (l : List ℚ), (∀ x ∈ l, 0 ≤ x) → 0 < l.sum →
    0 < (l.map (fun y => y ^ 2)).sum := by
  intro l
  induction l with
  | nil => intro _ h; simp at h
  | cons a l ih =>
    intro hnn hpos
    rw [List.map_cons, List.sum_cons]
    rw [List.sum_cons] at hpos
    have ha : 0 ≤ a := hnn a (List.mem_cons_self _ _)
    have hl : ∀ x ∈ l, 0 ≤ x := fun x hx => hnn x (List.mem_cons_of_mem _ hx)
    have hsq : 0 ≤ (l.map (fun y => y ^ 2)).sum :=
      List.sum_nonneg (fun x hx => by
        obtain ⟨y, _, rfl⟩ := List.mem_map.1 hx
        positivity)
    rcases lt_or_eq_of_le ha with h | h
    · have : 0 < a ^ 2 := by positivity
      linarith
    · rw [← h] at hpos ⊢
      have := ih hl (by linarith)
      simp only [ne_eq, OfNat.ofNat_ne_zero, not_false_eq_true, zero_pow, zero_add]
      exact this

theorem normalised_nonneg (W : ℚ) (hW : 0 < W) (s : State) : ∀ x ∈ normalised W s, 0 ≤ x := by
  intro x hx
  simp only [normalised, List.mem_append, List.mem_map] at hx
  rcases hx with (⟨b, _, rfl⟩ | ⟨b, _, rfl⟩) | ⟨b, _, rfl⟩ <;> positivity

theorem normalised_sum (W : ℚ) (s : State) :
    (normalised W s).sum
      = 0 + (s.txS1R1Bytes.map (fun (b : Nat) => (b : ℚ) / (50 * W * 10 ^ 6 / 8))).sum
        + (s.txS2R2Bytes.map (fun (b : Nat) => (b : ℚ) / (475 * W * 10 ^ 6 / 8))).sum
        + (s.txS3R1Bytes.map (fun (b : Nat) => (b : ℚ) / (50 * W * 10 ^ 6 / 8))).sum := by
  simp only [normalised, List.sum_append, zero_add]

theorem normalised_sum_sq (W : ℚ) (s : State) :
    ((normalised W s).map (fun y => y ^ 2)).sum
      = 0 + (s.txS1R1Bytes.map (fun (b : Nat) =>
            ((b : ℚ) / (50 * W * 10 ^ 6 / 8)) * ((b : ℚ) / (50 * W * 10 ^ 6 / 8)))).sum
        + (s.txS2R2Bytes.map (fun (b : Nat) =>
            ((b : ℚ) / (475 * W * 10 ^ 6 / 8)) * ((b : ℚ) / (475 * W * 10 ^ 6 / 8)))).sum
        + (s.txS3R1Bytes.map (fun (b : Nat) =>
            ((b : ℚ) / (50 * W * 10 ^ 6 / 8)) * ((b : ℚ) / (50 * W * 10 ^ 6 / 8)))).sum := by
  simp only [normalised, List.map_append, List.sum_append, List.map_map, zero_add,
    Function.comp_def, pow_two]

theorem normalised_length (W : ℚ) (s : State) (h1 : s.txS1R1Bytes.length = 10)
    (h2 : s.txS2R2Bytes.length = 20) (h3 : s.txS3R1Bytes.length = 10) :
    (normalised W s).length = 40 := by
  simp [normalised, h1, h2, h3]

/-- The sums of the normalised values and of their squares, as computed, against
the exact sums. -/
theorem normSums_approx (w : F64) (hw : w.IsNormal) (s : State)
    (h1 : s.txS1R1Bytes.length = 10) (h2 : s.txS2R2Bytes.length = 20)
    (h3 : s.txS3R1Bytes.length = 10)
    (b1 : ∀ b ∈ s.txS1R1Bytes, b < 2 ^ 64) (b2 : ∀ b ∈ s.txS2R2Bytes, b < 2 ^ 64)
    (b3 : ∀ b ∈ s.txS3R1Bytes, b < 2 ^ 64) :
    (normSums w s).1.IsZeroOrNormal ∧
      Approx 45 (normSums w s).1.val (normalised w.val s).sum ∧
      (normSums w s).2.IsZeroOrNormal ∧
      Approx 51 (normSums w s).2.val ((normalised w.val s).map (fun y => y ^ 2)).sum := by
  obtain ⟨n50, i50⟩ := idealBytes_near 50 w (by norm_num) (by norm_num) hw
  obtain ⟨n475, i475⟩ := idealBytes_near 475 w (by norm_num) (by norm_num) hw
  have c50 : ((50 : Nat) : ℚ) = 50 := by norm_num
  have c475 : ((475 : Nat) : ℚ) = 475 := by norm_num
  rw [c50] at i50
  rw [c475] at i475
  unfold normSums
  rw [normLoop_eq_fold 10 _ h1, normLoop_eq_fold 20 _ h2, normLoop_eq_fold 10 _ h3,
    normalised_sum, normalised_sum_sq]
  have z0 : (F64.zero, F64.zero).1.IsZeroOrNormal := Or.inl rfl
  have a0 : Approx (5 + 0) (F64.zero, F64.zero).1.val 0 := by
    show Approx (5 + 0) F64.zero.val 0
    rw [F64.zero_val]; exact approx_zero _
  have a0' : Approx (11 + 0) (F64.zero, F64.zero).2.val 0 := by
    show Approx (11 + 0) F64.zero.val 0
    rw [F64.zero_val]; exact approx_zero _
  obtain ⟨p1, p2, p3, p4⟩ := normFold_approx _ _ n50 i50 s.txS1R1Bytes (F64.zero, F64.zero) 0
    0 0 b1 z0 a0 z0 a0'
  rw [h1] at p2 p4
  obtain ⟨q1, q2, q3, q4⟩ := normFold_approx _ _ n475 i475 s.txS2R2Bytes _ 10 _ _ b2 p1
    (approx_mono p2 (by norm_num)) p3 (approx_mono p4 (by norm_num))
  rw [h2] at q2 q4
  obtain ⟨r1, r2, r3, r4⟩ := normFold_approx _ _ n50 i50 s.txS3R1Bytes _ 30 _ _ b3 q1
    (approx_mono q2 (by norm_num)) q3 (approx_mono q4 (by norm_num))
  rw [h3] at r2 r4
  exact ⟨r1, approx_mono r2 (by norm_num), r3, approx_mono r4 (by norm_num)⟩

/-- The global index is finite and within a relative error of `2 ^ -44` of Jain's
formula on the normalised values, if some flow has transmitted. -/
theorem globalFairness_near (w : F64) (hw : w.IsNormal) (s : State)
    (h1 : s.txS1R1Bytes.length = 10) (h2 : s.txS2R2Bytes.length = 20)
    (h3 : s.txS3R1Bytes.length = 10)
    (b1 : ∀ b ∈ s.txS1R1Bytes, b < 2 ^ 64) (b2 : ∀ b ∈ s.txS2R2Bytes, b < 2 ^ 64)
    (b3 : ∀ b ∈ s.txS3R1Bytes, b < 2 ^ 64) (hpos : 0 < (normalised w.val s).sum) :
    ∃ q : ℚ, (globalFairness w s).toRat = some q ∧
      |q - jainQ (normalised w.val s)| ≤ jainQ (normalised w.val s) / 2 ^ 44 := by
  obtain ⟨z1, a1, z2, a2⟩ := normSums_approx w hw s h1 h2 h3 b1 b2 b3
  have hsq := sum_sq_pos_of_sum_pos _ (normalised_nonneg w.val (F64.val_pos w hw) s) hpos
  have nS := near_of_approx a1 hpos
  have nQ := near_of_approx a2 hsq
  have hSn : (normSums w s).1.IsNormal := by
    rcases z1 with h | h
    · have := nS.1
      rw [h, F64.zero_val] at this
      exact absurd this (lt_irrefl _)
    · exact h
  have hQn : (normSums w s).2.IsNormal := by
    rcases z2 with h | h
    · have := nQ.1
      rw [h, F64.zero_val] at this
      exact absurd this (lt_irrefl _)
    · exact h
  have n40 := (ofU64_spec 40 (by norm_num) (by norm_num)).1
  have v40 : (F64.ofU64 40).val = 40 := by
    exact_mod_cast val_ofU64_exact 40 (by norm_num) (by norm_num)
  have nm := F64.mul_isNormal _ _ hSn hSn
  have nd := F64.div_isNormal _ _ nm n40
  have nf : (globalFairness w s).IsNormal := F64.div_isNormal _ _ nd hQn
  have r1 : Near 1 (F64.mul (normSums w s).1 (normSums w s).1).val
      ((normSums w s).1.val * (normSums w s).1.val) := F64.near_mul _ _ hSn hSn
  have r2 := Near.mul nS nS
  have r3 := Near.trans r1 r2
  have r4 : Near 1 (F64.div (F64.mul (normSums w s).1 (normSums w s).1) (F64.ofU64 40)).val
      ((F64.mul (normSums w s).1 (normSums w s).1).val / (F64.ofU64 40).val) :=
    F64.near_div _ _ nm n40
  rw [v40] at r4
  have r5 := Near.div r3 (Near.refl (40 : ℚ) (by norm_num))
  have r6 := Near.trans r4 r5
  have r7 : Near 1 (globalFairness w s).val
      ((F64.div (F64.mul (normSums w s).1 (normSums w s).1) (F64.ofU64 40)).val
        / (normSums w s).2.val) := F64.near_div _ _ nd hQn
  have r8 := Near.div r6 nQ
  have r9 := Near.trans r7 r8
  have r10 := Near.mono r9 (by norm_num : 1 + (1 + (1 + (45 + 45) + 0) + 51) ≤ 144)
  have hb := Near.bound_of r10 (by norm_num : (0 : ℚ) ≤ 1 / 2 ^ 44) (by norm_num) pow_144_le
  refine ⟨_, F64.toRat_of_isNormal _ nf, ?_⟩
  have hj : jainQ (normalised w.val s)
      = (normalised w.val s).sum * (normalised w.val s).sum / 40
          / ((normalised w.val s).map (fun y => y ^ 2)).sum := by
    unfold jainQ
    rw [normalised_length w.val s h1 h2 h3]
    have : (((40 : Nat) : ℚ)) = 40 := by norm_num
    rw [this, pow_two, div_div]
  rw [hj]
  have e : (normalised w.val s).sum * (normalised w.val s).sum / 40
        / ((normalised w.val s).map (fun y => y ^ 2)).sum / 2 ^ 44
      = (normalised w.val s).sum * (normalised w.val s).sum / 40
        / ((normalised w.val s).map (fun y => y ^ 2)).sum * (1 / 2 ^ 44) := by ring
  rw [e]
  exact hb

theorem normLoop_ones (n : Nat) (v : List Nat) (ideal : F64) (p : F64 × F64)
    (h : ∀ i, i < n → F64.div (F64.ofU64 (v.getD i 0)) ideal = F64.one) :
    normLoop n v ideal p
      = (List.range n).foldl
          (fun q _ => (F64.add q.1 F64.one, F64.add q.2 (F64.mul F64.one F64.one))) p := by
  unfold normLoop
  have key : ∀ (l : List Nat) (q : F64 × F64), (∀ i ∈ l, i < n) →
      l.foldl (normStep v ideal) q
        = l.foldl (fun q _ => (F64.add q.1 F64.one, F64.add q.2 (F64.mul F64.one F64.one))) q := by
    intro l
    induction l with
    | nil => intro q _; rfl
    | cons i l ih =>
      intro q hl
      rw [List.foldl_cons, List.foldl_cons]
      have hi := h i (hl i (List.mem_cons_self _ _))
      have hs : normStep v ideal q i
          = (F64.add q.1 F64.one, F64.add q.2 (F64.mul F64.one F64.one)) := by
        unfold normStep
        rw [hi]
      rw [hs]
      exact ih _ (fun j hj => hl j (List.mem_cons_of_mem _ hj))
  exact key (List.range n) p (fun i hi => List.mem_range.1 hi)

/-- When the byte count of every flow, as a double, is the `idealBytes` of its
group, the global index is exactly `1.0`. -/
theorem globalFairness_ideal (w : F64) (hw : w.IsNormal) (s : State)
    (e1 : ∀ i, i < 10 → F64.ofU64 (s.txS1R1Bytes.getD i 0) = idealBytes 50 w)
    (e2 : ∀ i, i < 20 → F64.ofU64 (s.txS2R2Bytes.getD i 0) = idealBytes 475 w)
    (e3 : ∀ i, i < 10 → F64.ofU64 (s.txS3R1Bytes.getD i 0) = idealBytes 50 w) :
    globalFairness w s = F64.one := by
  obtain ⟨n50, _⟩ := idealBytes_near 50 w (by norm_num) (by norm_num) hw
  obtain ⟨n475, _⟩ := idealBytes_near 475 w (by norm_num) (by norm_num) hw
  have self : ∀ a : F64, a.IsNormal → F64.div a a = F64.one := by
    intro a ha
    cases a with
    | inf => exact ha.elim
    | nan => exact ha.elim
    | fin m e => exact F64.div_self m e ha
  have l1 := normLoop_ones 10 s.txS1R1Bytes (idealBytes 50 w) (F64.zero, F64.zero)
    (fun i hi => by rw [e1 i hi]; exact self _ n50)
  have hs : normSums w s
      = (List.range 10).foldl
          (fun q _ => (F64.add q.1 F64.one, F64.add q.2 (F64.mul F64.one F64.one)))
          ((List.range 20).foldl
            (fun q _ => (F64.add q.1 F64.one, F64.add q.2 (F64.mul F64.one F64.one)))
            ((List.range 10).foldl
              (fun q _ => (F64.add q.1 F64.one, F64.add q.2 (F64.mul F64.one F64.one)))
              (F64.zero, F64.zero))) := by
    unfold normSums
    rw [l1, normLoop_ones 20 s.txS2R2Bytes (idealBytes 475 w) _
        (fun i hi => by rw [e2 i hi]; exact self _ n475),
      normLoop_ones 10 s.txS3R1Bytes (idealBytes 50 w) _
        (fun i hi => by rw [e3 i hi]; exact self _ n50)]
  have hv : (List.range 10).foldl
      (fun (q : F64 × F64) (_ : Nat) =>
        (F64.add q.1 F64.one, F64.add q.2 (F64.mul F64.one F64.one)))
      ((List.range 20).foldl
        (fun q _ => (F64.add q.1 F64.one, F64.add q.2 (F64.mul F64.one F64.one)))
        ((List.range 10).foldl
          (fun q _ => (F64.add q.1 F64.one, F64.add q.2 (F64.mul F64.one F64.one)))
          (F64.zero, F64.zero))) = (F64.ofU64 40, F64.ofU64 40) := by
    decide
  unfold globalFairness
  rw [hs, hv]
  decide

end MultiHop

theorem sum_map_div_const (I : ℚ) : ∀ (l : List Nat),
    (l.map (fun (b : Nat) => (b : ℚ) / I)).sum = ((l.sum : Nat) : ℚ) / I := by
  intro l
  induction l with
  | nil => simp
  | cons a l ih =>
    rw [List.map_cons, List.sum_cons, List.sum_cons, ih]
    push_cast
    ring

theorem normalised_sum_pos (W : ℚ) (hW : 0 < W) (s : MultiHop.State)
    (hpos : 0 < s.txS1R1Bytes.sum + s.txS2R2Bytes.sum + s.txS3R1Bytes.sum) :
    0 < (normalised W s).sum := by
  simp only [normalised, List.sum_append, sum_map_div_const]
  generalize s.txS1R1Bytes.sum = a at hpos ⊢
  generalize s.txS2R2Bytes.sum = b at hpos ⊢
  generalize s.txS3R1Bytes.sum = c at hpos ⊢
  have ha : (0 : ℚ) ≤ (a : ℚ) := Nat.cast_nonneg a
  have hb : (0 : ℚ) ≤ (b : ℚ) := Nat.cast_nonneg b
  have hc : (0 : ℚ) ≤ (c : ℚ) := Nat.cast_nonneg c
  have h50 : (0 : ℚ) < 50 * W * 10 ^ 6 / 8 := by positivity
  have h475 : (0 : ℚ) < 475 * W * 10 ^ 6 / 8 := by positivity
  have t1 : 0 ≤ (a : ℚ) / (50 * W * 10 ^ 6 / 8) := div_nonneg ha h50.le
  have t2 : 0 ≤ (b : ℚ) / (475 * W * 10 ^ 6 / 8) := div_nonneg hb h475.le
  have t3 : 0 ≤ (c : ℚ) / (50 * W * 10 ^ 6 / 8) := div_nonneg hc h50.le
  rcases Nat.eq_zero_or_pos a with h | h
  · rcases Nat.eq_zero_or_pos b with h' | h'
    · have hc' : 0 < c := by omega
      have : (0 : ℚ) < (c : ℚ) := by exact_mod_cast hc'
      have := div_pos this h50
      linarith
    · have : (0 : ℚ) < (b : ℚ) := by exact_mod_cast h'
      have := div_pos this h475
      linarith
  · have : (0 : ℚ) < (a : ℚ) := by exact_mod_cast h
    have := div_pos this h50
    linarith

/-- Jain's formula is the number one on equal positive values. -/
theorem jainQ_replicate (n : Nat) (c : ℚ) (hn : 0 < n) (hc : 0 < c) :
    jainQ (List.replicate n c) = 1 := by
  unfold jainQ
  rw [List.map_replicate, List.sum_replicate, List.sum_replicate, List.length_replicate]
  simp only [nsmul_eq_mul]
  have hn' : (0 : ℚ) < (n : ℚ) := by exact_mod_cast hn
  field_simp
  ring

/-- C24 (amended): the value of the line "Global Fairness Index" that multi-hop
`PrintThroughput` writes for a window of `w` seconds (`w` the double
`measurementWindow.GetSeconds ()`, finite and positive) and counters below
`2 ^ 64`.  If some flow has transmitted, the value is a finite double within a
relative error of `2 ^ -44` of Jain's formula `(Σ x_j)² / (40 · Σ x_j²)` on the
normalised values `x_j = tx_j / idealBytes` of the forty flows, `idealBytes`
being the bytes of 50 Mbit/s (S1-R1, S3-R1) resp. 475 Mbit/s (S2-R2) over the
window.  If the byte count of every flow, converted to double, is the double
`idealBytes` of its group, the value is exactly `1.0`. -/
theorem global_index_near_jain (w : F64) (hw : w.IsNormal) (s : MultiHop.State)
    (h1 : s.txS1R1Bytes.length = 10) (h2 : s.txS2R2Bytes.length = 20)
    (h3 : s.txS3R1Bytes.length = 10)
    (b1 : ∀ b ∈ s.txS1R1Bytes, b < 2 ^ 64) (b2 : ∀ b ∈ s.txS2R2Bytes, b < 2 ^ 64)
    (b3 : ∀ b ∈ s.txS3R1Bytes, b < 2 ^ 64) :
    (0 < s.txS1R1Bytes.sum + s.txS2R2Bytes.sum + s.txS3R1Bytes.sum →
      ∃ q : ℚ, (MultiHop.globalFairness w s).toRat = some q ∧
        |q - jainQ (normalised w.val s)| ≤ jainQ (normalised w.val s) / 2 ^ 44) ∧
    ((∀ i, i < 10 → F64.ofU64 (s.txS1R1Bytes.getD i 0) = MultiHop.idealBytes 50 w) →
      (∀ i, i < 20 → F64.ofU64 (s.txS2R2Bytes.getD i 0) = MultiHop.idealBytes 475 w) →
      (∀ i, i < 10 → F64.ofU64 (s.txS3R1Bytes.getD i 0) = MultiHop.idealBytes 50 w) →
      MultiHop.globalFairness w s = F64.one) :=
  ⟨fun hpos => MultiHop.globalFairness_near w hw s h1 h2 h3 b1 b2 b3
      (normalised_sum_pos w.val (F64.val_pos w hw) s hpos),
    fun e1 e2 e3 => MultiHop.globalFairness_ideal w hw s e1 e2 e3⟩

set_option maxRecDepth 100000 in

/-- Witness of C24: a window of 10 ms (`0.01` as a double) in which every S1-R1
and S3-R1 flow has sent 62500 bytes and every S2-R2 flow 593750 bytes, the
bytes of 50 resp. 475 Mbit/s in 10 ms.  The global index is exactly `1.0`, and
within `2 ^ -44` of Jain's formula. -/
theorem global_index_near_jain_witness :
    MultiHop.globalFairness (F64.div (F64.ofU64 1) (F64.ofU64 100))
        ⟨List.replicate 10 0, List.replicate 20 0, List.replicate 10 0,
          List.replicate 10 62500, List.replicate 20 593750, List.replicate 10 62500⟩
      = F64.one ∧
    ∃ q : ℚ, (MultiHop.globalFairness (F64.div (F64.ofU64 1) (F64.ofU64 100))
        ⟨List.replicate 10 0, List.replicate 20 0, List.replicate 10 0,
          List.replicate 10 62500, List.replicate 20 593750, List.replicate 10 62500⟩).toRat
        = some q ∧
      |q - jainQ (normalised (F64.div (F64.ofU64 1) (F64.ofU64 100)).val
          ⟨List.replicate 10 0, List.replicate 20 0, List.replicate 10 0,
            List.replicate 10 62500, List.replicate 20 593750, List.replicate 10 62500⟩)|
        ≤ jainQ (normalised (F64.div (F64.ofU64 1) (F64.ofU64 100)).val
          ⟨List.replicate 10 0, List.replicate 20 0, List.replicate 10 0,
            List.replicate 10 62500, List.replicate 20 593750, List.replicate 10 62500⟩)
          / 2 ^ 44 :=
  have h := global_index_near_jain (F64.div (F64.ofU64 1) (F64.ofU64 100))
    (F64.div_isNormal _ _ (ofU64_spec 1 (by decide) (by decide)).1
      (ofU64_spec 100 (by decide) (by decide)).1)
    ⟨List.replicate 10 0, List.replicate 20 0, List.replicate 10 0,
      List.replicate 10 62500, List.replicate 20 593750, List.replicate 10 62500⟩
    (by decide) (by decide) (by decide) (by decide) (by decide) (by decide)
  ⟨h.2 (by decide) (by decide) (by decide), h.1 (by decide)⟩

set_option maxRecDepth 100000 in

/-- Counterexample to C24 as stated: in a window of 10 ms every S1-R1 and S3-R1
flow sends 50000 bytes and every S2-R2 flow 475000 bytes, 80 % of its share.
All normalised values are equal, so Jain's formula is exactly 1, but the value
written is `0x1.0000000000001p+0`, the double above `1.0`.  In a window without
traffic the value written is not a number. -/
theorem global_index_counterexample :
    MultiHop.globalFairness (F64.div (F64.ofU64 1) (F64.ofU64 100))
        ⟨List.replicate 10 0, List.replicate 20 0, List.replicate 10 0,
          List.replicate 10 50000, List.replicate 20 475000, List.replicate 10 50000⟩
      = F64.fin 0x10000000000001 (-52) ∧
    F64.fin 0x10000000000001 (-52) ≠ F64.one ∧
    jainQ (normalised (F64.div (F64.ofU64 1) (F64.ofU64 100)).val
        ⟨List.replicate 10 0, List.replicate 20 0, List.replicate 10 0,
          List.replicate 10 50000, List.replicate 20 475000, List.replicate 10 50000⟩) = 1 ∧
    MultiHop.globalFairness (F64.div (F64.ofU64 1) (F64.ofU64 100))
        ⟨List.replicate 10 0, List.replicate 20 0, List.replicate 10 0,
          List.replicate 10 0, List.replicate 20 0, List.replicate 10 0⟩ = F64.nan := by
  refine ⟨by decide, by decide, ?_, by decide⟩
  have hW : 0 < (F64.div (F64.ofU64 1) (F64.ofU64 100)).val :=
    F64.val_pos _ (F64.div_isNormal _ _ (ofU64_spec 1 (by decide) (by decide)).1
      (ofU64_spec 100 (by decide) (by decide)).1)
  generalize (F64.div (F64.ofU64 1) (F64.ofU64 100)).val = W at hW
  have e : ((475000 : Nat) : ℚ) / (475 * W * 10 ^ 6 / 8)
      = ((50000 : Nat) : ℚ) / (50 * W * 10 ^ 6 / 8) := by
    push_cast
    field_simp
    ring
  have hn : normalised W
      ⟨List.replicate 10 0, List.replicate 20 0, List.replicate 10 0,
        List.replicate 10 50000, List.replicate 20 475000, List.replicate 10 50000⟩
      = List.replicate 40 (((50000 : Nat) : ℚ) / (50 * W * 10 ^ 6 / 8)) := by
    simp only [normalised, List.map_replicate, e, List.append_replicate_replicate]
  rw [hn]
  exact jainQ_replicate 40 _ (by norm_num) (by positivity)

end Cebinae
